import Mathlib

/-!
Verification of the MaMONAta MT-ROBDD engine (`src/include/mtrobdd.hh`,
`src/src/mtrobdd.cc`).

The C++ engine manipulates heap-allocated nodes through `std::shared_ptr`;
pointer identity is the notion of physical identity used by the hash-cons
store.  We embed this shallowly: a diagram carries an arena `heap : List
MtBddNode` and a node pointer is an arena index (`Nat`).  The hash-cons set
`nodes` becomes a list of indices `store`, and `root_nodes_map` becomes an
association list from root names to indices.  Mutation of a node in place
(as `make_complete` does) becomes `List.set` on the arena, which — exactly
like the C++ — is observed by every other node holding that pointer.
-/

namespace Mamonata

/-- `TERMINAL_INDEX` from `mtrobdd.hh`: the variable index marking terminal
nodes. -/
def TERMINAL_INDEX : Int := -1

/-- `MAX_NODE_VALUE` from `mtrobdd.hh`: `std::numeric_limits<size_t>::max()`,
the "unset" value carried by inner nodes. -/
def MAX_NODE_VALUE : Nat := 2 ^ 64 - 1

/-- `SINK_VALUE` from `mtrobdd.hh`: `MAX_NODE_VALUE - 1`, the reserved sink
terminal value. -/
def SINK_VALUE : Nat := MAX_NODE_VALUE - 1

/-- `MtBddNode` from `mtrobdd.hh`: variable index (`TERMINAL_INDEX` for
terminals), optional LOW/HIGH child pointers (arena indices; `none` is the
C++ `nullptr`), and a value (`MAX_NODE_VALUE` for inner nodes). -/
structure MtBddNode where
  var_index : Int := TERMINAL_INDEX
  low : Option Nat := none
  high : Option Nat := none
  value : Nat := MAX_NODE_VALUE
deriving DecidableEq, Repr

instance : Inhabited MtBddNode := ⟨{}⟩

/-- `MtBddNode::is_terminal`. -/
def MtBddNode.is_terminal (n : MtBddNode) : Bool :=
  n.var_index = TERMINAL_INDEX

/-- The `MtRobdd` manager: variable count, node arena, the hash-cons store
(`nodes`, as the list of arena indices it contains) and the root index
(`root_nodes_map`, as an association list name ↦ arena index). -/
structure MtRobdd where
  num_of_vars : Nat
  heap : List MtBddNode
  store : List Nat
  roots : List (Nat × Nat)
deriving Repr

/-- Dereference a node pointer: read the arena cell. -/
def getNode (d : MtRobdd) (i : Nat) : MtBddNode :=
  d.heap.getD i default

/-- A fresh manager with `num_of_vars` variables (`MtRobdd(size_t)`). -/
def MtRobdd.mk0 (v : Nat) : MtRobdd :=
  ⟨v, [], [], []⟩

/-- Lookup in an association list used as a map (first binding wins, like
the single binding kept by `std::unordered_map`). -/
def mapLookup : List (Nat × Nat) → Nat → Option Nat
  | [], _ => none
  | (k', v') :: rest, k => if k' = k then some v' else mapLookup rest k

/-- `map[k] = v` on an association list: replace the existing binding for
`k` in place, or append a new one. -/
def mapInsert (k v : Nat) : List (Nat × Nat) → List (Nat × Nat)
  | [] => [(k, v)]
  | (k', v') :: rest =>
      if k' = k then (k, v) :: rest else (k', v') :: mapInsert k v rest

/-- `unordered_set::find` on the store with `NodePtrEqual`: the first stored
index whose node record equals `r` (same variant, variable index,
pointer-identical children, value). -/
def findEquiv (d : MtRobdd) (r : MtBddNode) : Option Nat :=
  d.store.find? (fun i => getNode d i = r)

/-- `MtRobdd::create_node`: hash-consing constructor.  If an equivalent node
is already in the store return it; otherwise allocate a fresh node, insert
it into the store, and return it. -/
def create_node (d : MtRobdd) (var_index : Int) (low high : Option Nat)
    (value : Nat) : Nat × MtRobdd :=
  let r : MtBddNode := ⟨var_index, low, high, value⟩
  match findEquiv d r with
  | some i => (i, d)
  | none =>
      let i := d.heap.length
      (i, { d with heap := d.heap ++ [r], store := d.store ++ [i] })

/-- `MtRobdd::create_terminal_node`. -/
def create_terminal_node (d : MtRobdd) (value : Nat) : Nat × MtRobdd :=
  create_node d TERMINAL_INDEX none none value

/-- `MtRobdd::create_root_node` (release semantics: the duplicate-name
`assert` is compiled out): create the canonical `(0, null, null)` inner node
and bind `name` to it, replacing any existing binding. -/
def create_root_node (d : MtRobdd) (name : Nat) : Nat × MtRobdd :=
  let p := create_node d 0 none none MAX_NODE_VALUE
  (p.1, { p.2 with roots := mapInsert name p.1 p.2.roots })

/-- `MtRobdd::insert_node`: insert a preconstructed node into the store
unless an equivalent one is present; returns whether it was inserted. -/
def insert_node (d : MtRobdd) (i : Nat) : Bool × MtRobdd :=
  if (findEquiv d (getNode d i)).isSome then
    (false, d)
  else
    (true, { d with store := d.store ++ [i] })

/-- `MtRobdd::promote_to_root`: bind `name` to `node`, returning whether a
binding for `name` already existed. -/
def promote_to_root (d : MtRobdd) (i : Nat) (name : Nat) : Bool × MtRobdd :=
  ((mapLookup d.roots name).isSome, { d with roots := mapInsert name i d.roots })

/-- `MtRobdd::get_root_node`: `nullptr` (`none`) when absent. -/
def get_root_node (d : MtRobdd) (name : Nat) : Option Nat :=
  mapLookup d.roots name

/-- Recursive core of `MtRobdd::insert_bit_string`.  The C++ recursion stops
when `var_index == num_of_vars`; we run it on the fuel
`num_of_vars - var_index`, which reaches `0` exactly at that point. -/
def insertAux (d : MtRobdd) : Nat → Nat → Option Nat → List Bool → Nat →
    Nat × MtRobdd
  | 0, _, _, _, v => create_terminal_node d v
  | fuel + 1, var_index, src, bits, v =>
    let b := bits.getD var_index false
    match src with
    | none =>
        if b then
          let p := insertAux d fuel (var_index + 1) none bits v
          create_node p.2 (var_index : Int) none (some p.1) MAX_NODE_VALUE
        else
          let p := insertAux d fuel (var_index + 1) none bits v
          create_node p.2 (var_index : Int) (some p.1) none MAX_NODE_VALUE
    | some s =>
        let n := getNode d s
        if b then
          let p := insertAux d fuel (var_index + 1) n.high bits v
          if some p.1 = n.high then (s, p.2)
          else create_node p.2 (var_index : Int) n.low (some p.1) MAX_NODE_VALUE
        else
          let p := insertAux d fuel (var_index + 1) n.low bits v
          if some p.1 = n.low then (s, p.2)
          else create_node p.2 (var_index : Int) (some p.1) n.high MAX_NODE_VALUE

/-- `MtRobdd::insert_bit_string` started at variable `var_index`. -/
def insert_bit_string (d : MtRobdd) (src : Option Nat) (var_index : Nat)
    (bits : List Bool) (v : Nat) : Nat × MtRobdd :=
  insertAux d (d.num_of_vars - var_index) var_index src bits v

/-- `MtRobdd::insert_bit_string_from_root`: thread the insertion through the
(possibly absent) root node and rebind the root name to the result. -/
def insert_bit_string_from_root (d : MtRobdd) (root_name : Nat)
    (bits : List Bool) (v : Nat) : Nat × MtRobdd :=
  let root := get_root_node d root_name
  let p := insert_bit_string d root 0 bits v
  (p.1, { p.2 with roots := mapInsert root_name p.1 p.2.roots })

/-- One pointer-chasing step of the child relation: `j` is the non-null LOW
or HIGH child of `i`. -/
def childStep (d : MtRobdd) (i j : Nat) : Prop :=
  (getNode d i).low = some j ∨ (getNode d i).high = some j

/-- Declarative reachability along non-null children. -/
def Reaches (d : MtRobdd) : Nat → Nat → Prop :=
  Relation.ReflTransGen (childStep d)

/-- A node is reachable from some binding of the root index. -/
def ReachableFromRoots (d : MtRobdd) (j : Nat) : Prop :=
  ∃ p ∈ d.roots, Reaches d p.2 j

/-- Membership in a `NodeSet` (`unordered_set` with `NodePtrEqual`): the
set holds a node structurally equal to `l` — pointer equality is subsumed
by record equality. -/
def memEquiv (heap : List MtBddNode) (acc : List Nat) (l : Nat) : Bool :=
  acc.any (fun x => heap.getD x default = heap.getD l default)

/-- The child-visiting step of `MtRobdd::trim`: if the child exists and the
marked `NodeSet` holds no equivalent node, mark it (`.1`) and push it on
the worklist (`.2`). -/
def pushChild (heap : List MtBddNode) (st : List Nat × List Nat)
    (c : Option Nat) : List Nat × List Nat :=
  match c with
  | none => st
  | some l => if memEquiv heap st.1 l then st else (st.1 ++ [l], l :: st.2)

/-- The worklist loop of `MtRobdd::trim`: pop a node, visit its LOW then its
HIGH child.  A fuel argument makes the loop total; `trim` passes enough
fuel for the loop to drain the worklist (see `trimFuel`). -/
def trimLoop (d : MtRobdd) : Nat → List Nat → List Nat → List Nat
  | 0, _, acc => acc
  | _ + 1, [], acc => acc
  | fuel + 1, i :: rest, acc =>
    let st := pushChild d.heap (pushChild d.heap (acc, rest) (getNode d i).low)
      (getNode d i).high
    trimLoop d fuel st.2 st.1

/-- Fuel bound for `trimLoop`: every marked node beyond the initial roots is
a child occurring in some arena record, so the loop performs at most
`|worklist₀| + 2·(candidates)` iterations. -/
def trimFuel (d : MtRobdd) : Nat :=
  d.roots.length + 2 * (d.roots.length + 2 * d.heap.length) + 1

/-- `MtRobdd::trim`: replace the store with the set of nodes reachable from
the root bindings; the root index is untouched. -/
def trim (d : MtRobdd) : MtRobdd :=
  let worklist := d.roots.map (·.2)
  let acc0 := worklist.foldl
    (fun a i => if memEquiv d.heap a i then a else a ++ [i]) []
  { d with store := trimLoop d (trimFuel d) worklist acc0 }

/-- Recursive core of `MtRobdd::remove_redundant_tests`: rewrite children
first; collapse an inner node whose rewritten children are pointer-identical
(and non-null); otherwise re-canonicalize through `create_node` (which
consults and grows the old store) and record the result in the fresh set
`nn`.  Recursion depth is bounded by `num_of_vars + 1` on ordered diagrams,
which is the fuel `remove_redundant_tests` supplies. -/
def rrtRec (fuel : Nat) (node : Option Nat) (d : MtRobdd) (nn : List Nat) :
    Option Nat × MtRobdd × List Nat :=
  match fuel, node with
  | _, none => (none, d, nn)
  | 0, some i => (some i, d, nn)
  | fuel + 1, some i =>
    let n := getNode d i
    if n.is_terminal then
      (some i, d, if memEquiv d.heap nn i then nn else nn ++ [i])
    else
      let pl := rrtRec fuel n.low d nn
      let ph := rrtRec fuel n.high pl.2.1 pl.2.2
      if pl.1 ≠ none ∧ pl.1 = ph.1 then (pl.1, ph.2.1, ph.2.2)
      else
        let pc := create_node ph.2.1 n.var_index pl.1 ph.1 n.value
        let nn3 := if memEquiv pc.2.heap ph.2.2 pc.1 then ph.2.2
                   else ph.2.2 ++ [pc.1]
        let r := (nn3.find? (fun x =>
          pc.2.heap.getD x default = pc.2.heap.getD pc.1 default)).getD pc.1
        (some r, pc.2, nn3)

/-- One root rewrite of `remove_redundant_tests`: run the recursive rewrite
from the root's node, threading the manager and the fresh node set, and
record the rewritten binding. -/
def rrtStep (fuel : Nat) (acc : MtRobdd × List Nat × List (Nat × Nat))
    (p : Nat × Nat) : MtRobdd × List Nat × List (Nat × Nat) :=
  let q := rrtRec fuel (some p.2) acc.1 acc.2.1
  (q.2.1, q.2.2, acc.2.2 ++ [(p.1, q.1.getD p.2)])

/-- `MtRobdd::remove_redundant_tests`: rewrite every root, then replace the
store with the freshly collected node set and the root index with the
rewritten bindings. -/
def remove_redundant_tests (d : MtRobdd) : MtRobdd :=
  let fuel := d.num_of_vars + 1
  let out := d.roots.foldl (rrtStep fuel) (d, [], [])
  { out.1 with store := out.2.1, roots := out.2.2 }

/-- Fill the null children of a record with the sink pointer, as the fill
loop of `make_complete` does. -/
def fFill (sinkId : Nat) (n : MtBddNode) : MtBddNode :=
  { n with low := if n.low = none then some sinkId else n.low,
           high := if n.high = none then some sinkId else n.high }

/-- Loop body of `MtRobdd::make_complete` over one store member `i`,
threading the working heap, root index and `sink_usage_flag`. -/
def mcStep (sinkId : Nat) (complete_terminal_nodes : Bool)
    (st : List MtBddNode × List (Nat × Nat) × Bool) (i : Nat) :
    List MtBddNode × List (Nat × Nat) × Bool :=
  let n := st.1.getD i default
  if complete_terminal_nodes ∧ n.is_terminal then
    if (mapLookup st.2.1 n.value).isSome then st
    else (st.1, mapInsert n.value sinkId st.2.1, true)
  else
    if n.low = none ∨ n.high = none then
      (st.1.set i (fFill sinkId n), st.2.1, true)
    else st

/-- `MtRobdd::make_complete`: allocate a fresh sink terminal, fill every
null child of a loop-processed store node with it, add a root
`value ↦ sink` for every terminal value that is not a root name (when
`complete_terminal_nodes`), and materialize the sink in the store (a set
insert, deduplicating structurally) and the root index only if it was
used. -/
def make_complete (d : MtRobdd) (sink_value : Nat := SINK_VALUE)
    (complete_terminal_nodes : Bool := true) : MtRobdd :=
  let sinkId := d.heap.length
  let sinkRec : MtBddNode := ⟨TERMINAL_INDEX, none, none, sink_value⟩
  let out := d.store.foldl (mcStep sinkId complete_terminal_nodes)
    (d.heap ++ [sinkRec], d.roots, false)
  if out.2.2 then
    let d1 : MtRobdd := { d with heap := out.1, roots := out.2.1 }
    let store' := if (findEquiv d1 sinkRec).isSome then d1.store
                  else d1.store ++ [sinkId]
    { d1 with store := store', roots := mapInsert sink_value sinkId d1.roots }
  else
    { d with heap := out.1, roots := out.2.1 }

/-- The `get_transition_length` helper of
`MtRobdd::get_all_bit_strings_from_root_node`. -/
def get_transition_length (V : Nat) (src tgt : Int) : Nat :=
  if tgt = TERMINAL_INDEX then ((V : Int) - src).toNat else (tgt - src).toNat

/-- The `expand_with_dont_cares` helper: append every combination of
`count` bits to the prefix, LOW side first. -/
def expandDontCares (pre : List Bool) : Nat → List (List Bool)
  | 0 => [pre]
  | k + 1 => expandDontCares (pre ++ [false]) k ++ expandDontCares (pre ++ [true]) k

/-- Depth recursion of `MtRobdd::get_all_bit_strings_from_root_node`.  The
source drains an explicit DFS stack; we model the same traversal by
structural recursion on the descent depth (the emitted collection is the
same up to order, which the source leaves unspecified).  On ordered
diagrams the depth is at most `num_of_vars + 1`, the fuel supplied by the
wrapper. -/
def enumAux (d : MtRobdd) : Nat → Nat → List Bool → List (List Bool × Nat)
  | 0, _, _ => []
  | fuel + 1, i, pre =>
    let n := getNode d i
    if n.is_terminal then [(pre, n.value)]
    else
      let lowPart :=
        match n.low with
        | none => []
        | some l =>
            let tl := get_transition_length d.num_of_vars n.var_index
              (getNode d l).var_index
            (expandDontCares (pre ++ [false]) (tl - 1)).flatMap
              (fun p => enumAux d fuel l p)
      let highPart :=
        match n.high with
        | none => []
        | some h =>
            let th := get_transition_length d.num_of_vars n.var_index
              (getNode d h).var_index
            (expandDontCares (pre ++ [true]) (th - 1)).flatMap
              (fun p => enumAux d fuel h p)
      lowPart ++ highPart

/-- `MtRobdd::get_all_bit_strings_from_root_node`: expand the leading
don't-cares before the root, then walk the diagram emitting one pair per
completed bit string. -/
def get_all_bit_strings_from_root_node (d : MtRobdd) (root : Nat) :
    List (List Bool × Nat) :=
  let ftl := get_transition_length d.num_of_vars 0 (getNode d root).var_index
  (expandDontCares [] ftl).flatMap (fun p => enumAux d (d.num_of_vars + 1) root p)

/-- Modelled from the spec: the direct evaluator used by the round-trip
laws — descend from a node using `bits`, reading the bit at each inner
node's variable index, returning the terminal value reached, and `none` on
a null child. -/
def evalAux (d : MtRobdd) (bits : List Bool) : Nat → Option Nat → Option Nat
  | 0, _ => none
  | _ + 1, none => none
  | fuel + 1, some i =>
    let n := getNode d i
    if n.is_terminal then some n.value
    else evalAux d bits fuel (if bits.getD n.var_index.toNat false then n.high else n.low)

/-- Modelled from the spec: evaluate the diagram at `bits` from node `i`. -/
def evalFrom (d : MtRobdd) (i : Nat) (bits : List Bool) : Option Nat :=
  evalAux d bits (d.num_of_vars + 1) (some i)

/-! ### Basic lemmas about the root index and the store -/

theorem mapLookup_mapInsert_self (m : List (Nat × Nat)) (k v : Nat) :
    mapLookup (mapInsert k v m) k = some v := by
  induction m with
  | nil => simp [mapInsert, mapLookup]
  | cons p rest ih =>
      obtain ⟨k1, v1⟩ := p
      by_cases h : k1 = k
      · simp [mapInsert, h, mapLookup]
      · simpa [mapInsert, h, mapLookup] using ih

theorem mapLookup_mapInsert_ne (m : List (Nat × Nat)) (k v k' : Nat)
    (h : k' ≠ k) : mapLookup (mapInsert k v m) k' = mapLookup m k' := by
  induction m with
  | nil => simp [mapInsert, mapLookup, Ne.symm h]
  | cons p rest ih =>
      obtain ⟨k1, v1⟩ := p
      by_cases hp : k1 = k
      · subst hp
        simp [mapInsert, mapLookup, Ne.symm h]
      · by_cases hp' : k1 = k'
        · subst hp'
          simp [mapInsert, hp, mapLookup]
        · simpa [mapInsert, hp, mapLookup, hp'] using ih

theorem mapInsert_lookup_eq (m : List (Nat × Nat)) (k v : Nat)
    (h : mapLookup m k = some v) : mapInsert k v m = m := by
  induction m with
  | nil => simp [mapLookup] at h
  | cons p rest ih =>
      obtain ⟨k1, v1⟩ := p
      by_cases hp : k1 = k
      · subst hp
        simp only [mapLookup, if_pos rfl, Option.some.injEq] at h
        simp at h
        simp [mapInsert, h]
      · simp only [mapLookup, if_neg hp] at h
        simp [mapInsert, hp, ih h]

theorem getNode_heap_append (d : MtRobdd) (t : List MtBddNode) (i : Nat)
    (h : i < d.heap.length) :
    (d.heap ++ t).getD i default = getNode d i := by
  simp [getNode, List.getD, List.getElem?_append, h]

theorem getNode_heap_append_last (l : List MtBddNode) (r : MtBddNode) :
    (l ++ [r]).getD l.length default = r := by
  simp [List.getD]

theorem findEquiv_some_getNode {d : MtRobdd} {r : MtBddNode} {i : Nat}
    (h : findEquiv d r = some i) : getNode d i = r ∧ i ∈ d.store := by
  refine ⟨?_, List.mem_of_find?_eq_some h⟩
  have := List.find?_some h
  simpa using this

/-- `create_node` returns a pointer whose record is exactly the requested
one, extends the heap and the store by (at most) one element, and leaves
`num_of_vars` and the root index untouched. -/
theorem create_node_spec (d : MtRobdd) (var : Int) (low high : Option Nat)
    (value : Nat) :
    getNode (create_node d var low high value).2
        (create_node d var low high value).1 = ⟨var, low, high, value⟩ ∧
    (create_node d var low high value).2.num_of_vars = d.num_of_vars ∧
    (∃ t, (create_node d var low high value).2.heap = d.heap ++ t) ∧
    (∃ t, (create_node d var low high value).2.store = d.store ++ t) ∧
    (create_node d var low high value).2.roots = d.roots := by
  cases hf : findEquiv d ⟨var, low, high, value⟩ with
  | some i =>
      have h2 : create_node d var low high value = (i, d) := by
        simp [create_node, hf]
      rw [h2]
      exact ⟨(findEquiv_some_getNode hf).1, rfl, ⟨[], by simp⟩, ⟨[], by simp⟩, rfl⟩
  | none =>
      have h2 : create_node d var low high value =
          (d.heap.length,
            { d with heap := d.heap ++ [⟨var, low, high, value⟩],
                     store := d.store ++ [d.heap.length] }) := by
        simp [create_node, hf]
      rw [h2]
      exact ⟨getNode_heap_append_last d.heap _, rfl, ⟨_, rfl⟩, ⟨_, rfl⟩, rfl⟩

/-! ### C7: `create_root` on a duplicate name -/

/-- A diagram whose root index already binds name `0` (to a terminal node
with value `5`, installed through the public API). -/
def dupRootDiagram : MtRobdd :=
  let d0 := MtRobdd.mk0 1
  let p := create_terminal_node d0 5
  (promote_to_root p.2 p.1 0).2

/-- C7 counterexample: with name `0` already bound, `create_root_node 0`
neither fails nor leaves the diagram unchanged — it overwrites the binding
for `0` and grows the store (the duplicate-name check in the source is only
a debug `assert`, and the function has no error channel). -/
theorem create_root_duplicate_not_unchanged :
    mapLookup dupRootDiagram.roots 0 = some 0 ∧
    (create_root_node dupRootDiagram 0).2.roots ≠ dupRootDiagram.roots ∧
    (create_root_node dupRootDiagram 0).2.store ≠ dupRootDiagram.store := by
  decide

/-- C7 amended: calling `create_root_node` with a name that is already
present does not fail and does not preserve the diagram; it returns the
canonical `(0, null, null)` inner node, rebinds the name to it (losing the
previous binding), leaves every other binding unchanged, and only ever
grows the store. -/
theorem create_root_duplicate_overwrites (d : MtRobdd) (name r : Nat)
    (h : mapLookup d.roots name = some r) :
    getNode (create_root_node d name).2 (create_root_node d name).1 =
      ⟨0, none, none, MAX_NODE_VALUE⟩ ∧
    mapLookup (create_root_node d name).2.roots name =
      some (create_root_node d name).1 ∧
    (∀ k, k ≠ name →
      mapLookup (create_root_node d name).2.roots k = mapLookup d.roots k) ∧
    (∃ t, (create_root_node d name).2.store = d.store ++ t) := by
  obtain ⟨h1, _, _, h4, h5⟩ := create_node_spec d 0 none none MAX_NODE_VALUE
  have hcr1 : (create_root_node d name).1 =
      (create_node d 0 none none MAX_NODE_VALUE).1 := rfl
  have hcr2 : (create_root_node d name).2.roots =
      mapInsert name (create_node d 0 none none MAX_NODE_VALUE).1
        (create_node d 0 none none MAX_NODE_VALUE).2.roots := rfl
  refine ⟨h1, ?_, ?_, ?_⟩
  · rw [hcr2, hcr1]
    exact mapLookup_mapInsert_self _ _ _
  · intro k hk
    rw [hcr2, mapLookup_mapInsert_ne _ _ _ _ hk, h5]
  · exact h4

/-- Witness for `create_root_duplicate_overwrites` at the concrete
diagram `dupRootDiagram`. -/
theorem create_root_duplicate_overwrites_witness :
    getNode (create_root_node dupRootDiagram 0).2
        (create_root_node dupRootDiagram 0).1 =
      ⟨0, none, none, MAX_NODE_VALUE⟩ ∧
    mapLookup (create_root_node dupRootDiagram 0).2.roots 0 =
      some (create_root_node dupRootDiagram 0).1 ∧
    (∀ k, k ≠ 0 →
      mapLookup (create_root_node dupRootDiagram 0).2.roots k =
        mapLookup dupRootDiagram.roots k) ∧
    (∃ t, (create_root_node dupRootDiagram 0).2.store =
      dupRootDiagram.store ++ t) :=
  create_root_duplicate_overwrites dupRootDiagram 0 0 (by decide)

/-! ### Store validity and frame lemmas for insertion -/

/-- Every store member is a live arena index.  The engine maintains this:
nodes enter the store only at their allocation site. -/
def storeValid (d : MtRobdd) : Prop := ∀ i ∈ d.store, i < d.heap.length

theorem create_node_storeValid (d : MtRobdd) (var : Int) (low high : Option Nat)
    (value : Nat) (h : storeValid d) :
    storeValid (create_node d var low high value).2 ∧
    (create_node d var low high value).1 <
      (create_node d var low high value).2.heap.length := by
  cases hf : findEquiv d ⟨var, low, high, value⟩ with
  | some i =>
      have h2 : create_node d var low high value = (i, d) := by
        simp [create_node, hf]
      rw [h2]
      exact ⟨h, h _ (findEquiv_some_getNode hf).2⟩
  | none =>
      have h2 : create_node d var low high value =
          (d.heap.length,
            { d with heap := d.heap ++ [⟨var, low, high, value⟩],
                     store := d.store ++ [d.heap.length] }) := by
        simp [create_node, hf]
      rw [h2]
      constructor
      · intro i hi
        simp only [List.mem_append, List.mem_singleton] at hi
        rcases hi with hi | hi
        · have := h i hi
          simp only [List.length_append, List.length_singleton]
          omega
        · subst hi
          simp
      · simp

/-- Frame conditions of `insertAux`: the heap and the store only grow, and
the variable count and the root index are untouched. -/
theorem insertAux_frame (d : MtRobdd) (fuel var : Nat) (src : Option Nat)
    (bits : List Bool) (v : Nat) :
    (∃ t, (insertAux d fuel var src bits v).2.heap = d.heap ++ t) ∧
    (∃ t, (insertAux d fuel var src bits v).2.store = d.store ++ t) ∧
    (insertAux d fuel var src bits v).2.roots = d.roots ∧
    (insertAux d fuel var src bits v).2.num_of_vars = d.num_of_vars := by
  induction fuel generalizing d var src with
  | zero =>
      obtain ⟨_, h2, h3, h4, h5⟩ := create_node_spec d TERMINAL_INDEX none none v
      exact ⟨h3, h4, h5, h2⟩
  | succ fuel ih =>
      cases src with
      | none =>
          by_cases hb : bits.getD var false
          · obtain ⟨⟨t1, ih1⟩, ⟨t2, ih2⟩, ih3, ih4⟩ := ih d (var + 1) none
            obtain ⟨_, h2, ⟨t3, h3⟩, ⟨t4, h4⟩, h5⟩ :=
              create_node_spec (insertAux d fuel (var + 1) none bits v).2
                (var : Int) none (some (insertAux d fuel (var + 1) none bits v).1)
                MAX_NODE_VALUE
            simp only [insertAux, hb, if_true]
            refine ⟨⟨t1 ++ t3, ?_⟩, ⟨t2 ++ t4, ?_⟩, ?_, ?_⟩
            · rw [h3, ih1, List.append_assoc]
            · rw [h4, ih2, List.append_assoc]
            · rw [h5, ih3]
            · rw [h2, ih4]
          · obtain ⟨⟨t1, ih1⟩, ⟨t2, ih2⟩, ih3, ih4⟩ := ih d (var + 1) none
            obtain ⟨_, h2, ⟨t3, h3⟩, ⟨t4, h4⟩, h5⟩ :=
              create_node_spec (insertAux d fuel (var + 1) none bits v).2
                (var : Int) (some (insertAux d fuel (var + 1) none bits v).1) none
                MAX_NODE_VALUE
            simp only [insertAux, hb, if_false, Bool.false_eq_true]
            refine ⟨⟨t1 ++ t3, ?_⟩, ⟨t2 ++ t4, ?_⟩, ?_, ?_⟩
            · rw [h3, ih1, List.append_assoc]
            · rw [h4, ih2, List.append_assoc]
            · rw [h5, ih3]
            · rw [h2, ih4]
      | some s =>
          by_cases hb : bits.getD var false
          · obtain ⟨⟨t1, ih1⟩, ⟨t2, ih2⟩, ih3, ih4⟩ :=
              ih d (var + 1) (getNode d s).high
            by_cases hc : some (insertAux d fuel (var + 1) (getNode d s).high bits v).1
                = (getNode d s).high
            · simp only [insertAux, hb, if_true, hc, if_pos]
              exact ⟨⟨t1, ih1⟩, ⟨t2, ih2⟩, ih3, ih4⟩
            · obtain ⟨_, h2, ⟨t3, h3⟩, ⟨t4, h4⟩, h5⟩ :=
                create_node_spec
                  (insertAux d fuel (var + 1) (getNode d s).high bits v).2
                  (var : Int) (getNode d s).low
                  (some (insertAux d fuel (var + 1) (getNode d s).high bits v).1)
                  MAX_NODE_VALUE
              simp only [insertAux, hb, if_true, hc, if_neg, if_false]
              refine ⟨⟨t1 ++ t3, ?_⟩, ⟨t2 ++ t4, ?_⟩, ?_, ?_⟩
              · rw [h3, ih1, List.append_assoc]
              · rw [h4, ih2, List.append_assoc]
              · rw [h5, ih3]
              · rw [h2, ih4]
          · obtain ⟨⟨t1, ih1⟩, ⟨t2, ih2⟩, ih3, ih4⟩ :=
              ih d (var + 1) (getNode d s).low
            by_cases hc : some (insertAux d fuel (var + 1) (getNode d s).low bits v).1
                = (getNode d s).low
            · simp only [insertAux, hb, if_false, Bool.false_eq_true, hc, if_pos]
              exact ⟨⟨t1, ih1⟩, ⟨t2, ih2⟩, ih3, ih4⟩
            · obtain ⟨_, h2, ⟨t3, h3⟩, ⟨t4, h4⟩, h5⟩ :=
                create_node_spec
                  (insertAux d fuel (var + 1) (getNode d s).low bits v).2
                  (var : Int)
                  (some (insertAux d fuel (var + 1) (getNode d s).low bits v).1)
                  (getNode d s).high MAX_NODE_VALUE
              simp only [insertAux, hb, if_false, Bool.false_eq_true, hc, if_neg]
              refine ⟨⟨t1 ++ t3, ?_⟩, ⟨t2 ++ t4, ?_⟩, ?_, ?_⟩
              · rw [h3, ih1, List.append_assoc]
              · rw [h4, ih2, List.append_assoc]
              · rw [h5, ih3]
              · rw [h2, ih4]

theorem insertAux_storeValid (d : MtRobdd) (fuel var : Nat) (src : Option Nat)
    (bits : List Bool) (v : Nat) (h : storeValid d) :
    storeValid (insertAux d fuel var src bits v).2 := by
  induction fuel generalizing d var src with
  | zero => exact (create_node_storeValid d TERMINAL_INDEX none none v h).1
  | succ fuel ih =>
      cases src with
      | none =>
          by_cases hb : bits.getD var false
          · simp only [insertAux, hb, if_true]
            exact (create_node_storeValid _ _ _ _ _ (ih d (var + 1) none h)).1
          · simp only [insertAux, hb, if_false, Bool.false_eq_true]
            exact (create_node_storeValid _ _ _ _ _ (ih d (var + 1) none h)).1
      | some s =>
          by_cases hb : bits.getD var false
          · by_cases hc : some (insertAux d fuel (var + 1) (getNode d s).high bits v).1
                = (getNode d s).high
            · simp only [insertAux, hb, if_true, hc, if_pos]
              exact ih d (var + 1) (getNode d s).high h
            · simp only [insertAux, hb, if_true, hc, if_neg]
              exact (create_node_storeValid _ _ _ _ _
                (ih d (var + 1) (getNode d s).high h)).1
          · by_cases hc : some (insertAux d fuel (var + 1) (getNode d s).low bits v).1
                = (getNode d s).low
            · simp only [insertAux, hb, if_false, Bool.false_eq_true, hc, if_pos]
              exact ih d (var + 1) (getNode d s).low h
            · simp only [insertAux, hb, if_false, Bool.false_eq_true, hc, if_neg]
              exact (create_node_storeValid _ _ _ _ _
                (ih d (var + 1) (getNode d s).low h)).1

/-! ### C10: insertion under an absent root name -/

/-- The chain shape the none-source branch of `insert_bit_string` builds:
starting at variable `var`, each level tests its own variable, continues
into the child selected by `bits`, keeps the other child null, and ends in
a terminal carrying `v` after `fuel` levels.  Each node is a live arena
index. -/
def chainAux (heap : List MtBddNode) (bits : List Bool) (v : Nat) :
    Nat → Nat → Nat → Prop
  | 0, _, i => i < heap.length ∧ heap.getD i default = ⟨TERMINAL_INDEX, none, none, v⟩
  | fuel + 1, var, i =>
      i < heap.length ∧
      (if bits.getD var false then
        ∃ c, heap.getD i default = ⟨(var : Int), none, some c, MAX_NODE_VALUE⟩ ∧
          chainAux heap bits v fuel (var + 1) c
      else
        ∃ c, heap.getD i default = ⟨(var : Int), some c, none, MAX_NODE_VALUE⟩ ∧
          chainAux heap bits v fuel (var + 1) c)

theorem getD_append_of_lt (l t : List MtBddNode) (i : Nat) (h : i < l.length) :
    (l ++ t).getD i default = l.getD i default := by
  simp [List.getD, List.getElem?_append, h]

theorem chainAux_mono (heap : List MtBddNode) (t : List MtBddNode)
    (bits : List Bool) (v : Nat) (fuel var i : Nat)
    (h : chainAux heap bits v fuel var i) :
    chainAux (heap ++ t) bits v fuel var i := by
  induction fuel generalizing var i with
  | zero =>
      obtain ⟨h1, h2⟩ := h
      refine ⟨by simp; omega, ?_⟩
      rw [getD_append_of_lt _ _ _ h1, h2]
  | succ fuel ih =>
      obtain ⟨h1, h2⟩ := h
      refine ⟨by simp; omega, ?_⟩
      have hget : (heap ++ t).getD i default = heap.getD i default :=
        getD_append_of_lt _ _ _ h1
      by_cases hb : bits.getD var false
      · rw [if_pos hb] at h2 ⊢
        obtain ⟨c, hc1, hc2⟩ := h2
        exact ⟨c, by rw [hget, hc1], ih (var + 1) c hc2⟩
      · rw [if_neg hb] at h2 ⊢
        obtain ⟨c, hc1, hc2⟩ := h2
        exact ⟨c, by rw [hget, hc1], ih (var + 1) c hc2⟩

/-- The none-source branch of `insert_bit_string` produces exactly the
chain shape. -/
theorem insertAux_none_chain (d : MtRobdd) (fuel var : Nat)
    (bits : List Bool) (v : Nat) (h : storeValid d) :
    chainAux (insertAux d fuel var none bits v).2.heap bits v fuel var
      (insertAux d fuel var none bits v).1 := by
  induction fuel generalizing d var with
  | zero =>
      obtain ⟨h1, _, _, _, _⟩ := create_node_spec d TERMINAL_INDEX none none v
      exact ⟨(create_node_storeValid d TERMINAL_INDEX none none v h).2, h1⟩
  | succ fuel ih =>
      by_cases hb : bits.getD var false
      · have hrec := ih d (var + 1) h
        have hsv := insertAux_storeValid d fuel (var + 1) none bits v h
        obtain ⟨h1, _, ⟨t3, h3⟩, _, _⟩ :=
          create_node_spec (insertAux d fuel (var + 1) none bits v).2
            (var : Int) none (some (insertAux d fuel (var + 1) none bits v).1)
            MAX_NODE_VALUE
        have hval := (create_node_storeValid
          (insertAux d fuel (var + 1) none bits v).2 (var : Int) none
          (some (insertAux d fuel (var + 1) none bits v).1) MAX_NODE_VALUE hsv).2
        simp only [insertAux, hb, if_true]
        refine ⟨hval, ?_⟩
        rw [if_pos hb]
        exact ⟨(insertAux d fuel (var + 1) none bits v).1, h1,
          by rw [h3]; exact chainAux_mono _ _ _ _ _ _ _ hrec⟩
      · have hrec := ih d (var + 1) h
        have hsv := insertAux_storeValid d fuel (var + 1) none bits v h
        obtain ⟨h1, _, ⟨t3, h3⟩, _, _⟩ :=
          create_node_spec (insertAux d fuel (var + 1) none bits v).2
            (var : Int) (some (insertAux d fuel (var + 1) none bits v).1) none
            MAX_NODE_VALUE
        have hval := (create_node_storeValid
          (insertAux d fuel (var + 1) none bits v).2 (var : Int)
          (some (insertAux d fuel (var + 1) none bits v).1) none MAX_NODE_VALUE hsv).2
        simp only [insertAux, hb, if_false, Bool.false_eq_true]
        refine ⟨hval, ?_⟩
        rw [if_neg hb]
        exact ⟨(insertAux d fuel (var + 1) none bits v).1, h1,
          by rw [h3]; exact chainAux_mono _ _ _ _ _ _ _ hrec⟩

/-- C10: inserting a bit string of length `V` under a root name that is not
yet bound succeeds and builds a chain that tests variable `k` at level `k`,
follows `bits` down to a terminal valued `v` with the off-path child null
at every level, binds the root name to the chain's top node, and leaves
every other root binding unchanged. -/
theorem insert_absent_root_builds_chain (d : MtRobdd) (name : Nat)
    (bits : List Bool) (v : Nat) (hroot : mapLookup d.roots name = none)
    (hV : 0 < d.num_of_vars) (hlen : bits.length = d.num_of_vars)
    (hsv : storeValid d) :
    chainAux (insert_bit_string_from_root d name bits v).2.heap bits v
      d.num_of_vars 0 (insert_bit_string_from_root d name bits v).1 ∧
    mapLookup (insert_bit_string_from_root d name bits v).2.roots name =
      some (insert_bit_string_from_root d name bits v).1 ∧
    (∀ k, k ≠ name →
      mapLookup (insert_bit_string_from_root d name bits v).2.roots k =
        mapLookup d.roots k) := by
  have hq : insert_bit_string_from_root d name bits v =
      ((insertAux d d.num_of_vars 0 none bits v).1,
        { (insertAux d d.num_of_vars 0 none bits v).2 with
            roots := mapInsert name (insertAux d d.num_of_vars 0 none bits v).1
              (insertAux d d.num_of_vars 0 none bits v).2.roots }) := by
    simp [insert_bit_string_from_root, insert_bit_string, get_root_node, hroot]
  rw [hq]
  obtain ⟨hh, hs, hr, hn⟩ := insertAux_frame d d.num_of_vars 0 none bits v
  refine ⟨?_, ?_, ?_⟩
  · exact insertAux_none_chain d d.num_of_vars 0 bits v hsv
  · exact mapLookup_mapInsert_self _ _ _
  · intro k hk
    show mapLookup (mapInsert name _ _) k = _
    rw [mapLookup_mapInsert_ne _ _ _ _ hk, hr]

/-- Witness for `insert_absent_root_builds_chain`: the empty two-variable
diagram, root name `0`, bit string `[H, L]`, value `5`. -/
theorem insert_absent_root_builds_chain_witness :
    chainAux (insert_bit_string_from_root (MtRobdd.mk0 2) 0 [true, false] 5).2.heap
      [true, false] 5 (MtRobdd.mk0 2).num_of_vars 0
      (insert_bit_string_from_root (MtRobdd.mk0 2) 0 [true, false] 5).1 ∧
    mapLookup (insert_bit_string_from_root (MtRobdd.mk0 2) 0 [true, false] 5).2.roots 0 =
      some (insert_bit_string_from_root (MtRobdd.mk0 2) 0 [true, false] 5).1 ∧
    (∀ k, k ≠ 0 →
      mapLookup
        (insert_bit_string_from_root (MtRobdd.mk0 2) 0 [true, false] 5).2.roots k =
        mapLookup (MtRobdd.mk0 2).roots k) :=
  insert_absent_root_builds_chain (MtRobdd.mk0 2) 0 [true, false] 5 (by decide)
    (by decide) (by decide)
    (by intro i hi; simp [MtRobdd.mk0] at hi)

/-! ### C5: sink materialization in `make_complete` -/

/-- Whether processing store member `i` uses the sink, read off the
pre-state: a terminal with an unbound value (when terminals are completed),
or a null child on a node the fill loop touches (an inner node when
`complete_terminal_nodes` is set, any node otherwise). -/
def mcTrigger (d : MtRobdd) (complete_terminal_nodes : Bool) (i : Nat) : Prop :=
  if complete_terminal_nodes ∧ (getNode d i).is_terminal then
    mapLookup d.roots (getNode d i).value = none
  else
    (getNode d i).low = none ∨ (getNode d i).high = none

instance (d : MtRobdd) (ct : Bool) (i : Nat) : Decidable (mcTrigger d ct i) := by
  unfold mcTrigger
  infer_instance

theorem mcStep_flag_true (sinkId : Nat) (ct : Bool)
    (st : List MtBddNode × List (Nat × Nat) × Bool) (i : Nat)
    (h : st.2.2 = true) : (mcStep sinkId ct st i).2.2 = true := by
  simp only [mcStep]
  by_cases h1 : ct = true ∧ (st.1.getD i default).is_terminal = true
  · rw [if_pos h1]
    by_cases h2 : (mapLookup st.2.1 (st.1.getD i default).value).isSome = true
    · rw [if_pos h2]
      exact h
    · rw [if_neg h2]
  · rw [if_neg h1]
    by_cases h3 : (st.1.getD i default).low = none ∨ (st.1.getD i default).high = none
    · rw [if_pos h3]
    · rw [if_neg h3]
      exact h

theorem mc_foldl_flag_mono (sinkId : Nat) (ct : Bool) (l : List Nat)
    (st : List MtBddNode × List (Nat × Nat) × Bool) (h : st.2.2 = true) :
    (l.foldl (mcStep sinkId ct) st).2.2 = true := by
  induction l generalizing st with
  | nil => exact h
  | cons hd tl ih => exact ih _ (mcStep_flag_true sinkId ct st hd h)

theorem mcStep_init_no_trigger (d : MtRobdd) (sv sinkId : Nat) (ct : Bool)
    (i : Nat) (hi : i < d.heap.length) (hnt : ¬ mcTrigger d ct i) :
    mcStep sinkId ct (d.heap ++ [⟨TERMINAL_INDEX, none, none, sv⟩], d.roots, false) i =
      (d.heap ++ [⟨TERMINAL_INDEX, none, none, sv⟩], d.roots, false) := by
  have hget : (d.heap ++ [(⟨TERMINAL_INDEX, none, none, sv⟩ : MtBddNode)]).getD i default =
      getNode d i := getD_append_of_lt _ _ _ hi
  unfold mcStep mcTrigger at *
  simp only [hget] at *
  by_cases hT : ct ∧ (getNode d i).is_terminal = true
  · rw [if_pos hT] at hnt ⊢
    cases hlk : mapLookup d.roots (getNode d i).value with
    | none => exact absurd hlk hnt
    | some w => simp [hlk]
  · rw [if_neg hT] at hnt ⊢
    rw [if_neg hnt]

theorem mcStep_init_trigger_flag (d : MtRobdd) (sv sinkId : Nat) (ct : Bool)
    (i : Nat) (hi : i < d.heap.length) (ht : mcTrigger d ct i) :
    (mcStep sinkId ct
      (d.heap ++ [⟨TERMINAL_INDEX, none, none, sv⟩], d.roots, false) i).2.2 = true := by
  have hget : (d.heap ++ [(⟨TERMINAL_INDEX, none, none, sv⟩ : MtBddNode)]).getD i default =
      getNode d i := getD_append_of_lt _ _ _ hi
  unfold mcStep mcTrigger at *
  simp only [hget] at *
  by_cases hT : ct ∧ (getNode d i).is_terminal = true
  · rw [if_pos hT] at ht ⊢
    simp [ht]
  · rw [if_neg hT] at ht ⊢
    rw [if_pos ht]

theorem mc_loop_init (d : MtRobdd) (sv sinkId : Nat) (ct : Bool) (l : List Nat)
    (hval : ∀ i ∈ l, i < d.heap.length) (hnt : ∀ i ∈ l, ¬ mcTrigger d ct i) :
    l.foldl (mcStep sinkId ct)
      (d.heap ++ [⟨TERMINAL_INDEX, none, none, sv⟩], d.roots, false) =
    (d.heap ++ [⟨TERMINAL_INDEX, none, none, sv⟩], d.roots, false) := by
  induction l with
  | nil => rfl
  | cons hd tl ih =>
      rw [List.foldl_cons,
        mcStep_init_no_trigger d sv sinkId ct hd (hval hd (by simp)) (hnt hd (by simp))]
      exact ih (fun i hi => hval i (by simp [hi])) (fun i hi => hnt i (by simp [hi]))

theorem mc_loop_flag_iff (d : MtRobdd) (sv sinkId : Nat) (ct : Bool)
    (l : List Nat) (hval : ∀ i ∈ l, i < d.heap.length) :
    ((l.foldl (mcStep sinkId ct)
      (d.heap ++ [⟨TERMINAL_INDEX, none, none, sv⟩], d.roots, false)).2.2 = true) ↔
    (∃ i ∈ l, mcTrigger d ct i) := by
  induction l with
  | nil => simp
  | cons hd tl ih =>
      have hvtl : ∀ i ∈ tl, i < d.heap.length := fun i hi => hval i (by simp [hi])
      by_cases ht : mcTrigger d ct hd
      · constructor
        · intro _
          exact ⟨hd, by simp, ht⟩
        · intro _
          rw [List.foldl_cons]
          exact mc_foldl_flag_mono sinkId ct tl _
            (mcStep_init_trigger_flag d sv sinkId ct hd (hval hd (by simp)) ht)
      · rw [List.foldl_cons,
          mcStep_init_no_trigger d sv sinkId ct hd (hval hd (by simp)) ht, ih hvtl]
        constructor
        · intro ⟨i, hi, hti⟩
          exact ⟨i, by simp [hi], hti⟩
        · intro ⟨i, hi, hti⟩
          rcases List.mem_cons.mp hi with rfl | hi'
          · exact absurd hti ht
          · exact ⟨i, hi', hti⟩

theorem mcStep_heap_getD_ne (sinkId : Nat) (ct : Bool)
    (st : List MtBddNode × List (Nat × Nat) × Bool) (i j : Nat) (hij : i ≠ j) :
    (mcStep sinkId ct st i).1.getD j default = st.1.getD j default := by
  simp only [mcStep]
  by_cases h1 : ct = true ∧ (st.1.getD i default).is_terminal = true
  · rw [if_pos h1]
    by_cases h2 : (mapLookup st.2.1 (st.1.getD i default).value).isSome = true
    · rw [if_pos h2]
    · rw [if_neg h2]
  · rw [if_neg h1]
    by_cases h3 : (st.1.getD i default).low = none ∨ (st.1.getD i default).high = none
    · rw [if_pos h3]
      simp [List.getD, List.getElem?_set_ne hij]
    · rw [if_neg h3]

theorem mc_loop_heap_getD_ne (sinkId : Nat) (ct : Bool) (l : List Nat)
    (st : List MtBddNode × List (Nat × Nat) × Bool) (j : Nat)
    (hj : ∀ i ∈ l, i ≠ j) :
    ((l.foldl (mcStep sinkId ct) st).1).getD j default = st.1.getD j default := by
  induction l generalizing st with
  | nil => rfl
  | cons hd tl ih =>
      rw [List.foldl_cons, ih _ (fun i hi => hj i (by simp [hi])),
        mcStep_heap_getD_ne sinkId ct st hd j (hj hd (by simp))]

theorem mapLookup_some_mem (m : List (Nat × Nat)) (k v : Nat)
    (h : mapLookup m k = some v) : (k, v) ∈ m := by
  induction m with
  | nil => simp [mapLookup] at h
  | cons p rest ih =>
      obtain ⟨k1, v1⟩ := p
      by_cases hp : k1 = k
      · subst hp
        simp only [mapLookup, if_pos rfl, Option.some.injEq] at h
        simp at h
        simp [h]
      · simp only [mapLookup, if_neg hp] at h
        simp [ih h]

/-- C5 amended: after `make_complete(sv, ct)`, a sink-valued terminal is in
the node store and the root index binds `sv` to the freshly allocated sink
node exactly when some loop-processed node had a null child filled or some
terminal-completion root was added (`mcTrigger`); when no trigger fires the
store and the root index are unchanged.  (As literally stated the claim
restricts the filled nodes to inner nodes; with `ct = false` the loop also
fills terminals, see the counterexample.) -/
theorem make_complete_sink_materialization (d : MtRobdd) (sv : Nat) (ct : Bool)
    (hsv : storeValid d) (hrv : ∀ p ∈ d.roots, p.2 < d.heap.length) :
    (((∃ j ∈ (make_complete d sv ct).store,
        getNode (make_complete d sv ct) j = ⟨TERMINAL_INDEX, none, none, sv⟩) ∧
      mapLookup (make_complete d sv ct).roots sv = some d.heap.length) ↔
      (∃ i ∈ d.store, mcTrigger d ct i)) ∧
    ((¬ ∃ i ∈ d.store, mcTrigger d ct i) →
      (make_complete d sv ct).store = d.store ∧
      (make_complete d sv ct).roots = d.roots) := by
  have hval : ∀ i ∈ d.store, i < d.heap.length := hsv
  have hflag := mc_loop_flag_iff d sv d.heap.length ct d.store hval
  by_cases hf : (d.store.foldl (mcStep d.heap.length ct)
      (d.heap ++ [⟨TERMINAL_INDEX, none, none, sv⟩], d.roots, false)).2.2 = true
  · have hex := hflag.mp hf
    have hmc : make_complete d sv ct =
        (let d1 : MtRobdd := { d with
            heap := (d.store.foldl (mcStep d.heap.length ct)
              (d.heap ++ [⟨TERMINAL_INDEX, none, none, sv⟩], d.roots, false)).1,
            roots := (d.store.foldl (mcStep d.heap.length ct)
              (d.heap ++ [⟨TERMINAL_INDEX, none, none, sv⟩], d.roots, false)).2.1 }
         { d1 with
            store := if (findEquiv d1 ⟨TERMINAL_INDEX, none, none, sv⟩).isSome
              then d1.store else d1.store ++ [d.heap.length],
            roots := mapInsert sv d.heap.length d1.roots }) := by
      simp only [make_complete, hf, if_true]
    constructor
    · constructor
      · intro _
        exact hex
      · intro _
        rw [hmc]
        refine ⟨?_, mapLookup_mapInsert_self _ _ _⟩
        by_cases hfe : (findEquiv
            { d with
              heap := (d.store.foldl (mcStep d.heap.length ct)
                (d.heap ++ [⟨TERMINAL_INDEX, none, none, sv⟩], d.roots, false)).1,
              roots := (d.store.foldl (mcStep d.heap.length ct)
                (d.heap ++ [⟨TERMINAL_INDEX, none, none, sv⟩], d.roots, false)).2.1 }
            ⟨TERMINAL_INDEX, none, none, sv⟩).isSome = true
        · obtain ⟨j, hj⟩ := Option.isSome_iff_exists.mp hfe
          obtain ⟨hjr, hjm⟩ := findEquiv_some_getNode hj
          refine ⟨j, ?_, hjr⟩
          simp only [hfe, if_true]
          exact hjm
        · refine ⟨d.heap.length, ?_, ?_⟩
          · simp only [hfe]
            simp
          · show (d.store.foldl (mcStep d.heap.length ct)
                (d.heap ++ [⟨TERMINAL_INDEX, none, none, sv⟩], d.roots, false)).1.getD
                d.heap.length default = _
            rw [mc_loop_heap_getD_ne d.heap.length ct d.store _ d.heap.length
              (fun i hi => Nat.ne_of_lt (hval i hi))]
            exact getNode_heap_append_last d.heap _
    · intro hne
      exact absurd hex hne
  · have hne : ¬ ∃ i ∈ d.store, mcTrigger d ct i := fun hex => hf (hflag.mpr hex)
    have hnt : ∀ i ∈ d.store, ¬ mcTrigger d ct i := by
      intro i hi hti
      exact hne ⟨i, hi, hti⟩
    have hloop := mc_loop_init d sv d.heap.length ct d.store hval hnt
    have hmc : make_complete d sv ct =
        { d with heap := d.heap ++ [⟨TERMINAL_INDEX, none, none, sv⟩],
                 roots := d.roots } := by
      simp only [make_complete, hloop]
      rfl
    constructor
    · constructor
      · intro ⟨_, hlk⟩
        rw [hmc] at hlk
        have := hrv _ (mapLookup_some_mem _ _ _ hlk)
        simp at this
      · intro hex
        exact absurd hex hne
    · intro _
      rw [hmc]
      exact ⟨rfl, rfl⟩

/-- Witness for `make_complete_sink_materialization`: one unbound terminal
value triggers terminal completion and materializes the sink. -/
theorem make_complete_sink_materialization_witness :
    (((∃ j ∈ (make_complete ⟨1, [⟨TERMINAL_INDEX, none, none, 5⟩], [0], []⟩
          SINK_VALUE true).store,
        getNode (make_complete ⟨1, [⟨TERMINAL_INDEX, none, none, 5⟩], [0], []⟩
          SINK_VALUE true) j = ⟨TERMINAL_INDEX, none, none, SINK_VALUE⟩) ∧
      mapLookup (make_complete ⟨1, [⟨TERMINAL_INDEX, none, none, 5⟩], [0], []⟩
          SINK_VALUE true).roots SINK_VALUE = some 1) ↔
      (∃ i ∈ [0], mcTrigger ⟨1, [⟨TERMINAL_INDEX, none, none, 5⟩], [0], []⟩ true i)) ∧
    ((¬ ∃ i ∈ [0], mcTrigger ⟨1, [⟨TERMINAL_INDEX, none, none, 5⟩], [0], []⟩ true i) →
      (make_complete ⟨1, [⟨TERMINAL_INDEX, none, none, 5⟩], [0], []⟩
        SINK_VALUE true).store = [0] ∧
      (make_complete ⟨1, [⟨TERMINAL_INDEX, none, none, 5⟩], [0], []⟩
        SINK_VALUE true).roots = []) :=
  make_complete_sink_materialization ⟨1, [⟨TERMINAL_INDEX, none, none, 5⟩], [0], []⟩
    SINK_VALUE true (by intro i hi; simp at hi; simp [hi])
    (by intro p hp; simp at hp)

/-- C5 counterexample: with `complete_terminal_nodes = false` and a store
holding a single terminal (no inner node at all, and terminal completion
disabled), the loop still fills the terminal's null children, so the sink
is materialized in the store and bound in the root index although no null
child of an inner node was filled and no terminal-completion root was
added — contradicting the claim's "otherwise neither the node store nor
the root index contains the sink". -/
theorem make_complete_sink_counterexample :
    (∀ j ∈ ([0] : List Nat),
      (getNode ⟨1, [⟨TERMINAL_INDEX, none, none, 5⟩], [0], []⟩ j).var_index =
        TERMINAL_INDEX) ∧
    1 ∈ (make_complete ⟨1, [⟨TERMINAL_INDEX, none, none, 5⟩], [0], []⟩
      SINK_VALUE false).store ∧
    getNode (make_complete ⟨1, [⟨TERMINAL_INDEX, none, none, 5⟩], [0], []⟩
      SINK_VALUE false) 1 = ⟨TERMINAL_INDEX, none, none, SINK_VALUE⟩ ∧
    mapLookup (make_complete ⟨1, [⟨TERMINAL_INDEX, none, none, 5⟩], [0], []⟩
      SINK_VALUE false).roots SINK_VALUE = some 1 := by
  decide

/-! ### C8: inserting the same `(bits, value)` twice is a no-op -/

/-- The walk that a completed insertion leaves behind: from node `i` at
variable `var`, following `bits` through existing child pointers for `fuel`
levels, ending where `create_terminal_node` finds the terminal for `v` (the
first structural match in the store).  Re-running `insert_bit_string` along
such a walk changes nothing. -/
def pathOk (heap : List MtBddNode) (store : List Nat) (bits : List Bool)
    (v : Nat) : Nat → Nat → Nat → Prop
  | 0, _, i =>
      store.find? (fun j => heap.getD j default = ⟨TERMINAL_INDEX, none, none, v⟩)
        = some i
  | fuel + 1, var, i =>
      i < heap.length ∧
      (if bits.getD var false then
        ∃ c, (heap.getD i default).high = some c ∧
          pathOk heap store bits v fuel (var + 1) c
      else
        ∃ c, (heap.getD i default).low = some c ∧
          pathOk heap store bits v fuel (var + 1) c)

theorem findEquiv_as_find? (d : MtRobdd) (r : MtBddNode) :
    findEquiv d r = d.store.find? (fun j => d.heap.getD j default = r) := rfl

theorem find?_congr_mem {α : Type} (l : List α) (p q : α → Bool)
    (h : ∀ a ∈ l, p a = q a) : l.find? p = l.find? q := by
  induction l with
  | nil => rfl
  | cons hd tl ih =>
      have hhd := h hd (by simp)
      by_cases hp : p hd = true
      · rw [List.find?_cons_of_pos _ hp, List.find?_cons_of_pos _ (hhd ▸ hp)]
      · rw [List.find?_cons_of_neg _ hp,
          List.find?_cons_of_neg _ (by rw [← hhd]; exact hp)]
        exact ih (fun a ha => h a (by simp [ha]))

/-- `pathOk` survives extending the heap and the store by fresh material,
as long as the original store was valid. -/
theorem pathOk_mono (heap : List MtBddNode) (store : List Nat)
    (t : List MtBddNode) (u : List Nat) (bits : List Bool) (v : Nat)
    (fuel var i : Nat) (hsv : ∀ j ∈ store, j < heap.length)
    (h : pathOk heap store bits v fuel var i) :
    pathOk (heap ++ t) (store ++ u) bits v fuel var i := by
  induction fuel generalizing var i with
  | zero =>
      show (store ++ u).find? _ = some i
      rw [List.find?_append]
      have hcong : store.find?
          (fun j => (heap ++ t).getD j default = ⟨TERMINAL_INDEX, none, none, v⟩)
          = store.find?
          (fun j => heap.getD j default = ⟨TERMINAL_INDEX, none, none, v⟩) :=
        find?_congr_mem _ _ _
          (fun j hj => by rw [getD_append_of_lt _ _ _ (hsv j hj)])
      rw [hcong, h]
      rfl
  | succ fuel ih =>
      obtain ⟨h1, h2⟩ := h
      refine ⟨by simp; omega, ?_⟩
      have hget : (heap ++ t).getD i default = heap.getD i default :=
        getD_append_of_lt _ _ _ h1
      by_cases hb : bits.getD var false
      · rw [if_pos hb] at h2 ⊢
        obtain ⟨c, hc1, hc2⟩ := h2
        exact ⟨c, by rw [hget]; exact hc1, ih (var + 1) c hc2⟩
      · rw [if_neg hb] at h2 ⊢
        obtain ⟨c, hc1, hc2⟩ := h2
        exact ⟨c, by rw [hget]; exact hc1, ih (var + 1) c hc2⟩

/-- Every call of the insertion recursion leaves a valid walk behind. -/
theorem insertAux_pathOk (d : MtRobdd) (fuel var : Nat) (src : Option Nat)
    (bits : List Bool) (v : Nat) (hsv : storeValid d) :
    pathOk (insertAux d fuel var src bits v).2.heap
      (insertAux d fuel var src bits v).2.store bits v fuel var
      (insertAux d fuel var src bits v).1 := by
  induction fuel generalizing d var src with
  | zero =>
      show findEquiv _ _ = some _
      cases hf : findEquiv d ⟨TERMINAL_INDEX, none, none, v⟩ with
      | some i =>
          have h2 : insertAux d 0 var src bits v = (i, d) := by
            simp [insertAux, create_terminal_node, create_node, hf]
          rw [h2]
          exact hf
      | none =>
          have h2 : insertAux d 0 var src bits v =
              (d.heap.length,
                { d with heap := d.heap ++ [⟨TERMINAL_INDEX, none, none, v⟩],
                         store := d.store ++ [d.heap.length] }) := by
            simp [insertAux, create_terminal_node, create_node, hf]
          rw [h2, findEquiv_as_find?]
          show (d.store ++ [d.heap.length]).find? _ = _
          rw [List.find?_append]
          have hnone : d.store.find?
              (fun j => (d.heap ++ [(⟨TERMINAL_INDEX, none, none, v⟩ : MtBddNode)]).getD
                j default = ⟨TERMINAL_INDEX, none, none, v⟩) = none := by
            rw [find?_congr_mem _ _
              (fun j => decide (d.heap.getD j default = ⟨TERMINAL_INDEX, none, none, v⟩))
              (fun j hj => by rw [getD_append_of_lt _ _ _ (hsv j hj)])]
            exact hf
          rw [hnone]
          simp [getNode_heap_append_last]
  | succ fuel ih =>
      cases src with
      | none =>
          by_cases hb : bits.getD var false
          · have hrec := ih d (var + 1) none hsv
            have hsv' := insertAux_storeValid d fuel (var + 1) none bits v hsv
            obtain ⟨h1, _, ⟨t3, h3⟩, ⟨t4, h4⟩, _⟩ :=
              create_node_spec (insertAux d fuel (var + 1) none bits v).2
                (var : Int) none (some (insertAux d fuel (var + 1) none bits v).1)
                MAX_NODE_VALUE
            have hval := (create_node_storeValid
              (insertAux d fuel (var + 1) none bits v).2 (var : Int) none
              (some (insertAux d fuel (var + 1) none bits v).1) MAX_NODE_VALUE hsv').2
            simp only [insertAux, hb, if_true]
            refine ⟨hval, ?_⟩
            rw [if_pos hb]
            refine ⟨(insertAux d fuel (var + 1) none bits v).1, ?_, ?_⟩
            · rw [show ((create_node (insertAux d fuel (var + 1) none bits v).2
                (var : Int) none (some (insertAux d fuel (var + 1) none bits v).1)
                MAX_NODE_VALUE).2.heap.getD
                  (create_node (insertAux d fuel (var + 1) none bits v).2
                    (var : Int) none
                    (some (insertAux d fuel (var + 1) none bits v).1)
                    MAX_NODE_VALUE).1 default) = _ from h1]
            · rw [h3, h4]
              exact pathOk_mono _ _ _ _ _ _ _ _ _ hsv' hrec
          · have hrec := ih d (var + 1) none hsv
            have hsv' := insertAux_storeValid d fuel (var + 1) none bits v hsv
            obtain ⟨h1, _, ⟨t3, h3⟩, ⟨t4, h4⟩, _⟩ :=
              create_node_spec (insertAux d fuel (var + 1) none bits v).2
                (var : Int) (some (insertAux d fuel (var + 1) none bits v).1) none
                MAX_NODE_VALUE
            have hval := (create_node_storeValid
              (insertAux d fuel (var + 1) none bits v).2 (var : Int)
              (some (insertAux d fuel (var + 1) none bits v).1) none MAX_NODE_VALUE hsv').2
            simp only [insertAux, hb, if_false, Bool.false_eq_true]
            refine ⟨hval, ?_⟩
            rw [if_neg hb]
            refine ⟨(insertAux d fuel (var + 1) none bits v).1, ?_, ?_⟩
            · rw [show ((create_node (insertAux d fuel (var + 1) none bits v).2
                (var : Int) (some (insertAux d fuel (var + 1) none bits v).1) none
                MAX_NODE_VALUE).2.heap.getD
                  (create_node (insertAux d fuel (var + 1) none bits v).2
                    (var : Int)
                    (some (insertAux d fuel (var + 1) none bits v).1) none
                    MAX_NODE_VALUE).1 default) = _ from h1]
            · rw [h3, h4]
              exact pathOk_mono _ _ _ _ _ _ _ _ _ hsv' hrec
      | some s =>
          by_cases hb : bits.getD var false
          · have hrec := ih d (var + 1) (getNode d s).high hsv
            have hsv' := insertAux_storeValid d fuel (var + 1) (getNode d s).high bits v hsv
            by_cases hc : some (insertAux d fuel (var + 1) (getNode d s).high bits v).1
                = (getNode d s).high
            · have hs_lt : s < d.heap.length := by
                by_contra hge
                have : getNode d s = default := by
                  simp [getNode, List.getD, List.getElem?_eq_none (by omega : d.heap.length ≤ s)]
                rw [this] at hc
                exact Option.noConfusion hc
              obtain ⟨⟨t1, h1⟩, ⟨t2, h2⟩, _, _⟩ :=
                insertAux_frame d fuel (var + 1) (getNode d s).high bits v
              simp only [insertAux, hb, if_true, hc, if_pos]
              refine ⟨by rw [h1]; simp; omega, ?_⟩
              rw [if_pos hb]
              refine ⟨(insertAux d fuel (var + 1) (getNode d s).high bits v).1, ?_, hrec⟩
              rw [show (insertAux d fuel (var + 1) (getNode d s).high bits v).2.heap.getD
                  s default = getNode d s by rw [h1]; exact getD_append_of_lt _ _ _ hs_lt]
              exact hc.symm
            · obtain ⟨h1, _, ⟨t3, h3⟩, ⟨t4, h4⟩, _⟩ :=
                create_node_spec (insertAux d fuel (var + 1) (getNode d s).high bits v).2
                  (var : Int) (getNode d s).low
                  (some (insertAux d fuel (var + 1) (getNode d s).high bits v).1)
                  MAX_NODE_VALUE
              have hval := (create_node_storeValid
                (insertAux d fuel (var + 1) (getNode d s).high bits v).2 (var : Int)
                (getNode d s).low
                (some (insertAux d fuel (var + 1) (getNode d s).high bits v).1)
                MAX_NODE_VALUE hsv').2
              simp only [insertAux, hb, if_true]
              rw [if_neg hc]
              refine ⟨hval, ?_⟩
              rw [if_pos hb]
              refine ⟨(insertAux d fuel (var + 1) (getNode d s).high bits v).1, ?_, ?_⟩
              · rw [show ((create_node
                  (insertAux d fuel (var + 1) (getNode d s).high bits v).2
                  (var : Int) (getNode d s).low
                  (some (insertAux d fuel (var + 1) (getNode d s).high bits v).1)
                  MAX_NODE_VALUE).2.heap.getD
                    (create_node
                      (insertAux d fuel (var + 1) (getNode d s).high bits v).2
                      (var : Int) (getNode d s).low
                      (some (insertAux d fuel (var + 1) (getNode d s).high bits v).1)
                      MAX_NODE_VALUE).1 default) = _ from h1]
              · rw [h3, h4]
                exact pathOk_mono _ _ _ _ _ _ _ _ _ hsv' hrec
          · have hrec := ih d (var + 1) (getNode d s).low hsv
            have hsv' := insertAux_storeValid d fuel (var + 1) (getNode d s).low bits v hsv
            by_cases hc : some (insertAux d fuel (var + 1) (getNode d s).low bits v).1
                = (getNode d s).low
            · have hs_lt : s < d.heap.length := by
                by_contra hge
                have : getNode d s = default := by
                  simp [getNode, List.getD, List.getElem?_eq_none (by omega : d.heap.length ≤ s)]
                rw [this] at hc
                exact Option.noConfusion hc
              obtain ⟨⟨t1, h1⟩, ⟨t2, h2⟩, _, _⟩ :=
                insertAux_frame d fuel (var + 1) (getNode d s).low bits v
              simp only [insertAux, hb, if_false, Bool.false_eq_true, hc, if_pos]
              refine ⟨by rw [h1]; simp; omega, ?_⟩
              rw [if_neg hb]
              refine ⟨(insertAux d fuel (var + 1) (getNode d s).low bits v).1, ?_, hrec⟩
              rw [show (insertAux d fuel (var + 1) (getNode d s).low bits v).2.heap.getD
                  s default = getNode d s by rw [h1]; exact getD_append_of_lt _ _ _ hs_lt]
              exact hc.symm
            · obtain ⟨h1, _, ⟨t3, h3⟩, ⟨t4, h4⟩, _⟩ :=
                create_node_spec (insertAux d fuel (var + 1) (getNode d s).low bits v).2
                  (var : Int)
                  (some (insertAux d fuel (var + 1) (getNode d s).low bits v).1)
                  (getNode d s).high MAX_NODE_VALUE
              have hval := (create_node_storeValid
                (insertAux d fuel (var + 1) (getNode d s).low bits v).2 (var : Int)
                (some (insertAux d fuel (var + 1) (getNode d s).low bits v).1)
                (getNode d s).high MAX_NODE_VALUE hsv').2
              simp only [insertAux, hb, if_false, Bool.false_eq_true]
              rw [if_neg hc]
              refine ⟨hval, ?_⟩
              rw [if_neg hb]
              refine ⟨(insertAux d fuel (var + 1) (getNode d s).low bits v).1, ?_, ?_⟩
              · rw [show ((create_node
                  (insertAux d fuel (var + 1) (getNode d s).low bits v).2
                  (var : Int)
                  (some (insertAux d fuel (var + 1) (getNode d s).low bits v).1)
                  (getNode d s).high MAX_NODE_VALUE).2.heap.getD
                    (create_node
                      (insertAux d fuel (var + 1) (getNode d s).low bits v).2
                      (var : Int)
                      (some (insertAux d fuel (var + 1) (getNode d s).low bits v).1)
                      (getNode d s).high MAX_NODE_VALUE).1 default) = _ from h1]
              · rw [h3, h4]
                exact pathOk_mono _ _ _ _ _ _ _ _ _ hsv' hrec

/-- Re-inserting along an established walk is the identity on the state and
returns the walk's origin. -/
theorem insertAux_stable (d : MtRobdd) (fuel var : Nat) (bits : List Bool)
    (v r : Nat) (h : pathOk d.heap d.store bits v fuel var r) :
    insertAux d fuel var (some r) bits v = (r, d) := by
  induction fuel generalizing var r with
  | zero =>
      have hf : findEquiv d ⟨TERMINAL_INDEX, none, none, v⟩ = some r := h
      simp [insertAux, create_terminal_node, create_node, hf]
  | succ fuel ih =>
      obtain ⟨h1, h2⟩ := h
      by_cases hb : bits.getD var false
      · rw [if_pos hb] at h2
        obtain ⟨c, hc1, hc2⟩ := h2
        have hrec : insertAux d fuel (var + 1) (getNode d r).high bits v = (c, d) := by
          rw [show (getNode d r).high = some c from hc1]
          exact ih (var + 1) c hc2
        simp only [insertAux, hb, if_true, hrec]
        rw [if_pos (by rw [hrec] at *; exact hc1.symm)]
      · rw [if_neg hb] at h2
        obtain ⟨c, hc1, hc2⟩ := h2
        have hrec : insertAux d fuel (var + 1) (getNode d r).low bits v = (c, d) := by
          rw [show (getNode d r).low = some c from hc1]
          exact ih (var + 1) c hc2
        simp only [insertAux, hb, if_false, Bool.false_eq_true, hrec]
        rw [if_pos (by rw [hrec] at *; exact hc1.symm)]

/-- C8: with the root name bound, inserting the same `(bits, value)` twice
in immediate succession is a no-op — the second call returns the node the
first call returned and leaves the entire manager state (store and root
index included) unchanged. -/
theorem insert_twice_noop (d : MtRobdd) (name : Nat) (bits : List Bool)
    (v r0 : Nat) (hroot : mapLookup d.roots name = some r0)
    (hlen : bits.length = d.num_of_vars) (hsv : storeValid d) :
    (insert_bit_string_from_root (insert_bit_string_from_root d name bits v).2
        name bits v).1 = (insert_bit_string_from_root d name bits v).1 ∧
    (insert_bit_string_from_root (insert_bit_string_from_root d name bits v).2
        name bits v).2 = (insert_bit_string_from_root d name bits v).2 := by
  obtain ⟨_, _, hr, hn⟩ := insertAux_frame d d.num_of_vars 0 (some r0) bits v
  have hq1 : insert_bit_string_from_root d name bits v =
      ((insertAux d d.num_of_vars 0 (some r0) bits v).1,
        { (insertAux d d.num_of_vars 0 (some r0) bits v).2 with
          roots := mapInsert name (insertAux d d.num_of_vars 0 (some r0) bits v).1
            (insertAux d d.num_of_vars 0 (some r0) bits v).2.roots }) := by
    simp [insert_bit_string_from_root, insert_bit_string, get_root_node, hroot]
  set q := insertAux d d.num_of_vars 0 (some r0) bits v with hqdef
  set d1 : MtRobdd :=
      { q.2 with roots := mapInsert name q.1 q.2.roots } with hd1def
  have hpath : pathOk d1.heap d1.store bits v d.num_of_vars 0 q.1 :=
    insertAux_pathOk d d.num_of_vars 0 (some r0) bits v hsv
  have hstable : insertAux d1 d.num_of_vars 0 (some q.1) bits v = (q.1, d1) :=
    insertAux_stable d1 d.num_of_vars 0 bits v q.1 hpath
  have hnum1 : d1.num_of_vars = d.num_of_vars := hn
  have hlk : get_root_node d1 name = some q.1 := by
    show mapLookup (mapInsert name q.1 q.2.roots) name = some q.1
    exact mapLookup_mapInsert_self _ _ _
  have hq2 : insert_bit_string_from_root d1 name bits v = (q.1, d1) := by
    have hbody : insert_bit_string d1 (some q.1) 0 bits v = (q.1, d1) := by
      show insertAux d1 (d1.num_of_vars - 0) 0 (some q.1) bits v = (q.1, d1)
      rw [Nat.sub_zero, hnum1]
      exact hstable
    have : insert_bit_string_from_root d1 name bits v =
        ((insert_bit_string d1 (some q.1) 0 bits v).1,
          { (insert_bit_string d1 (some q.1) 0 bits v).2 with
            roots := mapInsert name (insert_bit_string d1 (some q.1) 0 bits v).1
              (insert_bit_string d1 (some q.1) 0 bits v).2.roots }) := by
      simp [insert_bit_string_from_root, hlk]
    rw [this, hbody]
    have hroots_idem : mapInsert name q.1 d1.roots = d1.roots := by
      apply mapInsert_lookup_eq
      exact mapLookup_mapInsert_self _ _ _
    simp [hroots_idem]
  rw [hq1]
  rw [show ((q.1, d1) : Nat × MtRobdd).2 = d1 from rfl]
  rw [hq2]
  exact ⟨rfl, rfl⟩

/-- Witness for `insert_twice_noop`: root `0` bound in a one-variable
manager, inserting `([H], 9)` twice. -/
theorem insert_twice_noop_witness :
    (insert_bit_string_from_root
        (insert_bit_string_from_root ⟨1, [⟨0, none, none, MAX_NODE_VALUE⟩], [0], [(0, 0)]⟩
          0 [true] 9).2 0 [true] 9).1 =
      (insert_bit_string_from_root ⟨1, [⟨0, none, none, MAX_NODE_VALUE⟩], [0], [(0, 0)]⟩
        0 [true] 9).1 ∧
    (insert_bit_string_from_root
        (insert_bit_string_from_root ⟨1, [⟨0, none, none, MAX_NODE_VALUE⟩], [0], [(0, 0)]⟩
          0 [true] 9).2 0 [true] 9).2 =
      (insert_bit_string_from_root ⟨1, [⟨0, none, none, MAX_NODE_VALUE⟩], [0], [(0, 0)]⟩
        0 [true] 9).2 :=
  insert_twice_noop ⟨1, [⟨0, none, none, MAX_NODE_VALUE⟩], [0], [(0, 0)]⟩ 0 [true] 9 0
    (by decide) (by decide) (by intro i hi; simp at hi; simp [hi])


/-! ### C6: `trim` and the reachable set -/

theorem memEquiv_iff (heap : List MtBddNode) (acc : List Nat) (l : Nat) :
    memEquiv heap acc l = true ↔
      ∃ x ∈ acc, heap.getD x default = heap.getD l default := by
  simp [memEquiv]

theorem memEquiv_of_mem (heap : List MtBddNode) (acc : List Nat) (l : Nat)
    (h : l ∈ acc) : memEquiv heap acc l = true :=
  (memEquiv_iff heap acc l).mpr ⟨l, h, rfl⟩

theorem pushChild_acc_mono (heap : List MtBddNode) (st : List Nat × List Nat)
    (c : Option Nat) : ∀ x ∈ st.1, x ∈ (pushChild heap st c).1 := by
  intro x hx
  cases c with
  | none => exact hx
  | some l =>
      simp only [pushChild]
      by_cases hl : memEquiv heap st.1 l = true
      · rw [if_pos hl]
        exact hx
      · rw [if_neg hl]
        exact List.mem_append.mpr (Or.inl hx)

theorem pushChild_acc_child (heap : List MtBddNode) (st : List Nat × List Nat)
    (l : Nat) : ∃ z ∈ (pushChild heap st (some l)).1,
      heap.getD z default = heap.getD l default := by
  simp only [pushChild]
  by_cases hl : memEquiv heap st.1 l = true
  · rw [if_pos hl]
    exact (memEquiv_iff heap st.1 l).mp hl
  · rw [if_neg hl]
    exact ⟨l, List.mem_append.mpr (Or.inr (by simp)), rfl⟩

theorem pushChild_acc_src (heap : List MtBddNode) (st : List Nat × List Nat)
    (c : Option Nat) :
    ∀ x ∈ (pushChild heap st c).1, x ∈ st.1 ∨ x ∈ (pushChild heap st c).2 := by
  intro x hx
  cases c with
  | none => exact Or.inl hx
  | some l =>
      simp only [pushChild] at hx ⊢
      by_cases hl : memEquiv heap st.1 l = true
      · rw [if_pos hl] at hx
        exact Or.inl hx
      · rw [if_neg hl] at hx ⊢
        rcases List.mem_append.mp hx with hx | hx
        · exact Or.inl hx
        · simp at hx
          subst hx
          simp

theorem pushChild_work_src (heap : List MtBddNode) (st : List Nat × List Nat)
    (c : Option Nat) :
    ∀ x ∈ (pushChild heap st c).2, x ∈ st.2 ∨ c = some x := by
  intro x hx
  cases c with
  | none => exact Or.inl hx
  | some l =>
      simp only [pushChild] at hx
      by_cases hl : memEquiv heap st.1 l = true
      · rw [if_pos hl] at hx
        exact Or.inl hx
      · rw [if_neg hl] at hx
        rcases List.mem_cons.mp hx with rfl | hx
        · exact Or.inr rfl
        · exact Or.inl hx

theorem pushChild_work_mono (heap : List MtBddNode) (st : List Nat × List Nat)
    (c : Option Nat) : ∀ x ∈ st.2, x ∈ (pushChild heap st c).2 := by
  intro x hx
  cases c with
  | none => exact hx
  | some l =>
      simp only [pushChild]
      by_cases hl : memEquiv heap st.1 l = true
      · rw [if_pos hl]
        exact hx
      · rw [if_neg hl]
        exact List.mem_cons.mpr (Or.inr hx)

theorem pushChild_measure (C : Finset ℕ) (heap : List MtBddNode)
    (st : List Nat × List Nat) (c : Option Nat)
    (hc : ∀ l, c = some l → l ∈ C) :
    2 * (C \ (pushChild heap st c).1.toFinset).card +
      (pushChild heap st c).2.length ≤
    2 * (C \ st.1.toFinset).card + st.2.length := by
  cases c with
  | none => exact le_refl _
  | some l =>
      simp only [pushChild]
      by_cases hl : memEquiv heap st.1 l = true
      · rw [if_pos hl]
      · rw [if_neg hl]
        have hlC : l ∈ C := hc l rfl
        have hlacc : l ∉ st.1.toFinset := by
          simp only [List.mem_toFinset]
          intro hmem
          exact hl (memEquiv_of_mem heap st.1 l hmem)
        have hsub : C \ (st.1 ++ [l]).toFinset ⊆ (C \ st.1.toFinset).erase l := by
          intro x hx
          simp only [Finset.mem_sdiff, List.toFinset_append, Finset.mem_union,
            List.mem_toFinset, List.mem_singleton, Finset.mem_erase] at hx ⊢
          push_neg at hx
          exact ⟨hx.2.2, hx.1, by simp [hx.2.1]⟩
        have hcard : (C \ (st.1 ++ [l]).toFinset).card ≤
            (C \ st.1.toFinset).card - 1 := by
          calc (C \ (st.1 ++ [l]).toFinset).card
              ≤ ((C \ st.1.toFinset).erase l).card := Finset.card_le_card hsub
            _ = (C \ st.1.toFinset).card - 1 :=
                Finset.card_erase_of_mem (Finset.mem_sdiff.mpr ⟨hlC, hlacc⟩)
        have hpos : 1 ≤ (C \ st.1.toFinset).card :=
          Finset.card_pos.mpr ⟨l, Finset.mem_sdiff.mpr ⟨hlC, hlacc⟩⟩
        simp only [List.length_cons]
        omega

/-- Soundness of the trim worklist: every marked node satisfies any
child-closed predicate holding on the initial marks. -/
theorem trimLoop_sound (d : MtRobdd) (R : Nat → Prop)
    (hR : ∀ x y, R x → childStep d x y → R y) :
    ∀ fuel work acc, (∀ x ∈ work, R x) → (∀ x ∈ acc, R x) →
    ∀ x ∈ trimLoop d fuel work acc, R x := by
  intro fuel
  induction fuel with
  | zero => intro work acc _ hacc x hx; exact hacc x hx
  | succ fuel ih =>
      intro work acc hwork hacc x hx
      cases work with
      | nil => exact hacc x hx
      | cons i rest =>
          have hi : R i := hwork i (by simp)
          have hstep : ∀ st : List Nat × List Nat, ∀ c : Option Nat,
              (∀ y ∈ st.1, R y) → (∀ y ∈ st.2, R y) →
              (∀ l, c = some l → R l) →
              (∀ y ∈ (pushChild d.heap st c).1, R y) ∧
              (∀ y ∈ (pushChild d.heap st c).2, R y) := by
            intro st c h1 h2 h3
            constructor
            · intro y hy
              rcases pushChild_acc_src d.heap st c y hy with hy' | hy'
              · exact h1 y hy'
              · rcases pushChild_work_src d.heap st c y hy' with hy'' | hy''
                · exact h2 y hy''
                · exact h3 y hy''
            · intro y hy
              rcases pushChild_work_src d.heap st c y hy with hy' | hy'
              · exact h2 y hy'
              · exact h3 y hy'
          have h1 := hstep (acc, rest) (getNode d i).low hacc
            (fun y hy => hwork y (by simp [hy]))
            (fun l hl => hR i l hi (Or.inl hl))
          have h2 := hstep (pushChild d.heap (acc, rest) (getNode d i).low)
            (getNode d i).high h1.1 h1.2
            (fun l hl => hR i l hi (Or.inr hl))
          exact ih _ _ h2.2 h2.1 x hx

/-- Completeness of the trim worklist: with enough fuel the loop drains,
the final marks contain the initial ones, and they hold a structural
representative of every child of every mark. -/
theorem trimLoop_complete (d : MtRobdd) (C : Finset ℕ)
    (hC : ∀ i l, childStep d i l → l ∈ C) :
    ∀ fuel work acc,
    (2 * (C \ acc.toFinset).card + work.length ≤ fuel) →
    (∀ x ∈ acc, x ∉ work → ∀ y, childStep d x y →
      ∃ z ∈ acc, getNode d z = getNode d y) →
    (∀ x ∈ acc, x ∈ trimLoop d fuel work acc) ∧
    (∀ x ∈ trimLoop d fuel work acc, ∀ y, childStep d x y →
      ∃ z ∈ trimLoop d fuel work acc, getNode d z = getNode d y) := by
  intro fuel
  induction fuel with
  | zero =>
      intro work acc hfuel hcl
      have hw : work = [] := by
        cases work with
        | nil => rfl
        | cons a b => simp at hfuel
      subst hw
      exact ⟨fun x hx => hx, fun x hx y hy => hcl x hx (by simp) y hy⟩
  | succ fuel ih =>
      intro work acc hfuel hcl
      cases work with
      | nil =>
          exact ⟨fun x hx => hx, fun x hx y hy => hcl x hx (by simp) y hy⟩
      | cons i rest =>
          set s1 := pushChild d.heap (acc, rest) (getNode d i).low with hs1
          set s2 := pushChild d.heap s1 (getNode d i).high with hs2
          have hm1 : 2 * (C \ s1.1.toFinset).card + s1.2.length ≤
              2 * (C \ acc.toFinset).card + rest.length :=
            pushChild_measure C d.heap (acc, rest) (getNode d i).low
              (fun l hl => hC i l (Or.inl hl))
          have hm2 : 2 * (C \ s2.1.toFinset).card + s2.2.length ≤
              2 * (C \ s1.1.toFinset).card + s1.2.length :=
            pushChild_measure C d.heap s1 (getNode d i).high
              (fun l hl => hC i l (Or.inr hl))
          have hfuel' : 2 * (C \ s2.1.toFinset).card + s2.2.length ≤ fuel := by
            simp only [List.length_cons] at hfuel
            omega
          have hacc_sub : ∀ x ∈ acc, x ∈ s2.1 := by
            intro x hx
            exact pushChild_acc_mono d.heap s1 _ _
              (pushChild_acc_mono d.heap (acc, rest) _ _ hx)
          have hcl' : ∀ x ∈ s2.1, x ∉ s2.2 → ∀ y, childStep d x y →
              ∃ z ∈ s2.1, getNode d z = getNode d y := by
            intro x hx hnw y hy
            by_cases hxi : x = i
            · subst hxi
              rcases hy with hy | hy
              · obtain ⟨z, hz, hzeq⟩ := pushChild_acc_child d.heap (acc, rest) y
                rw [← hy, ← hs1] at hz
                exact ⟨z, pushChild_acc_mono d.heap s1 _ z hz, hzeq⟩
              · obtain ⟨z, hz, hzeq⟩ := pushChild_acc_child d.heap s1 y
                rw [← hy, ← hs2] at hz
                exact ⟨z, hz, hzeq⟩
            · have hxacc : x ∈ acc := by
                rcases pushChild_acc_src d.heap s1 _ x hx with hx1 | hx1
                · rcases pushChild_acc_src d.heap (acc, rest) _ x hx1 with hx2 | hx2
                  · exact hx2
                  · exact absurd (pushChild_work_mono d.heap s1 _ x hx2) hnw
                · exact absurd hx1 hnw
              have hxnw : x ∉ (i :: rest) := by
                intro hmem
                rcases List.mem_cons.mp hmem with rfl | hmem
                · exact hxi rfl
                · exact hnw (pushChild_work_mono d.heap s1 _ x
                    (pushChild_work_mono d.heap (acc, rest) _ x hmem))
              obtain ⟨z, hz, hzeq⟩ := hcl x hxacc hxnw y hy
              exact ⟨z, hacc_sub z hz, hzeq⟩
          obtain ⟨hsub, hclosed⟩ := ih s2.2 s2.1 hfuel' hcl'
          refine ⟨?_, ?_⟩
          · intro x hx
            show x ∈ trimLoop d (fuel + 1) (i :: rest) acc
            simp only [trimLoop]
            exact hsub x (hacc_sub x hx)
          · intro x hx y hy
            simp only [trimLoop] at hx ⊢
            exact hclosed x hx y hy

theorem flatMap_children_length (l : List MtBddNode) :
    (l.flatMap (fun n => n.low.toList ++ n.high.toList)).length ≤ 2 * l.length := by
  induction l with
  | nil => simp
  | cons hd tl ih =>
      simp only [List.flatMap_cons, List.length_append, List.length_cons]
      have h1 : hd.low.toList.length ≤ 1 := by cases hd.low <;> simp
      have h2 : hd.high.toList.length ≤ 1 := by cases hd.high <;> simp
      omega

theorem dedup_foldl_mem (heap : List MtBddNode) (l a : List Nat) (x : Nat)
    (hx : x ∈ l.foldl (fun a i => if memEquiv heap a i then a else a ++ [i]) a) :
    x ∈ a ∨ x ∈ l := by
  induction l generalizing a with
  | nil => exact Or.inl hx
  | cons hd tl ih =>
      simp only [List.foldl_cons] at hx
      by_cases hc : memEquiv heap a hd = true
      · rw [if_pos hc] at hx
        rcases ih a hx with h | h
        · exact Or.inl h
        · exact Or.inr (by simp [h])
      · rw [if_neg hc] at hx
        rcases ih (a ++ [hd]) hx with h | h
        · rcases List.mem_append.mp h with h | h
          · exact Or.inl h
          · simp at h
            exact Or.inr (by simp [h])
        · exact Or.inr (by simp [h])

theorem dedup_foldl_repr (heap : List MtBddNode) (l a : List Nat) (x : Nat)
    (hx : (∃ z ∈ a, heap.getD z default = heap.getD x default) ∨ x ∈ l) :
    ∃ z ∈ l.foldl (fun a i => if memEquiv heap a i then a else a ++ [i]) a,
      heap.getD z default = heap.getD x default := by
  induction l generalizing a with
  | nil =>
      rcases hx with h | h
      · exact h
      · simp at h
  | cons hd tl ih =>
      simp only [List.foldl_cons]
      by_cases hc : memEquiv heap a hd = true
      · rw [if_pos hc]
        rcases hx with h | h
        · exact ih a (Or.inl h)
        · rcases List.mem_cons.mp h with heq | h
          · obtain ⟨z, hz, hzeq⟩ := (memEquiv_iff heap a hd).mp hc
            exact ih a (Or.inl ⟨z, hz, hzeq.trans (by rw [heq])⟩)
          · exact ih a (Or.inr h)
      · rw [if_neg hc]
        rcases hx with h | h
        · obtain ⟨z, hz, hzeq⟩ := h
          exact ih (a ++ [hd]) (Or.inl ⟨z, by simp [hz], hzeq⟩)
        · rcases List.mem_cons.mp h with heq | h
          · exact ih (a ++ [hd]) (Or.inl ⟨hd, by simp, by rw [heq]⟩)
          · exact ih (a ++ [hd]) (Or.inr h)

/-- C6 amended: `trim` leaves the root index (and the arena) unchanged, its
new store consists of reachable nodes only and holds a structural
representative of every reachable node, and it is exactly the set of
reachable nodes whenever no two distinct reachable nodes are equivalent
(the marked set is a `NodeSet` keyed by structural equality, so a reachable
node equivalent to an already-marked one is dropped — see the
counterexample for the claim as stated). -/
theorem trim_canonical (d : MtRobdd) :
    (trim d).roots = d.roots ∧ (trim d).heap = d.heap ∧
    (trim d).num_of_vars = d.num_of_vars ∧
    (∀ j ∈ (trim d).store, ReachableFromRoots d j) ∧
    (∀ j, ReachableFromRoots d j →
      ∃ z ∈ (trim d).store, getNode d z = getNode d j) ∧
    ((∀ a b, ReachableFromRoots d a → ReachableFromRoots d b →
        getNode d a = getNode d b → a = b) →
      ∀ j, j ∈ (trim d).store ↔ ReachableFromRoots d j) := by
  set work0 := d.roots.map (·.2) with hw0
  set acc0 := work0.foldl
    (fun a i => if memEquiv d.heap a i then a else a ++ [i]) [] with ha0
  have hloop : (trim d).store = trimLoop d (trimFuel d) work0 acc0 := rfl
  have hacc0_sub : ∀ x ∈ acc0, x ∈ work0 := by
    intro x hx
    rcases dedup_foldl_mem d.heap work0 [] x hx with h | h
    · simp at h
    · exact h
  have hwork0_reach : ∀ x ∈ work0, ReachableFromRoots d x := by
    intro x hx
    rw [hw0] at hx
    simp only [List.mem_map] at hx
    obtain ⟨p, hp, hpx⟩ := hx
    exact ⟨p, hp, hpx ▸ Relation.ReflTransGen.refl⟩
  set C : Finset ℕ :=
    (d.heap.flatMap (fun n => n.low.toList ++ n.high.toList)).toFinset with hCdef
  have hC : ∀ i l, childStep d i l → l ∈ C := by
    intro i l hil
    have hi_lt : i < d.heap.length := by
      by_contra hge
      have hdef : getNode d i = default := by
        simp [getNode, List.getD,
          List.getElem?_eq_none (by omega : d.heap.length ≤ i)]
      rcases hil with h | h <;> rw [hdef] at h <;> exact Option.noConfusion h
    have hmem : getNode d i ∈ d.heap := by
      have hgi : getNode d i = d.heap[i] := by
        simp [getNode, List.getD, List.getElem?_eq_getElem hi_lt]
      rw [hgi]
      exact List.getElem_mem hi_lt
    rw [hCdef]
    simp only [List.mem_toFinset, List.mem_flatMap]
    refine ⟨getNode d i, hmem, ?_⟩
    rcases hil with h | h
    · simp [h]
    · simp [h]
  have hfuel0 : 2 * (C \ acc0.toFinset).card + work0.length ≤ trimFuel d := by
    have h1 : (C \ acc0.toFinset).card ≤ C.card :=
      Finset.card_le_card Finset.sdiff_subset
    have h2 : C.card ≤ 2 * d.heap.length := by
      calc C.card
          ≤ (d.heap.flatMap (fun n => n.low.toList ++ n.high.toList)).length :=
            List.toFinset_card_le _
        _ ≤ 2 * d.heap.length := flatMap_children_length d.heap
    have h3 : work0.length = d.roots.length := by simp [hw0]
    unfold trimFuel
    omega
  have hcl0 : ∀ x ∈ acc0, x ∉ work0 → ∀ y, childStep d x y →
      ∃ z ∈ acc0, getNode d z = getNode d y := by
    intro x hx hnx
    exact absurd (hacc0_sub x hx) hnx
  obtain ⟨hsub, hclosed⟩ := trimLoop_complete d C hC (trimFuel d) work0 acc0
    hfuel0 hcl0
  have hsound : ∀ j ∈ (trim d).store, ReachableFromRoots d j := by
    intro j hj
    rw [hloop] at hj
    refine trimLoop_sound d (ReachableFromRoots d) ?_ (trimFuel d) work0 acc0
      hwork0_reach (fun x hx => hwork0_reach x (hacc0_sub x hx)) j hj
    intro x y hx hxy
    obtain ⟨p, hp, hreach⟩ := hx
    exact ⟨p, hp, Relation.ReflTransGen.tail hreach hxy⟩
  have hrepr : ∀ j, ReachableFromRoots d j →
      ∃ z ∈ (trim d).store, getNode d z = getNode d j := by
    intro j hj
    obtain ⟨p, hp, hreach⟩ := hj
    rw [hloop]
    induction hreach with
    | refl =>
        obtain ⟨z, hz, hzeq⟩ := dedup_foldl_repr d.heap work0 [] p.2
          (Or.inr (by rw [hw0]; exact List.mem_map.mpr ⟨p, hp, rfl⟩))
        exact ⟨z, hsub z hz, hzeq⟩
    | tail hab hbc ihr =>
        rename_i b y
        obtain ⟨z, hz, hzeq⟩ := ihr
        have hstep : childStep d z y := by
          rcases hbc with h | h
          · exact Or.inl (by
              show (getNode d z).low = some y
              rw [show getNode d z = getNode d b from hzeq]
              exact h)
          · exact Or.inr (by
              show (getNode d z).high = some y
              rw [show getNode d z = getNode d b from hzeq]
              exact h)
        exact hclosed z hz y hstep
  refine ⟨rfl, rfl, rfl, hsound, hrepr, ?_⟩
  intro hdist j
  constructor
  · exact hsound j
  · intro hj
    obtain ⟨z, hz, hzeq⟩ := hrepr j hj
    have := hdist z j (hsound z hz) hj hzeq
    rwa [← this]

/-- Witness for `trim_canonical` (its last conjunct carries a hypothesis):
on the empty manager nothing is reachable and the trimmed store is empty,
and the distinctness hypothesis holds vacuously. -/
theorem trim_canonical_witness :
    ∀ j, j ∈ (trim (MtRobdd.mk0 2)).store ↔
      ReachableFromRoots (MtRobdd.mk0 2) j :=
  (trim_canonical (MtRobdd.mk0 2)).2.2.2.2.2
    (fun a b ha _ _ => by
      obtain ⟨p, hp, _⟩ := ha
      simp [MtRobdd.mk0] at hp)

/-- C6 counterexample: a well-formed manager (valid, unique store) whose
root index binds name `1` to a node that is structurally equivalent to, but
physically distinct from, the store node bound to name `0` (exactly the
shape repeated `make_complete` calls produce for the sink).  Node `1` is
reachable, yet `trim` drops it because the marked `NodeSet` already holds
an equivalent node — so the trimmed store is not the set of reachable
nodes. -/
theorem trim_not_exactly_reachable :
    ReachableFromRoots
      ⟨0, [⟨TERMINAL_INDEX, none, none, 9⟩, ⟨TERMINAL_INDEX, none, none, 9⟩],
        [0], [(0, 0), (1, 1)]⟩ 1 ∧
    1 ∉ (trim ⟨0, [⟨TERMINAL_INDEX, none, none, 9⟩, ⟨TERMINAL_INDEX, none, none, 9⟩],
        [0], [(0, 0), (1, 1)]⟩).store := by
  constructor
  · exact ⟨(1, 1), by simp, Relation.ReflTransGen.refl⟩
  · decide


/-! ### C2: hash-cons uniqueness across the public operations -/

/-- Store-level well-formedness: store members are live, every heap
record's children are live, and no two distinct store members are
structurally equivalent (the hash-cons invariant). -/
def wfCore (d : MtRobdd) : Prop :=
  (∀ i ∈ d.store, i < d.heap.length) ∧
  (∀ n ∈ d.heap, (∀ l, n.low = some l → l < d.heap.length) ∧
    (∀ x, n.high = some x → x < d.heap.length)) ∧
  (∀ i ∈ d.store, ∀ j ∈ d.store, getNode d i = getNode d j → i = j)

/-- Manager well-formedness: `wfCore` plus live root bindings. -/
def WF (d : MtRobdd) : Prop :=
  wfCore d ∧ ∀ p ∈ d.roots, p.2 < d.heap.length

theorem findEquiv_none_notEquiv {d : MtRobdd} {r : MtBddNode}
    (hf : findEquiv d r = none) : ∀ j ∈ d.store, getNode d j ≠ r := by
  intro j hj
  have := List.find?_eq_none.mp hf j hj
  simpa using this

theorem create_node_wfCore (d : MtRobdd) (var : Int) (low high : Option Nat)
    (value : Nat) (h : wfCore d)
    (hl : ∀ l, low = some l → l < d.heap.length)
    (hh : ∀ x, high = some x → x < d.heap.length) :
    wfCore (create_node d var low high value).2 ∧
    (create_node d var low high value).1 <
      (create_node d var low high value).2.heap.length := by
  obtain ⟨hsv, hhc, huq⟩ := h
  cases hf : findEquiv d ⟨var, low, high, value⟩ with
  | some i =>
      have h2 : create_node d var low high value = (i, d) := by
        simp [create_node, hf]
      rw [h2]
      exact ⟨⟨hsv, hhc, huq⟩, hsv i (findEquiv_some_getNode hf).2⟩
  | none =>
      have h2 : create_node d var low high value =
          (d.heap.length,
            { d with heap := d.heap ++ [⟨var, low, high, value⟩],
                     store := d.store ++ [d.heap.length] }) := by
        simp [create_node, hf]
      rw [h2]
      have hlen : (d.heap ++ [(⟨var, low, high, value⟩ : MtBddNode)]).length =
          d.heap.length + 1 := by simp
      refine ⟨⟨?_, ?_, ?_⟩, ?_⟩
      · intro i hi
        simp only [List.mem_append, List.mem_singleton] at hi
        rw [hlen]
        rcases hi with hi | hi
        · have := hsv i hi
          omega
        · omega
      · intro n hn
        rw [hlen]
        rcases List.mem_append.mp hn with hn | hn
        · obtain ⟨h1, h2⟩ := hhc n hn
          exact ⟨fun l hl2 => by have := h1 l hl2; omega,
                 fun x hx2 => by have := h2 x hx2; omega⟩
        · simp only [List.mem_singleton] at hn
          subst hn
          exact ⟨fun l hl2 => by have := hl l hl2; omega,
                 fun x hx2 => by have := hh x hx2; omega⟩
      · intro i hi j hj
        simp only [List.mem_append, List.mem_singleton] at hi hj
        intro heq
        have heq' : (d.heap ++ [(⟨var, low, high, value⟩ : MtBddNode)]).getD i default =
            (d.heap ++ [(⟨var, low, high, value⟩ : MtBddNode)]).getD j default := heq
        rcases hi with hi | hi <;> rcases hj with hj | hj
        · refine huq i hi j hj ?_
          show d.heap.getD i default = d.heap.getD j default
          rw [← getD_append_of_lt d.heap [⟨var, low, high, value⟩] i (hsv i hi),
              ← getD_append_of_lt d.heap [⟨var, low, high, value⟩] j (hsv j hj)]
          exact heq'
        · subst hj
          exfalso
          refine findEquiv_none_notEquiv hf i hi ?_
          show d.heap.getD i default = _
          rw [← getD_append_of_lt d.heap [⟨var, low, high, value⟩] i (hsv i hi)]
          rw [heq']
          exact getNode_heap_append_last d.heap _
        · subst hi
          exfalso
          refine findEquiv_none_notEquiv hf j hj ?_
          show d.heap.getD j default = _
          rw [← getD_append_of_lt d.heap [⟨var, low, high, value⟩] j (hsv j hj),
            ← heq']
          exact getNode_heap_append_last d.heap _
        · subst hi
          subst hj
          rfl
      · rw [hlen]
        omega

theorem insertAux_wfCore (d : MtRobdd) (fuel var : Nat) (src : Option Nat)
    (bits : List Bool) (v : Nat) (h : wfCore d)
    (hsrc : ∀ s, src = some s → s < d.heap.length) :
    wfCore (insertAux d fuel var src bits v).2 ∧
    (insertAux d fuel var src bits v).1 <
      (insertAux d fuel var src bits v).2.heap.length := by
  induction fuel generalizing d var src with
  | zero =>
      exact create_node_wfCore d TERMINAL_INDEX none none v h
        (fun l hl => Option.noConfusion hl) (fun x hx => Option.noConfusion hx)
  | succ fuel ih =>
      cases src with
      | none =>
          by_cases hb : bits.getD var false
          · obtain ⟨hwf', hlt'⟩ := ih d (var + 1) none h
              (fun s hs => Option.noConfusion hs)
            simp only [insertAux, hb, if_true]
            exact create_node_wfCore _ _ _ _ _ hwf'
              (fun l hl => Option.noConfusion hl)
              (fun x hx => by cases hx; exact hlt')
          · obtain ⟨hwf', hlt'⟩ := ih d (var + 1) none h
              (fun s hs => Option.noConfusion hs)
            simp only [insertAux, hb, if_false, Bool.false_eq_true]
            exact create_node_wfCore _ _ _ _ _ hwf'
              (fun l hl => by cases hl; exact hlt')
              (fun x hx => Option.noConfusion hx)
      | some s =>
          have hs_lt : s < d.heap.length := hsrc s rfl
          have hrec : getNode d s ∈ d.heap := by
            have hgi : getNode d s = d.heap[s] := by
              simp [getNode, List.getD, List.getElem?_eq_getElem hs_lt]
            rw [hgi]
            exact List.getElem_mem hs_lt
          obtain ⟨hcl, hch⟩ := h.2.1 (getNode d s) hrec
          by_cases hb : bits.getD var false
          · obtain ⟨hwf', hlt'⟩ := ih d (var + 1) (getNode d s).high h
              (fun x hx => hch x hx)
            obtain ⟨⟨t1, hext⟩, _, _, _⟩ :=
              insertAux_frame d fuel (var + 1) (getNode d s).high bits v
            by_cases hc : some (insertAux d fuel (var + 1) (getNode d s).high bits v).1
                = (getNode d s).high
            · simp only [insertAux, hb, if_true, hc, if_pos]
              refine ⟨hwf', ?_⟩
              rw [hext]
              simp
              omega
            · simp only [insertAux, hb, if_true]
              rw [if_neg hc]
              refine create_node_wfCore _ _ _ _ _ hwf' ?_ ?_
              · intro l hl
                have := hcl l hl
                rw [hext]
                simp
                omega
              · intro x hx
                cases hx
                exact hlt'
          · obtain ⟨hwf', hlt'⟩ := ih d (var + 1) (getNode d s).low h
              (fun x hx => hcl x hx)
            obtain ⟨⟨t1, hext⟩, _, _, _⟩ :=
              insertAux_frame d fuel (var + 1) (getNode d s).low bits v
            by_cases hc : some (insertAux d fuel (var + 1) (getNode d s).low bits v).1
                = (getNode d s).low
            · simp only [insertAux, hb, if_false, Bool.false_eq_true, hc, if_pos]
              refine ⟨hwf', ?_⟩
              rw [hext]
              simp
              omega
            · simp only [insertAux, hb, if_false, Bool.false_eq_true]
              rw [if_neg hc]
              refine create_node_wfCore _ _ _ _ _ hwf' ?_ ?_
              · intro l hl
                cases hl
                exact hlt'
              · intro x hx
                have := hch x hx
                rw [hext]
                simp
                omega

theorem mapInsert_mem (m : List (Nat × Nat)) (k v : Nat) (p : Nat × Nat)
    (hp : p ∈ mapInsert k v m) : p = (k, v) ∨ p ∈ m := by
  induction m with
  | nil =>
      simp [mapInsert] at hp
      exact Or.inl hp
  | cons q rest ih =>
      obtain ⟨k1, v1⟩ := q
      by_cases hk : k1 = k
      · subst hk
        simp only [mapInsert, if_pos rfl] at hp
        rcases List.mem_cons.mp hp with rfl | hp
        · exact Or.inl rfl
        · exact Or.inr (by simp [hp])
      · simp only [mapInsert, if_neg hk] at hp
        rcases List.mem_cons.mp hp with rfl | hp
        · exact Or.inr (by simp)
        · rcases ih hp with h | h
          · exact Or.inl h
          · exact Or.inr (by simp [h])

theorem insert_from_root_WF (d : MtRobdd) (name : Nat) (bits : List Bool)
    (v : Nat) (h : WF d) :
    WF (insert_bit_string_from_root d name bits v).2 := by
  obtain ⟨hcore, hroots⟩ := h
  have hsrc : ∀ s, get_root_node d name = some s → s < d.heap.length := by
    intro s hs
    exact hroots _ (mapLookup_some_mem _ _ _ hs)
  obtain ⟨hwf', hlt'⟩ := insertAux_wfCore d (d.num_of_vars - 0) 0
    (get_root_node d name) bits v hcore hsrc
  obtain ⟨⟨t1, hext⟩, _, hrr, _⟩ := insertAux_frame d (d.num_of_vars - 0) 0
    (get_root_node d name) bits v
  constructor
  · exact hwf'
  · intro p hp
    rcases mapInsert_mem _ _ _ p hp with rfl | hp
    · exact hlt'
    · have hp2 : p ∈ (insertAux d (d.num_of_vars - 0) 0
          (get_root_node d name) bits v).2.roots := hp
      rw [hrr] at hp2
      have := hroots p hp2
      show p.2 < (insertAux d (d.num_of_vars - 0) 0
        (get_root_node d name) bits v).2.heap.length
      rw [hext]
      simp
      omega


theorem pushChild_pred (heap : List MtBddNode) (P : Nat → Prop)
    (st : List Nat × List Nat) (c : Option Nat)
    (h1 : ∀ x ∈ st.1, P x) (h2 : ∀ x ∈ st.2, P x)
    (h3 : ∀ l, c = some l → P l) :
    (∀ x ∈ (pushChild heap st c).1, P x) ∧
    (∀ x ∈ (pushChild heap st c).2, P x) := by
  constructor
  · intro y hy
    rcases pushChild_acc_src heap st c y hy with hy' | hy'
    · exact h1 y hy'
    · rcases pushChild_work_src heap st c y hy' with hy'' | hy''
      · exact h2 y hy''
      · exact h3 y hy''
  · intro y hy
    rcases pushChild_work_src heap st c y hy with hy' | hy'
    · exact h2 y hy'
    · exact h3 y hy'

theorem pushChild_uniq (heap : List MtBddNode) (st : List Nat × List Nat)
    (c : Option Nat)
    (hu : ∀ i ∈ st.1, ∀ j ∈ st.1,
      heap.getD i default = heap.getD j default → i = j) :
    ∀ i ∈ (pushChild heap st c).1, ∀ j ∈ (pushChild heap st c).1,
      heap.getD i default = heap.getD j default → i = j := by
  cases c with
  | none => exact hu
  | some l =>
      simp only [pushChild]
      by_cases hl : memEquiv heap st.1 l = true
      · rw [if_pos hl]
        exact hu
      · rw [if_neg hl]
        have hnl : ∀ x ∈ st.1, heap.getD x default ≠ heap.getD l default := by
          intro x hx heq
          exact hl ((memEquiv_iff heap st.1 l).mpr ⟨x, hx, heq⟩)
        intro i hi j hj heq
        rcases List.mem_append.mp hi with hi | hi <;>
          rcases List.mem_append.mp hj with hj | hj
        · exact hu i hi j hj heq
        · simp only [List.mem_singleton] at hj
          exact absurd (hj ▸ heq) (hnl i hi)
        · simp only [List.mem_singleton] at hi
          exact absurd (hi ▸ heq).symm (hnl j hj)
        · simp only [List.mem_singleton] at hi hj
          rw [hi, hj]

theorem trimLoop_valid_uniq (d : MtRobdd)
    (hhc : ∀ n ∈ d.heap, (∀ l, n.low = some l → l < d.heap.length) ∧
      (∀ x, n.high = some x → x < d.heap.length)) :
    ∀ fuel work acc,
    (∀ x ∈ work, x < d.heap.length) → (∀ x ∈ acc, x < d.heap.length) →
    (∀ i ∈ acc, ∀ j ∈ acc, getNode d i = getNode d j → i = j) →
    (∀ x ∈ trimLoop d fuel work acc, x < d.heap.length) ∧
    (∀ i ∈ trimLoop d fuel work acc, ∀ j ∈ trimLoop d fuel work acc,
      getNode d i = getNode d j → i = j) := by
  intro fuel
  induction fuel with
  | zero => intro work acc _ hacc huq; exact ⟨hacc, huq⟩
  | succ fuel ih =>
      intro work acc hwork hacc huq
      cases work with
      | nil => exact ⟨hacc, huq⟩
      | cons i rest =>
          have hi_lt : i < d.heap.length := hwork i (by simp)
          have hmemrec : getNode d i ∈ d.heap := by
            have hgi : getNode d i = d.heap[i] := by
              simp [getNode, List.getD, List.getElem?_eq_getElem hi_lt]
            rw [hgi]
            exact List.getElem_mem hi_lt
          obtain ⟨hclow, hchigh⟩ := hhc (getNode d i) hmemrec
          have h1 := pushChild_pred d.heap (fun x => x < d.heap.length)
            (acc, rest) (getNode d i).low hacc
            (fun y hy => hwork y (by simp [hy])) (fun l hl => hclow l hl)
          have h2 := pushChild_pred d.heap (fun x => x < d.heap.length)
            (pushChild d.heap (acc, rest) (getNode d i).low)
            (getNode d i).high h1.1 h1.2 (fun l hl => hchigh l hl)
          have hu1 := pushChild_uniq d.heap (acc, rest) (getNode d i).low huq
          have hu2 := pushChild_uniq d.heap
            (pushChild d.heap (acc, rest) (getNode d i).low)
            (getNode d i).high hu1
          simp only [trimLoop]
          exact ih _ _ h2.2 h2.1 hu2

/-- `trim` preserves well-formedness; its rebuilt store is pairwise
non-equivalent by construction. -/
theorem trim_WF (d : MtRobdd) (h : WF d) : WF (trim d) := by
  obtain ⟨⟨hsv, hhc, huq⟩, hrv⟩ := h
  have hwork0 : ∀ x ∈ d.roots.map (·.2), x < d.heap.length := by
    intro x hx
    simp only [List.mem_map] at hx
    obtain ⟨p, hp, hpx⟩ := hx
    exact hpx ▸ hrv p hp
  have hacc0v : ∀ x ∈ (d.roots.map (·.2)).foldl
      (fun a i => if memEquiv d.heap a i then a else a ++ [i]) [],
      x < d.heap.length := by
    intro x hx
    rcases dedup_foldl_mem d.heap _ [] x hx with h | h
    · simp at h
    · exact hwork0 x h
  have hacc0u : ∀ i ∈ (d.roots.map (·.2)).foldl
      (fun a i => if memEquiv d.heap a i then a else a ++ [i]) [],
      ∀ j ∈ (d.roots.map (·.2)).foldl
      (fun a i => if memEquiv d.heap a i then a else a ++ [i]) [],
      getNode d i = getNode d j → i = j := by
    have hgen : ∀ (l a : List Nat),
        (∀ i ∈ a, ∀ j ∈ a, getNode d i = getNode d j → i = j) →
        ∀ i ∈ l.foldl (fun a i => if memEquiv d.heap a i then a else a ++ [i]) a,
        ∀ j ∈ l.foldl (fun a i => if memEquiv d.heap a i then a else a ++ [i]) a,
        getNode d i = getNode d j → i = j := by
      intro l
      induction l with
      | nil => intro a ha; exact ha
      | cons hd tl ihl =>
          intro a ha
          simp only [List.foldl_cons]
          by_cases hc : memEquiv d.heap a hd = true
          · rw [if_pos hc]
            exact ihl a ha
          · rw [if_neg hc]
            refine ihl (a ++ [hd]) ?_
            have hnl : ∀ x ∈ a, d.heap.getD x default ≠ d.heap.getD hd default := by
              intro x hx heq
              exact hc ((memEquiv_iff d.heap a hd).mpr ⟨x, hx, heq⟩)
            intro i hi j hj heq
            rcases List.mem_append.mp hi with hi | hi <;>
              rcases List.mem_append.mp hj with hj | hj
            · exact ha i hi j hj heq
            · simp only [List.mem_singleton] at hj
              exact absurd (hj ▸ heq) (hnl i hi)
            · simp only [List.mem_singleton] at hi
              exact absurd (hi ▸ heq).symm (hnl j hj)
            · simp only [List.mem_singleton] at hi hj
              rw [hi, hj]
    exact hgen _ [] (by intro i hi; simp at hi)
  obtain ⟨hval, huniq⟩ := trimLoop_valid_uniq d hhc (trimFuel d)
    (d.roots.map (·.2)) _ hwork0 hacc0v hacc0u
  exact ⟨⟨hval, hhc, huniq⟩, hrv⟩


theorem fFill_idem (sinkId : Nat) (n : MtBddNode) :
    fFill sinkId (fFill sinkId n) = fFill sinkId n := by
  cases hl : n.low <;> cases hh : n.high <;> simp [fFill, hl, hh]

/-- Two records that are each either original or sink-filled, whose
original children are below the sink pointer, can only coincide if the
originals coincide. -/
theorem fFill_mixed_inj (sinkId : Nat) (n1 n2 a b : MtBddNode)
    (h1l : ∀ l, n1.low = some l → l < sinkId)
    (h1h : ∀ x, n1.high = some x → x < sinkId)
    (h2l : ∀ l, n2.low = some l → l < sinkId)
    (h2h : ∀ x, n2.high = some x → x < sinkId)
    (ha : a = n1 ∨ a = fFill sinkId n1) (hb : b = n2 ∨ b = fFill sinkId n2)
    (hab : a = b) : n1 = n2 := by
  have hslot : ∀ (o1 o2 : Option Nat),
      (∀ l, o1 = some l → l < sinkId) → (∀ l, o2 = some l → l < sinkId) →
      ∀ (s1 s2 : Option Nat),
      (s1 = o1 ∨ s1 = (if o1 = none then some sinkId else o1)) →
      (s2 = o2 ∨ s2 = (if o2 = none then some sinkId else o2)) →
      s1 = s2 → o1 = o2 := by
    intro o1 o2 hb1 hb2 s1 s2 hs1 hs2 hs
    cases o1 with
    | none =>
        cases o2 with
        | none => rfl
        | some l2 =>
            exfalso
            have hl2 := hb2 l2 rfl
            have hs2' : s2 = some l2 := by
              rcases hs2 with rfl | rfl
              · rfl
              · simp
            have hs1' : s1 = none ∨ s1 = some sinkId := by
              rcases hs1 with rfl | rfl
              · exact Or.inl rfl
              · simp
            rcases hs1' with rfl | rfl
            · rw [hs2'] at hs
              exact Option.noConfusion hs
            · rw [hs2'] at hs
              have := Option.some.inj hs
              omega
    | some l1 =>
        have hl1 := hb1 l1 rfl
        have hs1' : s1 = some l1 := by
          rcases hs1 with rfl | rfl
          · rfl
          · simp
        cases o2 with
        | none =>
            exfalso
            have hs2' : s2 = none ∨ s2 = some sinkId := by
              rcases hs2 with rfl | rfl
              · exact Or.inl rfl
              · simp
            rcases hs2' with rfl | rfl
            · rw [hs1'] at hs
              exact Option.noConfusion hs
            · rw [hs1'] at hs
              have := Option.some.inj hs
              omega
        | some l2 =>
            have hs2' : s2 = some l2 := by
              rcases hs2 with rfl | rfl
              · rfl
              · simp
            rw [hs1', hs2'] at hs
            rw [Option.some.inj hs]
  have haV : a.var_index = n1.var_index := by rcases ha with rfl | rfl <;> rfl
  have hbV : b.var_index = n2.var_index := by rcases hb with rfl | rfl <;> rfl
  have haW : a.value = n1.value := by rcases ha with rfl | rfl <;> rfl
  have hbW : b.value = n2.value := by rcases hb with rfl | rfl <;> rfl
  have haL : a.low = n1.low ∨ a.low = (if n1.low = none then some sinkId else n1.low) := by
    rcases ha with rfl | rfl
    · exact Or.inl rfl
    · exact Or.inr rfl
  have hbL : b.low = n2.low ∨ b.low = (if n2.low = none then some sinkId else n2.low) := by
    rcases hb with rfl | rfl
    · exact Or.inl rfl
    · exact Or.inr rfl
  have haH : a.high = n1.high ∨ a.high = (if n1.high = none then some sinkId else n1.high) := by
    rcases ha with rfl | rfl
    · exact Or.inl rfl
    · exact Or.inr rfl
  have hbH : b.high = n2.high ∨ b.high = (if n2.high = none then some sinkId else n2.high) := by
    rcases hb with rfl | rfl
    · exact Or.inl rfl
    · exact Or.inr rfl
  have hvar : n1.var_index = n2.var_index := by rw [← haV, ← hbV, hab]
  have hval : n1.value = n2.value := by rw [← haW, ← hbW, hab]
  have hlow : n1.low = n2.low :=
    hslot n1.low n2.low h1l h2l a.low b.low haL hbL (by rw [hab])
  have hhigh : n1.high = n2.high :=
    hslot n1.high n2.high h1h h2h a.high b.high haH hbH (by rw [hab])
  cases n1
  cases n2
  simp only [MtBddNode.mk.injEq]
  exact ⟨hvar, hlow, hhigh, hval⟩

/-- State invariant of the `make_complete` fill loop: heap length is
stable, every arena cell is either original or sink-filled, and every root
target stays at or below the sink pointer. -/
theorem mc_loop_state (d : MtRobdd) (sv : Nat) (ct : Bool) (l : List Nat) :
    ∀ (st : List MtBddNode × List (Nat × Nat) × Bool),
    st.1.length = d.heap.length + 1 →
    (∀ p, st.1.getD p default =
        (d.heap ++ [(⟨TERMINAL_INDEX, none, none, sv⟩ : MtBddNode)]).getD p default ∨
      st.1.getD p default = fFill d.heap.length
        ((d.heap ++ [(⟨TERMINAL_INDEX, none, none, sv⟩ : MtBddNode)]).getD p default)) →
    (∀ q ∈ st.2.1, q.2 ≤ d.heap.length) →
    (l.foldl (mcStep d.heap.length ct) st).1.length = d.heap.length + 1 ∧
    (∀ p, (l.foldl (mcStep d.heap.length ct) st).1.getD p default =
        (d.heap ++ [(⟨TERMINAL_INDEX, none, none, sv⟩ : MtBddNode)]).getD p default ∨
      (l.foldl (mcStep d.heap.length ct) st).1.getD p default =
        fFill d.heap.length
          ((d.heap ++ [(⟨TERMINAL_INDEX, none, none, sv⟩ : MtBddNode)]).getD p default)) ∧
    (∀ q ∈ (l.foldl (mcStep d.heap.length ct) st).2.1, q.2 ≤ d.heap.length) := by
  induction l with
  | nil => intro st h1 h2 h3; exact ⟨h1, h2, h3⟩
  | cons i rest ih =>
      intro st h1 h2 h3
      rw [List.foldl_cons]
      refine ih (mcStep d.heap.length ct st i) ?_ ?_ ?_
      · simp only [mcStep]
        by_cases hT : ct = true ∧ (st.1.getD i default).is_terminal = true
        · rw [if_pos hT]
          by_cases hlk : (mapLookup st.2.1 (st.1.getD i default).value).isSome = true
          · rw [if_pos hlk]
            exact h1
          · rw [if_neg hlk]
            exact h1
        · rw [if_neg hT]
          by_cases hn : (st.1.getD i default).low = none ∨
              (st.1.getD i default).high = none
          · rw [if_pos hn]
            simpa using h1
          · rw [if_neg hn]
            exact h1
      · intro p
        simp only [mcStep]
        by_cases hT : ct = true ∧ (st.1.getD i default).is_terminal = true
        · rw [if_pos hT]
          by_cases hlk : (mapLookup st.2.1 (st.1.getD i default).value).isSome = true
          · rw [if_pos hlk]
            exact h2 p
          · rw [if_neg hlk]
            exact h2 p
        · rw [if_neg hT]
          by_cases hn : (st.1.getD i default).low = none ∨
              (st.1.getD i default).high = none
          · rw [if_pos hn]
            by_cases hpi : p = i
            · subst hpi
              by_cases hplt : p < st.1.length
              · have : (st.1.set p (fFill d.heap.length (st.1.getD p default))).getD
                    p default = fFill d.heap.length (st.1.getD p default) := by
                  simp [List.getD, List.getElem?_set_eq_of_lt _ hplt]
                rw [this]
                rcases h2 p with h | h
                · rw [h]
                  exact Or.inr rfl
                · rw [h, fFill_idem]
                  exact Or.inr rfl
              · rw [List.set_eq_of_length_le (by omega)]
                exact h2 p
            · have : (st.1.set i (fFill d.heap.length (st.1.getD i default))).getD
                  p default = st.1.getD p default := by
                simp [List.getD, List.getElem?_set_ne (fun h => hpi h.symm)]
              rw [this]
              exact h2 p
          · rw [if_neg hn]
            exact h2 p
      · simp only [mcStep]
        by_cases hT : ct = true ∧ (st.1.getD i default).is_terminal = true
        · rw [if_pos hT]
          by_cases hlk : (mapLookup st.2.1 (st.1.getD i default).value).isSome = true
          · rw [if_pos hlk]
            exact h3
          · rw [if_neg hlk]
            intro q hq
            rcases mapInsert_mem _ _ _ q hq with rfl | hq
            · simp
            · exact h3 q hq
        · rw [if_neg hT]
          by_cases hn : (st.1.getD i default).low = none ∨
              (st.1.getD i default).high = none
          · rw [if_pos hn]
            exact h3
          · rw [if_neg hn]
            exact h3


theorem fFill_child (sinkId : Nat) (n : MtBddNode) :
    (∀ l, (fFill sinkId n).low = some l → l = sinkId ∨ n.low = some l) ∧
    (∀ x, (fFill sinkId n).high = some x → x = sinkId ∨ n.high = some x) := by
  constructor
  · intro l hl
    cases hn : n.low with
    | none =>
        simp only [fFill, hn, if_pos rfl] at hl
        exact Or.inl (Option.some.inj hl).symm
    | some x =>
        simp only [fFill, hn] at hl
        simp at hl
        subst hl
        exact Or.inr rfl
  · intro x hx
    cases hn : n.high with
    | none =>
        simp only [fFill, hn, if_pos rfl] at hx
        exact Or.inl (Option.some.inj hx).symm
    | some y =>
        simp only [fFill, hn] at hx
        simp at hx
        subst hx
        exact Or.inr rfl

/-- `make_complete` preserves well-formedness; in particular hash-cons
uniqueness survives the in-place fills because all filled children use the
fresh sink pointer, which no pre-existing record can mention. -/
theorem make_complete_WF (d : MtRobdd) (sv : Nat) (ct : Bool) (h : WF d) :
    WF (make_complete d sv ct) := by
  obtain ⟨⟨hsv, hhc, huq⟩, hrv⟩ := h
  set out := d.store.foldl (mcStep d.heap.length ct)
    (d.heap ++ [(⟨TERMINAL_INDEX, none, none, sv⟩ : MtBddNode)], d.roots, false)
    with hout
  obtain ⟨hlen', hrecs, hroots'⟩ := mc_loop_state d sv ct d.store
    (d.heap ++ [(⟨TERMINAL_INDEX, none, none, sv⟩ : MtBddNode)], d.roots, false)
    (by simp) (fun p => Or.inl rfl)
    (fun q hq => Nat.le_of_lt (hrv q hq))
  have horig_child : ∀ p,
      (∀ l, ((d.heap ++ [(⟨TERMINAL_INDEX, none, none, sv⟩ : MtBddNode)]).getD
        p default).low = some l → l < d.heap.length) ∧
      (∀ x, ((d.heap ++ [(⟨TERMINAL_INDEX, none, none, sv⟩ : MtBddNode)]).getD
        p default).high = some x → x < d.heap.length) := by
    intro p
    by_cases hp : p < d.heap.length
    · rw [getD_append_of_lt _ _ _ hp]
      have hmem : d.heap.getD p default ∈ d.heap := by
        have : d.heap.getD p default = d.heap[p] := by
          simp [List.getD, List.getElem?_eq_getElem hp]
        rw [this]
        exact List.getElem_mem hp
      exact hhc _ hmem
    · by_cases hp2 : p = d.heap.length
      · subst hp2
        rw [getNode_heap_append_last]
        exact ⟨fun l hl => Option.noConfusion hl, fun x hx => Option.noConfusion hx⟩
      · have : (d.heap ++ [(⟨TERMINAL_INDEX, none, none, sv⟩ : MtBddNode)]).getD
            p default = default := by
          have hge : (d.heap ++ [(⟨TERMINAL_INDEX, none, none, sv⟩ : MtBddNode)]).length ≤ p := by
            simp
            omega
          simp [List.getD, List.getElem?_eq_none hge]
        rw [this]
        exact ⟨fun l hl => Option.noConfusion hl, fun x hx => Option.noConfusion hx⟩
  have hrec_child : ∀ p,
      (∀ l, (out.1.getD p default).low = some l → l ≤ d.heap.length) ∧
      (∀ x, (out.1.getD p default).high = some x → x ≤ d.heap.length) := by
    intro p
    obtain ⟨ho1, ho2⟩ := horig_child p
    rcases hrecs p with hcase | hcase
    · rw [hcase]
      exact ⟨fun l hl => Nat.le_of_lt (ho1 l hl),
             fun x hx => Nat.le_of_lt (ho2 x hx)⟩
    · rw [hcase]
      obtain ⟨hf1, hf2⟩ := fFill_child d.heap.length
        ((d.heap ++ [(⟨TERMINAL_INDEX, none, none, sv⟩ : MtBddNode)]).getD p default)
      constructor
      · intro l hl
        rcases hf1 l hl with rfl | hl2
        · exact le_refl _
        · exact Nat.le_of_lt (ho1 l hl2)
      · intro x hx
        rcases hf2 x hx with rfl | hx2
        · exact le_refl _
        · exact Nat.le_of_lt (ho2 x hx2)
  have hc_out : ∀ n ∈ out.1,
      (∀ l, n.low = some l → l < out.1.length) ∧
      (∀ x, n.high = some x → x < out.1.length) := by
    intro n hn
    obtain ⟨p, hp, hget⟩ := List.mem_iff_getElem.mp hn
    have hpd : out.1.getD p default = n := by
      simp [List.getD, List.getElem?_eq_getElem hp, hget]
    obtain ⟨hb1, hb2⟩ := hrec_child p
    rw [hpd] at hb1 hb2
    rw [hlen']
    exact ⟨fun l hl => by have := hb1 l hl; omega,
           fun x hx => by have := hb2 x hx; omega⟩
  have hstore_rec : ∀ i ∈ d.store,
      out.1.getD i default = getNode d i ∨
      out.1.getD i default = fFill d.heap.length (getNode d i) := by
    intro i hi
    have hlt := hsv i hi
    have : (d.heap ++ [(⟨TERMINAL_INDEX, none, none, sv⟩ : MtBddNode)]).getD
        i default = getNode d i := getD_append_of_lt _ _ _ hlt
    rcases hrecs i with hcase | hcase
    · rw [this] at hcase
      exact Or.inl hcase
    · rw [this] at hcase
      exact Or.inr hcase
  have hstore_uq : ∀ i ∈ d.store, ∀ j ∈ d.store,
      out.1.getD i default = out.1.getD j default → i = j := by
    intro i hi j hj heq
    have hlti := hsv i hi
    have hltj := hsv j hj
    have hchi := hhc (getNode d i) (by
      have : getNode d i = d.heap[i] := by
        simp [getNode, List.getD, List.getElem?_eq_getElem hlti]
      rw [this]
      exact List.getElem_mem hlti)
    have hchj := hhc (getNode d j) (by
      have : getNode d j = d.heap[j] := by
        simp [getNode, List.getD, List.getElem?_eq_getElem hltj]
      rw [this]
      exact List.getElem_mem hltj)
    refine huq i hi j hj ?_
    exact fFill_mixed_inj d.heap.length (getNode d i) (getNode d j)
      (out.1.getD i default) (out.1.getD j default)
      hchi.1 hchi.2 hchj.1 hchj.2 (hstore_rec i hi) (hstore_rec j hj) heq
  have hsinkpos : out.1.getD d.heap.length default =
      ⟨TERMINAL_INDEX, none, none, sv⟩ := by
    rw [hout, mc_loop_heap_getD_ne d.heap.length ct d.store _ d.heap.length
      (fun i hi => Nat.ne_of_lt (hsv i hi))]
    exact getNode_heap_append_last d.heap _
  have hroots_out : ∀ q ∈ out.2.1, q.2 ≤ d.heap.length := hroots'
  by_cases hf : out.2.2 = true
  · simp only [make_complete, ← hout]
    rw [if_pos hf]
    by_cases hfe : (findEquiv { d with heap := out.1, roots := out.2.1 }
        (⟨TERMINAL_INDEX, none, none, sv⟩ : MtBddNode)).isSome = true
    · rw [if_pos hfe]
      refine ⟨⟨?_, ?_, ?_⟩, ?_⟩
      · intro i hi
        have hi' : i ∈ d.store := hi
        have := hsv i hi'
        show i < out.1.length
        rw [hlen']
        omega
      · exact hc_out
      · intro i hi j hj heq
        have hi' : i ∈ d.store := hi
        have hj' : j ∈ d.store := hj
        have heq' : out.1.getD i default = out.1.getD j default := heq
        exact hstore_uq i hi' j hj' heq'
      · intro p hp
        have hp' : p ∈ mapInsert sv d.heap.length out.2.1 := hp
        show p.2 < out.1.length
        rcases mapInsert_mem _ _ _ p hp' with rfl | hp2
        · rw [hlen']
          omega
        · have := hroots_out p hp2
          rw [hlen']
          omega
    · rw [if_neg hfe]
      have hfe' : findEquiv { d with heap := out.1, roots := out.2.1 }
          (⟨TERMINAL_INDEX, none, none, sv⟩ : MtBddNode) = none := by
        cases hcc : findEquiv { d with heap := out.1, roots := out.2.1 }
            (⟨TERMINAL_INDEX, none, none, sv⟩ : MtBddNode) with
        | some w => rw [hcc] at hfe; simp at hfe
        | none => rfl
      have hnot_sink : ∀ i ∈ d.store,
          out.1.getD i default ≠ ⟨TERMINAL_INDEX, none, none, sv⟩ :=
        fun i hi => findEquiv_none_notEquiv hfe' i hi
      refine ⟨⟨?_, ?_, ?_⟩, ?_⟩
      · intro i hi
        have hi' : i ∈ d.store ++ [d.heap.length] := hi
        show i < out.1.length
        rw [hlen']
        rcases List.mem_append.mp hi' with hi2 | hi2
        · have := hsv i hi2
          omega
        · simp only [List.mem_singleton] at hi2
          omega
      · exact hc_out
      · intro i hi j hj heq
        have hi' : i ∈ d.store ++ [d.heap.length] := hi
        have hj' : j ∈ d.store ++ [d.heap.length] := hj
        have heq' : out.1.getD i default = out.1.getD j default := heq
        rcases List.mem_append.mp hi' with hi2 | hi2 <;>
          rcases List.mem_append.mp hj' with hj2 | hj2
        · exact hstore_uq i hi2 j hj2 heq'
        · simp only [List.mem_singleton] at hj2
          exfalso
          apply hnot_sink i hi2
          rw [heq', hj2]
          exact hsinkpos
        · simp only [List.mem_singleton] at hi2
          exfalso
          apply hnot_sink j hj2
          rw [← heq', hi2]
          exact hsinkpos
        · simp only [List.mem_singleton] at hi2 hj2
          rw [hi2, hj2]
      · intro p hp
        have hp' : p ∈ mapInsert sv d.heap.length out.2.1 := hp
        show p.2 < out.1.length
        rcases mapInsert_mem _ _ _ p hp' with rfl | hp2
        · rw [hlen']
          omega
        · have := hroots_out p hp2
          rw [hlen']
          omega
  · simp only [make_complete, ← hout]
    rw [if_neg hf]
    refine ⟨⟨?_, ?_, ?_⟩, ?_⟩
    · intro i hi
      have hi' : i ∈ d.store := hi
      have := hsv i hi'
      show i < out.1.length
      rw [hlen']
      omega
    · exact hc_out
    · intro i hi j hj heq
      have hi' : i ∈ d.store := hi
      have hj' : j ∈ d.store := hj
      have heq' : out.1.getD i default = out.1.getD j default := heq
      exact hstore_uq i hi' j hj' heq'
    · intro p hp
      have hp' : p ∈ out.2.1 := hp
      have := hroots_out p hp'
      show p.2 < out.1.length
      rw [hlen']
      omega


theorem getNode_ext {d d' : MtRobdd} {t : List MtBddNode}
    (ht : d'.heap = d.heap ++ t) {x : Nat} (hx : x < d.heap.length) :
    getNode d' x = getNode d x := by
  show d'.heap.getD x default = _
  rw [ht]
  exact getD_append_of_lt _ _ _ hx

theorem uniq_heap_ext {d d' : MtRobdd} {t : List MtBddNode} (nn : List Nat)
    (ht : d'.heap = d.heap ++ t) (hv : ∀ x ∈ nn, x < d.heap.length)
    (hu : ∀ i ∈ nn, ∀ j ∈ nn, getNode d i = getNode d j → i = j) :
    ∀ i ∈ nn, ∀ j ∈ nn, getNode d' i = getNode d' j → i = j := by
  intro i hi j hj heq
  refine hu i hi j hj ?_
  rw [← getNode_ext ht (hv i hi), ← getNode_ext ht (hv j hj)]
  exact heq

/-- All invariants of one recursive call of `remove_redundant_tests`:
well-formedness of the threaded manager, heap and fresh-set growth,
validity and pairwise uniqueness of the fresh set, and validity of the
returned pointer. -/
theorem rrtRec_wf (fuel : Nat) :
    ∀ (node : Option Nat) (d : MtRobdd) (nn : List Nat),
    wfCore d →
    (∀ x ∈ nn, x < d.heap.length) →
    (∀ i ∈ nn, ∀ j ∈ nn, getNode d i = getNode d j → i = j) →
    (∀ s, node = some s → s < d.heap.length) →
    wfCore (rrtRec fuel node d nn).2.1 ∧
    (∃ t, (rrtRec fuel node d nn).2.1.heap = d.heap ++ t) ∧
    (∃ t, (rrtRec fuel node d nn).2.2 = nn ++ t) ∧
    (∀ x ∈ (rrtRec fuel node d nn).2.2,
      x < (rrtRec fuel node d nn).2.1.heap.length) ∧
    (∀ i ∈ (rrtRec fuel node d nn).2.2, ∀ j ∈ (rrtRec fuel node d nn).2.2,
      getNode (rrtRec fuel node d nn).2.1 i =
        getNode (rrtRec fuel node d nn).2.1 j → i = j) ∧
    (∀ r, (rrtRec fuel node d nn).1 = some r →
      r < (rrtRec fuel node d nn).2.1.heap.length) := by
  induction fuel with
  | zero =>
      intro node d nn hwf hnv hnu hnode
      cases node with
      | none =>
          rw [show rrtRec 0 none d nn = (none, d, nn) from rfl]
          exact ⟨hwf, ⟨[], by simp⟩, ⟨[], by simp⟩, hnv, hnu,
            fun r hr => Option.noConfusion hr⟩
      | some i =>
          rw [show rrtRec 0 (some i) d nn = (some i, d, nn) from rfl]
          refine ⟨hwf, ⟨[], by simp⟩, ⟨[], by simp⟩, hnv, hnu, ?_⟩
          intro r hr
          cases hr
          exact hnode i rfl
  | succ fuel ih =>
      intro node d nn hwf hnv hnu hnode
      cases node with
      | none =>
          rw [show rrtRec (fuel + 1) none d nn = (none, d, nn) from rfl]
          exact ⟨hwf, ⟨[], by simp⟩, ⟨[], by simp⟩, hnv, hnu,
            fun r hr => Option.noConfusion hr⟩
      | some i =>
          have hi_lt : i < d.heap.length := hnode i rfl
          have hchi := hwf.2.1 (getNode d i) (by
            have : getNode d i = d.heap[i] := by
              simp [getNode, List.getD, List.getElem?_eq_getElem hi_lt]
            rw [this]
            exact List.getElem_mem hi_lt)
          by_cases hT : (getNode d i).is_terminal = true
          · have hred : rrtRec (fuel + 1) (some i) d nn =
                (some i, d, if memEquiv d.heap nn i then nn else nn ++ [i]) := by
              simp only [rrtRec]
              rw [if_pos hT]
            rw [hred]
            by_cases hm : memEquiv d.heap nn i = true
            · rw [if_pos hm]
              exact ⟨hwf, ⟨[], by simp⟩, ⟨[], by simp⟩, hnv, hnu,
                fun r hr => by cases hr; exact hi_lt⟩
            · rw [if_neg hm]
              have hnm : ∀ x ∈ nn, d.heap.getD x default ≠ d.heap.getD i default := by
                intro x hx heq
                exact hm ((memEquiv_iff d.heap nn i).mpr ⟨x, hx, heq⟩)
              refine ⟨hwf, ⟨[], by simp⟩, ⟨[i], rfl⟩, ?_, ?_, ?_⟩
              · intro x hx
                rcases List.mem_append.mp hx with hx | hx
                · exact hnv x hx
                · simp only [List.mem_singleton] at hx
                  subst hx
                  exact hi_lt
              · intro a ha b hb heq
                rcases List.mem_append.mp ha with ha | ha <;>
                  rcases List.mem_append.mp hb with hb | hb
                · exact hnu a ha b hb heq
                · simp only [List.mem_singleton] at hb
                  exact absurd (hb ▸ heq) (hnm a ha)
                · simp only [List.mem_singleton] at ha
                  exact absurd (ha ▸ heq).symm (hnm b hb)
                · simp only [List.mem_singleton] at ha hb
                  rw [ha, hb]
              · intro r hr
                cases hr
                exact hi_lt
          · obtain ⟨hwf1, ⟨t1, he1⟩, ⟨u1, hn1⟩, hnv1, hnu1, hres1⟩ :=
              ih (getNode d i).low d nn hwf hnv hnu
                (fun s hs => hchi.1 s hs)
            obtain ⟨hwf2, ⟨t2, he2⟩, ⟨u2, hn2⟩, hnv2, hnu2, hres2⟩ :=
              ih (getNode d i).high (rrtRec fuel (getNode d i).low d nn).2.1
                (rrtRec fuel (getNode d i).low d nn).2.2 hwf1 hnv1 hnu1
                (fun s hs => by
                  have := hchi.2 s hs
                  rw [he1]
                  simp
                  omega)
            have hext12 : (rrtRec fuel (getNode d i).high
                (rrtRec fuel (getNode d i).low d nn).2.1
                (rrtRec fuel (getNode d i).low d nn).2.2).2.1.heap =
                d.heap ++ (t1 ++ t2) := by
              rw [he2, he1, List.append_assoc]
            by_cases hcoll : (rrtRec fuel (getNode d i).low d nn).1 ≠ none ∧
                (rrtRec fuel (getNode d i).low d nn).1 =
                (rrtRec fuel (getNode d i).high
                  (rrtRec fuel (getNode d i).low d nn).2.1
                  (rrtRec fuel (getNode d i).low d nn).2.2).1
            · have hred : rrtRec (fuel + 1) (some i) d nn =
                  ((rrtRec fuel (getNode d i).low d nn).1,
                   (rrtRec fuel (getNode d i).high
                     (rrtRec fuel (getNode d i).low d nn).2.1
                     (rrtRec fuel (getNode d i).low d nn).2.2).2.1,
                   (rrtRec fuel (getNode d i).high
                     (rrtRec fuel (getNode d i).low d nn).2.1
                     (rrtRec fuel (getNode d i).low d nn).2.2).2.2) := by
                simp only [rrtRec]
                rw [if_neg hT, if_pos hcoll]
              rw [hred]
              refine ⟨hwf2, ⟨t1 ++ t2, hext12⟩, ?_, hnv2, hnu2, ?_⟩
              · obtain ⟨u2', hn2'⟩ : ∃ u, (rrtRec fuel (getNode d i).high
                    (rrtRec fuel (getNode d i).low d nn).2.1
                    (rrtRec fuel (getNode d i).low d nn).2.2).2.2 =
                    (rrtRec fuel (getNode d i).low d nn).2.2 ++ u := ⟨u2, hn2⟩
                exact ⟨u1 ++ u2', by rw [hn2', hn1, List.append_assoc]⟩
              · intro r hr
                rw [hcoll.2] at hr
                exact hres2 r hr
            · have hred : rrtRec (fuel + 1) (some i) d nn =
                  (some (((if memEquiv (create_node (rrtRec fuel (getNode d i).high (rrtRec fuel (getNode d i).low d nn).2.1 (rrtRec fuel (getNode d i).low d nn).2.2).2.1 (getNode d i).var_index (rrtRec fuel (getNode d i).low d nn).1 (rrtRec fuel (getNode d i).high (rrtRec fuel (getNode d i).low d nn).2.1 (rrtRec fuel (getNode d i).low d nn).2.2).1 (getNode d i).value).2.heap (rrtRec fuel (getNode d i).high (rrtRec fuel (getNode d i).low d nn).2.1 (rrtRec fuel (getNode d i).low d nn).2.2).2.2 (create_node (rrtRec fuel (getNode d i).high (rrtRec fuel (getNode d i).low d nn).2.1 (rrtRec fuel (getNode d i).low d nn).2.2).2.1 (getNode d i).var_index (rrtRec fuel (getNode d i).low d nn).1 (rrtRec fuel (getNode d i).high (rrtRec fuel (getNode d i).low d nn).2.1 (rrtRec fuel (getNode d i).low d nn).2.2).1 (getNode d i).value).1 then (rrtRec fuel (getNode d i).high (rrtRec fuel (getNode d i).low d nn).2.1 (rrtRec fuel (getNode d i).low d nn).2.2).2.2 else (rrtRec fuel (getNode d i).high (rrtRec fuel (getNode d i).low d nn).2.1 (rrtRec fuel (getNode d i).low d nn).2.2).2.2 ++ [(create_node (rrtRec fuel (getNode d i).high (rrtRec fuel (getNode d i).low d nn).2.1 (rrtRec fuel (getNode d i).low d nn).2.2).2.1 (getNode d i).var_index (rrtRec fuel (getNode d i).low d nn).1 (rrtRec fuel (getNode d i).high (rrtRec fuel (getNode d i).low d nn).2.1 (rrtRec fuel (getNode d i).low d nn).2.2).1 (getNode d i).value).1]).find? (fun x => (create_node (rrtRec fuel (getNode d i).high (rrtRec fuel (getNode d i).low d nn).2.1 (rrtRec fuel (getNode d i).low d nn).2.2).2.1 (getNode d i).var_index (rrtRec fuel (getNode d i).low d nn).1 (rrtRec fuel (getNode d i).high (rrtRec fuel (getNode d i).low d nn).2.1 (rrtRec fuel (getNode d i).low d nn).2.2).1 (getNode d i).value).2.heap.getD x default = (create_node (rrtRec fuel (getNode d i).high (rrtRec fuel (getNode d i).low d nn).2.1 (rrtRec fuel (getNode d i).low d nn).2.2).2.1 (getNode d i).var_index (rrtRec fuel (getNode d i).low d nn).1 (rrtRec fuel (getNode d i).high (rrtRec fuel (getNode d i).low d nn).2.1 (rrtRec fuel (getNode d i).low d nn).2.2).1 (getNode d i).value).2.heap.getD (create_node (rrtRec fuel (getNode d i).high (rrtRec fuel (getNode d i).low d nn).2.1 (rrtRec fuel (getNode d i).low d nn).2.2).2.1 (getNode d i).var_index (rrtRec fuel (getNode d i).low d nn).1 (rrtRec fuel (getNode d i).high (rrtRec fuel (getNode d i).low d nn).2.1 (rrtRec fuel (getNode d i).low d nn).2.2).1 (getNode d i).value).1 default)).getD (create_node (rrtRec fuel (getNode d i).high (rrtRec fuel (getNode d i).low d nn).2.1 (rrtRec fuel (getNode d i).low d nn).2.2).2.1 (getNode d i).var_index (rrtRec fuel (getNode d i).low d nn).1 (rrtRec fuel (getNode d i).high (rrtRec fuel (getNode d i).low d nn).2.1 (rrtRec fuel (getNode d i).low d nn).2.2).1 (getNode d i).value).1), (create_node (rrtRec fuel (getNode d i).high (rrtRec fuel (getNode d i).low d nn).2.1 (rrtRec fuel (getNode d i).low d nn).2.2).2.1 (getNode d i).var_index (rrtRec fuel (getNode d i).low d nn).1 (rrtRec fuel (getNode d i).high (rrtRec fuel (getNode d i).low d nn).2.1 (rrtRec fuel (getNode d i).low d nn).2.2).1 (getNode d i).value).2, (if memEquiv (create_node (rrtRec fuel (getNode d i).high (rrtRec fuel (getNode d i).low d nn).2.1 (rrtRec fuel (getNode d i).low d nn).2.2).2.1 (getNode d i).var_index (rrtRec fuel (getNode d i).low d nn).1 (rrtRec fuel (getNode d i).high (rrtRec fuel (getNode d i).low d nn).2.1 (rrtRec fuel (getNode d i).low d nn).2.2).1 (getNode d i).value).2.heap (rrtRec fuel (getNode d i).high (rrtRec fuel (getNode d i).low d nn).2.1 (rrtRec fuel (getNode d i).low d nn).2.2).2.2 (create_node (rrtRec fuel (getNode d i).high (rrtRec fuel (getNode d i).low d nn).2.1 (rrtRec fuel (getNode d i).low d nn).2.2).2.1 (getNode d i).var_index (rrtRec fuel (getNode d i).low d nn).1 (rrtRec fuel (getNode d i).high (rrtRec fuel (getNode d i).low d nn).2.1 (rrtRec fuel (getNode d i).low d nn).2.2).1 (getNode d i).value).1 then (rrtRec fuel (getNode d i).high (rrtRec fuel (getNode d i).low d nn).2.1 (rrtRec fuel (getNode d i).low d nn).2.2).2.2 else (rrtRec fuel (getNode d i).high (rrtRec fuel (getNode d i).low d nn).2.1 (rrtRec fuel (getNode d i).low d nn).2.2).2.2 ++ [(create_node (rrtRec fuel (getNode d i).high (rrtRec fuel (getNode d i).low d nn).2.1 (rrtRec fuel (getNode d i).low d nn).2.2).2.1 (getNode d i).var_index (rrtRec fuel (getNode d i).low d nn).1 (rrtRec fuel (getNode d i).high (rrtRec fuel (getNode d i).low d nn).2.1 (rrtRec fuel (getNode d i).low d nn).2.2).1 (getNode d i).value).1])) := by
                simp only [rrtRec]
                rw [if_neg hT, if_neg hcoll]
              have hPLv : ∀ r, (rrtRec fuel (getNode d i).low d nn).1 = some r → r < (rrtRec fuel (getNode d i).high (rrtRec fuel (getNode d i).low d nn).2.1 (rrtRec fuel (getNode d i).low d nn).2.2).2.1.heap.length := by
                intro r hr
                have := hres1 r hr
                rw [he2]
                simp
                omega
              obtain ⟨hwfc, hltc⟩ := create_node_wfCore (rrtRec fuel (getNode d i).high (rrtRec fuel (getNode d i).low d nn).2.1 (rrtRec fuel (getNode d i).low d nn).2.2).2.1
                (getNode d i).var_index (rrtRec fuel (getNode d i).low d nn).1 (rrtRec fuel (getNode d i).high (rrtRec fuel (getNode d i).low d nn).2.1 (rrtRec fuel (getNode d i).low d nn).2.2).1 (getNode d i).value
                hwf2 hPLv hres2
              obtain ⟨_, _, ⟨t3, he3⟩, _, _⟩ := create_node_spec (rrtRec fuel (getNode d i).high (rrtRec fuel (getNode d i).low d nn).2.1 (rrtRec fuel (getNode d i).low d nn).2.2).2.1
                (getNode d i).var_index (rrtRec fuel (getNode d i).low d nn).1 (rrtRec fuel (getNode d i).high (rrtRec fuel (getNode d i).low d nn).2.1 (rrtRec fuel (getNode d i).low d nn).2.2).1 (getNode d i).value
              have hnv3 : ∀ x ∈ (rrtRec fuel (getNode d i).high (rrtRec fuel (getNode d i).low d nn).2.1 (rrtRec fuel (getNode d i).low d nn).2.2).2.2, x < (create_node (rrtRec fuel (getNode d i).high (rrtRec fuel (getNode d i).low d nn).2.1 (rrtRec fuel (getNode d i).low d nn).2.2).2.1 (getNode d i).var_index (rrtRec fuel (getNode d i).low d nn).1 (rrtRec fuel (getNode d i).high (rrtRec fuel (getNode d i).low d nn).2.1 (rrtRec fuel (getNode d i).low d nn).2.2).1 (getNode d i).value).2.heap.length := by
                intro x hx
                have := hnv2 x hx
                rw [he3]
                simp
                omega
              have hnu3 : ∀ a ∈ (rrtRec fuel (getNode d i).high (rrtRec fuel (getNode d i).low d nn).2.1 (rrtRec fuel (getNode d i).low d nn).2.2).2.2, ∀ b ∈ (rrtRec fuel (getNode d i).high (rrtRec fuel (getNode d i).low d nn).2.1 (rrtRec fuel (getNode d i).low d nn).2.2).2.2,
                  getNode (create_node (rrtRec fuel (getNode d i).high (rrtRec fuel (getNode d i).low d nn).2.1 (rrtRec fuel (getNode d i).low d nn).2.2).2.1 (getNode d i).var_index (rrtRec fuel (getNode d i).low d nn).1 (rrtRec fuel (getNode d i).high (rrtRec fuel (getNode d i).low d nn).2.1 (rrtRec fuel (getNode d i).low d nn).2.2).1 (getNode d i).value).2 a = getNode (create_node (rrtRec fuel (getNode d i).high (rrtRec fuel (getNode d i).low d nn).2.1 (rrtRec fuel (getNode d i).low d nn).2.2).2.1 (getNode d i).var_index (rrtRec fuel (getNode d i).low d nn).1 (rrtRec fuel (getNode d i).high (rrtRec fuel (getNode d i).low d nn).2.1 (rrtRec fuel (getNode d i).low d nn).2.2).1 (getNode d i).value).2 b → a = b :=
                uniq_heap_ext _ he3 hnv2 hnu2
              have hnnv : ∀ x ∈ (if memEquiv (create_node (rrtRec fuel (getNode d i).high (rrtRec fuel (getNode d i).low d nn).2.1 (rrtRec fuel (getNode d i).low d nn).2.2).2.1 (getNode d i).var_index (rrtRec fuel (getNode d i).low d nn).1 (rrtRec fuel (getNode d i).high (rrtRec fuel (getNode d i).low d nn).2.1 (rrtRec fuel (getNode d i).low d nn).2.2).1 (getNode d i).value).2.heap (rrtRec fuel (getNode d i).high (rrtRec fuel (getNode d i).low d nn).2.1 (rrtRec fuel (getNode d i).low d nn).2.2).2.2 (create_node (rrtRec fuel (getNode d i).high (rrtRec fuel (getNode d i).low d nn).2.1 (rrtRec fuel (getNode d i).low d nn).2.2).2.1 (getNode d i).var_index (rrtRec fuel (getNode d i).low d nn).1 (rrtRec fuel (getNode d i).high (rrtRec fuel (getNode d i).low d nn).2.1 (rrtRec fuel (getNode d i).low d nn).2.2).1 (getNode d i).value).1 then (rrtRec fuel (getNode d i).high (rrtRec fuel (getNode d i).low d nn).2.1 (rrtRec fuel (getNode d i).low d nn).2.2).2.2 else (rrtRec fuel (getNode d i).high (rrtRec fuel (getNode d i).low d nn).2.1 (rrtRec fuel (getNode d i).low d nn).2.2).2.2 ++ [(create_node (rrtRec fuel (getNode d i).high (rrtRec fuel (getNode d i).low d nn).2.1 (rrtRec fuel (getNode d i).low d nn).2.2).2.1 (getNode d i).var_index (rrtRec fuel (getNode d i).low d nn).1 (rrtRec fuel (getNode d i).high (rrtRec fuel (getNode d i).low d nn).2.1 (rrtRec fuel (getNode d i).low d nn).2.2).1 (getNode d i).value).1]), x < (create_node (rrtRec fuel (getNode d i).high (rrtRec fuel (getNode d i).low d nn).2.1 (rrtRec fuel (getNode d i).low d nn).2.2).2.1 (getNode d i).var_index (rrtRec fuel (getNode d i).low d nn).1 (rrtRec fuel (getNode d i).high (rrtRec fuel (getNode d i).low d nn).2.1 (rrtRec fuel (getNode d i).low d nn).2.2).1 (getNode d i).value).2.heap.length := by
                by_cases hm : memEquiv (create_node (rrtRec fuel (getNode d i).high (rrtRec fuel (getNode d i).low d nn).2.1 (rrtRec fuel (getNode d i).low d nn).2.2).2.1 (getNode d i).var_index (rrtRec fuel (getNode d i).low d nn).1 (rrtRec fuel (getNode d i).high (rrtRec fuel (getNode d i).low d nn).2.1 (rrtRec fuel (getNode d i).low d nn).2.2).1 (getNode d i).value).2.heap (rrtRec fuel (getNode d i).high (rrtRec fuel (getNode d i).low d nn).2.1 (rrtRec fuel (getNode d i).low d nn).2.2).2.2 (create_node (rrtRec fuel (getNode d i).high (rrtRec fuel (getNode d i).low d nn).2.1 (rrtRec fuel (getNode d i).low d nn).2.2).2.1 (getNode d i).var_index (rrtRec fuel (getNode d i).low d nn).1 (rrtRec fuel (getNode d i).high (rrtRec fuel (getNode d i).low d nn).2.1 (rrtRec fuel (getNode d i).low d nn).2.2).1 (getNode d i).value).1 = true
                · rw [if_pos hm]
                  exact hnv3
                · rw [if_neg hm]
                  intro x hx
                  rcases List.mem_append.mp hx with hx | hx
                  · exact hnv3 x hx
                  · simp only [List.mem_singleton] at hx
                    subst hx
                    exact hltc
              have hnnu : ∀ a ∈ (if memEquiv (create_node (rrtRec fuel (getNode d i).high (rrtRec fuel (getNode d i).low d nn).2.1 (rrtRec fuel (getNode d i).low d nn).2.2).2.1 (getNode d i).var_index (rrtRec fuel (getNode d i).low d nn).1 (rrtRec fuel (getNode d i).high (rrtRec fuel (getNode d i).low d nn).2.1 (rrtRec fuel (getNode d i).low d nn).2.2).1 (getNode d i).value).2.heap (rrtRec fuel (getNode d i).high (rrtRec fuel (getNode d i).low d nn).2.1 (rrtRec fuel (getNode d i).low d nn).2.2).2.2 (create_node (rrtRec fuel (getNode d i).high (rrtRec fuel (getNode d i).low d nn).2.1 (rrtRec fuel (getNode d i).low d nn).2.2).2.1 (getNode d i).var_index (rrtRec fuel (getNode d i).low d nn).1 (rrtRec fuel (getNode d i).high (rrtRec fuel (getNode d i).low d nn).2.1 (rrtRec fuel (getNode d i).low d nn).2.2).1 (getNode d i).value).1 then (rrtRec fuel (getNode d i).high (rrtRec fuel (getNode d i).low d nn).2.1 (rrtRec fuel (getNode d i).low d nn).2.2).2.2 else (rrtRec fuel (getNode d i).high (rrtRec fuel (getNode d i).low d nn).2.1 (rrtRec fuel (getNode d i).low d nn).2.2).2.2 ++ [(create_node (rrtRec fuel (getNode d i).high (rrtRec fuel (getNode d i).low d nn).2.1 (rrtRec fuel (getNode d i).low d nn).2.2).2.1 (getNode d i).var_index (rrtRec fuel (getNode d i).low d nn).1 (rrtRec fuel (getNode d i).high (rrtRec fuel (getNode d i).low d nn).2.1 (rrtRec fuel (getNode d i).low d nn).2.2).1 (getNode d i).value).1]), ∀ b ∈ (if memEquiv (create_node (rrtRec fuel (getNode d i).high (rrtRec fuel (getNode d i).low d nn).2.1 (rrtRec fuel (getNode d i).low d nn).2.2).2.1 (getNode d i).var_index (rrtRec fuel (getNode d i).low d nn).1 (rrtRec fuel (getNode d i).high (rrtRec fuel (getNode d i).low d nn).2.1 (rrtRec fuel (getNode d i).low d nn).2.2).1 (getNode d i).value).2.heap (rrtRec fuel (getNode d i).high (rrtRec fuel (getNode d i).low d nn).2.1 (rrtRec fuel (getNode d i).low d nn).2.2).2.2 (create_node (rrtRec fuel (getNode d i).high (rrtRec fuel (getNode d i).low d nn).2.1 (rrtRec fuel (getNode d i).low d nn).2.2).2.1 (getNode d i).var_index (rrtRec fuel (getNode d i).low d nn).1 (rrtRec fuel (getNode d i).high (rrtRec fuel (getNode d i).low d nn).2.1 (rrtRec fuel (getNode d i).low d nn).2.2).1 (getNode d i).value).1 then (rrtRec fuel (getNode d i).high (rrtRec fuel (getNode d i).low d nn).2.1 (rrtRec fuel (getNode d i).low d nn).2.2).2.2 else (rrtRec fuel (getNode d i).high (rrtRec fuel (getNode d i).low d nn).2.1 (rrtRec fuel (getNode d i).low d nn).2.2).2.2 ++ [(create_node (rrtRec fuel (getNode d i).high (rrtRec fuel (getNode d i).low d nn).2.1 (rrtRec fuel (getNode d i).low d nn).2.2).2.1 (getNode d i).var_index (rrtRec fuel (getNode d i).low d nn).1 (rrtRec fuel (getNode d i).high (rrtRec fuel (getNode d i).low d nn).2.1 (rrtRec fuel (getNode d i).low d nn).2.2).1 (getNode d i).value).1]),
                  getNode (create_node (rrtRec fuel (getNode d i).high (rrtRec fuel (getNode d i).low d nn).2.1 (rrtRec fuel (getNode d i).low d nn).2.2).2.1 (getNode d i).var_index (rrtRec fuel (getNode d i).low d nn).1 (rrtRec fuel (getNode d i).high (rrtRec fuel (getNode d i).low d nn).2.1 (rrtRec fuel (getNode d i).low d nn).2.2).1 (getNode d i).value).2 a = getNode (create_node (rrtRec fuel (getNode d i).high (rrtRec fuel (getNode d i).low d nn).2.1 (rrtRec fuel (getNode d i).low d nn).2.2).2.1 (getNode d i).var_index (rrtRec fuel (getNode d i).low d nn).1 (rrtRec fuel (getNode d i).high (rrtRec fuel (getNode d i).low d nn).2.1 (rrtRec fuel (getNode d i).low d nn).2.2).1 (getNode d i).value).2 b → a = b := by
                by_cases hm : memEquiv (create_node (rrtRec fuel (getNode d i).high (rrtRec fuel (getNode d i).low d nn).2.1 (rrtRec fuel (getNode d i).low d nn).2.2).2.1 (getNode d i).var_index (rrtRec fuel (getNode d i).low d nn).1 (rrtRec fuel (getNode d i).high (rrtRec fuel (getNode d i).low d nn).2.1 (rrtRec fuel (getNode d i).low d nn).2.2).1 (getNode d i).value).2.heap (rrtRec fuel (getNode d i).high (rrtRec fuel (getNode d i).low d nn).2.1 (rrtRec fuel (getNode d i).low d nn).2.2).2.2 (create_node (rrtRec fuel (getNode d i).high (rrtRec fuel (getNode d i).low d nn).2.1 (rrtRec fuel (getNode d i).low d nn).2.2).2.1 (getNode d i).var_index (rrtRec fuel (getNode d i).low d nn).1 (rrtRec fuel (getNode d i).high (rrtRec fuel (getNode d i).low d nn).2.1 (rrtRec fuel (getNode d i).low d nn).2.2).1 (getNode d i).value).1 = true
                · rw [if_pos hm]
                  exact hnu3
                · rw [if_neg hm]
                  have hnm : ∀ x ∈ (rrtRec fuel (getNode d i).high (rrtRec fuel (getNode d i).low d nn).2.1 (rrtRec fuel (getNode d i).low d nn).2.2).2.2,
                      (create_node (rrtRec fuel (getNode d i).high (rrtRec fuel (getNode d i).low d nn).2.1 (rrtRec fuel (getNode d i).low d nn).2.2).2.1 (getNode d i).var_index (rrtRec fuel (getNode d i).low d nn).1 (rrtRec fuel (getNode d i).high (rrtRec fuel (getNode d i).low d nn).2.1 (rrtRec fuel (getNode d i).low d nn).2.2).1 (getNode d i).value).2.heap.getD x default ≠
                      (create_node (rrtRec fuel (getNode d i).high (rrtRec fuel (getNode d i).low d nn).2.1 (rrtRec fuel (getNode d i).low d nn).2.2).2.1 (getNode d i).var_index (rrtRec fuel (getNode d i).low d nn).1 (rrtRec fuel (getNode d i).high (rrtRec fuel (getNode d i).low d nn).2.1 (rrtRec fuel (getNode d i).low d nn).2.2).1 (getNode d i).value).2.heap.getD (create_node (rrtRec fuel (getNode d i).high (rrtRec fuel (getNode d i).low d nn).2.1 (rrtRec fuel (getNode d i).low d nn).2.2).2.1 (getNode d i).var_index (rrtRec fuel (getNode d i).low d nn).1 (rrtRec fuel (getNode d i).high (rrtRec fuel (getNode d i).low d nn).2.1 (rrtRec fuel (getNode d i).low d nn).2.2).1 (getNode d i).value).1 default := by
                    intro x hx heq
                    exact hm ((memEquiv_iff _ _ _).mpr ⟨x, hx, heq⟩)
                  intro a ha b hb heq
                  rcases List.mem_append.mp ha with ha | ha <;>
                    rcases List.mem_append.mp hb with hb | hb
                  · exact hnu3 a ha b hb heq
                  · simp only [List.mem_singleton] at hb
                    exact absurd (hb ▸ heq) (hnm a ha)
                  · simp only [List.mem_singleton] at ha
                    exact absurd (ha ▸ heq).symm (hnm b hb)
                  · simp only [List.mem_singleton] at ha hb
                    rw [ha, hb]
              rw [hred]
              refine ⟨hwfc, ?_, ?_, hnnv, hnnu, ?_⟩
              · refine ⟨t1 ++ t2 ++ t3, ?_⟩
                rw [he3, he2, he1]
                simp [List.append_assoc]
              · by_cases hm : memEquiv (create_node (rrtRec fuel (getNode d i).high (rrtRec fuel (getNode d i).low d nn).2.1 (rrtRec fuel (getNode d i).low d nn).2.2).2.1 (getNode d i).var_index (rrtRec fuel (getNode d i).low d nn).1 (rrtRec fuel (getNode d i).high (rrtRec fuel (getNode d i).low d nn).2.1 (rrtRec fuel (getNode d i).low d nn).2.2).1 (getNode d i).value).2.heap (rrtRec fuel (getNode d i).high (rrtRec fuel (getNode d i).low d nn).2.1 (rrtRec fuel (getNode d i).low d nn).2.2).2.2 (create_node (rrtRec fuel (getNode d i).high (rrtRec fuel (getNode d i).low d nn).2.1 (rrtRec fuel (getNode d i).low d nn).2.2).2.1 (getNode d i).var_index (rrtRec fuel (getNode d i).low d nn).1 (rrtRec fuel (getNode d i).high (rrtRec fuel (getNode d i).low d nn).2.1 (rrtRec fuel (getNode d i).low d nn).2.2).1 (getNode d i).value).1 = true
                · rw [if_pos hm]
                  exact ⟨u1 ++ u2, by rw [hn2, hn1, List.append_assoc]⟩
                · rw [if_neg hm]
                  exact ⟨u1 ++ u2 ++ [(create_node (rrtRec fuel (getNode d i).high (rrtRec fuel (getNode d i).low d nn).2.1 (rrtRec fuel (getNode d i).low d nn).2.2).2.1 (getNode d i).var_index (rrtRec fuel (getNode d i).low d nn).1 (rrtRec fuel (getNode d i).high (rrtRec fuel (getNode d i).low d nn).2.1 (rrtRec fuel (getNode d i).low d nn).2.2).1 (getNode d i).value).1],
                    by rw [hn2, hn1]; simp [List.append_assoc]⟩
              · intro r hr
                cases hr
                cases hfind : (if memEquiv (create_node (rrtRec fuel (getNode d i).high (rrtRec fuel (getNode d i).low d nn).2.1 (rrtRec fuel (getNode d i).low d nn).2.2).2.1 (getNode d i).var_index (rrtRec fuel (getNode d i).low d nn).1 (rrtRec fuel (getNode d i).high (rrtRec fuel (getNode d i).low d nn).2.1 (rrtRec fuel (getNode d i).low d nn).2.2).1 (getNode d i).value).2.heap (rrtRec fuel (getNode d i).high (rrtRec fuel (getNode d i).low d nn).2.1 (rrtRec fuel (getNode d i).low d nn).2.2).2.2 (create_node (rrtRec fuel (getNode d i).high (rrtRec fuel (getNode d i).low d nn).2.1 (rrtRec fuel (getNode d i).low d nn).2.2).2.1 (getNode d i).var_index (rrtRec fuel (getNode d i).low d nn).1 (rrtRec fuel (getNode d i).high (rrtRec fuel (getNode d i).low d nn).2.1 (rrtRec fuel (getNode d i).low d nn).2.2).1 (getNode d i).value).1 then (rrtRec fuel (getNode d i).high (rrtRec fuel (getNode d i).low d nn).2.1 (rrtRec fuel (getNode d i).low d nn).2.2).2.2 else (rrtRec fuel (getNode d i).high (rrtRec fuel (getNode d i).low d nn).2.1 (rrtRec fuel (getNode d i).low d nn).2.2).2.2 ++ [(create_node (rrtRec fuel (getNode d i).high (rrtRec fuel (getNode d i).low d nn).2.1 (rrtRec fuel (getNode d i).low d nn).2.2).2.1 (getNode d i).var_index (rrtRec fuel (getNode d i).low d nn).1 (rrtRec fuel (getNode d i).high (rrtRec fuel (getNode d i).low d nn).2.1 (rrtRec fuel (getNode d i).low d nn).2.2).1 (getNode d i).value).1]).find? (fun x =>
                    (create_node (rrtRec fuel (getNode d i).high (rrtRec fuel (getNode d i).low d nn).2.1 (rrtRec fuel (getNode d i).low d nn).2.2).2.1 (getNode d i).var_index (rrtRec fuel (getNode d i).low d nn).1 (rrtRec fuel (getNode d i).high (rrtRec fuel (getNode d i).low d nn).2.1 (rrtRec fuel (getNode d i).low d nn).2.2).1 (getNode d i).value).2.heap.getD x default =
                    (create_node (rrtRec fuel (getNode d i).high (rrtRec fuel (getNode d i).low d nn).2.1 (rrtRec fuel (getNode d i).low d nn).2.2).2.1 (getNode d i).var_index (rrtRec fuel (getNode d i).low d nn).1 (rrtRec fuel (getNode d i).high (rrtRec fuel (getNode d i).low d nn).2.1 (rrtRec fuel (getNode d i).low d nn).2.2).1 (getNode d i).value).2.heap.getD (create_node (rrtRec fuel (getNode d i).high (rrtRec fuel (getNode d i).low d nn).2.1 (rrtRec fuel (getNode d i).low d nn).2.2).2.1 (getNode d i).var_index (rrtRec fuel (getNode d i).low d nn).1 (rrtRec fuel (getNode d i).high (rrtRec fuel (getNode d i).low d nn).2.1 (rrtRec fuel (getNode d i).low d nn).2.2).1 (getNode d i).value).1 default) with
                | some w =>
                    have hw := List.mem_of_find?_eq_some hfind
                    exact hnnv w hw
                | none =>
                    exact hltc

/-- The fold of `remove_redundant_tests` over the root bindings preserves
well-formedness of the threaded manager, only extends the heap, and keeps
the fresh node set and the rewritten bindings valid and the fresh set
pairwise unique. -/
theorem rrt_fold_wf (fuel : Nat) (d0 : MtRobdd) :
    ∀ (rs : List (Nat × Nat)) (acc : MtRobdd × List Nat × List (Nat × Nat)),
    (∀ p ∈ rs, p.2 < d0.heap.length) →
    wfCore acc.1 →
    (∃ t, acc.1.heap = d0.heap ++ t) →
    (∀ x ∈ acc.2.1, x < acc.1.heap.length) →
    (∀ i ∈ acc.2.1, ∀ j ∈ acc.2.1, getNode acc.1 i = getNode acc.1 j → i = j) →
    (∀ p ∈ acc.2.2, p.2 < acc.1.heap.length) →
    wfCore (rs.foldl (rrtStep fuel) acc).1 ∧
    (∃ t, (rs.foldl (rrtStep fuel) acc).1.heap = d0.heap ++ t) ∧
    (∀ x ∈ (rs.foldl (rrtStep fuel) acc).2.1,
      x < (rs.foldl (rrtStep fuel) acc).1.heap.length) ∧
    (∀ i ∈ (rs.foldl (rrtStep fuel) acc).2.1,
      ∀ j ∈ (rs.foldl (rrtStep fuel) acc).2.1,
      getNode (rs.foldl (rrtStep fuel) acc).1 i =
        getNode (rs.foldl (rrtStep fuel) acc).1 j → i = j) ∧
    (∀ p ∈ (rs.foldl (rrtStep fuel) acc).2.2,
      p.2 < (rs.foldl (rrtStep fuel) acc).1.heap.length) := by
  intro rs
  induction rs with
  | nil =>
      intro acc _ hwf hext hv hu hr
      exact ⟨hwf, hext, hv, hu, hr⟩
  | cons p rs ih =>
      intro acc hrs hwf hext hv hu hr
      obtain ⟨t, ht⟩ := hext
      have hp2 : p.2 < acc.1.heap.length := by
        rw [ht]
        simp only [List.length_append]
        have := hrs p (List.mem_cons_self _ _)
        omega
      obtain ⟨hwf2, ⟨u, hu2⟩, _, hv2, huq2, hptr⟩ :=
        rrtRec_wf fuel (some p.2) acc.1 acc.2.1 hwf hv hu
          (fun s hs => by cases hs; exact hp2)
      have hfold : (p :: rs).foldl (rrtStep fuel) acc =
          rs.foldl (rrtStep fuel) (rrtStep fuel acc p) := rfl
      rw [hfold]
      refine ih (rrtStep fuel acc p)
        (fun q hq => hrs q (List.mem_cons_of_mem _ hq)) hwf2
        ⟨t ++ u, ?_⟩ hv2 huq2 ?_
      · show (rrtRec fuel (some p.2) acc.1 acc.2.1).2.1.heap = d0.heap ++ (t ++ u)
        rw [hu2, ht, List.append_assoc]
      · intro q hq
        have hq2 : q ∈ acc.2.2 ++
            [(p.1, (rrtRec fuel (some p.2) acc.1 acc.2.1).1.getD p.2)] := hq
        show q.2 < (rrtRec fuel (some p.2) acc.1 acc.2.1).2.1.heap.length
        rcases List.mem_append.mp hq2 with hq1 | hq1
        · have := hr q hq1
          rw [hu2]
          simp only [List.length_append]
          omega
        · simp only [List.mem_singleton] at hq1
          subst hq1
          cases hres : (rrtRec fuel (some p.2) acc.1 acc.2.1).1 with
          | none =>
              simp only [Option.getD_none]
              rw [hu2]
              simp only [List.length_append]
              omega
          | some r =>
              simp only [Option.getD_some]
              exact hptr r hres

theorem remove_redundant_tests_WF (d : MtRobdd) (h : WF d) :
    WF (remove_redundant_tests d) := by
  obtain ⟨hwf, hroots⟩ := h
  obtain ⟨hwf2, _, hv2, hu2, hr2⟩ :=
    rrt_fold_wf (d.num_of_vars + 1) d d.roots (d, [], [])
      hroots hwf ⟨[], by simp⟩ (by simp) (by simp) (by simp)
  refine ⟨⟨?_, ?_, ?_⟩, ?_⟩
  · intro i hi
    exact hv2 i hi
  · intro n hn
    exact hwf2.2.1 n hn
  · intro i hi j hj heq
    exact hu2 i hi j hj heq
  · intro p hp
    exact hr2 p hp

/-! ### C2: hash-cons uniqueness after every public operation -/

/-- Hash-cons uniqueness of the store: two store members whose records are
structurally equal (same variable index, pointer-identical children, same
value — the `NodePtrEqual` relation) are the same pointer. -/
def storeUniq (d : MtRobdd) : Prop :=
  ∀ i ∈ d.store, ∀ j ∈ d.store, getNode d i = getNode d j → i = j

theorem WF_storeUniq {d : MtRobdd} (h : WF d) : storeUniq d := h.1.2.2

theorem create_node_WF (d : MtRobdd) (var : Int) (low high : Option Nat)
    (value : Nat) (h : WF d)
    (hl : ∀ l, low = some l → l < d.heap.length)
    (hh : ∀ x, high = some x → x < d.heap.length) :
    WF (create_node d var low high value).2 := by
  obtain ⟨hcore, hroots⟩ := h
  have hw := (create_node_wfCore d var low high value hcore hl hh).1
  obtain ⟨_, _, ⟨t, ht⟩, _, hrr⟩ := create_node_spec d var low high value
  refine ⟨hw, ?_⟩
  intro p hp
  rw [hrr] at hp
  have := hroots p hp
  rw [ht]
  simp only [List.length_append]
  omega

theorem create_root_node_WF (d : MtRobdd) (name : Nat) (h : WF d) :
    WF (create_root_node d name).2 := by
  obtain ⟨hcore, hroots⟩ := h
  obtain ⟨hw, hlt⟩ := create_node_wfCore d 0 none none MAX_NODE_VALUE hcore
    (fun l hl => Option.noConfusion hl) (fun x hx => Option.noConfusion hx)
  obtain ⟨_, _, ⟨t, ht⟩, _, hrr⟩ := create_node_spec d 0 none none MAX_NODE_VALUE
  refine ⟨hw, ?_⟩
  intro p hp
  have hp2 : p ∈ mapInsert name (create_node d 0 none none MAX_NODE_VALUE).1
      (create_node d 0 none none MAX_NODE_VALUE).2.roots := hp
  show p.2 < (create_node d 0 none none MAX_NODE_VALUE).2.heap.length
  rcases mapInsert_mem _ _ _ p hp2 with rfl | hp3
  · exact hlt
  · rw [hrr] at hp3
    have := hroots p hp3
    rw [ht]
    simp only [List.length_append]
    omega

theorem promote_to_root_WF (d : MtRobdd) (i name : Nat) (h : WF d)
    (hi : i < d.heap.length) :
    WF (promote_to_root d i name).2 := by
  obtain ⟨hcore, hroots⟩ := h
  refine ⟨hcore, ?_⟩
  intro p hp
  have hp2 : p ∈ mapInsert name i d.roots := hp
  show p.2 < d.heap.length
  rcases mapInsert_mem _ _ _ p hp2 with rfl | hp3
  · exact hi
  · exact hroots p hp3

theorem insert_bit_string_WF (d : MtRobdd) (src : Option Nat) (var : Nat)
    (bits : List Bool) (v : Nat) (h : WF d)
    (hsrc : ∀ s, src = some s → s < d.heap.length) :
    WF (insert_bit_string d src var bits v).2 := by
  obtain ⟨hcore, hroots⟩ := h
  obtain ⟨hw, _⟩ := insertAux_wfCore d (d.num_of_vars - var) var src bits v
    hcore hsrc
  obtain ⟨⟨t, ht⟩, _, hrr, _⟩ :=
    insertAux_frame d (d.num_of_vars - var) var src bits v
  refine ⟨hw, ?_⟩
  intro p hp
  have hp2 : p ∈ (insertAux d (d.num_of_vars - var) var src bits v).2.roots := hp
  rw [hrr] at hp2
  have := hroots p hp2
  show p.2 < (insertAux d (d.num_of_vars - var) var src bits v).2.heap.length
  rw [ht]
  simp only [List.length_append]
  omega

/-- C2: on a well-formed manager (live store and root pointers, live heap
children, hash-cons uniqueness) every public operation — `create_node` on
live children, `create_root_node`, `promote_to_root` to a live node,
`insert_bit_string` from a live source, `insert_bit_string_from_root`,
`trim`, `remove_redundant_tests` and `make_complete` — returns a manager
that is again well-formed, and in particular satisfies hash-cons
uniqueness: any two store members with structurally equal records (same
variable index, pointer-identical low and high children, same terminal
value) are the same physical node. -/
theorem public_ops_preserve_hash_cons_uniqueness (d : MtRobdd) (h : WF d) :
    (∀ var low high value,
      (∀ l, low = some l → l < d.heap.length) →
      (∀ x, high = some x → x < d.heap.length) →
      WF (create_node d var low high value).2 ∧
      storeUniq (create_node d var low high value).2) ∧
    (∀ name, WF (create_root_node d name).2 ∧
      storeUniq (create_root_node d name).2) ∧
    (∀ i name, i < d.heap.length →
      WF (promote_to_root d i name).2 ∧
      storeUniq (promote_to_root d i name).2) ∧
    (∀ src var bits v, (∀ s, src = some s → s < d.heap.length) →
      WF (insert_bit_string d src var bits v).2 ∧
      storeUniq (insert_bit_string d src var bits v).2) ∧
    (∀ name bits v, WF (insert_bit_string_from_root d name bits v).2 ∧
      storeUniq (insert_bit_string_from_root d name bits v).2) ∧
    (WF (trim d) ∧ storeUniq (trim d)) ∧
    (WF (remove_redundant_tests d) ∧ storeUniq (remove_redundant_tests d)) ∧
    (∀ sv ct, WF (make_complete d sv ct) ∧
      storeUniq (make_complete d sv ct)) := by
  refine ⟨?_, ?_, ?_, ?_, ?_, ?_, ?_, ?_⟩
  · intro var low high value hl hh
    have hw := create_node_WF d var low high value h hl hh
    exact ⟨hw, WF_storeUniq hw⟩
  · intro name
    have hw := create_root_node_WF d name h
    exact ⟨hw, WF_storeUniq hw⟩
  · intro i name hi
    have hw := promote_to_root_WF d i name h hi
    exact ⟨hw, WF_storeUniq hw⟩
  · intro src var bits v hsrc
    have hw := insert_bit_string_WF d src var bits v h hsrc
    exact ⟨hw, WF_storeUniq hw⟩
  · intro name bits v
    have hw := insert_from_root_WF d name bits v h
    exact ⟨hw, WF_storeUniq hw⟩
  · have hw := trim_WF d h
    exact ⟨hw, WF_storeUniq hw⟩
  · have hw := remove_redundant_tests_WF d h
    exact ⟨hw, WF_storeUniq hw⟩
  · intro sv ct
    have hw := make_complete_WF d sv ct h
    exact ⟨hw, WF_storeUniq hw⟩

/-- Witness for `public_ops_preserve_hash_cons_uniqueness` at the fresh
two-variable manager, exercising the `create_node` and `make_complete`
components. -/
theorem public_ops_preserve_hash_cons_uniqueness_witness :
    WF (MtRobdd.mk0 2) ∧
    storeUniq (create_node (MtRobdd.mk0 2) 0 none none 5).2 ∧
    storeUniq (make_complete (MtRobdd.mk0 2) 7 true) := by
  have hwf : WF (MtRobdd.mk0 2) :=
    ⟨⟨fun i hi => absurd hi (List.not_mem_nil _),
      fun n hn => absurd hn (List.not_mem_nil _),
      fun i hi => absurd hi (List.not_mem_nil _)⟩,
     fun p hp => absurd hp (List.not_mem_nil _)⟩
  refine ⟨hwf, ?_, ?_⟩
  · exact ((public_ops_preserve_hash_cons_uniqueness (MtRobdd.mk0 2) hwf).1
      0 none none 5 (fun l hl => Option.noConfusion hl)
      (fun x hx => Option.noConfusion hx)).2
  · exact ((public_ops_preserve_hash_cons_uniqueness (MtRobdd.mk0 2)
      hwf).2.2.2.2.2.2.2 7 true).2

/-! ### C9: idempotence of the canonicalization passes -/

/-- `trimLoop` reads its manager argument only through the arena, so two
managers with the same heap run it identically. -/
theorem trimLoop_heap_only (d d' : MtRobdd) (hh : d'.heap = d.heap) :
    ∀ fuel w acc, trimLoop d' fuel w acc = trimLoop d fuel w acc := by
  intro fuel
  induction fuel with
  | zero => intro w acc; rfl
  | succ fuel ih =>
      intro w acc
      cases w with
      | nil => rfl
      | cons i rest =>
          show trimLoop d' fuel _ _ = trimLoop d fuel _ _
          rw [show getNode d' i = getNode d i from by
            show d'.heap.getD i default = d.heap.getD i default
            rw [hh]]
          rw [hh]
          exact ih _ _

theorem fFill_is_terminal (sinkId : Nat) (n : MtBddNode) :
    (fFill sinkId n).is_terminal = n.is_terminal := rfl

theorem trim_idem (d : MtRobdd) : trim (trim d) = trim d := by
  have hs : trimLoop (trim d) (trimFuel (trim d))
      ((trim d).roots.map (fun p => p.2))
      (((trim d).roots.map (fun p => p.2)).foldl
        (fun a i => if memEquiv (trim d).heap a i then a else a ++ [i]) []) =
      trimLoop d (trimFuel (trim d))
      ((trim d).roots.map (fun p => p.2))
      (((trim d).roots.map (fun p => p.2)).foldl
        (fun a i => if memEquiv (trim d).heap a i then a else a ++ [i]) []) :=
    trimLoop_heap_only d (trim d) rfl _ _ _
  exact congrArg (fun s => { d with store := s }) hs

theorem fFill_var (sinkId : Nat) (n : MtBddNode) :
    (fFill sinkId n).var_index = n.var_index := rfl

theorem fFill_value (sinkId : Nat) (n : MtBddNode) :
    (fFill sinkId n).value = n.value := rfl

theorem fFill_filled (sinkId : Nat) (n : MtBddNode) :
    (fFill sinkId n).low ≠ none ∧ (fFill sinkId n).high ≠ none := by
  constructor
  · show (if n.low = none then some sinkId else n.low) ≠ none
    cases h : n.low with
    | none => simp
    | some l => simp [h]
  · show (if n.high = none then some sinkId else n.high) ≠ none
    cases h : n.high with
    | none => simp
    | some l => simp [h]

/-- One fill-loop step changes the cell at any index to nothing or to its
sink-filled version. -/
theorem mcStep_getD_or (sinkId : Nat) (ct : Bool)
    (st : List MtBddNode × List (Nat × Nat) × Bool) (j i : Nat) :
    (mcStep sinkId ct st j).1.getD i default = st.1.getD i default ∨
    (mcStep sinkId ct st j).1.getD i default =
      fFill sinkId (st.1.getD i default) := by
  by_cases hij : j = i
  · subst hij
    simp only [mcStep]
    by_cases h1 : ct = true ∧ (st.1.getD j default).is_terminal = true
    · rw [if_pos h1]
      by_cases h2 : (mapLookup st.2.1 (st.1.getD j default).value).isSome = true
      · rw [if_pos h2]; exact Or.inl rfl
      · rw [if_neg h2]; exact Or.inl rfl
    · rw [if_neg h1]
      by_cases h3 : (st.1.getD j default).low = none ∨
          (st.1.getD j default).high = none
      · rw [if_pos h3]
        by_cases hlt : j < st.1.length
        · refine Or.inr ?_
          simp [List.getD, List.getElem?_set_eq_of_lt _ hlt]
        · rw [List.set_eq_of_length_le (by omega)]
          exact Or.inl rfl
      · rw [if_neg h3]; exact Or.inl rfl
  · rw [mcStep_heap_getD_ne sinkId ct st j i (fun h => hij h)]
    exact Or.inl rfl

/-- Across the whole fill loop, each cell is unchanged or sink-filled. -/
theorem mc_fold_getD_or (sinkId : Nat) (ct : Bool) (l : List Nat) :
    ∀ (st : List MtBddNode × List (Nat × Nat) × Bool) (i : Nat),
    (l.foldl (mcStep sinkId ct) st).1.getD i default = st.1.getD i default ∨
    (l.foldl (mcStep sinkId ct) st).1.getD i default =
      fFill sinkId (st.1.getD i default) := by
  induction l with
  | nil => intro st i; exact Or.inl rfl
  | cons j rest ih =>
      intro st i
      rw [List.foldl_cons]
      rcases ih (mcStep sinkId ct st j) i with h | h <;>
        rcases mcStep_getD_or sinkId ct st j i with h2 | h2
      · exact Or.inl (h.trans h2)
      · exact Or.inr (h.trans h2)
      · exact Or.inr (by rw [h, h2])
      · exact Or.inr (by rw [h, h2, fFill_idem])

/-- Filled cells stay filled through the loop. -/
theorem mc_fold_preserves_filled (sinkId : Nat) (ct : Bool) (l : List Nat) :
    ∀ (st : List MtBddNode × List (Nat × Nat) × Bool) (i : Nat),
    (st.1.getD i default).low ≠ none → (st.1.getD i default).high ≠ none →
    ((l.foldl (mcStep sinkId ct) st).1.getD i default).low ≠ none ∧
    ((l.foldl (mcStep sinkId ct) st).1.getD i default).high ≠ none := by
  intro st i hl hh
  rcases mc_fold_getD_or sinkId ct l st i with h | h
  · rw [h]; exact ⟨hl, hh⟩
  · rw [h]; exact fFill_filled sinkId _

theorem mapLookup_isSome_mapInsert (m : List (Nat × Nat)) (k v j : Nat)
    (h : (mapLookup m j).isSome = true) :
    (mapLookup (mapInsert k v m) j).isSome = true := by
  by_cases hkj : k = j
  · subst hkj
    rw [mapLookup_mapInsert_self]
    rfl
  · rw [mapLookup_mapInsert_ne m k v j (fun hq => hkj hq.symm)]
    exact h

/-- Bound root names stay bound through one loop step. -/
theorem mcStep_lookup_mono (sinkId : Nat) (ct : Bool)
    (st : List MtBddNode × List (Nat × Nat) × Bool) (j k : Nat)
    (h : (mapLookup st.2.1 k).isSome = true) :
    (mapLookup (mcStep sinkId ct st j).2.1 k).isSome = true := by
  simp only [mcStep]
  by_cases h1 : ct = true ∧ (st.1.getD j default).is_terminal = true
  · rw [if_pos h1]
    by_cases h2 : (mapLookup st.2.1 (st.1.getD j default).value).isSome = true
    · rw [if_pos h2]; exact h
    · rw [if_neg h2]
      exact mapLookup_isSome_mapInsert _ _ _ _ h
  · rw [if_neg h1]
    by_cases h3 : (st.1.getD j default).low = none ∨
        (st.1.getD j default).high = none
    · rw [if_pos h3]; exact h
    · rw [if_neg h3]; exact h

theorem mc_fold_lookup_mono (sinkId : Nat) (ct : Bool) (l : List Nat) :
    ∀ (st : List MtBddNode × List (Nat × Nat) × Bool) (k : Nat),
    (mapLookup st.2.1 k).isSome = true →
    (mapLookup (l.foldl (mcStep sinkId ct) st).2.1 k).isSome = true := by
  induction l with
  | nil => intro st k h; exact h
  | cons j rest ih =>
      intro st k h
      rw [List.foldl_cons]
      exact ih _ k (mcStep_lookup_mono sinkId ct st j k h)

/-- After the loop, every non-terminal member it processed has both
children non-null. -/
theorem mc_fold_filled (sinkId : Nat) (l : List Nat) :
    ∀ (st : List MtBddNode × List (Nat × Nat) × Bool) (i : Nat), i ∈ l →
    (st.1.getD i default).is_terminal = false →
    ((l.foldl (mcStep sinkId true) st).1.getD i default).low ≠ none ∧
    ((l.foldl (mcStep sinkId true) st).1.getD i default).high ≠ none := by
  induction l with
  | nil => intro st i hi; exact absurd hi (List.not_mem_nil _)
  | cons j rest ih =>
      intro st i hi hT
      rw [List.foldl_cons]
      by_cases hmem : i ∈ rest
      · refine ih (mcStep sinkId true st j) i hmem ?_
        rcases mcStep_getD_or sinkId true st j i with h | h
        · rw [h]; exact hT
        · rw [h, fFill_is_terminal]
          exact hT
      · have hij : i = j := by
          rcases List.mem_cons.mp hi with h | h
          · exact h
          · exact absurd h hmem
        subst hij
        have hstep : ((mcStep sinkId true st i).1.getD i default).low ≠ none ∧
            ((mcStep sinkId true st i).1.getD i default).high ≠ none := by
          simp only [mcStep]
          rw [if_neg (by
            intro hc
            rw [hc.2] at hT
            exact Bool.true_eq_false.mp hT)]
          by_cases h3 : (st.1.getD i default).low = none ∨
              (st.1.getD i default).high = none
          · rw [if_pos h3]
            have hlt : i < st.1.length := by
              by_contra hge
              have hnone : st.1[i]? = none :=
                List.getElem?_eq_none (Nat.le_of_not_lt hge)
              have hdef : st.1.getD i default = default := by
                simp [List.getD, hnone]
              rw [hdef] at hT
              exact absurd hT (by decide)
            have : (st.1.set i (fFill sinkId (st.1.getD i default))).getD i default =
                fFill sinkId (st.1.getD i default) := by
              simp [List.getD, List.getElem?_set_eq_of_lt _ hlt]
            rw [this]
            exact fFill_filled sinkId _
          · rw [if_neg h3]
            push_neg at h3
            exact h3
        exact mc_fold_preserves_filled sinkId true rest _ i hstep.1 hstep.2

/-- After the loop (terminal completion on), every terminal member it
processed has its value bound in the working root index. -/
theorem mc_fold_terminal_bound (sinkId : Nat) (l : List Nat) :
    ∀ (st : List MtBddNode × List (Nat × Nat) × Bool) (i : Nat), i ∈ l →
    (st.1.getD i default).is_terminal = true →
    (mapLookup (l.foldl (mcStep sinkId true) st).2.1
      ((st.1.getD i default).value)).isSome = true := by
  induction l with
  | nil => intro st i hi; exact absurd hi (List.not_mem_nil _)
  | cons j rest ih =>
      intro st i hi hT
      rw [List.foldl_cons]
      by_cases hmem : i ∈ rest
      · have hsame : ((mcStep sinkId true st j).1.getD i default).value =
            (st.1.getD i default).value ∧
            ((mcStep sinkId true st j).1.getD i default).is_terminal =
              (st.1.getD i default).is_terminal := by
          rcases mcStep_getD_or sinkId true st j i with h | h
          · rw [h]; exact ⟨rfl, rfl⟩
          · rw [h]
            exact ⟨fFill_value sinkId _, fFill_is_terminal sinkId _⟩
        have := ih (mcStep sinkId true st j) i hmem (by rw [hsame.2]; exact hT)
        rw [hsame.1] at this
        exact this
      · have hij : i = j := by
          rcases List.mem_cons.mp hi with h | h
          · exact h
          · exact absurd h hmem
        subst hij
        refine mc_fold_lookup_mono sinkId true rest _ _ ?_
        simp only [mcStep]
        rw [if_pos (And.intro trivial hT)]
        by_cases h2 : (mapLookup st.2.1 (st.1.getD i default).value).isSome = true
        · rw [if_pos h2]
          exact h2
        · rw [if_neg h2]
          show (mapLookup (mapInsert (st.1.getD i default).value sinkId st.2.1)
            (st.1.getD i default).value).isSome = true
          rw [mapLookup_mapInsert_self]
          rfl

/-- With terminal completion on, the state reached by `make_complete` never
triggers the sink again: every store member is a terminal with a bound
value or an inner node with both children filled. -/
theorem make_complete_true_no_trigger (d : MtRobdd) (sv : Nat) (h : WF d) :
    ∀ i ∈ (make_complete d sv true).store,
      ¬ mcTrigger (make_complete d sv true) true i := by
  obtain ⟨⟨hsv, hhc, huq⟩, hrv⟩ := h
  set out := d.store.foldl (mcStep d.heap.length true)
    (d.heap ++ [(⟨TERMINAL_INDEX, none, none, sv⟩ : MtBddNode)], d.roots, false)
    with hout
  set D := make_complete d sv true with hD
  have hinit : ∀ i, i < d.heap.length →
      (d.heap ++ [(⟨TERMINAL_INDEX, none, none, sv⟩ : MtBddNode)]).getD i default =
      getNode d i := fun i hi => getD_append_of_lt _ _ _ hi
  have hcell : ∀ i ∈ d.store,
      out.1.getD i default = getNode d i ∨
      out.1.getD i default = fFill d.heap.length (getNode d i) := by
    intro i hi
    have := mc_fold_getD_or d.heap.length true d.store
      (d.heap ++ [(⟨TERMINAL_INDEX, none, none, sv⟩ : MtBddNode)], d.roots, false) i
    rw [hinit i (hsv i hi)] at this
    exact this
  have hcell_term : ∀ i ∈ d.store,
      (out.1.getD i default).is_terminal = (getNode d i).is_terminal ∧
      (out.1.getD i default).value = (getNode d i).value := by
    intro i hi
    rcases hcell i hi with hc | hc
    · rw [hc]; exact ⟨rfl, rfl⟩
    · rw [hc]
      exact ⟨fFill_is_terminal _ _, fFill_value _ _⟩
  -- branch on whether the first call used the sink
  by_cases hf : out.2.2 = true
  · -- sink used: heap is the looped arena, roots gain the sink binding
    have hheapD : D.heap = out.1 := by
      simp only [hD, make_complete, ← hout]
      rw [if_pos hf]
    have hrootsD : D.roots = mapInsert sv d.heap.length out.2.1 := by
      simp only [hD, make_complete, ← hout]
      rw [if_pos hf]
    have hstoreD : ∀ i ∈ D.store, i ∈ d.store ∨ i = d.heap.length := by
      intro i hi
      have hi2 : i ∈ (if (findEquiv { d with heap := out.1, roots := out.2.1 }
          (⟨TERMINAL_INDEX, none, none, sv⟩ : MtBddNode)).isSome = true
          then d.store else d.store ++ [d.heap.length]) := by
        have hh : D.store = (if (findEquiv { d with heap := out.1, roots := out.2.1 }
            (⟨TERMINAL_INDEX, none, none, sv⟩ : MtBddNode)).isSome = true
            then d.store else d.store ++ [d.heap.length]) := by
          simp only [hD, make_complete, ← hout]
          rw [if_pos hf]
        rw [← hh]
        exact hi
      by_cases hfe : (findEquiv { d with heap := out.1, roots := out.2.1 }
          (⟨TERMINAL_INDEX, none, none, sv⟩ : MtBddNode)).isSome = true
      · rw [if_pos hfe] at hi2
        exact Or.inl hi2
      · rw [if_neg hfe] at hi2
        rcases List.mem_append.mp hi2 with h2 | h2
        · exact Or.inl h2
        · simp only [List.mem_singleton] at h2
          exact Or.inr h2
    have hsinkcell : out.1.getD d.heap.length default =
        (⟨TERMINAL_INDEX, none, none, sv⟩ : MtBddNode) := by
      rw [hout, mc_loop_heap_getD_ne d.heap.length true d.store _ d.heap.length
        (fun i hi => Nat.ne_of_lt (hsv i hi))]
      exact getNode_heap_append_last d.heap _
    intro i hi ht
    have hgD : getNode D i = out.1.getD i default := by
      show D.heap.getD i default = _
      rw [hheapD]
    rcases hstoreD i hi with hmem | hsink
    · -- an original store member
      by_cases hT : (getNode d i).is_terminal = true
      · -- terminal: its value is bound after the loop, and stays bound
        have hbound := mc_fold_terminal_bound d.heap.length d.store
          (d.heap ++ [(⟨TERMINAL_INDEX, none, none, sv⟩ : MtBddNode)], d.roots, false)
          i hmem (by rw [hinit i (hsv i hmem)]; exact hT)
        rw [hinit i (hsv i hmem)] at hbound
        have hbound2 : (mapLookup D.roots (getNode D i).value).isSome = true := by
          rw [hrootsD, hgD, (hcell_term i hmem).2]
          exact mapLookup_isSome_mapInsert _ _ _ _ hbound
        unfold mcTrigger at ht
        rw [if_pos (And.intro rfl (by
          rw [hgD, (hcell_term i hmem).1]; exact hT))] at ht
        rw [ht] at hbound2
        exact Bool.false_ne_true hbound2
      · -- inner node: both children were filled by the loop
        have hTf : (getNode d i).is_terminal = false := by
          cases hq : (getNode d i).is_terminal
          · rfl
          · exact absurd hq hT
        have hfill := mc_fold_filled d.heap.length d.store
          (d.heap ++ [(⟨TERMINAL_INDEX, none, none, sv⟩ : MtBddNode)], d.roots, false)
          i hmem (by rw [hinit i (hsv i hmem)]; exact hTf)
        unfold mcTrigger at ht
        rw [if_neg (by
          intro hc
          rw [hgD, (hcell_term i hmem).1] at hc
          rw [hc.2] at hTf
          exact Bool.true_eq_false.mp hTf)] at ht
        rw [hgD] at ht
        rcases ht with ht | ht
        · exact hfill.1 ht
        · exact hfill.2 ht
    · -- the freshly materialized sink: terminal, bound to itself
      subst hsink
      have hterm : (getNode D d.heap.length).is_terminal = true := by
        rw [hgD, hsinkcell]
        rfl
      have hval : (getNode D d.heap.length).value = sv := by
        rw [hgD, hsinkcell]
      unfold mcTrigger at ht
      rw [if_pos (And.intro rfl hterm)] at ht
      rw [hval, hrootsD, mapLookup_mapInsert_self] at ht
      exact Option.noConfusion ht
  · -- sink unused: the loop left everything alone, so nothing triggered
    have hnt0 : ∀ i ∈ d.store, ¬ mcTrigger d true i := by
      intro i hi hti
      exact hf ((mc_loop_flag_iff d sv d.heap.length true d.store
        (fun j hj => hsv j hj)).mpr ⟨i, hi, hti⟩)
    have hloop := mc_loop_init d sv d.heap.length true d.store
      (fun j hj => hsv j hj) hnt0
    have hheapD : D.heap = d.heap ++ [(⟨TERMINAL_INDEX, none, none, sv⟩ : MtBddNode)] := by
      simp only [hD, make_complete, ← hout]
      rw [if_neg hf]
      show out.1 = _
      rw [hout, hloop]
    have hrootsD : D.roots = d.roots := by
      simp only [hD, make_complete, ← hout]
      rw [if_neg hf]
      show out.2.1 = _
      rw [hout, hloop]
    have hstoreD : D.store = d.store := by
      simp only [hD, make_complete, ← hout]
      rw [if_neg hf]
    intro i hi ht
    have hmem : i ∈ d.store := by rw [← hstoreD]; exact hi
    have hgD : getNode D i = getNode d i := by
      show D.heap.getD i default = _
      rw [hheapD]
      exact hinit i (hsv i hmem)
    refine hnt0 i hmem ?_
    unfold mcTrigger at ht ⊢
    rw [hgD, hrootsD] at ht
    exact ht

/-- Applying `make_complete` with terminal completion a second time changes
nothing but an unused arena allocation. -/
theorem make_complete_true_idem (d : MtRobdd) (sv : Nat) (h : WF d) :
    (make_complete (make_complete d sv true) sv true).store =
      (make_complete d sv true).store ∧
    (make_complete (make_complete d sv true) sv true).roots =
      (make_complete d sv true).roots ∧
    (make_complete (make_complete d sv true) sv true).heap =
      (make_complete d sv true).heap ++
        [(⟨TERMINAL_INDEX, none, none, sv⟩ : MtBddNode)] := by
  have hDWF := make_complete_WF d sv true h
  have hnt := make_complete_true_no_trigger d sv h
  suffices hgen : ∀ E : MtRobdd, (∀ i ∈ E.store, i < E.heap.length) →
      (∀ i ∈ E.store, ¬ mcTrigger E true i) →
      (make_complete E sv true).store = E.store ∧
      (make_complete E sv true).roots = E.roots ∧
      (make_complete E sv true).heap =
        E.heap ++ [(⟨TERMINAL_INDEX, none, none, sv⟩ : MtBddNode)] by
    exact hgen (make_complete d sv true) (fun j hj => hDWF.1.1 j hj) hnt
  intro E hval hntE
  have hloop := mc_loop_init E sv E.heap.length true E.store hval hntE
  refine ⟨?_, ?_, ?_⟩
  · show (make_complete E sv true).store = E.store
    simp only [make_complete]
    rw [hloop]
    rfl
  · show (make_complete E sv true).roots = E.roots
    simp only [make_complete]
    rw [hloop]
    rfl
  · show (make_complete E sv true).heap =
      E.heap ++ [(⟨TERMINAL_INDEX, none, none, sv⟩ : MtBddNode)]
    simp only [make_complete]
    rw [hloop]
    rfl

theorem findEquiv_self (E : MtRobdd)
    (huq : ∀ a ∈ E.store, ∀ b ∈ E.store, getNode E a = getNode E b → a = b)
    (i : Nat) (hi : i ∈ E.store) :
    findEquiv E (getNode E i) = some i := by
  unfold findEquiv
  cases hf : E.store.find? (fun y => getNode E y = getNode E i) with
  | none =>
      have := List.find?_eq_none.mp hf i hi
      simp at this
  | some y =>
      have hy1 := List.mem_of_find?_eq_some hf
      have hy2 := List.find?_some hf
      simp only [decide_eq_true_eq] at hy2
      rw [huq y hy1 i hi hy2]

/-- On a reduced manager — hash-cons-unique store, no store node with equal
non-null children, children of store members in the store — the rewrite
recursion of `remove_redundant_tests` returns every store member unchanged
and leaves the manager untouched, only collecting visited store members. -/
theorem rrtRec_reduced_id (E : MtRobdd)
    (huq : ∀ a ∈ E.store, ∀ b ∈ E.store, getNode E a = getNode E b → a = b)
    (hred : ∀ z ∈ E.store, (getNode E z).is_terminal = false →
      ¬((getNode E z).low ≠ none ∧ (getNode E z).low = (getNode E z).high))
    (hcl : ∀ z ∈ E.store, (getNode E z).is_terminal = false →
      (∀ l, (getNode E z).low = some l → l ∈ E.store) ∧
      (∀ x, (getNode E z).high = some x → x ∈ E.store)) :
    ∀ fuel i nn, i ∈ E.store → (∀ x ∈ nn, x ∈ E.store) →
    (rrtRec fuel (some i) E nn).1 = some i ∧
    (rrtRec fuel (some i) E nn).2.1 = E ∧
    (∃ t, (rrtRec fuel (some i) E nn).2.2 = nn ++ t ∧ ∀ x ∈ t, x ∈ E.store) := by
  intro fuel
  induction fuel with
  | zero =>
      intro i nn hi hnn
      rw [show rrtRec 0 (some i) E nn = (some i, E, nn) from rfl]
      exact ⟨rfl, rfl, ⟨[], by simp, fun x hx => absurd hx (List.not_mem_nil _)⟩⟩
  | succ fuel ih =>
      intro i nn hi hnn
      by_cases hT : (getNode E i).is_terminal = true
      · have hstep : rrtRec (fuel + 1) (some i) E nn =
            (some i, E, if memEquiv E.heap nn i then nn else nn ++ [i]) := by
          simp only [rrtRec]
          rw [if_pos hT]
        rw [hstep]
        refine ⟨rfl, rfl, ?_⟩
        by_cases hm : memEquiv E.heap nn i = true
        · rw [if_pos hm]
          exact ⟨[], by simp, fun x hx => absurd hx (List.not_mem_nil _)⟩
        · rw [if_neg hm]
          refine ⟨[i], rfl, ?_⟩
          intro x hx
          simp only [List.mem_singleton] at hx
          subst hx
          exact hi
      · have hT' : (getNode E i).is_terminal = false := by
          cases hq : (getNode E i).is_terminal
          · rfl
          · exact absurd hq hT
        obtain ⟨hclL, hclH⟩ := hcl i hi hT'
        -- the low child rewrite is the identity
        have hL : (rrtRec fuel (getNode E i).low E nn).1 = (getNode E i).low ∧
            (rrtRec fuel (getNode E i).low E nn).2.1 = E ∧
            (∃ t, (rrtRec fuel (getNode E i).low E nn).2.2 = nn ++ t ∧
              ∀ x ∈ t, x ∈ E.store) := by
          cases hLo : (getNode E i).low with
          | none =>
              rw [show rrtRec fuel none E nn = (none, E, nn) from by
                cases fuel <;> rfl]
              exact ⟨rfl, rfl, ⟨[], by simp,
                fun x hx => absurd hx (List.not_mem_nil _)⟩⟩
          | some l =>
              exact ih l nn (hclL l hLo) hnn
        obtain ⟨hL1, hL2, tL, hL3, hL4⟩ := hL
        have hnnL : ∀ x ∈ nn ++ tL, x ∈ E.store := by
          intro x hx
          rcases List.mem_append.mp hx with hx | hx
          · exact hnn x hx
          · exact hL4 x hx
        -- the high child rewrite is the identity
        have hH : (rrtRec fuel (getNode E i).high E (nn ++ tL)).1 =
              (getNode E i).high ∧
            (rrtRec fuel (getNode E i).high E (nn ++ tL)).2.1 = E ∧
            (∃ t, (rrtRec fuel (getNode E i).high E (nn ++ tL)).2.2 =
              (nn ++ tL) ++ t ∧ ∀ x ∈ t, x ∈ E.store) := by
          cases hHi : (getNode E i).high with
          | none =>
              rw [show rrtRec fuel none E (nn ++ tL) = (none, E, nn ++ tL) from by
                cases fuel <;> rfl]
              exact ⟨rfl, rfl, ⟨[], by simp,
                fun x hx => absurd hx (List.not_mem_nil _)⟩⟩
          | some x =>
              exact ih x (nn ++ tL) (hclH x hHi) hnnL
        obtain ⟨hH1, hH2, tH, hH3, hH4⟩ := hH
        have hnnH : ∀ x ∈ nn ++ tL ++ tH, x ∈ E.store := by
          intro x hx
          rcases List.mem_append.mp hx with hx | hx
          · exact hnnL x hx
          · exact hH4 x hx
        -- recanonicalization finds the node itself
        have heta : (⟨(getNode E i).var_index, (getNode E i).low,
            (getNode E i).high, (getNode E i).value⟩ : MtBddNode) =
            getNode E i := rfl
        have hpc : create_node E (getNode E i).var_index (getNode E i).low
            (getNode E i).high (getNode E i).value = (i, E) := by
          simp only [create_node]
          rw [heta, findEquiv_self E huq i hi]
        have hgetD : ∀ (NN : List Nat), (∀ x ∈ NN, x ∈ E.store) →
            ((NN.find? (fun x =>
              E.heap.getD x default = E.heap.getD i default)).getD i) = i := by
          intro NN hNN
          cases hf : NN.find? (fun x =>
              E.heap.getD x default = E.heap.getD i default) with
          | none => rfl
          | some y =>
              have hy1 := List.mem_of_find?_eq_some hf
              have hy2 := List.find?_some hf
              simp only [decide_eq_true_eq] at hy2
              have hyi : y = i := huq y (hNN y hy1) i hi hy2
              rw [Option.getD_some, hyi]
        have hstep : rrtRec (fuel + 1) (some i) E nn =
            (some i, E, if memEquiv E.heap (nn ++ tL ++ tH) i
              then nn ++ tL ++ tH else (nn ++ tL ++ tH) ++ [i]) := by
          simp only [rrtRec]
          rw [if_neg hT]
          rw [hL2, hL3, hL1]
          rw [hH2, hH3, hH1]
          rw [if_neg (hred i hi hT')]
          rw [hpc]
          rw [show ((i, E) : Nat × MtRobdd).2 = E from rfl,
              show ((i, E) : Nat × MtRobdd).1 = i from rfl]
          by_cases hm : memEquiv E.heap (nn ++ tL ++ tH) i = true
          · rw [if_pos hm, hgetD _ hnnH]
          · rw [if_neg hm, hgetD _ (by
              intro x hx
              rcases List.mem_append.mp hx with hx | hx
              · exact hnnH x hx
              · simp only [List.mem_singleton] at hx
                subst hx
                exact hi)]
        rw [hstep]
        refine ⟨rfl, rfl, ?_⟩
        by_cases hm : memEquiv E.heap (nn ++ tL ++ tH) i = true
        · rw [if_pos hm]
          refine ⟨tL ++ tH, by rw [List.append_assoc], ?_⟩
          intro x hx
          rcases List.mem_append.mp hx with hx | hx
          · exact hL4 x hx
          · exact hH4 x hx
        · rw [if_neg hm]
          refine ⟨tL ++ tH ++ [i], by simp [List.append_assoc], ?_⟩
          intro x hx
          rcases List.mem_append.mp hx with hx | hx
          · rcases List.mem_append.mp hx with hx | hx
            · exact hL4 x hx
            · exact hH4 x hx
          · simp only [List.mem_singleton] at hx
            subst hx
            exact hi

/-- Depth-bounded reachability through non-terminal nodes: the nodes the
rewrite recursion of `remove_redundant_tests` visits from `i` within `k`
child steps. -/
def ReachN (heap : List MtBddNode) : Nat → Nat → Nat → Prop
  | 0, i, z => z = i
  | k + 1, i, z => z = i ∨ ∃ c,
      ((heap.getD i default).is_terminal = false ∧
       ((heap.getD i default).low = some c ∨
        (heap.getD i default).high = some c)) ∧ ReachN heap k c z

/-- One unfolding of the rewrite recursion on a reduced manager at a
non-terminal store member, with the two child calls resolved by
`rrtRec_reduced_id`. -/
theorem rrtRec_reduced_step (E : MtRobdd)
    (huq : ∀ a ∈ E.store, ∀ b ∈ E.store, getNode E a = getNode E b → a = b)
    (hred : ∀ z ∈ E.store, (getNode E z).is_terminal = false →
      ¬((getNode E z).low ≠ none ∧ (getNode E z).low = (getNode E z).high))
    (hcl : ∀ z ∈ E.store, (getNode E z).is_terminal = false →
      (∀ l, (getNode E z).low = some l → l ∈ E.store) ∧
      (∀ x, (getNode E z).high = some x → x ∈ E.store))
    (fuel : Nat) (i : Nat) (nn : List Nat) (hi : i ∈ E.store)
    (hnn : ∀ x ∈ nn, x ∈ E.store)
    (hT' : (getNode E i).is_terminal = false) :
    ∃ tL tH,
      (rrtRec fuel (getNode E i).low E nn).2.2 = nn ++ tL ∧
      (rrtRec fuel (getNode E i).high E (nn ++ tL)).2.2 = nn ++ tL ++ tH ∧
      (∀ x ∈ tL, x ∈ E.store) ∧ (∀ x ∈ tH, x ∈ E.store) ∧
      rrtRec (fuel + 1) (some i) E nn =
        (some i, E, if memEquiv E.heap (nn ++ tL ++ tH) i
          then nn ++ tL ++ tH else (nn ++ tL ++ tH) ++ [i]) := by
  have hT : ¬ (getNode E i).is_terminal = true := by
    rw [hT']
    exact Bool.false_ne_true
  obtain ⟨hclL, hclH⟩ := hcl i hi hT'
  have hL : (rrtRec fuel (getNode E i).low E nn).1 = (getNode E i).low ∧
      (rrtRec fuel (getNode E i).low E nn).2.1 = E ∧
      (∃ t, (rrtRec fuel (getNode E i).low E nn).2.2 = nn ++ t ∧
        ∀ x ∈ t, x ∈ E.store) := by
    cases hLo : (getNode E i).low with
    | none =>
        rw [show rrtRec fuel none E nn = (none, E, nn) from by
          cases fuel <;> rfl]
        exact ⟨rfl, rfl, ⟨[], by simp,
          fun x hx => absurd hx (List.not_mem_nil _)⟩⟩
    | some l =>
        exact rrtRec_reduced_id E huq hred hcl fuel l nn (hclL l hLo) hnn
  obtain ⟨hL1, hL2, tL, hL3, hL4⟩ := hL
  have hnnL : ∀ x ∈ nn ++ tL, x ∈ E.store := by
    intro x hx
    rcases List.mem_append.mp hx with hx | hx
    · exact hnn x hx
    · exact hL4 x hx
  have hH : (rrtRec fuel (getNode E i).high E (nn ++ tL)).1 =
        (getNode E i).high ∧
      (rrtRec fuel (getNode E i).high E (nn ++ tL)).2.1 = E ∧
      (∃ t, (rrtRec fuel (getNode E i).high E (nn ++ tL)).2.2 =
        (nn ++ tL) ++ t ∧ ∀ x ∈ t, x ∈ E.store) := by
    cases hHi : (getNode E i).high with
    | none =>
        rw [show rrtRec fuel none E (nn ++ tL) = (none, E, nn ++ tL) from by
          cases fuel <;> rfl]
        exact ⟨rfl, rfl, ⟨[], by simp,
          fun x hx => absurd hx (List.not_mem_nil _)⟩⟩
    | some x =>
        exact rrtRec_reduced_id E huq hred hcl fuel x (nn ++ tL) (hclH x hHi) hnnL
  obtain ⟨hH1, hH2, tH, hH3, hH4⟩ := hH
  have hnnH : ∀ x ∈ nn ++ tL ++ tH, x ∈ E.store := by
    intro x hx
    rcases List.mem_append.mp hx with hx | hx
    · exact hnnL x hx
    · exact hH4 x hx
  have heta : (⟨(getNode E i).var_index, (getNode E i).low,
      (getNode E i).high, (getNode E i).value⟩ : MtBddNode) =
      getNode E i := rfl
  have hpc : create_node E (getNode E i).var_index (getNode E i).low
      (getNode E i).high (getNode E i).value = (i, E) := by
    simp only [create_node]
    rw [heta, findEquiv_self E huq i hi]
  have hgetD : ∀ (NN : List Nat), (∀ x ∈ NN, x ∈ E.store) →
      ((NN.find? (fun x =>
        E.heap.getD x default = E.heap.getD i default)).getD i) = i := by
    intro NN hNN
    cases hf : NN.find? (fun x =>
        E.heap.getD x default = E.heap.getD i default) with
    | none => rfl
    | some y =>
        have hy1 := List.mem_of_find?_eq_some hf
        have hy2 := List.find?_some hf
        simp only [decide_eq_true_eq] at hy2
        have hyi : y = i := huq y (hNN y hy1) i hi hy2
        rw [Option.getD_some, hyi]
  refine ⟨tL, tH, hL3, hH3, hL4, hH4, ?_⟩
  simp only [rrtRec]
  rw [if_neg hT]
  rw [hL2, hL3, hL1]
  rw [hH2, hH3, hH1]
  rw [if_neg (hred i hi hT')]
  rw [hpc]
  rw [show ((i, E) : Nat × MtRobdd).2 = E from rfl,
      show ((i, E) : Nat × MtRobdd).1 = i from rfl]
  by_cases hm : memEquiv E.heap (nn ++ tL ++ tH) i = true
  · rw [if_pos hm, hgetD _ hnnH]
  · rw [if_neg hm, hgetD _ (by
      intro x hx
      rcases List.mem_append.mp hx with hx | hx
      · exact hnnH x hx
      · simp only [List.mem_singleton] at hx
        subst hx
        exact hi)]

/-- On a reduced manager the rewrite recursion collects every store member
it can reach within its fuel. -/
theorem rrtRec_reduced_collect (E : MtRobdd)
    (huq : ∀ a ∈ E.store, ∀ b ∈ E.store, getNode E a = getNode E b → a = b)
    (hred : ∀ z ∈ E.store, (getNode E z).is_terminal = false →
      ¬((getNode E z).low ≠ none ∧ (getNode E z).low = (getNode E z).high))
    (hcl : ∀ z ∈ E.store, (getNode E z).is_terminal = false →
      (∀ l, (getNode E z).low = some l → l ∈ E.store) ∧
      (∀ x, (getNode E z).high = some x → x ∈ E.store)) :
    ∀ fuel k i nn z, k + 1 ≤ fuel → i ∈ E.store →
    (∀ x ∈ nn, x ∈ E.store) → ReachN E.heap k i z →
    z ∈ (rrtRec fuel (some i) E nn).2.2 := by
  intro fuel
  induction fuel with
  | zero =>
      intro k i nn z hk
      exact absurd hk (by omega)
  | succ fuel ih =>
      intro k i nn z hk hi hnn hz
      by_cases hT : (getNode E i).is_terminal = true
      · -- a terminal reaches only itself
        have hzi : z = i := by
          cases k with
          | zero => exact hz
          | succ k =>
              rcases hz with h | ⟨c, hc, _⟩
              · exact h
              · have h1 : (getNode E i).is_terminal = false := hc.1
                rw [hT] at h1
                exact absurd h1 (by decide)
        subst hzi
        rw [show rrtRec (fuel + 1) (some z) E nn =
            (some z, E, if memEquiv E.heap nn z then nn else nn ++ [z]) from by
          simp only [rrtRec]; rw [if_pos hT]]
        show z ∈ (if memEquiv E.heap nn z then nn else nn ++ [z])
        by_cases hm : memEquiv E.heap nn z = true
        · rw [if_pos hm]
          obtain ⟨y, hy, hyeq⟩ := (memEquiv_iff E.heap nn z).mp hm
          have : y = z := huq y (hnn y hy) z hi hyeq
          rw [← this]
          exact hy
        · rw [if_neg hm]
          exact List.mem_append.mpr (Or.inr (by simp))
      · have hT' : (getNode E i).is_terminal = false := by
          cases hq : (getNode E i).is_terminal
          · rfl
          · exact absurd hq hT
        obtain ⟨tL, tH, hL3, hH3, hL4, hH4, hstep⟩ :=
          rrtRec_reduced_step E huq hred hcl fuel i nn hi hnn hT'
        rw [hstep]
        have hfin : ∀ w, w ∈ nn ++ tL ++ tH →
            w ∈ (if memEquiv E.heap (nn ++ tL ++ tH) i
              then nn ++ tL ++ tH else (nn ++ tL ++ tH) ++ [i]) := by
          intro w hw
          by_cases hm : memEquiv E.heap (nn ++ tL ++ tH) i = true
          · rw [if_pos hm]; exact hw
          · rw [if_neg hm]; exact List.mem_append.mpr (Or.inl hw)
        have hself : i ∈ (if memEquiv E.heap (nn ++ tL ++ tH) i
            then nn ++ tL ++ tH else (nn ++ tL ++ tH) ++ [i]) := by
          by_cases hm : memEquiv E.heap (nn ++ tL ++ tH) i = true
          · rw [if_pos hm]
            obtain ⟨y, hy, hyeq⟩ := (memEquiv_iff E.heap (nn ++ tL ++ tH) i).mp hm
            have hys : y ∈ E.store := by
              rcases List.mem_append.mp hy with hy2 | hy2
              · rcases List.mem_append.mp hy2 with hy3 | hy3
                · exact hnn y hy3
                · exact hL4 y hy3
              · exact hH4 y hy2
            have : y = i := huq y hys i hi hyeq
            rw [← this]
            exact hy
          · rw [if_neg hm]
            exact List.mem_append.mpr (Or.inr (by simp))
        cases k with
        | zero =>
            have hzi : z = i := hz
            subst hzi
            exact hself
        | succ k =>
            rcases hz with hzi | ⟨c, hc, hcz⟩
            · subst hzi
              exact hself
            · have hcs : (getNode E i).low = some c ∨
                  (getNode E i).high = some c := hc.2
              obtain ⟨hclL, hclH⟩ := hcl i hi hT'
              rcases hcs with hlow | hhigh
              · have hzin : z ∈ (rrtRec fuel (getNode E i).low E nn).2.2 := by
                  rw [hlow]
                  exact ih k c nn z (by omega) (hclL c hlow) hnn hcz
                rw [hL3] at hzin
                refine hfin z ?_
                exact List.mem_append.mpr (Or.inl hzin)
              · have hnnL : ∀ x ∈ nn ++ tL, x ∈ E.store := by
                  intro x hx
                  rcases List.mem_append.mp hx with hx | hx
                  · exact hnn x hx
                  · exact hL4 x hx
                have hzin : z ∈ (rrtRec fuel (getNode E i).high E (nn ++ tL)).2.2 := by
                  rw [hhigh]
                  exact ih k c (nn ++ tL) z (by omega) (hclH c hhigh) hnnL hcz
                rw [hH3] at hzin
                exact hfin z hzin

/-- The root fold of `remove_redundant_tests` on a reduced manager: the
manager is untouched, every binding is rewritten to itself, and the
collected store contains everything reachable from a processed root within
the fuel. -/
theorem rrt_reduced_fold (E : MtRobdd)
    (huq : ∀ a ∈ E.store, ∀ b ∈ E.store, getNode E a = getNode E b → a = b)
    (hred : ∀ z ∈ E.store, (getNode E z).is_terminal = false →
      ¬((getNode E z).low ≠ none ∧ (getNode E z).low = (getNode E z).high))
    (hcl : ∀ z ∈ E.store, (getNode E z).is_terminal = false →
      (∀ l, (getNode E z).low = some l → l ∈ E.store) ∧
      (∀ x, (getNode E z).high = some x → x ∈ E.store))
    (fuel : Nat) :
    ∀ (rs : List (Nat × Nat)) (nn0 : List Nat) (rts0 : List (Nat × Nat)),
    (∀ p ∈ rs, p.2 ∈ E.store) → (∀ x ∈ nn0, x ∈ E.store) →
    (rs.foldl (rrtStep fuel) (E, nn0, rts0)).1 = E ∧
    (rs.foldl (rrtStep fuel) (E, nn0, rts0)).2.2 = rts0 ++ rs ∧
    (∃ t, (rs.foldl (rrtStep fuel) (E, nn0, rts0)).2.1 = nn0 ++ t ∧
      ∀ x ∈ t, x ∈ E.store) ∧
    (∀ z p k, p ∈ rs → ReachN E.heap k p.2 z → k + 1 ≤ fuel →
      z ∈ (rs.foldl (rrtStep fuel) (E, nn0, rts0)).2.1) := by
  intro rs
  induction rs with
  | nil =>
      intro nn0 rts0 _ hnn0
      refine ⟨rfl, by simp, ⟨[], by simp,
        fun x hx => absurd hx (List.not_mem_nil _)⟩, ?_⟩
      intro z p k hp
      exact absurd hp (List.not_mem_nil _)
  | cons p rest ih =>
      intro nn0 rts0 hrs hnn0
      obtain ⟨hq1, hq2, tq, hq3, hq4⟩ :=
        rrtRec_reduced_id E huq hred hcl fuel p.2 nn0
          (hrs p (List.mem_cons_self _ _)) hnn0
      have hnn1 : ∀ x ∈ nn0 ++ tq, x ∈ E.store := by
        intro x hx
        rcases List.mem_append.mp hx with hx | hx
        · exact hnn0 x hx
        · exact hq4 x hx
      have hstep : rrtStep fuel (E, nn0, rts0) p =
          (E, nn0 ++ tq, rts0 ++ [p]) := by
        show ((rrtRec fuel (some p.2) E nn0).2.1,
          (rrtRec fuel (some p.2) E nn0).2.2,
          rts0 ++ [(p.1, (rrtRec fuel (some p.2) E nn0).1.getD p.2)]) = _
        rw [hq1, hq2, hq3]
        rfl
      have hfold : (p :: rest).foldl (rrtStep fuel) (E, nn0, rts0) =
          rest.foldl (rrtStep fuel) (E, nn0 ++ tq, rts0 ++ [p]) := by
        rw [List.foldl_cons, hstep]
      rw [hfold]
      obtain ⟨ih1, ih2, ⟨t2, ih3, ih4⟩, ih5⟩ := ih (nn0 ++ tq) (rts0 ++ [p])
        (fun q hq => hrs q (List.mem_cons_of_mem _ hq)) hnn1
      refine ⟨ih1, by rw [ih2]; simp, ⟨tq ++ t2, ?_, ?_⟩, ?_⟩
      · rw [ih3, List.append_assoc]
      · intro x hx
        rcases List.mem_append.mp hx with hx | hx
        · exact hq4 x hx
        · exact ih4 x hx
      · intro z q k hq hzk hk
        rcases List.mem_cons.mp hq with rfl | hq2
        · have hzin : z ∈ (rrtRec fuel (some q.2) E nn0).2.2 := by
            cases fuel with
            | zero => exact absurd hk (by omega)
            | succ f =>
                exact rrtRec_reduced_collect E huq hred hcl (f + 1) k q.2 nn0 z
                  hk (hrs q (List.mem_cons_self _ _)) hnn0 hzk
          rw [hq3] at hzin
          rw [ih3]
          exact List.mem_append.mpr (Or.inl hzin)
        · exact ih5 z q k hq2 hzk hk

/-- On a reduced manager (hash-cons-unique store, no equal-children test
nodes, store-closed children and root bindings, every store member
reachable from a root within `num_of_vars` steps) `remove_redundant_tests`
leaves the heap and the root index unchanged and keeps exactly the store
members. -/
theorem rrt_reduced_output (E : MtRobdd) (hwf : WF E)
    (hred : ∀ z ∈ E.store, (getNode E z).is_terminal = false →
      ¬((getNode E z).low ≠ none ∧ (getNode E z).low = (getNode E z).high))
    (hcl : ∀ z ∈ E.store, (getNode E z).is_terminal = false →
      (∀ l, (getNode E z).low = some l → l ∈ E.store) ∧
      (∀ x, (getNode E z).high = some x → x ∈ E.store))
    (hroots : ∀ p ∈ E.roots, p.2 ∈ E.store)
    (hreach : ∀ z ∈ E.store, ∃ p ∈ E.roots, ∃ k, k ≤ E.num_of_vars ∧
      ReachN E.heap k p.2 z) :
    (remove_redundant_tests E).heap = E.heap ∧
    (remove_redundant_tests E).roots = E.roots ∧
    (∀ x, x ∈ (remove_redundant_tests E).store ↔ x ∈ E.store) ∧
    (remove_redundant_tests E).num_of_vars = E.num_of_vars := by
  have huq := hwf.1.2.2
  obtain ⟨h1, h2, ⟨t, h3, h4⟩, h5⟩ :=
    rrt_reduced_fold E huq hred hcl (E.num_of_vars + 1) E.roots [] []
      hroots (fun x hx => absurd hx (List.not_mem_nil _))
  refine ⟨?_, ?_, ?_, ?_⟩
  · show (E.roots.foldl (rrtStep (E.num_of_vars + 1)) (E, [], [])).1.heap = E.heap
    rw [h1]
  · show (E.roots.foldl (rrtStep (E.num_of_vars + 1)) (E, [], [])).2.2 = E.roots
    rw [h2]
    simp
  · intro x
    constructor
    · intro hx
      have hx2 : x ∈ (E.roots.foldl (rrtStep (E.num_of_vars + 1))
          (E, [], [])).2.1 := hx
      rw [h3] at hx2
      simp only [List.nil_append] at hx2
      exact h4 x hx2
    · intro hx
      obtain ⟨p, hp, k, hk, hzk⟩ := hreach x hx
      show x ∈ (E.roots.foldl (rrtStep (E.num_of_vars + 1)) (E, [], [])).2.1
      exact h5 x p k hp hzk (by omega)
  · show (E.roots.foldl (rrtStep (E.num_of_vars + 1))
      (E, [], [])).1.num_of_vars = E.num_of_vars
    rw [h1]

/-- A one-terminal manager whose terminal value is not a root name: the
seed of the `make_complete(complete_terminal_nodes := false)`
non-idempotence. -/
def mcCexMgr : MtRobdd :=
  ⟨1, [⟨TERMINAL_INDEX, none, none, 5⟩], [0], []⟩

/-- C9 counterexample: with `complete_terminal_nodes = false` the sink
materialized by the first `make_complete` is itself a store terminal with
null children, so the second pass hole-fills it, materializes a fresh sink
and rebinds the sink root — store and root index both change. -/
theorem make_complete_false_not_idempotent :
    (make_complete (make_complete mcCexMgr 7 false) 7 false).store ≠
      (make_complete mcCexMgr 7 false).store ∧
    (make_complete (make_complete mcCexMgr 7 false) 7 false).roots ≠
      (make_complete mcCexMgr 7 false).roots := by
  decide

/-- A reduced one-terminal manager with its terminal bound as a root. -/
def rrtIdManager : MtRobdd :=
  ⟨1, [⟨TERMINAL_INDEX, none, none, 5⟩], [0], [(3, 0)]⟩

/-! ### C4: path enumeration on completed ordered diagrams -/

/-- Local ordering/completeness facts `get_all_bit_strings_from_root_node`
relies on at an inner node: a variable index inside `[0, V)`, both
children present (completed diagram), and each child either terminal or
with a strictly larger variable index. -/
def enumOk (d : MtRobdd) (j : Nat) : Prop :=
  (getNode d j).is_terminal = false →
    (0 ≤ (getNode d j).var_index ∧
     (getNode d j).var_index < (d.num_of_vars : Int)) ∧
    (∃ l, (getNode d j).low = some l ∧
      ((getNode d l).is_terminal = true ∨
       (getNode d j).var_index < (getNode d l).var_index)) ∧
    (∃ x, (getNode d j).high = some x ∧
      ((getNode d x).is_terminal = true ∨
       (getNode d j).var_index < (getNode d x).var_index))

theorem expandDontCares_mem_shape :
    ∀ (k : Nat) (pre p : List Bool), p ∈ expandDontCares pre k →
      ∃ s, p = pre ++ s ∧ s.length = k := by
  intro k
  induction k with
  | zero =>
      intro pre p hp
      simp only [expandDontCares, List.mem_singleton] at hp
      exact ⟨[], by simp [hp], rfl⟩
  | succ k ih =>
      intro pre p hp
      simp only [expandDontCares] at hp
      rcases List.mem_append.mp hp with hp | hp
      · obtain ⟨s, hs1, hs2⟩ := ih (pre ++ [false]) p hp
        exact ⟨false :: s, by simp [hs1], by simp [hs2]⟩
      · obtain ⟨s, hs1, hs2⟩ := ih (pre ++ [true]) p hp
        exact ⟨true :: s, by simp [hs1], by simp [hs2]⟩

theorem expandDontCares_shape_mem :
    ∀ (k : Nat) (pre : List Bool) (s : List Bool), s.length = k →
      pre ++ s ∈ expandDontCares pre k := by
  intro k
  induction k with
  | zero =>
      intro pre s hs
      rw [List.length_eq_zero.mp hs]
      simp [expandDontCares]
  | succ k ih =>
      intro pre s hs
      cases s with
      | nil => simp at hs
      | cons b t =>
          simp only [List.length_cons] at hs
          have ht : t.length = k := by omega
          simp only [expandDontCares]
          cases b
          · refine List.mem_append.mpr (Or.inl ?_)
            have := ih (pre ++ [false]) t ht
            simpa [List.append_assoc] using this
          · refine List.mem_append.mpr (Or.inr ?_)
            have := ih (pre ++ [true]) t ht
            simpa [List.append_assoc] using this

theorem expandDontCares_count (pre : List Bool) :
    ∀ (k : Nat) (q : List Bool), (expandDontCares q k).length = 2 ^ k := by
  intro k
  induction k with
  | zero => intro q; rfl
  | succ k ih =>
      intro q
      simp only [expandDontCares, List.length_append, ih]
      ring

theorem getD_append_exact (l : List Bool) (x : Bool) (t : List Bool) (b : Bool) :
    (l ++ x :: t).getD l.length b = x := by
  simp [List.getD, List.getElem?_append_right (le_refl l.length)]

/-- Soundness of the enumeration walk: every emitted pair extends the
prefix to a full-length bit string whose direct evaluation from the
visited node yields the emitted value. -/
theorem enumAux_sound (d : MtRobdd) :
    ∀ (fuel : Nat) (i : Nat) (pre : List Bool),
    (∀ j, Reaches d i j → enumOk d j) →
    pre.length = (if (getNode d i).is_terminal = true then d.num_of_vars
      else (getNode d i).var_index.toNat) →
    ∀ q ∈ enumAux d fuel i pre,
      q.1.length = d.num_of_vars ∧
      (∃ t, q.1 = pre ++ t) ∧
      evalAux d q.1 fuel (some i) = some q.2 := by
  intro fuel
  induction fuel with
  | zero =>
      intro i pre _ _ q hq
      exact absurd hq (List.not_mem_nil _)
  | succ fuel ih =>
      intro i pre hok hpre q hq
      by_cases hT : (getNode d i).is_terminal = true
      · have hq2 : q ∈ [(pre, (getNode d i).value)] := by
          have he : enumAux d (fuel + 1) i pre = [(pre, (getNode d i).value)] := by
            simp only [enumAux]
            rw [if_pos hT]
          rw [← he]
          exact hq
        simp only [List.mem_singleton] at hq2
        subst hq2
        rw [if_pos hT] at hpre
        refine ⟨hpre, ⟨[], by simp⟩, ?_⟩
        show (if (getNode d i).is_terminal then some (getNode d i).value
          else _) = _
        rw [if_pos hT]
      · rw [if_neg hT] at hpre
        have hT' : (getNode d i).is_terminal = false := by
          cases hq2 : (getNode d i).is_terminal
          · rfl
          · exact absurd hq2 hT
        obtain ⟨⟨hv0, hvV⟩, ⟨l, hl, hlo⟩, ⟨x, hx, hho⟩⟩ :=
          hok i Relation.ReflTransGen.refl hT'
        have hokl : ∀ j, Reaches d l j → enumOk d j := fun j hj =>
          hok j (Relation.ReflTransGen.head (Or.inl hl) hj)
        have hokh : ∀ j, Reaches d x j → enumOk d j := fun j hj =>
          hok j (Relation.ReflTransGen.head (Or.inr hx) hj)
        have he : enumAux d (fuel + 1) i pre =
            ((expandDontCares (pre ++ [false])
              (get_transition_length d.num_of_vars (getNode d i).var_index
                (getNode d l).var_index - 1)).flatMap
              (fun p => enumAux d fuel l p)) ++
            ((expandDontCares (pre ++ [true])
              (get_transition_length d.num_of_vars (getNode d i).var_index
                (getNode d x).var_index - 1)).flatMap
              (fun p => enumAux d fuel x p)) := by
          simp only [enumAux]
          rw [if_neg hT, hl, hx]
        rw [he] at hq
        -- transition arithmetic for a child c
        have harith : ∀ c : Nat, ((getNode d c).is_terminal = true ∨
            (getNode d i).var_index < (getNode d c).var_index) →
            1 ≤ get_transition_length d.num_of_vars (getNode d i).var_index
              (getNode d c).var_index ∧
            (getNode d i).var_index.toNat +
              get_transition_length d.num_of_vars (getNode d i).var_index
                (getNode d c).var_index =
            (if (getNode d c).is_terminal = true then d.num_of_vars
              else (getNode d c).var_index.toNat) := by
          intro c hc
          unfold get_transition_length
          rcases hc with hc | hc
          · have hct : (getNode d c).var_index = TERMINAL_INDEX := by
              have := hc
              unfold MtBddNode.is_terminal at this
              exact of_decide_eq_true this
            rw [if_pos hct, if_pos hc]
            constructor
            · omega
            · omega
          · have hcnt : ¬ (getNode d c).is_terminal = true := by
              intro hq2
              unfold MtBddNode.is_terminal at hq2
              have := of_decide_eq_true hq2
              rw [this] at hc
              unfold TERMINAL_INDEX at hc
              omega
            have hct : ¬ (getNode d c).var_index = TERMINAL_INDEX := by
              intro hq2
              rw [hq2] at hc
              unfold TERMINAL_INDEX at hc
              omega
            rw [if_neg hct, if_neg hcnt]
            constructor
            · omega
            · omega
        rcases List.mem_append.mp hq with hq | hq
        · obtain ⟨p, hp, hqp⟩ := List.mem_flatMap.mp hq
          obtain ⟨s, hps, hslen⟩ := expandDontCares_mem_shape _ _ _ hp
          obtain ⟨h1, hsum⟩ := harith l hlo
          have hplen : p.length = (if (getNode d l).is_terminal = true
              then d.num_of_vars else (getNode d l).var_index.toNat) := by
            rw [hps]
            simp only [List.length_append, List.length_singleton, hslen, hpre]
            omega
          obtain ⟨hlen, ⟨t, ht⟩, hev⟩ := ih l p hokl hplen q hqp
          refine ⟨hlen, ⟨false :: s ++ t, ?_⟩, ?_⟩
          · rw [ht, hps]
            simp [List.append_assoc]
          · show evalAux d q.1 (fuel + 1) (some i) = some q.2
            have hbit : q.1.getD (getNode d i).var_index.toNat false = false := by
              rw [← hpre, ht, hps]
              rw [show (pre ++ [false]) ++ s ++ t = pre ++ (false :: (s ++ t))
                from by simp [List.append_assoc]]
              exact getD_append_exact pre false (s ++ t) false
            show (if (getNode d i).is_terminal then some (getNode d i).value
              else evalAux d q.1 fuel
                (if q.1.getD (getNode d i).var_index.toNat false
                  then (getNode d i).high else (getNode d i).low)) = some q.2
            rw [if_neg hT, hbit, hl]
            exact hev
        · obtain ⟨p, hp, hqp⟩ := List.mem_flatMap.mp hq
          obtain ⟨s, hps, hslen⟩ := expandDontCares_mem_shape _ _ _ hp
          obtain ⟨h1, hsum⟩ := harith x hho
          have hplen : p.length = (if (getNode d x).is_terminal = true
              then d.num_of_vars else (getNode d x).var_index.toNat) := by
            rw [hps]
            simp only [List.length_append, List.length_singleton, hslen, hpre]
            omega
          obtain ⟨hlen, ⟨t, ht⟩, hev⟩ := ih x p hokh hplen q hqp
          refine ⟨hlen, ⟨true :: s ++ t, ?_⟩, ?_⟩
          · rw [ht, hps]
            simp [List.append_assoc]
          · show evalAux d q.1 (fuel + 1) (some i) = some q.2
            have hbit : q.1.getD (getNode d i).var_index.toNat false = true := by
              rw [← hpre, ht, hps]
              rw [show (pre ++ [true]) ++ s ++ t = pre ++ (true :: (s ++ t))
                from by simp [List.append_assoc]]
              exact getD_append_exact pre true (s ++ t) false
            show (if (getNode d i).is_terminal then some (getNode d i).value
              else evalAux d q.1 fuel
                (if q.1.getD (getNode d i).var_index.toNat false
                  then (getNode d i).high else (getNode d i).low)) = some q.2
            rw [if_neg hT, hbit, hx]
            exact hev

/-- Completeness of the enumeration walk: every full-length bit string
extending the prefix whose direct evaluation from the visited node reaches
a terminal is emitted with that terminal's value. -/
theorem enumAux_complete (d : MtRobdd) :
    ∀ (fuel : Nat) (i : Nat) (pre bits : List Bool) (v : Nat),
    (∀ j, Reaches d i j → enumOk d j) →
    pre.length = (if (getNode d i).is_terminal = true then d.num_of_vars
      else (getNode d i).var_index.toNat) →
    bits.length = d.num_of_vars →
    (∃ t, bits = pre ++ t) →
    evalAux d bits fuel (some i) = some v →
    (bits, v) ∈ enumAux d fuel i pre := by
  intro fuel
  induction fuel with
  | zero =>
      intro i pre bits v _ _ _ _ hev
      rw [show evalAux d bits 0 (some i) = none from rfl] at hev
      exact Option.noConfusion hev
  | succ fuel ih =>
      intro i pre bits v hok hpre hbits ⟨t, ht⟩ hev
      by_cases hT : (getNode d i).is_terminal = true
      · rw [if_pos hT] at hpre
        have hev2 : some (getNode d i).value = some v := by
          rw [← hev]
          show _ = (if (getNode d i).is_terminal then some (getNode d i).value
            else _)
          rw [if_pos hT]
        have hveq : v = (getNode d i).value := (Option.some.injEq _ _).mp hev2.symm
        have htl : t = [] := by
          have : bits.length = pre.length + t.length := by
            rw [ht]; simp
          rw [hbits, hpre] at this
          exact List.length_eq_zero.mp (by omega)
        have hbp : bits = pre := by rw [ht, htl]; simp
        have he : enumAux d (fuel + 1) i pre = [(pre, (getNode d i).value)] := by
          simp only [enumAux]
          rw [if_pos hT]
        rw [he, hbp, hveq]
        simp
      · rw [if_neg hT] at hpre
        have hT' : (getNode d i).is_terminal = false := by
          cases hq2 : (getNode d i).is_terminal
          · rfl
          · exact absurd hq2 hT
        obtain ⟨⟨hv0, hvV⟩, ⟨l, hl, hlo⟩, ⟨x, hx, hho⟩⟩ :=
          hok i Relation.ReflTransGen.refl hT'
        have hokl : ∀ j, Reaches d l j → enumOk d j := fun j hj =>
          hok j (Relation.ReflTransGen.head (Or.inl hl) hj)
        have hokh : ∀ j, Reaches d x j → enumOk d j := fun j hj =>
          hok j (Relation.ReflTransGen.head (Or.inr hx) hj)
        have he : enumAux d (fuel + 1) i pre =
            ((expandDontCares (pre ++ [false])
              (get_transition_length d.num_of_vars (getNode d i).var_index
                (getNode d l).var_index - 1)).flatMap
              (fun p => enumAux d fuel l p)) ++
            ((expandDontCares (pre ++ [true])
              (get_transition_length d.num_of_vars (getNode d i).var_index
                (getNode d x).var_index - 1)).flatMap
              (fun p => enumAux d fuel x p)) := by
          simp only [enumAux]
          rw [if_neg hT, hl, hx]
        rw [he]
        have harith : ∀ c : Nat, ((getNode d c).is_terminal = true ∨
            (getNode d i).var_index < (getNode d c).var_index) →
            (∀ j, Reaches d c j → enumOk d j) →
            1 ≤ get_transition_length d.num_of_vars (getNode d i).var_index
              (getNode d c).var_index ∧
            (getNode d i).var_index.toNat +
              get_transition_length d.num_of_vars (getNode d i).var_index
                (getNode d c).var_index =
            (if (getNode d c).is_terminal = true then d.num_of_vars
              else (getNode d c).var_index.toNat) ∧
            get_transition_length d.num_of_vars (getNode d i).var_index
              (getNode d c).var_index ≤
              d.num_of_vars - (getNode d i).var_index.toNat := by
          intro c hc hokc
          unfold get_transition_length
          rcases hc with hc | hc
          · have hct : (getNode d c).var_index = TERMINAL_INDEX := by
              have := hc
              unfold MtBddNode.is_terminal at this
              exact of_decide_eq_true this
            rw [if_pos hct, if_pos hc]
            refine ⟨by omega, by omega, by omega⟩
          · have hcnt : ¬ (getNode d c).is_terminal = true := by
              intro hq2
              unfold MtBddNode.is_terminal at hq2
              have := of_decide_eq_true hq2
              rw [this] at hc
              unfold TERMINAL_INDEX at hc
              omega
            have hcnt' : (getNode d c).is_terminal = false := by
              cases hq2 : (getNode d c).is_terminal
              · rfl
              · exact absurd hq2 hcnt
            have hct : ¬ (getNode d c).var_index = TERMINAL_INDEX := by
              intro hq2
              rw [hq2] at hc
              unfold TERMINAL_INDEX at hc
              omega
            obtain ⟨⟨hc0, hcV⟩, _, _⟩ :=
              hokc c Relation.ReflTransGen.refl hcnt'
            rw [if_neg hct, if_neg hcnt]
            refine ⟨by omega, by omega, by omega⟩
        -- the evaluated bit at this node
        have htlen : t.length = d.num_of_vars -
            (getNode d i).var_index.toNat := by
          have : bits.length = pre.length + t.length := by
            rw [ht]; simp
          omega
        have htpos : 0 < t.length := by omega
        obtain ⟨b, t', htbt⟩ : ∃ b t', t = b :: t' := by
          cases t with
          | nil => simp at htpos
          | cons b t' => exact ⟨b, t', rfl⟩
        have hbit : bits.getD (getNode d i).var_index.toNat false = b := by
          rw [ht, htbt, ← hpre]
          exact getD_append_exact pre b t' false
        have hev2 : evalAux d bits fuel
            (if b then (getNode d i).high else (getNode d i).low) = some v := by
          rw [← hev]
          show _ = (if (getNode d i).is_terminal then some (getNode d i).value
            else evalAux d bits fuel
              (if bits.getD (getNode d i).var_index.toNat false
                then (getNode d i).high else (getNode d i).low))
          rw [if_neg hT, hbit]
        cases b
        · -- LOW branch
          obtain ⟨h1, hsum, hle⟩ := harith l hlo hokl
          refine List.mem_append.mpr (Or.inl ?_)
          refine List.mem_flatMap.mpr ⟨(pre ++ [false]) ++
            t'.take (get_transition_length d.num_of_vars
              (getNode d i).var_index (getNode d l).var_index - 1), ?_, ?_⟩
          · refine expandDontCares_shape_mem _ _ _ ?_
            rw [List.length_take]
            have : t'.length = t.length - 1 := by rw [htbt]; simp
            omega
          · refine ih l _ bits v hokl ?_ hbits ⟨t'.drop
              (get_transition_length d.num_of_vars
                (getNode d i).var_index (getNode d l).var_index - 1), ?_⟩ ?_
            · simp only [List.length_append, List.length_singleton,
                List.length_take, hpre]
              have : t'.length = t.length - 1 := by rw [htbt]; simp
              omega
            · rw [ht, htbt]
              simp [List.append_assoc]
            · rw [hl] at hev2
              exact hev2
        · -- HIGH branch
          obtain ⟨h1, hsum, hle⟩ := harith x hho hokh
          refine List.mem_append.mpr (Or.inr ?_)
          refine List.mem_flatMap.mpr ⟨(pre ++ [true]) ++
            t'.take (get_transition_length d.num_of_vars
              (getNode d i).var_index (getNode d x).var_index - 1), ?_, ?_⟩
          · refine expandDontCares_shape_mem _ _ _ ?_
            rw [List.length_take]
            have : t'.length = t.length - 1 := by rw [htbt]; simp
            omega
          · refine ih x _ bits v hokh ?_ hbits ⟨t'.drop
              (get_transition_length d.num_of_vars
                (getNode d i).var_index (getNode d x).var_index - 1), ?_⟩ ?_
            · simp only [List.length_append, List.length_singleton,
                List.length_take, hpre]
              have : t'.length = t.length - 1 := by rw [htbt]; simp
              omega
            · rw [ht, htbt]
              simp [List.append_assoc]
            · rw [hx] at hev2
              exact hev2

/-- C4: on a completed, ordered diagram (formalized by `enumOk` on every
node reachable from the root: inner nodes have variable index in `[0, V)`,
both children non-null, and strictly increasing variable indices towards
children), the path enumeration emits only bit strings of length exactly
`num_of_vars`; every emitted pair evaluates (by direct descent) to its
value; every full-length assignment whose descent reaches a terminal is
emitted with that terminal's value; and each block of `k` skipped
variables expands into exactly `2 ^ k` bit strings. -/
theorem enumeration_covers_assignments (d : MtRobdd) (root : Nat)
    (hok : ∀ j, Reaches d root j → enumOk d j) :
    (∀ q ∈ get_all_bit_strings_from_root_node d root,
      q.1.length = d.num_of_vars) ∧
    (∀ q ∈ get_all_bit_strings_from_root_node d root,
      evalFrom d root q.1 = some q.2) ∧
    (∀ bits v, bits.length = d.num_of_vars →
      evalFrom d root bits = some v →
      (bits, v) ∈ get_all_bit_strings_from_root_node d root) ∧
    (∀ (pre : List Bool) (k : Nat), (expandDontCares pre k).length = 2 ^ k) := by
  have hftl : get_transition_length d.num_of_vars 0 (getNode d root).var_index =
      (if (getNode d root).is_terminal = true then d.num_of_vars
        else (getNode d root).var_index.toNat) := by
    unfold get_transition_length
    by_cases hT : (getNode d root).is_terminal = true
    · have hct : (getNode d root).var_index = TERMINAL_INDEX := by
        have := hT
        unfold MtBddNode.is_terminal at this
        exact of_decide_eq_true this
      rw [if_pos hct, if_pos hT]
      omega
    · have hT' : (getNode d root).is_terminal = false := by
        cases hq : (getNode d root).is_terminal
        · rfl
        · exact absurd hq hT
      obtain ⟨⟨h0, hV⟩, _, _⟩ := hok root Relation.ReflTransGen.refl hT'
      have hct : ¬ (getNode d root).var_index = TERMINAL_INDEX := by
        intro hq
        rw [hq] at h0
        unfold TERMINAL_INDEX at h0
        omega
      rw [if_neg hct, if_neg hT]
      omega
  have hftlV : get_transition_length d.num_of_vars 0
      (getNode d root).var_index ≤ d.num_of_vars := by
    rw [hftl]
    by_cases hT : (getNode d root).is_terminal = true
    · rw [if_pos hT]
    · rw [if_neg hT]
      have hT' : (getNode d root).is_terminal = false := by
        cases hq : (getNode d root).is_terminal
        · rfl
        · exact absurd hq hT
      obtain ⟨⟨h0, hV⟩, _, _⟩ := hok root Relation.ReflTransGen.refl hT'
      omega
  refine ⟨?_, ?_, ?_, fun pre k => expandDontCares_count pre k pre⟩
  · intro q hq
    obtain ⟨p, hp, hq2⟩ := List.mem_flatMap.mp hq
    obtain ⟨s, hps, hslen⟩ := expandDontCares_mem_shape _ _ _ hp
    have hpre : p.length = (if (getNode d root).is_terminal = true
        then d.num_of_vars else (getNode d root).var_index.toNat) := by
      rw [hps, ← hftl]
      simp [hslen]
    exact (enumAux_sound d (d.num_of_vars + 1) root p hok hpre q hq2).1
  · intro q hq
    obtain ⟨p, hp, hq2⟩ := List.mem_flatMap.mp hq
    obtain ⟨s, hps, hslen⟩ := expandDontCares_mem_shape _ _ _ hp
    have hpre : p.length = (if (getNode d root).is_terminal = true
        then d.num_of_vars else (getNode d root).var_index.toNat) := by
      rw [hps, ← hftl]
      simp [hslen]
    exact (enumAux_sound d (d.num_of_vars + 1) root p hok hpre q hq2).2.2
  · intro bits v hbits hev
    refine List.mem_flatMap.mpr ⟨bits.take (get_transition_length
      d.num_of_vars 0 (getNode d root).var_index), ?_, ?_⟩
    · have : bits.take (get_transition_length d.num_of_vars 0
          (getNode d root).var_index) = [] ++ bits.take
          (get_transition_length d.num_of_vars 0
            (getNode d root).var_index) := by simp
      rw [this]
      refine expandDontCares_shape_mem _ _ _ ?_
      rw [List.length_take]
      omega
    · refine enumAux_complete d (d.num_of_vars + 1) root _ bits v hok ?_ hbits
        ⟨bits.drop (get_transition_length d.num_of_vars 0
          (getNode d root).var_index), by simp⟩ hev
      rw [List.length_take, ← hftl]
      omega

/-- A completed ordered one-variable diagram: one inner test node over two
distinct terminals, rooted at name `0`. -/
def enumMgr : MtRobdd :=
  ⟨1, [⟨0, some 1, some 2, MAX_NODE_VALUE⟩,
       ⟨TERMINAL_INDEX, none, none, 5⟩,
       ⟨TERMINAL_INDEX, none, none, 9⟩], [0, 1, 2], [(0, 0)]⟩

/-- Witness for `enumeration_covers_assignments` at the one-variable
diagram: its hypotheses hold, the emitted lengths are all `1`, and the
assignment `[true]` (which evaluates to `9`) is emitted. -/
theorem enumeration_covers_assignments_witness :
    (∀ j, Reaches enumMgr 0 j → enumOk enumMgr j) ∧
    (∀ q ∈ get_all_bit_strings_from_root_node enumMgr 0,
      q.1.length = 1) ∧
    ([true], 9) ∈ get_all_bit_strings_from_root_node enumMgr 0 := by
  have hok : ∀ j, enumOk enumMgr j := by
    intro j hterm
    match j with
    | 0 =>
        exact ⟨⟨by decide, by decide⟩,
          ⟨1, rfl, Or.inl (by decide)⟩,
          ⟨2, rfl, Or.inl (by decide)⟩⟩
    | 1 => exact absurd hterm (by decide)
    | 2 => exact absurd hterm (by decide)
    | n + 3 =>
        exfalso
        have hd : getNode enumMgr (n + 3) = default := by
          show enumMgr.heap.getD (n + 3) default = default
          have hlen : enumMgr.heap.length ≤ n + 3 := by
            show 3 ≤ n + 3
            omega
          simp [List.getD, List.getElem?_eq_none hlen]
        rw [hd] at hterm
        exact absurd hterm (by decide)
  refine ⟨fun j _ => hok j, ?_, ?_⟩
  · exact (enumeration_covers_assignments enumMgr 0 (fun j _ => hok j)).1
  · exact (enumeration_covers_assignments enumMgr 0
      (fun j _ => hok j)).2.2.1 [true] 9 rfl (by decide)

/-! ### C1: the canonicalization pipeline round-trip -/

/-- Heap-wide ordering: every arena cell is terminal or an inner record
with variable index in `[0, V)` and live children that are terminal or
carry a strictly larger variable index. -/
def Ordered (d : MtRobdd) : Prop :=
  ∀ j, j < d.heap.length → (getNode d j).is_terminal = true ∨
    (0 ≤ (getNode d j).var_index ∧
     (getNode d j).var_index < (d.num_of_vars : Int) ∧
     (∀ l, (getNode d j).low = some l → l < d.heap.length ∧
       ((getNode d l).is_terminal = true ∨
        (getNode d j).var_index < (getNode d l).var_index)) ∧
     (∀ x, (getNode d j).high = some x → x < d.heap.length ∧
       ((getNode d x).is_terminal = true ∨
        (getNode d j).var_index < (getNode d x).var_index)))

theorem evalAux_succ (d : MtRobdd) (bits : List Bool) (f i : Nat) :
    evalAux d bits (f + 1) (some i) =
      if (getNode d i).is_terminal then some (getNode d i).value
      else evalAux d bits f
        (if bits.getD (getNode d i).var_index.toNat false
          then (getNode d i).high else (getNode d i).low) := rfl

theorem evalAux_none (d : MtRobdd) (bits : List Bool) (f : Nat) :
    evalAux d bits f none = none := by
  cases f <;> rfl

theorem evalAux_zero (d : MtRobdd) (bits : List Bool) (o : Option Nat) :
    evalAux d bits 0 o = none := by
  cases o <;> rfl

/-- A non-terminal record has a non-negative variable index or the
ordering facts say nothing; we only need the negation transport. -/
theorem is_terminal_false_of_not (n : MtBddNode)
    (h : ¬ n.is_terminal = true) : n.is_terminal = false := by
  cases hq : n.is_terminal
  · rfl
  · exact absurd hq h

/-- The evaluator only reads the arena. -/
theorem evalAux_heap_only (d d' : MtRobdd) (hh : d'.heap = d.heap)
    (bits : List Bool) :
    ∀ fuel o, evalAux d' bits fuel o = evalAux d bits fuel o := by
  intro fuel
  induction fuel with
  | zero => intro o; rw [evalAux_zero, evalAux_zero]
  | succ fuel ih =>
      intro o
      cases o with
      | none => rw [evalAux_none, evalAux_none]
      | some i =>
          have hg : getNode d' i = getNode d i := by
            show d'.heap.getD i default = _
            rw [hh]
            rfl
          rw [evalAux_succ, evalAux_succ, hg, ih]

/-- Evaluation of an old node is unchanged by extending the arena, as long
as every old cell's children stay inside the old arena. -/
theorem evalAux_ext (d d' : MtRobdd) (t : List MtBddNode)
    (ht : d'.heap = d.heap ++ t)
    (hhc : ∀ n ∈ d.heap, (∀ l, n.low = some l → l < d.heap.length) ∧
      (∀ x, n.high = some x → x < d.heap.length)) (bits : List Bool) :
    ∀ fuel i, i < d.heap.length →
    evalAux d' bits fuel (some i) = evalAux d bits fuel (some i) := by
  intro fuel
  induction fuel with
  | zero => intro i _; rw [evalAux_zero, evalAux_zero]
  | succ fuel ih =>
      intro i hi
      have hg : getNode d' i = getNode d i := getNode_ext ht hi
      have hmem : getNode d i ∈ d.heap := by
        have : getNode d i = d.heap[i] := by
          simp [getNode, List.getD, List.getElem?_eq_getElem hi]
        rw [this]
        exact List.getElem_mem hi
      rw [evalAux_succ, evalAux_succ, hg]
      by_cases hT : (getNode d i).is_terminal = true
      · rw [if_pos hT, if_pos hT]
      · rw [if_neg hT, if_neg hT]
        by_cases hb : bits.getD (getNode d i).var_index.toNat false = true
        · rw [if_pos hb]
          cases hc : (getNode d i).high with
          | none => rw [evalAux_none, evalAux_none]
          | some c => exact ih c ((hhc _ hmem).2 c hc)
        · rw [if_neg hb]
          cases hc : (getNode d i).low with
          | none => rw [evalAux_none, evalAux_none]
          | some c => exact ih c ((hhc _ hmem).1 c hc)

/-- On an ordered arena, evaluation from node `i` is insensitive to the
fuel once the fuel exceeds the longest possible descent from `i`. -/
theorem evalAux_stable (d : MtRobdd) (hord : Ordered d) (bits : List Bool) :
    ∀ (m : Nat) (i : Nat) (f f' : Nat), i < d.heap.length →
    ((getNode d i).is_terminal = true ∧ 1 ≤ f ∧ 1 ≤ f') ∨
      ((d.num_of_vars : Int) - (getNode d i).var_index ≤ (m : Int) ∧
        m < f ∧ m < f') →
    evalAux d bits f (some i) = evalAux d bits f' (some i) := by
  intro m
  induction m with
  | zero =>
      intro i f f' hi hcase
      have hT : (getNode d i).is_terminal = true := by
        rcases hcase with ⟨hT, _, _⟩ | ⟨hm, _, _⟩
        · exact hT
        · rcases hord i hi with hT | ⟨h0, hV, _⟩
          · exact hT
          · exfalso
            omega
      have hf1 : 1 ≤ f := by rcases hcase with ⟨_, h, _⟩ | ⟨_, h, _⟩ <;> omega
      have hf2 : 1 ≤ f' := by rcases hcase with ⟨_, _, h⟩ | ⟨_, _, h⟩ <;> omega
      obtain ⟨g, rfl⟩ : ∃ g, f = g + 1 := by
        cases f
        · omega
        · exact ⟨_, rfl⟩
      obtain ⟨g', rfl⟩ : ∃ g', f' = g' + 1 := by
        cases f'
        · omega
        · exact ⟨_, rfl⟩
      rw [evalAux_succ, evalAux_succ, if_pos hT, if_pos hT]
  | succ m ih =>
      intro i f f' hi hcase
      have hf1 : 1 ≤ f := by rcases hcase with ⟨_, h, _⟩ | ⟨_, h, _⟩ <;> omega
      have hf2 : 1 ≤ f' := by rcases hcase with ⟨_, _, h⟩ | ⟨_, _, h⟩ <;> omega
      obtain ⟨g, rfl⟩ : ∃ g, f = g + 1 := by
        cases f
        · omega
        · exact ⟨_, rfl⟩
      obtain ⟨g', rfl⟩ : ∃ g', f' = g' + 1 := by
        cases f'
        · omega
        · exact ⟨_, rfl⟩
      rw [evalAux_succ, evalAux_succ]
      by_cases hT : (getNode d i).is_terminal = true
      · rw [if_pos hT, if_pos hT]
      · have hmf : (d.num_of_vars : Int) - (getNode d i).var_index ≤
            ((m + 1 : Nat) : Int) ∧ m + 1 < g + 1 ∧ m + 1 < g' + 1 := by
          rcases hcase with ⟨hT2, _, _⟩ | ⟨hm, hg, hg'⟩
          · exact absurd hT2 hT
          · exact ⟨hm, by omega, by omega⟩
        rcases hord i hi with hT2 | ⟨h0, hV, hlo, hho⟩
        · exact absurd hT2 hT
        rw [if_neg hT, if_neg hT]
        by_cases hb : bits.getD (getNode d i).var_index.toNat false = true
        · rw [if_pos hb]
          cases hc : (getNode d i).high with
          | none => rw [evalAux_none, evalAux_none]
          | some c =>
              obtain ⟨hcl, hcc⟩ := hho c hc
              rcases hcc with hct | hcv
              · exact ih c g g' hcl (Or.inl ⟨hct, by omega, by omega⟩)
              · refine ih c g g' hcl (Or.inr ⟨?_, by omega, by omega⟩)
                omega
        · rw [if_neg hb]
          cases hc : (getNode d i).low with
          | none => rw [evalAux_none, evalAux_none]
          | some c =>
              obtain ⟨hcl, hcc⟩ := hlo c hc
              rcases hcc with hct | hcv
              · exact ih c g g' hcl (Or.inl ⟨hct, by omega, by omega⟩)
              · refine ih c g g' hcl (Or.inr ⟨?_, by omega, by omega⟩)
                omega

/-- A node sits at level `k`: terminal exactly at `k = V`, otherwise an
inner record testing variable `k`. -/
def AtLevel (d : MtRobdd) (j k : Nat) : Prop :=
  if k = d.num_of_vars then (getNode d j).is_terminal = true
  else (getNode d j).is_terminal = false ∧ (getNode d j).var_index = (k : Int)

/-- A leveled arena: children of a level-`k` inner cell sit at level
`k + 1`.  Insertion-built managers have this shape. -/
def Leveled (d : MtRobdd) : Prop :=
  ∀ j k, j < d.heap.length → k < d.num_of_vars → AtLevel d j k →
    (∀ l, (getNode d j).low = some l → l < d.heap.length ∧ AtLevel d l (k + 1)) ∧
    (∀ x, (getNode d j).high = some x → x < d.heap.length ∧ AtLevel d x (k + 1))

theorem AtLevel_ext {d d' : MtRobdd} {t : List MtBddNode}
    (ht : d'.heap = d.heap ++ t) (hv : d'.num_of_vars = d.num_of_vars)
    {j k : Nat} (hj : j < d.heap.length) (h : AtLevel d j k) :
    AtLevel d' j k := by
  unfold AtLevel at h ⊢
  rw [hv, getNode_ext ht hj]
  exact h

theorem Leveled_ext (d d' : MtRobdd) (t : List MtBddNode)
    (ht : d'.heap = d.heap ++ t) (hv : d'.num_of_vars = d.num_of_vars)
    (hL : Leveled d)
    (hnew : ∀ j k, d.heap.length ≤ j → j < d'.heap.length →
      k < d.num_of_vars → AtLevel d' j k →
      (∀ l, (getNode d' j).low = some l →
        l < d'.heap.length ∧ AtLevel d' l (k + 1)) ∧
      (∀ x, (getNode d' j).high = some x →
        x < d'.heap.length ∧ AtLevel d' x (k + 1))) :
    Leveled d' := by
  intro j k hj hk hA
  by_cases hold : j < d.heap.length
  · have hg : getNode d' j = getNode d j := getNode_ext ht hold
    have hA0 : AtLevel d j k := by
      unfold AtLevel at hA ⊢
      rw [hv, hg] at hA
      exact hA
    obtain ⟨h1, h2⟩ := hL j k hold (by omega) hA0
    rw [hg]
    constructor
    · intro l hl
      obtain ⟨hll, hAl⟩ := h1 l hl
      refine ⟨?_, AtLevel_ext ht hv hll hAl⟩
      rw [ht]
      simp only [List.length_append]
      omega
    · intro x hx
      obtain ⟨hxl, hAx⟩ := h2 x hx
      refine ⟨?_, AtLevel_ext ht hv hxl hAx⟩
      rw [ht]
      simp only [List.length_append]
      omega
  · exact hnew j k (by omega) hj (by omega) hA

theorem natCast_record_not_terminal (var : Nat) (lo hi : Option Nat)
    (vv : Nat) : (⟨(var : Int), lo, hi, vv⟩ : MtBddNode).is_terminal = false := by
  unfold MtBddNode.is_terminal TERMINAL_INDEX
  simp only [decide_eq_false_iff_not]
  intro h
  omega

/-- Splitting a tail comparison at the head position. -/
theorem drop_eq_iff_head_tail (bits2 bits : List Bool) (var V : Nat)
    (h2 : bits2.length = V) (hb : bits.length = V) (hv : var < V) :
    (bits2.drop var = bits.drop var ↔
      (bits2.getD var false = bits.getD var false ∧
       bits2.drop (var + 1) = bits.drop (var + 1))) := by
  have hlt2 : var < bits2.length := by omega
  have hltb : var < bits.length := by omega
  rw [List.drop_eq_getElem_cons hlt2, List.drop_eq_getElem_cons hltb]
  rw [show bits2.getD var false = bits2[var] from by
    simp [List.getD, List.getElem?_eq_getElem hlt2]]
  rw [show bits.getD var false = bits[var] from by
    simp [List.getD, List.getElem?_eq_getElem hltb]]
  constructor
  · intro h
    exact ⟨by injection h, by injection h⟩
  · intro ⟨ha, hb2⟩
    rw [ha, hb2]

theorem create_node_Leveled (d : MtRobdd) (var : Nat) (lo hi : Option Nat)
    (vv : Nat) (hL : Leveled d)
    (hvar : var < d.num_of_vars)
    (hlo : ∀ l, lo = some l → l < d.heap.length ∧ AtLevel d l (var + 1))
    (hhi : ∀ x, hi = some x → x < d.heap.length ∧ AtLevel d x (var + 1)) :
    Leveled (create_node d (var : Int) lo hi vv).2 ∧
    AtLevel (create_node d (var : Int) lo hi vv).2
      (create_node d (var : Int) lo hi vv).1 var := by
  obtain ⟨hrec, hnum, ⟨t0, ht0⟩, _, _⟩ := create_node_spec d (var : Int) lo hi vv
  cases hf : findEquiv d (⟨(var : Int), lo, hi, vv⟩ : MtBddNode) with
  | some i =>
      have h2 : create_node d (var : Int) lo hi vv = (i, d) := by
        simp [create_node, hf]
      rw [h2]
      refine ⟨hL, ?_⟩
      show AtLevel d i var
      unfold AtLevel
      rw [if_neg (by omega)]
      have hg : getNode d i = ⟨(var : Int), lo, hi, vv⟩ :=
        (findEquiv_some_getNode hf).1
      rw [hg]
      exact ⟨natCast_record_not_terminal var lo hi vv, rfl⟩
  | none =>
      have ht2 : (create_node d (var : Int) lo hi vv).2.heap =
          d.heap ++ [⟨(var : Int), lo, hi, vv⟩] := by
        simp [create_node, hf]
      have hlen2 : (create_node d (var : Int) lo hi vv).2.heap.length =
          d.heap.length + 1 := by
        rw [ht2]
        simp
      have hres : (create_node d (var : Int) lo hi vv).1 = d.heap.length := by
        simp [create_node, hf]
      have hgnew : getNode (create_node d (var : Int) lo hi vv).2
          d.heap.length = ⟨(var : Int), lo, hi, vv⟩ := by
        show (create_node d (var : Int) lo hi vv).2.heap.getD
          d.heap.length default = _
        rw [ht2]
        exact getNode_heap_append_last d.heap _
      constructor
      · refine Leveled_ext d _ _ ht2 hnum hL ?_
        intro j k hj1 hj2 hk hA
        have hjeq : j = d.heap.length := by
          rw [hlen2] at hj2
          omega
        subst hjeq
        unfold AtLevel at hA
        rw [hnum, if_neg (by omega), hgnew] at hA
        have hkv : ((var : Int)) = (k : Int) := hA.2
        have hkvar : k = var := by omega
        subst hkvar
        rw [hgnew]
        constructor
        · intro l hl
          have hl2 : lo = some l := hl
          obtain ⟨hll, hAl⟩ := hlo l hl2
          refine ⟨?_, AtLevel_ext ht2 hnum hll hAl⟩
          rw [hlen2]
          omega
        · intro x hx
          have hx2 : hi = some x := hx
          obtain ⟨hxl, hAx⟩ := hhi x hx2
          refine ⟨?_, AtLevel_ext ht2 hnum hxl hAx⟩
          rw [hlen2]
          omega
      · unfold AtLevel
        rw [hnum, if_neg (by omega), hres, hgnew]
        exact ⟨natCast_record_not_terminal var lo hi vv, rfl⟩

/-- Terminal allocation keeps the arena leveled and lands at level `V`. -/
theorem create_terminal_Leveled (d : MtRobdd) (vv : Nat)
    (hL : Leveled d) :
    Leveled (create_node d TERMINAL_INDEX none none vv).2 ∧
    AtLevel (create_node d TERMINAL_INDEX none none vv).2
      (create_node d TERMINAL_INDEX none none vv).1 d.num_of_vars := by
  obtain ⟨hrec, hnum, ⟨t0, ht0⟩, _, _⟩ :=
    create_node_spec d TERMINAL_INDEX none none vv
  cases hf : findEquiv d (⟨TERMINAL_INDEX, none, none, vv⟩ : MtBddNode) with
  | some i =>
      have h2 : create_node d TERMINAL_INDEX none none vv = (i, d) := by
        simp [create_node, hf]
      rw [h2]
      refine ⟨hL, ?_⟩
      show AtLevel d i d.num_of_vars
      unfold AtLevel
      rw [if_pos rfl]
      have hg : getNode d i = ⟨TERMINAL_INDEX, none, none, vv⟩ :=
        (findEquiv_some_getNode hf).1
      rw [hg]
      rfl
  | none =>
      have ht2 : (create_node d TERMINAL_INDEX none none vv).2.heap =
          d.heap ++ [⟨TERMINAL_INDEX, none, none, vv⟩] := by
        simp [create_node, hf]
      have hlen2 : (create_node d TERMINAL_INDEX none none vv).2.heap.length =
          d.heap.length + 1 := by
        rw [ht2]
        simp
      have hres : (create_node d TERMINAL_INDEX none none vv).1 =
          d.heap.length := by
        simp [create_node, hf]
      have hgnew : getNode (create_node d TERMINAL_INDEX none none vv).2
          d.heap.length = ⟨TERMINAL_INDEX, none, none, vv⟩ := by
        show (create_node d TERMINAL_INDEX none none vv).2.heap.getD
          d.heap.length default = _
        rw [ht2]
        exact getNode_heap_append_last d.heap _
      constructor
      · refine Leveled_ext d _ _ ht2 hnum hL ?_
        intro j k hj1 hj2 hk hA
        have hjeq : j = d.heap.length := by
          rw [hlen2] at hj2
          omega
        subst hjeq
        unfold AtLevel at hA
        rw [hnum, if_neg (by omega), hgnew] at hA
        have h1 : (true : Bool) = false := hA.1
        exact Bool.noConfusion h1
      · unfold AtLevel
        rw [hnum, if_pos rfl, hres, hgnew]
        rfl

/-- Extension invariance of the evaluator, on an optional pointer. -/
theorem evalAux_ext_opt (d d' : MtRobdd) (t : List MtBddNode)
    (ht : d'.heap = d.heap ++ t)
    (hhc : ∀ n ∈ d.heap, (∀ l, n.low = some l → l < d.heap.length) ∧
      (∀ x, n.high = some x → x < d.heap.length)) (bits : List Bool)
    (fuel : Nat) (o : Option Nat)
    (ho : ∀ c, o = some c → c < d.heap.length) :
    evalAux d' bits fuel o = evalAux d bits fuel o := by
  cases o with
  | none => rw [evalAux_none, evalAux_none]
  | some c => exact evalAux_ext d d' t ht hhc bits fuel c (ho c rfl)

/-- The insertion recursion on a leveled arena: it keeps the arena leveled,
returns a node at the insertion level, and its result evaluates to the new
value exactly on bit strings agreeing with `bits` from the insertion level
on, and as the original source node otherwise. -/
theorem insertAux_eval :
    ∀ (fuel : Nat) (d : MtRobdd) (var : Nat) (src : Option Nat)
      (bits : List Bool) (v : Nat),
    wfCore d → Leveled d →
    (∀ s, src = some s → s < d.heap.length ∧ AtLevel d s var) →
    var + fuel = d.num_of_vars →
    bits.length = d.num_of_vars →
    Leveled (insertAux d fuel var src bits v).2 ∧
    AtLevel (insertAux d fuel var src bits v).2
      (insertAux d fuel var src bits v).1 var ∧
    (∀ bits2, bits2.length = d.num_of_vars →
      evalAux (insertAux d fuel var src bits v).2 bits2 (fuel + 1)
        (some (insertAux d fuel var src bits v).1) =
      if bits2.drop var = bits.drop var then some v
      else evalAux d bits2 (fuel + 1) src) := by
  intro fuel
  induction fuel with
  | zero =>
      intro d var src bits v hwf hL hsrc hfv hblen
      have hvV : var = d.num_of_vars := by omega
      have hstep : insertAux d 0 var src bits v =
          create_node d TERMINAL_INDEX none none v := rfl
      rw [hstep]
      obtain ⟨hLt, hAt⟩ := create_terminal_Leveled d v hL
      obtain ⟨hrec, hnum, ⟨t0, ht0⟩, _, _⟩ :=
        create_node_spec d TERMINAL_INDEX none none v
      refine ⟨hLt, by rw [hvV]; exact hAt, ?_⟩
      intro bits2 hb2
      rw [evalAux_succ, hrec]
      rw [if_pos (show (⟨TERMINAL_INDEX, none, none, v⟩ : MtBddNode).is_terminal
        = true from rfl)]
      rw [if_pos (by
        rw [List.drop_eq_nil_of_le (by omega), List.drop_eq_nil_of_le (by omega)])]
  | succ fuel ih =>
      intro d var src bits v hwf hL hsrc hfv hblen
      have hvarV : var < d.num_of_vars := by omega
      cases src with
      | none =>
          obtain ⟨hLp, hAp, hEp⟩ := ih d (var + 1) none bits v hwf hL
            (fun s hs => Option.noConfusion hs) (by omega) hblen
          obtain ⟨⟨t1, hext1⟩, _, _, hnum1⟩ :=
            insertAux_frame d fuel (var + 1) none bits v
          obtain ⟨hwf1, hlt1⟩ := insertAux_wfCore d fuel (var + 1) none bits v
            hwf (fun s hs => Option.noConfusion hs)
          by_cases hb : bits.getD var false = true
          · have hstep : insertAux d (fuel + 1) var none bits v =
                create_node (insertAux d fuel (var + 1) none bits v).2
                  (var : Int) none
                  (some (insertAux d fuel (var + 1) none bits v).1)
                  MAX_NODE_VALUE := by
              simp only [insertAux]
              rw [if_pos hb]
            rw [hstep]
            obtain ⟨hLc, hAc⟩ := create_node_Leveled
              (insertAux d fuel (var + 1) none bits v).2 var none
              (some (insertAux d fuel (var + 1) none bits v).1) MAX_NODE_VALUE
              hLp (by rw [hnum1]; omega)
              (fun l hl => Option.noConfusion hl)
              (fun x hx => by cases hx; exact ⟨hlt1, hAp⟩)
            obtain ⟨hrec2, hnum2, ⟨t2, hext2⟩, _, _⟩ := create_node_spec
              (insertAux d fuel (var + 1) none bits v).2 (var : Int) none
              (some (insertAux d fuel (var + 1) none bits v).1) MAX_NODE_VALUE
            refine ⟨hLc, by rw [show ((var : Nat)) = var from rfl]; exact hAc, ?_⟩
            intro bits2 hb2
            rw [evalAux_succ, hrec2]
            rw [if_neg (by
              rw [natCast_record_not_terminal var none
                (some (insertAux d fuel (var + 1) none bits v).1) MAX_NODE_VALUE]
              exact Bool.false_ne_true)]
            rw [show ((⟨(var : Int), none,
              some (insertAux d fuel (var + 1) none bits v).1,
              MAX_NODE_VALUE⟩ : MtBddNode)).var_index.toNat = var from by simp]
            by_cases hb2bit : bits2.getD var false = true
            · rw [if_pos hb2bit]
              have hevext : evalAux (create_node
                  (insertAux d fuel (var + 1) none bits v).2 (var : Int) none
                  (some (insertAux d fuel (var + 1) none bits v).1)
                  MAX_NODE_VALUE).2 bits2 (fuel + 1)
                  (some (insertAux d fuel (var + 1) none bits v).1) =
                  evalAux (insertAux d fuel (var + 1) none bits v).2 bits2
                    (fuel + 1)
                    (some (insertAux d fuel (var + 1) none bits v).1) :=
                evalAux_ext _ _ t2 hext2 hwf1.2.1 bits2 (fuel + 1) _ hlt1
              rw [hevext, hEp bits2 hb2]
              by_cases hcond : bits2.drop (var + 1) = bits.drop (var + 1)
              · rw [if_pos hcond, if_pos ((drop_eq_iff_head_tail bits2 bits var
                  d.num_of_vars hb2 hblen hvarV).mpr ⟨by rw [hb2bit, hb], hcond⟩)]
              · rw [if_neg hcond, if_neg (fun hc => hcond
                  ((drop_eq_iff_head_tail bits2 bits var d.num_of_vars hb2 hblen
                    hvarV).mp hc).2)]
                rw [evalAux_none, evalAux_none]
            · rw [if_neg hb2bit]
              rw [evalAux_none]
              rw [if_neg (fun hc => by
                have hhd := ((drop_eq_iff_head_tail bits2 bits var d.num_of_vars
                  hb2 hblen hvarV).mp hc).1
                rw [hb] at hhd
                exact hb2bit hhd)]
              rw [evalAux_none]
          · have hstep : insertAux d (fuel + 1) var none bits v =
                create_node (insertAux d fuel (var + 1) none bits v).2
                  (var : Int)
                  (some (insertAux d fuel (var + 1) none bits v).1) none
                  MAX_NODE_VALUE := by
              simp only [insertAux]
              rw [if_neg hb]
            rw [hstep]
            obtain ⟨hLc, hAc⟩ := create_node_Leveled
              (insertAux d fuel (var + 1) none bits v).2 var
              (some (insertAux d fuel (var + 1) none bits v).1) none
              MAX_NODE_VALUE hLp (by rw [hnum1]; omega)
              (fun l hl => by cases hl; exact ⟨hlt1, hAp⟩)
              (fun x hx => Option.noConfusion hx)
            obtain ⟨hrec2, hnum2, ⟨t2, hext2⟩, _, _⟩ := create_node_spec
              (insertAux d fuel (var + 1) none bits v).2 (var : Int)
              (some (insertAux d fuel (var + 1) none bits v).1) none
              MAX_NODE_VALUE
            refine ⟨hLc, hAc, ?_⟩
            intro bits2 hb2
            rw [evalAux_succ, hrec2]
            rw [if_neg (by
              rw [natCast_record_not_terminal var
                (some (insertAux d fuel (var + 1) none bits v).1) none
                MAX_NODE_VALUE]
              exact Bool.false_ne_true)]
            rw [show ((⟨(var : Int),
              some (insertAux d fuel (var + 1) none bits v).1, none,
              MAX_NODE_VALUE⟩ : MtBddNode)).var_index.toNat = var from by simp]
            by_cases hb2bit : bits2.getD var false = true
            · rw [if_pos hb2bit]
              rw [evalAux_none]
              rw [if_neg (fun hc => by
                have hhd := ((drop_eq_iff_head_tail bits2 bits var d.num_of_vars
                  hb2 hblen hvarV).mp hc).1
                rw [hb2bit] at hhd
                rw [← hhd] at hb
                exact hb rfl)]
              rw [evalAux_none]
            · rw [if_neg hb2bit]
              have hevext : evalAux (create_node
                  (insertAux d fuel (var + 1) none bits v).2 (var : Int)
                  (some (insertAux d fuel (var + 1) none bits v).1) none
                  MAX_NODE_VALUE).2 bits2 (fuel + 1)
                  (some (insertAux d fuel (var + 1) none bits v).1) =
                  evalAux (insertAux d fuel (var + 1) none bits v).2 bits2
                    (fuel + 1)
                    (some (insertAux d fuel (var + 1) none bits v).1) :=
                evalAux_ext _ _ t2 hext2 hwf1.2.1 bits2 (fuel + 1) _ hlt1
              rw [hevext, hEp bits2 hb2]
              by_cases hcond : bits2.drop (var + 1) = bits.drop (var + 1)
              · rw [if_pos hcond, if_pos ((drop_eq_iff_head_tail bits2 bits var
                  d.num_of_vars hb2 hblen hvarV).mpr ⟨by
                    rw [Bool.of_not_eq_true hb2bit, Bool.of_not_eq_true hb],
                    hcond⟩)]
              · rw [if_neg hcond, if_neg (fun hc => hcond
                  ((drop_eq_iff_head_tail bits2 bits var d.num_of_vars hb2 hblen
                    hvarV).mp hc).2)]
                rw [evalAux_none, evalAux_none]
      | some s =>
          obtain ⟨hslt, hsA⟩ := hsrc s rfl
          have hsTf : (getNode d s).is_terminal = false ∧
              (getNode d s).var_index = (var : Int) := by
            unfold AtLevel at hsA
            rw [if_neg (by omega)] at hsA
            exact hsA
          have hsT : ¬ (getNode d s).is_terminal = true := by
            rw [hsTf.1]
            exact Bool.false_ne_true
          have htoNat : (getNode d s).var_index.toNat = var := by
            rw [hsTf.2]
            simp
          obtain ⟨hchildL, hchildH⟩ := hL s var hslt hvarV hsA
          have hRHShigh : ∀ b2 : List Bool, b2.getD var false = true →
              evalAux d b2 (fuel + 1 + 1) (some s) =
              evalAux d b2 (fuel + 1) (getNode d s).high := by
            intro b2 hbit
            rw [evalAux_succ, if_neg hsT, htoNat, if_pos hbit]
          have hRHSlow : ∀ b2 : List Bool, ¬ b2.getD var false = true →
              evalAux d b2 (fuel + 1 + 1) (some s) =
              evalAux d b2 (fuel + 1) (getNode d s).low := by
            intro b2 hbit
            rw [evalAux_succ, if_neg hsT, htoNat, if_neg hbit]
          by_cases hb : bits.getD var false = true
          · obtain ⟨hLp, hAp, hEp⟩ := ih d (var + 1) (getNode d s).high bits v
              hwf hL (fun c hc => hchildH c hc) (by omega) hblen
            obtain ⟨⟨t1, hext1⟩, _, _, hnum1⟩ :=
              insertAux_frame d fuel (var + 1) (getNode d s).high bits v
            obtain ⟨hwf1, hlt1⟩ := insertAux_wfCore d fuel (var + 1)
              (getNode d s).high bits v hwf (fun c hc => (hchildH c hc).1)
            by_cases hsame :
                some (insertAux d fuel (var + 1) (getNode d s).high bits v).1 =
                  (getNode d s).high
            · have hstep : insertAux d (fuel + 1) var (some s) bits v =
                  (s, (insertAux d fuel (var + 1) (getNode d s).high bits v).2) := by
                simp only [insertAux]
                rw [if_pos hb, if_pos hsame]
              rw [hstep]
              have hgs : getNode (insertAux d fuel (var + 1)
                  (getNode d s).high bits v).2 s = getNode d s :=
                getNode_ext hext1 hslt
              refine ⟨hLp, ?_, ?_⟩
              · show AtLevel (insertAux d fuel (var + 1)
                  (getNode d s).high bits v).2 s var
                unfold AtLevel
                rw [hnum1, if_neg (by omega), hgs]
                exact hsTf
              · intro bits2 hb2
                show evalAux (insertAux d fuel (var + 1)
                  (getNode d s).high bits v).2 bits2 (fuel + 1 + 1) (some s) = _
                rw [evalAux_succ, hgs, if_neg hsT, htoNat]
                by_cases hb2bit : bits2.getD var false = true
                · rw [if_pos hb2bit]
                  have heq := hEp bits2 hb2
                  rw [hsame] at heq
                  rw [heq]
                  by_cases hcond : bits2.drop (var + 1) = bits.drop (var + 1)
                  · rw [if_pos hcond, if_pos ((drop_eq_iff_head_tail bits2 bits
                      var d.num_of_vars hb2 hblen hvarV).mpr
                      ⟨by rw [hb2bit, hb], hcond⟩)]
                  · rw [if_neg hcond, if_neg (fun hc => hcond
                      ((drop_eq_iff_head_tail bits2 bits var d.num_of_vars hb2
                        hblen hvarV).mp hc).2)]
                    rw [hRHShigh bits2 hb2bit]
                · rw [if_neg hb2bit]
                  rw [evalAux_ext_opt d _ t1 hext1 hwf.2.1 bits2 (fuel + 1)
                    (getNode d s).low (fun c hc => (hchildL c hc).1)]
                  rw [if_neg (fun hc => by
                    have hhd := ((drop_eq_iff_head_tail bits2 bits var
                      d.num_of_vars hb2 hblen hvarV).mp hc).1
                    rw [hb] at hhd
                    exact hb2bit hhd)]
                  rw [hRHSlow bits2 hb2bit]
            · have hstep : insertAux d (fuel + 1) var (some s) bits v =
                  create_node (insertAux d fuel (var + 1)
                    (getNode d s).high bits v).2 (var : Int) (getNode d s).low
                    (some (insertAux d fuel (var + 1)
                      (getNode d s).high bits v).1) MAX_NODE_VALUE := by
                simp only [insertAux]
                rw [if_pos hb, if_neg hsame]
              rw [hstep]
              obtain ⟨hLc, hAc⟩ := create_node_Leveled
                (insertAux d fuel (var + 1) (getNode d s).high bits v).2 var
                (getNode d s).low
                (some (insertAux d fuel (var + 1) (getNode d s).high bits v).1)
                MAX_NODE_VALUE hLp (by rw [hnum1]; omega)
                (fun l hl => by
                  obtain ⟨hll, hAl⟩ := hchildL l hl
                  refine ⟨?_, AtLevel_ext hext1 hnum1 hll hAl⟩
                  rw [hext1]
                  simp only [List.length_append]
                  omega)
                (fun x hx => by cases hx; exact ⟨hlt1, hAp⟩)
              obtain ⟨hrec2, hnum2, ⟨t2, hext2⟩, _, _⟩ := create_node_spec
                (insertAux d fuel (var + 1) (getNode d s).high bits v).2
                (var : Int) (getNode d s).low
                (some (insertAux d fuel (var + 1) (getNode d s).high bits v).1)
                MAX_NODE_VALUE
              have hext12 : (create_node (insertAux d fuel (var + 1)
                  (getNode d s).high bits v).2 (var : Int) (getNode d s).low
                  (some (insertAux d fuel (var + 1)
                    (getNode d s).high bits v).1) MAX_NODE_VALUE).2.heap =
                  d.heap ++ (t1 ++ t2) := by
                rw [hext2, hext1, List.append_assoc]
              refine ⟨hLc, hAc, ?_⟩
              intro bits2 hb2
              rw [evalAux_succ, hrec2]
              rw [if_neg (by
                rw [natCast_record_not_terminal var (getNode d s).low
                  (some (insertAux d fuel (var + 1)
                    (getNode d s).high bits v).1) MAX_NODE_VALUE]
                exact Bool.false_ne_true)]
              rw [show ((⟨(var : Int), (getNode d s).low,
                some (insertAux d fuel (var + 1) (getNode d s).high bits v).1,
                MAX_NODE_VALUE⟩ : MtBddNode)).var_index.toNat = var from by simp]
              by_cases hb2bit : bits2.getD var false = true
              · rw [if_pos hb2bit]
                have hevext : evalAux (create_node (insertAux d fuel (var + 1)
                    (getNode d s).high bits v).2 (var : Int) (getNode d s).low
                    (some (insertAux d fuel (var + 1)
                      (getNode d s).high bits v).1) MAX_NODE_VALUE).2 bits2
                    (fuel + 1)
                    (some (insertAux d fuel (var + 1)
                      (getNode d s).high bits v).1) =
                    evalAux (insertAux d fuel (var + 1)
                      (getNode d s).high bits v).2 bits2 (fuel + 1)
                      (some (insertAux d fuel (var + 1)
                        (getNode d s).high bits v).1) :=
                  evalAux_ext _ _ t2 hext2 hwf1.2.1 bits2 (fuel + 1) _ hlt1
                rw [hevext, hEp bits2 hb2]
                by_cases hcond : bits2.drop (var + 1) = bits.drop (var + 1)
                · rw [if_pos hcond, if_pos ((drop_eq_iff_head_tail bits2 bits
                    var d.num_of_vars hb2 hblen hvarV).mpr
                    ⟨by rw [hb2bit, hb], hcond⟩)]
                · rw [if_neg hcond, if_neg (fun hc => hcond
                    ((drop_eq_iff_head_tail bits2 bits var d.num_of_vars hb2
                      hblen hvarV).mp hc).2)]
                  rw [hRHShigh bits2 hb2bit]
              · rw [if_neg hb2bit]
                rw [evalAux_ext_opt d _ (t1 ++ t2) hext12 hwf.2.1 bits2
                  (fuel + 1) (getNode d s).low (fun c hc => (hchildL c hc).1)]
                rw [if_neg (fun hc => by
                  have hhd := ((drop_eq_iff_head_tail bits2 bits var
                    d.num_of_vars hb2 hblen hvarV).mp hc).1
                  rw [hb] at hhd
                  exact hb2bit hhd)]
                rw [hRHSlow bits2 hb2bit]
          · obtain ⟨hLp, hAp, hEp⟩ := ih d (var + 1) (getNode d s).low bits v
              hwf hL (fun c hc => hchildL c hc) (by omega) hblen
            obtain ⟨⟨t1, hext1⟩, _, _, hnum1⟩ :=
              insertAux_frame d fuel (var + 1) (getNode d s).low bits v
            obtain ⟨hwf1, hlt1⟩ := insertAux_wfCore d fuel (var + 1)
              (getNode d s).low bits v hwf (fun c hc => (hchildL c hc).1)
            by_cases hsame :
                some (insertAux d fuel (var + 1) (getNode d s).low bits v).1 =
                  (getNode d s).low
            · have hstep : insertAux d (fuel + 1) var (some s) bits v =
                  (s, (insertAux d fuel (var + 1) (getNode d s).low bits v).2) := by
                simp only [insertAux]
                rw [if_neg hb, if_pos hsame]
              rw [hstep]
              have hgs : getNode (insertAux d fuel (var + 1)
                  (getNode d s).low bits v).2 s = getNode d s :=
                getNode_ext hext1 hslt
              refine ⟨hLp, ?_, ?_⟩
              · show AtLevel (insertAux d fuel (var + 1)
                  (getNode d s).low bits v).2 s var
                unfold AtLevel
                rw [hnum1, if_neg (by omega), hgs]
                exact hsTf
              · intro bits2 hb2
                show evalAux (insertAux d fuel (var + 1)
                  (getNode d s).low bits v).2 bits2 (fuel + 1 + 1) (some s) = _
                rw [evalAux_succ, hgs, if_neg hsT, htoNat]
                by_cases hb2bit : bits2.getD var false = true
                · rw [if_pos hb2bit]
                  rw [evalAux_ext_opt d _ t1 hext1 hwf.2.1 bits2 (fuel + 1)
                    (getNode d s).high (fun c hc => (hchildH c hc).1)]
                  rw [if_neg (fun hc => by
                    have hhd := ((drop_eq_iff_head_tail bits2 bits var
                      d.num_of_vars hb2 hblen hvarV).mp hc).1
                    rw [hb2bit] at hhd
                    rw [← hhd] at hb
                    exact hb rfl)]
                  rw [hRHShigh bits2 hb2bit]
                · rw [if_neg hb2bit]
                  have heq := hEp bits2 hb2
                  rw [hsame] at heq
                  rw [heq]
                  by_cases hcond : bits2.drop (var + 1) = bits.drop (var + 1)
                  · rw [if_pos hcond, if_pos ((drop_eq_iff_head_tail bits2 bits
                      var d.num_of_vars hb2 hblen hvarV).mpr ⟨by
                        rw [Bool.of_not_eq_true hb2bit, Bool.of_not_eq_true hb],
                        hcond⟩)]
                  · rw [if_neg hcond, if_neg (fun hc => hcond
                      ((drop_eq_iff_head_tail bits2 bits var d.num_of_vars hb2
                        hblen hvarV).mp hc).2)]
                    rw [hRHSlow bits2 hb2bit]
            · have hstep : insertAux d (fuel + 1) var (some s) bits v =
                  create_node (insertAux d fuel (var + 1)
                    (getNode d s).low bits v).2 (var : Int)
                    (some (insertAux d fuel (var + 1)
                      (getNode d s).low bits v).1) (getNode d s).high
                    MAX_NODE_VALUE := by
                simp only [insertAux]
                rw [if_neg hb, if_neg hsame]
              rw [hstep]
              obtain ⟨hLc, hAc⟩ := create_node_Leveled
                (insertAux d fuel (var + 1) (getNode d s).low bits v).2 var
                (some (insertAux d fuel (var + 1) (getNode d s).low bits v).1)
                (getNode d s).high
                MAX_NODE_VALUE hLp (by rw [hnum1]; omega)
                (fun l hl => by cases hl; exact ⟨hlt1, hAp⟩)
                (fun x hx => by
                  obtain ⟨hxl, hAx⟩ := hchildH x hx
                  refine ⟨?_, AtLevel_ext hext1 hnum1 hxl hAx⟩
                  rw [hext1]
                  simp only [List.length_append]
                  omega)
              obtain ⟨hrec2, hnum2, ⟨t2, hext2⟩, _, _⟩ := create_node_spec
                (insertAux d fuel (var + 1) (getNode d s).low bits v).2
                (var : Int)
                (some (insertAux d fuel (var + 1) (getNode d s).low bits v).1)
                (getNode d s).high MAX_NODE_VALUE
              have hext12 : (create_node (insertAux d fuel (var + 1)
                  (getNode d s).low bits v).2 (var : Int)
                  (some (insertAux d fuel (var + 1)
                    (getNode d s).low bits v).1) (getNode d s).high
                  MAX_NODE_VALUE).2.heap = d.heap ++ (t1 ++ t2) := by
                rw [hext2, hext1, List.append_assoc]
              refine ⟨hLc, hAc, ?_⟩
              intro bits2 hb2
              rw [evalAux_succ, hrec2]
              rw [if_neg (by
                rw [natCast_record_not_terminal var
                  (some (insertAux d fuel (var + 1)
                    (getNode d s).low bits v).1) (getNode d s).high
                  MAX_NODE_VALUE]
                exact Bool.false_ne_true)]
              rw [show ((⟨(var : Int),
                some (insertAux d fuel (var + 1) (getNode d s).low bits v).1,
                (getNode d s).high,
                MAX_NODE_VALUE⟩ : MtBddNode)).var_index.toNat = var from by simp]
              by_cases hb2bit : bits2.getD var false = true
              · rw [if_pos hb2bit]
                rw [evalAux_ext_opt d _ (t1 ++ t2) hext12 hwf.2.1 bits2
                  (fuel + 1) (getNode d s).high (fun c hc => (hchildH c hc).1)]
                rw [if_neg (fun hc => by
                  have hhd := ((drop_eq_iff_head_tail bits2 bits var
                    d.num_of_vars hb2 hblen hvarV).mp hc).1
                  rw [hb2bit] at hhd
                  rw [← hhd] at hb
                  exact hb rfl)]
                rw [hRHShigh bits2 hb2bit]
              · rw [if_neg hb2bit]
                have hevext : evalAux (create_node (insertAux d fuel (var + 1)
                    (getNode d s).low bits v).2 (var : Int)
                    (some (insertAux d fuel (var + 1)
                      (getNode d s).low bits v).1) (getNode d s).high
                    MAX_NODE_VALUE).2 bits2 (fuel + 1)
                    (some (insertAux d fuel (var + 1)
                      (getNode d s).low bits v).1) =
                    evalAux (insertAux d fuel (var + 1)
                      (getNode d s).low bits v).2 bits2 (fuel + 1)
                      (some (insertAux d fuel (var + 1)
                        (getNode d s).low bits v).1) :=
                  evalAux_ext _ _ t2 hext2 hwf1.2.1 bits2 (fuel + 1) _ hlt1
                rw [hevext, hEp bits2 hb2]
                by_cases hcond : bits2.drop (var + 1) = bits.drop (var + 1)
                · rw [if_pos hcond, if_pos ((drop_eq_iff_head_tail bits2 bits
                    var d.num_of_vars hb2 hblen hvarV).mpr ⟨by
                      rw [Bool.of_not_eq_true hb2bit, Bool.of_not_eq_true hb],
                      hcond⟩)]
                · rw [if_neg hcond, if_neg (fun hc => hcond
                    ((drop_eq_iff_head_tail bits2 bits var d.num_of_vars hb2
                      hblen hvarV).mp hc).2)]
                  rw [hRHSlow bits2 hb2bit]

/-- The whole-pipeline insertion phase: fold the insertions from one root
name over the manager. -/
def insertList (d : MtRobdd) (r : Nat) (ins : List (List Bool × Nat)) :
    MtRobdd :=
  ins.foldl (fun d p => (insert_bit_string_from_root d r p.1 p.2).2) d

/-- Modelled from the spec: the value the round-trip law expects for a bit
string — the value of the last insertion with that bit string, if any. -/
def evalSpec (ins : List (List Bool × Nat)) (bits : List Bool) : Option Nat :=
  (ins.reverse.find? (fun p => p.1 = bits)).map (fun p => p.2)

theorem evalSpec_cons (p : List Bool × Nat) (rest : List (List Bool × Nat))
    (bits : List Bool) :
    evalSpec (p :: rest) bits =
      (evalSpec rest bits).or (if bits = p.1 then some p.2 else none) := by
  unfold evalSpec
  rw [List.reverse_cons, List.find?_append]
  cases hf : rest.reverse.find? (fun q => q.1 = bits) with
  | some q => rfl
  | none =>
      show ([p].find? (fun q => q.1 = bits)).map (fun q => q.2) = _
      by_cases hq : bits = p.1
      · rw [if_pos hq]
        have : [p].find? (fun q => decide (q.1 = bits)) = some p := by
          simp [List.find?, hq]
        rw [show ([p].find? (fun q => q.1 = bits)) = some p from this]
        rfl
      · rw [if_neg hq]
        have : [p].find? (fun q => decide (q.1 = bits)) = none := by
          show (match decide (p.1 = bits) with
            | true => some p
            | false => List.find? (fun q => decide (q.1 = bits)) []) = none
          rw [decide_eq_false (fun hc : p.1 = bits => hq hc.symm)]
          rfl
        rw [show ([p].find? (fun q => q.1 = bits)) = none from this]
        rfl

/-- One name-based insertion on a leveled manager: the state stays leveled
with level-0 root bindings, the name is rebound to the result, and
evaluation from the new binding is the inserted value on `bits` and the
old root evaluation elsewhere. -/
theorem insert_from_root_eval (d : MtRobdd) (r : Nat) (bits : List Bool)
    (v : Nat) (hwf : wfCore d) (hL : Leveled d)
    (hroots : ∀ p ∈ d.roots, p.2 < d.heap.length ∧ AtLevel d p.2 0)
    (hblen : bits.length = d.num_of_vars) :
    wfCore (insert_bit_string_from_root d r bits v).2 ∧
    Leveled (insert_bit_string_from_root d r bits v).2 ∧
    (insert_bit_string_from_root d r bits v).2.num_of_vars = d.num_of_vars ∧
    (∀ p ∈ (insert_bit_string_from_root d r bits v).2.roots,
      p.2 < (insert_bit_string_from_root d r bits v).2.heap.length ∧
      AtLevel (insert_bit_string_from_root d r bits v).2 p.2 0) ∧
    get_root_node (insert_bit_string_from_root d r bits v).2 r =
      some (insert_bit_string_from_root d r bits v).1 ∧
    (∀ bits2, bits2.length = d.num_of_vars →
      evalAux (insert_bit_string_from_root d r bits v).2 bits2
        (d.num_of_vars + 1)
        (some (insert_bit_string_from_root d r bits v).1) =
      if bits2 = bits then some v
      else evalAux d bits2 (d.num_of_vars + 1) (get_root_node d r)) := by
  have hsrc : ∀ s, get_root_node d r = some s →
      s < d.heap.length ∧ AtLevel d s 0 := by
    intro s hs
    exact hroots (r, s) (mapLookup_some_mem _ _ _ hs)
  have hfz : d.num_of_vars - 0 = d.num_of_vars := Nat.sub_zero _
  obtain ⟨hLp, hAp, hEp⟩ := insertAux_eval (d.num_of_vars - 0) d 0
    (get_root_node d r) bits v hwf hL hsrc (by omega) hblen
  obtain ⟨⟨t1, hext1⟩, _, _, hnum1⟩ :=
    insertAux_frame d (d.num_of_vars - 0) 0 (get_root_node d r) bits v
  obtain ⟨hwf1, hlt1⟩ := insertAux_wfCore d (d.num_of_vars - 0) 0
    (get_root_node d r) bits v hwf (fun s hs => (hsrc s hs).1)
  refine ⟨hwf1, hLp, hnum1, ?_, ?_, ?_⟩
  · intro p hp
    have hp2 : p ∈ mapInsert r
        (insertAux d (d.num_of_vars - 0) 0 (get_root_node d r) bits v).1
        (insertAux d (d.num_of_vars - 0) 0 (get_root_node d r) bits v).2.roots
        := hp
    have hrr : (insertAux d (d.num_of_vars - 0) 0
        (get_root_node d r) bits v).2.roots = d.roots :=
      (insertAux_frame d (d.num_of_vars - 0) 0 (get_root_node d r) bits v).2.2.1
    rcases mapInsert_mem _ _ _ p hp2 with rfl | hp3
    · exact ⟨hlt1, hAp⟩
    · rw [hrr] at hp3
      obtain ⟨hpl, hpA⟩ := hroots p hp3
      refine ⟨?_, AtLevel_ext hext1 hnum1 hpl hpA⟩
      show p.2 < (insertAux d (d.num_of_vars - 0) 0
        (get_root_node d r) bits v).2.heap.length
      rw [hext1]
      simp only [List.length_append]
      omega
  · show mapLookup (mapInsert r
      (insertAux d (d.num_of_vars - 0) 0 (get_root_node d r) bits v).1
      (insertAux d (d.num_of_vars - 0) 0 (get_root_node d r) bits v).2.roots)
      r = _
    rw [mapLookup_mapInsert_self]
    rfl
  · intro bits2 hb2
    have heval := hEp bits2 hb2
    show evalAux (insert_bit_string_from_root d r bits v).2 bits2
      ((d.num_of_vars - 0) + 1)
      (some (insert_bit_string_from_root d r bits v).1) = _
    refine Eq.trans (evalAux_heap_only
      (insertAux d (d.num_of_vars - 0) 0 (get_root_node d r) bits v).2
      (insert_bit_string_from_root d r bits v).2 rfl bits2
      ((d.num_of_vars - 0) + 1)
      (some (insertAux d (d.num_of_vars - 0) 0
        (get_root_node d r) bits v).1)) ?_
    rw [heval]
    by_cases hc : bits2.drop 0 = bits.drop 0
    · rw [if_pos hc, if_pos (by simpa using hc)]
    · rw [if_neg hc, if_neg (fun hq => hc (by simpa using hq))]
      rfl

/-- Evaluating from the root name after a run of insertions: the manager
stays leveled, and evaluation is the last inserted value for the bit
string, falling back to the initial manager's root evaluation. -/
theorem insertList_eval :
    ∀ (ins : List (List Bool × Nat)) (d : MtRobdd) (r : Nat),
    wfCore d → Leveled d →
    (∀ p ∈ d.roots, p.2 < d.heap.length ∧ AtLevel d p.2 0) →
    (∀ p ∈ ins, p.1.length = d.num_of_vars) →
    wfCore (insertList d r ins) ∧ Leveled (insertList d r ins) ∧
    (insertList d r ins).num_of_vars = d.num_of_vars ∧
    (∀ p ∈ (insertList d r ins).roots,
      p.2 < (insertList d r ins).heap.length ∧
      AtLevel (insertList d r ins) p.2 0) ∧
    (∀ bits2, bits2.length = d.num_of_vars →
      evalAux (insertList d r ins) bits2 (d.num_of_vars + 1)
        (get_root_node (insertList d r ins) r) =
      (evalSpec ins bits2).or
        (evalAux d bits2 (d.num_of_vars + 1) (get_root_node d r))) := by
  intro ins
  induction ins with
  | nil =>
      intro d r hwf hL hroots _
      refine ⟨hwf, hL, rfl, hroots, ?_⟩
      intro bits2 _
      show evalAux d bits2 (d.num_of_vars + 1) (get_root_node d r) = _
      rw [show evalSpec [] bits2 = none from rfl, Option.none_or]
  | cons p rest ih =>
      intro d r hwf hL hroots hlens
      obtain ⟨hwf1, hL1, hnum1, hroots1, hbind1, hev1⟩ :=
        insert_from_root_eval d r p.1 p.2 hwf hL hroots
          (hlens p (List.mem_cons_self _ _))
      have hfold : insertList d r (p :: rest) =
          insertList (insert_bit_string_from_root d r p.1 p.2).2 r rest := rfl
      rw [hfold]
      obtain ⟨hwf2, hL2, hnum2, hroots2, hev2⟩ :=
        ih (insert_bit_string_from_root d r p.1 p.2).2 r hwf1 hL1 hroots1
          (fun q hq => by
            rw [hnum1]
            exact hlens q (List.mem_cons_of_mem _ hq))
      refine ⟨hwf2, hL2, by rw [hnum2, hnum1], hroots2, ?_⟩
      intro bits2 hb2
      have hev2' := hev2 bits2 (by rw [hnum1]; exact hb2)
      rw [hnum1] at hev2'
      rw [hev2', hbind1, hev1 bits2 hb2, evalSpec_cons]
      by_cases hc : bits2 = p.1
      · rw [if_pos hc, if_pos hc]
        cases hspec : evalSpec rest bits2 with
        | some w => rfl
        | none => rfl
      · rw [if_neg hc, if_neg hc]
        cases hspec : evalSpec rest bits2 with
        | some w => rfl
        | none => rfl

/-! ### C1, continued: ordering facts for the canonicalization passes -/

/-- Every arena cell is a terminal with null children or an inner record
testing a variable in `[0, V)` — the cell shape every constructor of the
engine produces. -/
def CellsOk (d : MtRobdd) : Prop :=
  ∀ j, j < d.heap.length →
    ((getNode d j).is_terminal = true ∧ (getNode d j).low = none ∧
      (getNode d j).high = none) ∨
    (0 ≤ (getNode d j).var_index ∧
     (getNode d j).var_index < (d.num_of_vars : Int))

theorem not_terminal_of_nonneg (n : MtBddNode) (h : 0 ≤ n.var_index) :
    n.is_terminal = false := by
  cases hq : n.is_terminal
  · rfl
  · exfalso
    have hv : n.var_index = TERMINAL_INDEX := by
      have := hq
      unfold MtBddNode.is_terminal at this
      simpa using this
    unfold TERMINAL_INDEX at hv
    omega

theorem getNode_mem (d : MtRobdd) (i : Nat) (h : i < d.heap.length) :
    getNode d i ∈ d.heap := by
  have hg : getNode d i = d.heap[i] := by
    simp [getNode, List.getD, List.getElem?_eq_getElem h]
  rw [hg]
  exact List.getElem_mem h

/-- A leveled arena with well-shaped cells is ordered. -/
theorem Leveled_CellsOk_Ordered (d : MtRobdd) (hL : Leveled d)
    (hC : CellsOk d) : Ordered d := by
  intro j hj
  rcases hC j hj with ⟨hT, -, -⟩ | ⟨h0, hV⟩
  · exact Or.inl hT
  right
  have hTf : (getNode d j).is_terminal = false := not_terminal_of_nonneg _ h0
  have hvk : (getNode d j).var_index =
      (((getNode d j).var_index.toNat : Nat) : Int) := by omega
  have hkV : (getNode d j).var_index.toNat < d.num_of_vars := by omega
  have hA : AtLevel d j (getNode d j).var_index.toNat := by
    unfold AtLevel
    rw [if_neg (by omega)]
    exact ⟨hTf, hvk.symm ▸ hvk⟩
  obtain ⟨hlo, hhi⟩ := hL j (getNode d j).var_index.toNat hj hkV hA
  refine ⟨h0, hV, ?_, ?_⟩
  · intro l hl
    obtain ⟨hll, hAl⟩ := hlo l hl
    refine ⟨hll, ?_⟩
    unfold AtLevel at hAl
    by_cases hkv1 : (getNode d j).var_index.toNat + 1 = d.num_of_vars
    · rw [if_pos hkv1] at hAl
      exact Or.inl hAl
    · rw [if_neg hkv1] at hAl
      right
      rw [hAl.2]
      omega
  · intro x hx
    obtain ⟨hxl, hAx⟩ := hhi x hx
    refine ⟨hxl, ?_⟩
    unfold AtLevel at hAx
    by_cases hkv1 : (getNode d j).var_index.toNat + 1 = d.num_of_vars
    · rw [if_pos hkv1] at hAx
      exact Or.inl hAx
    · rw [if_neg hkv1] at hAx
      right
      rw [hAx.2]
      omega

/-- Extending the arena preserves ordering as long as every new cell is
itself ordered. -/
theorem Ordered_ext (d d' : MtRobdd) (t : List MtBddNode)
    (ht : d'.heap = d.heap ++ t) (hv : d'.num_of_vars = d.num_of_vars)
    (hord : Ordered d)
    (hnew : ∀ j, d.heap.length ≤ j → j < d'.heap.length →
      (getNode d' j).is_terminal = true ∨
      (0 ≤ (getNode d' j).var_index ∧
       (getNode d' j).var_index < (d'.num_of_vars : Int) ∧
       (∀ l, (getNode d' j).low = some l → l < d'.heap.length ∧
         ((getNode d' l).is_terminal = true ∨
          (getNode d' j).var_index < (getNode d' l).var_index)) ∧
       (∀ x, (getNode d' j).high = some x → x < d'.heap.length ∧
         ((getNode d' x).is_terminal = true ∨
          (getNode d' j).var_index < (getNode d' x).var_index)))) :
    Ordered d' := by
  intro j hj
  by_cases hold : j < d.heap.length
  · have hg : getNode d' j = getNode d j := getNode_ext ht hold
    rcases hord j hold with hT | ⟨h0, hV, hlo, hhi⟩
    · exact Or.inl (by rw [hg]; exact hT)
    right
    rw [hg, hv]
    refine ⟨h0, hV, ?_, ?_⟩
    · intro l hl
      obtain ⟨hll, hc⟩ := hlo l hl
      refine ⟨by rw [ht]; simp only [List.length_append]; omega, ?_⟩
      rw [getNode_ext ht hll]
      exact hc
    · intro x hx
      obtain ⟨hxl, hc⟩ := hhi x hx
      refine ⟨by rw [ht]; simp only [List.length_append]; omega, ?_⟩
      rw [getNode_ext ht hxl]
      exact hc
  · exact hnew j (by omega) hj

/-- Two pointers to equal records evaluate alike. -/
theorem evalAux_congr_getNode (d : MtRobdd) (a b : Nat)
    (h : getNode d a = getNode d b) (bits : List Bool) (f : Nat) :
    evalAux d bits f (some a) = evalAux d bits f (some b) := by
  cases f with
  | zero => rw [evalAux_zero, evalAux_zero]
  | succ f => rw [evalAux_succ, evalAux_succ, h]

/-- On an ordered arena with at least one variable, any pointer at level
one or deeper (every child pointer is) evaluates the same at fuel `V` and
`V + 1`. -/
theorem evalAux_fuel_bump (d : MtRobdd) (hord : Ordered d) (bits : List Bool)
    (c : Nat) (hc : c < d.heap.length) (hV : 1 ≤ d.num_of_vars)
    (h : (getNode d c).is_terminal = true ∨ (1 : Int) ≤ (getNode d c).var_index) :
    evalAux d bits d.num_of_vars (some c) =
    evalAux d bits (d.num_of_vars + 1) (some c) := by
  rcases h with hT | hv
  · exact evalAux_stable d hord bits 0 c _ _ hc (Or.inl ⟨hT, by omega, by omega⟩)
  · refine evalAux_stable d hord bits (d.num_of_vars - 1) c _ _ hc
      (Or.inr ⟨?_, by omega, by omega⟩)
    omega

/-- The low-child rewrite inside one unfolding of `rrtRec`. -/
def rrtPl (fuel : Nat) (i : Nat) (d : MtRobdd) (nn : List Nat) :
    Option Nat × MtRobdd × List Nat :=
  rrtRec fuel (getNode d i).low d nn

/-- The high-child rewrite inside one unfolding of `rrtRec`. -/
def rrtPh (fuel : Nat) (i : Nat) (d : MtRobdd) (nn : List Nat) :
    Option Nat × MtRobdd × List Nat :=
  rrtRec fuel (getNode d i).high (rrtPl fuel i d nn).2.1 (rrtPl fuel i d nn).2.2

/-- The re-canonicalized node of the non-collapsing branch of `rrtRec`. -/
def rrtPc (fuel : Nat) (i : Nat) (d : MtRobdd) (nn : List Nat) :
    Nat × MtRobdd :=
  create_node (rrtPh fuel i d nn).2.1 (getNode d i).var_index
    (rrtPl fuel i d nn).1 (rrtPh fuel i d nn).1 (getNode d i).value

/-- The fresh node set after the non-collapsing branch of `rrtRec`. -/
def rrtNn3 (fuel : Nat) (i : Nat) (d : MtRobdd) (nn : List Nat) : List Nat :=
  if memEquiv (rrtPc fuel i d nn).2.heap (rrtPh fuel i d nn).2.2
      (rrtPc fuel i d nn).1 then (rrtPh fuel i d nn).2.2
  else (rrtPh fuel i d nn).2.2 ++ [(rrtPc fuel i d nn).1]

/-- The representative returned by the non-collapsing branch of `rrtRec`. -/
def rrtRes (fuel : Nat) (i : Nat) (d : MtRobdd) (nn : List Nat) : Nat :=
  ((rrtNn3 fuel i d nn).find? (fun x =>
    (rrtPc fuel i d nn).2.heap.getD x default =
    (rrtPc fuel i d nn).2.heap.getD (rrtPc fuel i d nn).1 default)).getD
    (rrtPc fuel i d nn).1

theorem rrtRec_succ_some_unfold (fuel : Nat) (i : Nat) (d : MtRobdd)
    (nn : List Nat) :
    rrtRec (fuel + 1) (some i) d nn =
    if (getNode d i).is_terminal then
      (some i, d, if memEquiv d.heap nn i then nn else nn ++ [i])
    else if (rrtPl fuel i d nn).1 ≠ none ∧
        (rrtPl fuel i d nn).1 = (rrtPh fuel i d nn).1 then
      ((rrtPl fuel i d nn).1, (rrtPh fuel i d nn).2.1, (rrtPh fuel i d nn).2.2)
    else
      (some (rrtRes fuel i d nn), (rrtPc fuel i d nn).2, rrtNn3 fuel i d nn) :=
  rfl

/-- The recursive rewrite of `remove_redundant_tests` preserves ordering,
the variable count, nullness of the pointer, a lower bound on the level of
the returned node, and — the key semantic fact — the evaluation of the
rewritten node agrees with the evaluation of the source node on every bit
string. -/
theorem rrtRec_eval (fuel : Nat) :
    ∀ (node : Option Nat) (d : MtRobdd) (nn : List Nat),
    wfCore d → Ordered d →
    (∀ x ∈ nn, x < d.heap.length) →
    (∀ a ∈ nn, ∀ b ∈ nn, getNode d a = getNode d b → a = b) →
    (∀ s, node = some s → s < d.heap.length) →
    Ordered (rrtRec fuel node d nn).2.1 ∧
    (rrtRec fuel node d nn).2.1.num_of_vars = d.num_of_vars ∧
    ((rrtRec fuel node d nn).1 = none ↔ node = none) ∧
    (∀ s r, node = some s → (rrtRec fuel node d nn).1 = some r →
      (getNode (rrtRec fuel node d nn).2.1 r).is_terminal = true ∨
      ((getNode d s).is_terminal = false ∧
       (getNode (rrtRec fuel node d nn).2.1 r).is_terminal = false ∧
       (getNode d s).var_index ≤
         (getNode (rrtRec fuel node d nn).2.1 r).var_index ∧
       (getNode (rrtRec fuel node d nn).2.1 r).var_index <
         (d.num_of_vars : Int))) ∧
    (∀ bits s, node = some s →
      evalAux (rrtRec fuel node d nn).2.1 bits (d.num_of_vars + 1)
        (rrtRec fuel node d nn).1 =
      evalAux d bits (d.num_of_vars + 1) (some s)) := by
  induction fuel with
  | zero =>
      intro node d nn hwf hord hnv hnu hnode
      cases node with
      | none =>
          rw [show rrtRec 0 none d nn = (none, d, nn) from rfl]
          exact ⟨hord, rfl, by simp, fun s r hs hr => Option.noConfusion hs,
            fun bits s hs => Option.noConfusion hs⟩
      | some i =>
          rw [show rrtRec 0 (some i) d nn = (some i, d, nn) from rfl]
          have hi : i < d.heap.length := hnode i rfl
          refine ⟨hord, rfl, by simp, ?_, ?_⟩
          · intro s r hs hr
            have h1 : i = s := by injection hs
            subst h1
            have hr' : some i = some r := hr
            have h2 : i = r := by injection hr'
            subst h2
            by_cases hT : (getNode d i).is_terminal = true
            · exact Or.inl hT
            · rcases hord i hi with hT2 | ⟨h0, hV, _, _⟩
              · exact absurd hT2 hT
              · exact Or.inr ⟨is_terminal_false_of_not _ hT,
                  is_terminal_false_of_not _ hT, le_refl _, hV⟩
          · intro bits s hs
            have h1 : i = s := by injection hs
            subst h1
            rfl
  | succ fuel ih =>
      intro node d nn hwf hord hnv hnu hnode
      cases node with
      | none =>
          rw [show rrtRec (fuel + 1) none d nn = (none, d, nn) from rfl]
          exact ⟨hord, rfl, by simp, fun s r hs hr => Option.noConfusion hs,
            fun bits s hs => Option.noConfusion hs⟩
      | some i =>
          have hi : i < d.heap.length := hnode i rfl
          rw [rrtRec_succ_some_unfold fuel i d nn]
          by_cases hT : (getNode d i).is_terminal = true
          · rw [if_pos hT]
            refine ⟨hord, rfl, by simp, ?_, ?_⟩
            · intro s r hs hr
              have h1 : i = s := by injection hs
              subst h1
              have hr' : some i = some r := hr
              have h2 : i = r := by injection hr'
              subst h2
              exact Or.inl hT
            · intro bits s hs
              have h1 : i = s := by injection hs
              subst h1
              rfl
          · rw [if_neg hT]
            have hTf : (getNode d i).is_terminal = false :=
              is_terminal_false_of_not _ hT
            rcases hord i hi with hT2 | ⟨h0i, hVi, hloi, hhii⟩
            · exact absurd hT2 hT
            have hV1 : 1 ≤ d.num_of_vars := by omega
            have hIHL : Ordered (rrtPl fuel i d nn).2.1 ∧
                (rrtPl fuel i d nn).2.1.num_of_vars = d.num_of_vars ∧
                ((rrtPl fuel i d nn).1 = none ↔ (getNode d i).low = none) ∧
                (∀ s r, (getNode d i).low = some s →
                  (rrtPl fuel i d nn).1 = some r →
                  (getNode (rrtPl fuel i d nn).2.1 r).is_terminal = true ∨
                  ((getNode d s).is_terminal = false ∧
                   (getNode (rrtPl fuel i d nn).2.1 r).is_terminal = false ∧
                   (getNode d s).var_index ≤
                     (getNode (rrtPl fuel i d nn).2.1 r).var_index ∧
                   (getNode (rrtPl fuel i d nn).2.1 r).var_index <
                     (d.num_of_vars : Int))) ∧
                (∀ bits s, (getNode d i).low = some s →
                  evalAux (rrtPl fuel i d nn).2.1 bits (d.num_of_vars + 1)
                    (rrtPl fuel i d nn).1 =
                  evalAux d bits (d.num_of_vars + 1) (some s)) :=
              ih (getNode d i).low d nn hwf hord hnv hnu
                (fun s hs => (hloi s hs).1)
            obtain ⟨hordL, hnumL, hiffL, hlevL, hevL⟩ := hIHL
            have hWFL : wfCore (rrtPl fuel i d nn).2.1 ∧
                (∃ t, (rrtPl fuel i d nn).2.1.heap = d.heap ++ t) ∧
                (∃ t, (rrtPl fuel i d nn).2.2 = nn ++ t) ∧
                (∀ x ∈ (rrtPl fuel i d nn).2.2,
                  x < (rrtPl fuel i d nn).2.1.heap.length) ∧
                (∀ a ∈ (rrtPl fuel i d nn).2.2, ∀ b ∈ (rrtPl fuel i d nn).2.2,
                  getNode (rrtPl fuel i d nn).2.1 a =
                    getNode (rrtPl fuel i d nn).2.1 b → a = b) ∧
                (∀ r, (rrtPl fuel i d nn).1 = some r →
                  r < (rrtPl fuel i d nn).2.1.heap.length) :=
              rrtRec_wf fuel (getNode d i).low d nn hwf hnv hnu
                (fun s hs => (hloi s hs).1)
            obtain ⟨hwfL, ⟨t1, he1⟩, _, hnvL, hnuL, hresL⟩ := hWFL
            have hnodeH : ∀ s, (getNode d i).high = some s →
                s < (rrtPl fuel i d nn).2.1.heap.length := by
              intro s hs
              have := (hhii s hs).1
              rw [he1]
              simp only [List.length_append]
              omega
            have hIHH : Ordered (rrtPh fuel i d nn).2.1 ∧
                (rrtPh fuel i d nn).2.1.num_of_vars =
                  (rrtPl fuel i d nn).2.1.num_of_vars ∧
                ((rrtPh fuel i d nn).1 = none ↔ (getNode d i).high = none) ∧
                (∀ s r, (getNode d i).high = some s →
                  (rrtPh fuel i d nn).1 = some r →
                  (getNode (rrtPh fuel i d nn).2.1 r).is_terminal = true ∨
                  ((getNode (rrtPl fuel i d nn).2.1 s).is_terminal = false ∧
                   (getNode (rrtPh fuel i d nn).2.1 r).is_terminal = false ∧
                   (getNode (rrtPl fuel i d nn).2.1 s).var_index ≤
                     (getNode (rrtPh fuel i d nn).2.1 r).var_index ∧
                   (getNode (rrtPh fuel i d nn).2.1 r).var_index <
                     ((rrtPl fuel i d nn).2.1.num_of_vars : Int))) ∧
                (∀ bits s, (getNode d i).high = some s →
                  evalAux (rrtPh fuel i d nn).2.1 bits
                    ((rrtPl fuel i d nn).2.1.num_of_vars + 1)
                    (rrtPh fuel i d nn).1 =
                  evalAux (rrtPl fuel i d nn).2.1 bits
                    ((rrtPl fuel i d nn).2.1.num_of_vars + 1) (some s)) :=
              ih (getNode d i).high (rrtPl fuel i d nn).2.1
                (rrtPl fuel i d nn).2.2 hwfL hordL hnvL hnuL hnodeH
            obtain ⟨hordH, hnumH, hiffH, hlevH, hevH⟩ := hIHH
            have hWFH : wfCore (rrtPh fuel i d nn).2.1 ∧
                (∃ t, (rrtPh fuel i d nn).2.1.heap =
                  (rrtPl fuel i d nn).2.1.heap ++ t) ∧
                (∃ t, (rrtPh fuel i d nn).2.2 = (rrtPl fuel i d nn).2.2 ++ t) ∧
                (∀ x ∈ (rrtPh fuel i d nn).2.2,
                  x < (rrtPh fuel i d nn).2.1.heap.length) ∧
                (∀ a ∈ (rrtPh fuel i d nn).2.2, ∀ b ∈ (rrtPh fuel i d nn).2.2,
                  getNode (rrtPh fuel i d nn).2.1 a =
                    getNode (rrtPh fuel i d nn).2.1 b → a = b) ∧
                (∀ r, (rrtPh fuel i d nn).1 = some r →
                  r < (rrtPh fuel i d nn).2.1.heap.length) :=
              rrtRec_wf fuel (getNode d i).high (rrtPl fuel i d nn).2.1
                (rrtPl fuel i d nn).2.2 hwfL hnvL hnuL hnodeH
            obtain ⟨hwfH, ⟨t2, he2⟩, _, hnvH, hnuH, hresH⟩ := hWFH
            have hrhs : ∀ bits, evalAux d bits (d.num_of_vars + 1) (some i) =
                evalAux d bits d.num_of_vars
                  (if bits.getD (getNode d i).var_index.toNat false
                   then (getNode d i).high else (getNode d i).low) := by
              intro bits
              rw [evalAux_succ, if_neg hT]
            by_cases hcoll : (rrtPl fuel i d nn).1 ≠ none ∧
                (rrtPl fuel i d nn).1 = (rrtPh fuel i d nn).1
            · rw [if_pos hcoll]
              obtain ⟨j, hj⟩ : ∃ j, (rrtPl fuel i d nn).1 = some j := by
                cases hq : (rrtPl fuel i d nn).1 with
                | none => exact absurd hq hcoll.1
                | some j => exact ⟨j, rfl⟩
              obtain ⟨lc, hlo2⟩ : ∃ lc, (getNode d i).low = some lc := by
                cases hq : (getNode d i).low with
                | none =>
                    rw [hiffL.mpr hq] at hj
                    exact Option.noConfusion hj
                | some lc => exact ⟨lc, rfl⟩
              have hjh : (rrtPh fuel i d nn).1 = some j := hcoll.2.symm.trans hj
              obtain ⟨hc, hhi2⟩ : ∃ hc, (getNode d i).high = some hc := by
                cases hq : (getNode d i).high with
                | none =>
                    rw [hiffH.mpr hq] at hjh
                    exact Option.noConfusion hjh
                | some hc => exact ⟨hc, rfl⟩
              obtain ⟨hlcl, hlcc⟩ := hloi lc hlo2
              obtain ⟨hhcl, hhcc⟩ := hhii hc hhi2
              have hjlt : j < (rrtPl fuel i d nn).2.1.heap.length := hresL j hj
              have hgj : getNode (rrtPh fuel i d nn).2.1 j =
                  getNode (rrtPl fuel i d nn).2.1 j := getNode_ext he2 hjlt
              refine ⟨hordH, hnumH.trans hnumL, by rw [hj]; simp, ?_, ?_⟩
              · intro s r hs hr
                have h1 : i = s := by injection hs
                subst h1
                have hr' : (rrtPl fuel i d nn).1 = some r := hr
                rw [hj] at hr'
                have h2 : j = r := by injection hr'
                subst h2
                rcases hlevL lc j hlo2 hj with hTL | ⟨hlcTf, hjTf, hle, hlt⟩
                · exact Or.inl (by rw [hgj]; exact hTL)
                · right
                  refine ⟨hTf, by rw [hgj]; exact hjTf, ?_, by rw [hgj]; exact hlt⟩
                  rw [hgj]
                  have hlc2 : (getNode d i).var_index <
                      (getNode d lc).var_index := by
                    rcases hlcc with hctm | hcv
                    · exact absurd (hctm.symm.trans hlcTf) (by decide)
                    · exact hcv
                  omega
              · intro bits s hs
                have h1 : i = s := by injection hs
                subst h1
                show evalAux (rrtPh fuel i d nn).2.1 bits (d.num_of_vars + 1)
                  (rrtPl fuel i d nn).1 =
                  evalAux d bits (d.num_of_vars + 1) (some i)
                rw [hj, hrhs bits]
                by_cases hb : bits.getD (getNode d i).var_index.toNat false = true
                · rw [if_pos hb, hhi2]
                  have hstab : evalAux d bits d.num_of_vars (some hc) =
                      evalAux d bits (d.num_of_vars + 1) (some hc) := by
                    refine evalAux_fuel_bump d hord bits hc hhcl hV1 ?_
                    rcases hhcc with h | h
                    · exact Or.inl h
                    · exact Or.inr (by omega)
                  rw [hstab]
                  have hext1 : evalAux (rrtPl fuel i d nn).2.1 bits
                      (d.num_of_vars + 1) (some hc) =
                      evalAux d bits (d.num_of_vars + 1) (some hc) :=
                    evalAux_ext d (rrtPl fuel i d nn).2.1 t1 he1 hwf.2.1 bits
                      _ hc hhcl
                  rw [← hext1]
                  have h3 := hevH bits hc hhi2
                  rw [hnumL, hjh] at h3
                  exact h3
                · rw [if_neg hb, hlo2]
                  have hstab : evalAux d bits d.num_of_vars (some lc) =
                      evalAux d bits (d.num_of_vars + 1) (some lc) := by
                    refine evalAux_fuel_bump d hord bits lc hlcl hV1 ?_
                    rcases hlcc with h | h
                    · exact Or.inl h
                    · exact Or.inr (by omega)
                  rw [hstab]
                  have h3 := hevL bits lc hlo2
                  rw [hj] at h3
                  rw [← h3]
                  exact evalAux_ext (rrtPl fuel i d nn).2.1
                    (rrtPh fuel i d nn).2.1 t2 he2 hwfL.2.1 bits _ j hjlt
            · rw [if_neg hcoll]
              have hCS := create_node_spec (rrtPh fuel i d nn).2.1
                (getNode d i).var_index (rrtPl fuel i d nn).1
                (rrtPh fuel i d nn).1 (getNode d i).value
              have hgpc : getNode (rrtPc fuel i d nn).2 (rrtPc fuel i d nn).1 =
                  ⟨(getNode d i).var_index, (rrtPl fuel i d nn).1,
                   (rrtPh fuel i d nn).1, (getNode d i).value⟩ := hCS.1
              have hnumpc : (rrtPc fuel i d nn).2.num_of_vars =
                  (rrtPh fuel i d nn).2.1.num_of_vars := hCS.2.1
              obtain ⟨t3, he3⟩ : ∃ t, (rrtPc fuel i d nn).2.heap =
                  (rrtPh fuel i d nn).2.1.heap ++ t := hCS.2.2.1
              have hnumAll : (rrtPc fuel i d nn).2.num_of_vars =
                  d.num_of_vars := by
                rw [hnumpc, hnumH, hnumL]
              have hPLv : ∀ r, (rrtPl fuel i d nn).1 = some r →
                  r < (rrtPh fuel i d nn).2.1.heap.length := by
                intro r hr
                have := hresL r hr
                rw [he2]
                simp only [List.length_append]
                omega
              have hCW : wfCore (rrtPc fuel i d nn).2 ∧
                  (rrtPc fuel i d nn).1 < (rrtPc fuel i d nn).2.heap.length :=
                create_node_wfCore (rrtPh fuel i d nn).2.1
                  (getNode d i).var_index (rrtPl fuel i d nn).1
                  (rrtPh fuel i d nn).1 (getNode d i).value hwfH hPLv hresH
              have hrecF : (⟨(getNode d i).var_index, (rrtPl fuel i d nn).1,
                  (rrtPh fuel i d nn).1,
                  (getNode d i).value⟩ : MtBddNode).is_terminal = false :=
                not_terminal_of_nonneg _ h0i
              have hgr : getNode (rrtPc fuel i d nn).2 (rrtRes fuel i d nn) =
                  getNode (rrtPc fuel i d nn).2 (rrtPc fuel i d nn).1 := by
                unfold rrtRes
                cases hfind : (rrtNn3 fuel i d nn).find? (fun x =>
                    (rrtPc fuel i d nn).2.heap.getD x default =
                    (rrtPc fuel i d nn).2.heap.getD
                      (rrtPc fuel i d nn).1 default) with
                | none => rfl
                | some w =>
                    have hw := List.find?_some hfind
                    simp only [decide_eq_true_eq] at hw
                    show (rrtPc fuel i d nn).2.heap.getD w default = _
                    exact hw
              have hordpc : Ordered (rrtPc fuel i d nn).2 := by
                refine Ordered_ext (rrtPh fuel i d nn).2.1 (rrtPc fuel i d nn).2
                  t3 he3 hnumpc hordH ?_
                intro z hz1 hz2
                cases hf : findEquiv (rrtPh fuel i d nn).2.1
                    ⟨(getNode d i).var_index, (rrtPl fuel i d nn).1,
                     (rrtPh fuel i d nn).1, (getNode d i).value⟩ with
                | some w =>
                    exfalso
                    have hpc2 : (rrtPc fuel i d nn).2 =
                        (rrtPh fuel i d nn).2.1 := by
                      show (create_node (rrtPh fuel i d nn).2.1
                        (getNode d i).var_index (rrtPl fuel i d nn).1
                        (rrtPh fuel i d nn).1 (getNode d i).value).2 = _
                      simp [create_node, hf]
                    rw [hpc2] at hz2
                    omega
                | none =>
                    have hpc2 : (rrtPc fuel i d nn).2.heap =
                        (rrtPh fuel i d nn).2.1.heap ++
                        [⟨(getNode d i).var_index, (rrtPl fuel i d nn).1,
                          (rrtPh fuel i d nn).1, (getNode d i).value⟩] := by
                      show (create_node (rrtPh fuel i d nn).2.1
                        (getNode d i).var_index (rrtPl fuel i d nn).1
                        (rrtPh fuel i d nn).1 (getNode d i).value).2.heap = _
                      simp [create_node, hf]
                    have hz : z = (rrtPh fuel i d nn).2.1.heap.length := by
                      rw [hpc2] at hz2
                      simp only [List.length_append, List.length_singleton] at hz2
                      omega
                    subst hz
                    have hgz : getNode (rrtPc fuel i d nn).2
                        (rrtPh fuel i d nn).2.1.heap.length =
                        ⟨(getNode d i).var_index, (rrtPl fuel i d nn).1,
                         (rrtPh fuel i d nn).1, (getNode d i).value⟩ := by
                      show (rrtPc fuel i d nn).2.heap.getD _ default = _
                      rw [hpc2]
                      exact getNode_heap_append_last _ _
                    right
                    refine ⟨?_, ?_, ?_, ?_⟩
                    · rw [hgz]
                      exact h0i
                    · rw [hgz, hnumpc, hnumH, hnumL]
                      exact hVi
                    · intro l hl
                      rw [hgz] at hl
                      have hl' : (rrtPl fuel i d nn).1 = some l := hl
                      obtain ⟨lc, hlo2⟩ : ∃ lc, (getNode d i).low = some lc := by
                        cases hq : (getNode d i).low with
                        | none =>
                            rw [hiffL.mpr hq] at hl'
                            exact Option.noConfusion hl'
                        | some lc => exact ⟨lc, rfl⟩
                      have hllt : l < (rrtPl fuel i d nn).2.1.heap.length :=
                        hresL l hl'
                      have hgl : getNode (rrtPc fuel i d nn).2 l =
                          getNode (rrtPl fuel i d nn).2.1 l := by
                        have hgl1 : getNode (rrtPc fuel i d nn).2 l =
                            getNode (rrtPh fuel i d nn).2.1 l :=
                          getNode_ext he3 (by
                            rw [he2]
                            simp only [List.length_append]
                            omega)
                        rw [hgl1]
                        exact getNode_ext he2 hllt
                      refine ⟨by
                        rw [hpc2, he2]
                        simp only [List.length_append]
                        omega, ?_⟩
                      rcases hlevL lc l hlo2 hl' with hTL | ⟨hlcF, hlF, hle, hlt⟩
                      · exact Or.inl (by rw [hgl]; exact hTL)
                      · right
                        rw [hgz, hgl]
                        obtain ⟨hlcl, hlcc⟩ := hloi lc hlo2
                        have hv2 : (getNode d i).var_index <
                            (getNode d lc).var_index := by
                          rcases hlcc with h | h
                          · exact absurd (h.symm.trans hlcF) (by decide)
                          · exact h
                        show (getNode d i).var_index <
                          (getNode (rrtPl fuel i d nn).2.1 l).var_index
                        omega
                    · intro x hx
                      rw [hgz] at hx
                      have hx' : (rrtPh fuel i d nn).1 = some x := hx
                      obtain ⟨hc, hhi2⟩ : ∃ hc, (getNode d i).high = some hc := by
                        cases hq : (getNode d i).high with
                        | none =>
                            rw [hiffH.mpr hq] at hx'
                            exact Option.noConfusion hx'
                        | some hc => exact ⟨hc, rfl⟩
                      have hxlt : x < (rrtPh fuel i d nn).2.1.heap.length :=
                        hresH x hx'
                      have hgx : getNode (rrtPc fuel i d nn).2 x =
                          getNode (rrtPh fuel i d nn).2.1 x :=
                        getNode_ext he3 hxlt
                      refine ⟨by
                        rw [hpc2]
                        simp only [List.length_append]
                        omega, ?_⟩
                      rcases hlevH hc x hhi2 hx' with hTX | ⟨hhcF, hxF, hle, hlt⟩
                      · exact Or.inl (by rw [hgx]; exact hTX)
                      · right
                        rw [hgz, hgx]
                        obtain ⟨hhcl, hhcc⟩ := hhii hc hhi2
                        have hghc : getNode (rrtPl fuel i d nn).2.1 hc =
                            getNode d hc := getNode_ext he1 hhcl
                        rw [hghc] at hhcF hle
                        have hv2 : (getNode d i).var_index <
                            (getNode d hc).var_index := by
                          rcases hhcc with h | h
                          · exact absurd (h.symm.trans hhcF) (by decide)
                          · exact h
                        show (getNode d i).var_index <
                          (getNode (rrtPh fuel i d nn).2.1 x).var_index
                        omega
              refine ⟨hordpc, hnumAll, by simp, ?_, ?_⟩
              · intro s r hs hr
                have h1 : i = s := by injection hs
                subst h1
                have hr' : some (rrtRes fuel i d nn) = some r := hr
                have h2 : rrtRes fuel i d nn = r := by injection hr'
                subst h2
                right
                refine ⟨hTf, ?_, ?_, ?_⟩
                · rw [hgr, hgpc]
                  exact hrecF
                · rw [hgr, hgpc]
                · rw [hgr, hgpc]
                  exact hVi
              · intro bits s hs
                have h1 : i = s := by injection hs
                subst h1
                show evalAux (rrtPc fuel i d nn).2 bits (d.num_of_vars + 1)
                  (some (rrtRes fuel i d nn)) =
                  evalAux d bits (d.num_of_vars + 1) (some i)
                rw [evalAux_congr_getNode (rrtPc fuel i d nn).2 _ _ hgr bits
                  (d.num_of_vars + 1)]
                have hlhs : evalAux (rrtPc fuel i d nn).2 bits
                    (d.num_of_vars + 1) (some (rrtPc fuel i d nn).1) =
                    evalAux (rrtPc fuel i d nn).2 bits d.num_of_vars
                      (if bits.getD (getNode d i).var_index.toNat false
                       then (rrtPh fuel i d nn).1
                       else (rrtPl fuel i d nn).1) := by
                  rw [evalAux_succ, hgpc]
                  rw [if_neg (fun hcc => absurd (hrecF.symm.trans hcc)
                    (by decide))]
                rw [hlhs, hrhs bits]
                by_cases hb : bits.getD (getNode d i).var_index.toNat false = true
                · rw [if_pos hb, if_pos hb]
                  cases hhio : (getNode d i).high with
                  | none =>
                      rw [hiffH.mpr hhio, evalAux_none, evalAux_none]
                  | some hc =>
                      obtain ⟨jh, hjh⟩ : ∃ jh,
                          (rrtPh fuel i d nn).1 = some jh := by
                        cases hq : (rrtPh fuel i d nn).1 with
                        | none =>
                            rw [hiffH.mp hq] at hhio
                            exact Option.noConfusion hhio
                        | some jh => exact ⟨jh, rfl⟩
                      obtain ⟨hhcl, hhcc⟩ := hhii hc hhio
                      have hjhlt : jh < (rrtPh fuel i d nn).2.1.heap.length :=
                        hresH jh hjh
                      have hgjh : getNode (rrtPc fuel i d nn).2 jh =
                          getNode (rrtPh fuel i d nn).2.1 jh :=
                        getNode_ext he3 hjhlt
                      rw [hjh]
                      have hlev := hlevH hc jh hhio hjh
                      have hbump1 : evalAux (rrtPc fuel i d nn).2 bits
                          (rrtPc fuel i d nn).2.num_of_vars (some jh) =
                          evalAux (rrtPc fuel i d nn).2 bits
                          ((rrtPc fuel i d nn).2.num_of_vars + 1) (some jh) := by
                        refine evalAux_fuel_bump (rrtPc fuel i d nn).2 hordpc
                          bits jh (by
                            rw [he3]
                            simp only [List.length_append]
                            omega)
                          (by rw [hnumAll]; exact hV1) ?_
                        rcases hlev with hTj | ⟨hscF, hjF, hle2, hlt2⟩
                        · exact Or.inl (by rw [hgjh]; exact hTj)
                        · right
                          rw [hgjh]
                          have hghc : getNode (rrtPl fuel i d nn).2.1 hc =
                              getNode d hc := getNode_ext he1 hhcl
                          rw [hghc] at hscF hle2
                          have hv2 : (getNode d i).var_index <
                              (getNode d hc).var_index := by
                            rcases hhcc with h | h
                            · exact absurd (h.symm.trans hscF) (by decide)
                            · exact h
                          omega
                      rw [hnumAll] at hbump1
                      rw [hbump1]
                      have hext3 : evalAux (rrtPc fuel i d nn).2 bits
                          (d.num_of_vars + 1) (some jh) =
                          evalAux (rrtPh fuel i d nn).2.1 bits
                          (d.num_of_vars + 1) (some jh) :=
                        evalAux_ext (rrtPh fuel i d nn).2.1
                          (rrtPc fuel i d nn).2 t3 he3 hwfH.2.1 bits _ jh hjhlt
                      rw [hext3]
                      have h3 := hevH bits hc hhio
                      rw [hnumL, hjh] at h3
                      rw [h3]
                      have hext1 : evalAux (rrtPl fuel i d nn).2.1 bits
                          (d.num_of_vars + 1) (some hc) =
                          evalAux d bits (d.num_of_vars + 1) (some hc) :=
                        evalAux_ext d (rrtPl fuel i d nn).2.1 t1 he1 hwf.2.1
                          bits _ hc hhcl
                      rw [hext1]
                      refine (evalAux_fuel_bump d hord bits hc hhcl hV1 ?_).symm
                      rcases hhcc with h | h
                      · exact Or.inl h
                      · exact Or.inr (by omega)
                · rw [if_neg hb, if_neg hb]
                  cases hlo3 : (getNode d i).low with
                  | none =>
                      rw [hiffL.mpr hlo3, evalAux_none, evalAux_none]
                  | some lc =>
                      obtain ⟨jl, hjl⟩ : ∃ jl,
                          (rrtPl fuel i d nn).1 = some jl := by
                        cases hq : (rrtPl fuel i d nn).1 with
                        | none =>
                            rw [hiffL.mp hq] at hlo3
                            exact Option.noConfusion hlo3
                        | some jl => exact ⟨jl, rfl⟩
                      obtain ⟨hlcl, hlcc⟩ := hloi lc hlo3
                      have hjllt : jl < (rrtPl fuel i d nn).2.1.heap.length :=
                        hresL jl hjl
                      have he23 : (rrtPc fuel i d nn).2.heap =
                          (rrtPl fuel i d nn).2.1.heap ++ (t2 ++ t3) := by
                        rw [he3, he2, List.append_assoc]
                      have hgjl : getNode (rrtPc fuel i d nn).2 jl =
                          getNode (rrtPl fuel i d nn).2.1 jl :=
                        getNode_ext he23 hjllt
                      rw [hjl]
                      have hlev := hlevL lc jl hlo3 hjl
                      have hbump1 : evalAux (rrtPc fuel i d nn).2 bits
                          (rrtPc fuel i d nn).2.num_of_vars (some jl) =
                          evalAux (rrtPc fuel i d nn).2 bits
                          ((rrtPc fuel i d nn).2.num_of_vars + 1) (some jl) := by
                        refine evalAux_fuel_bump (rrtPc fuel i d nn).2 hordpc
                          bits jl (by
                            rw [he23]
                            simp only [List.length_append]
                            omega)
                          (by rw [hnumAll]; exact hV1) ?_
                        rcases hlev with hTj | ⟨hscF, hjF, hle2, hlt2⟩
                        · exact Or.inl (by rw [hgjl]; exact hTj)
                        · right
                          rw [hgjl]
                          have hv2 : (getNode d i).var_index <
                              (getNode d lc).var_index := by
                            rcases hlcc with h | h
                            · exact absurd (h.symm.trans hscF) (by decide)
                            · exact h
                          omega
                      rw [hnumAll] at hbump1
                      rw [hbump1]
                      have hext23 : evalAux (rrtPc fuel i d nn).2 bits
                          (d.num_of_vars + 1) (some jl) =
                          evalAux (rrtPl fuel i d nn).2.1 bits
                          (d.num_of_vars + 1) (some jl) :=
                        evalAux_ext (rrtPl fuel i d nn).2.1
                          (rrtPc fuel i d nn).2 (t2 ++ t3) he23 hwfL.2.1
                          bits _ jl hjllt
                      rw [hext23]
                      have h3 := hevL bits lc hlo3
                      rw [hjl] at h3
                      rw [h3]
                      refine (evalAux_fuel_bump d hord bits lc hlcl hV1 ?_).symm
                      rcases hlcc with h | h
                      · exact Or.inl h
                      · exact Or.inr (by omega)

/-- The recursive rewrite of `remove_redundant_tests`, run with enough fuel
on an ordered manager whose store is closed under children, only appends to
the store, collects a set of store members that is closed under children of
its non-terminal members, and returns a collected pointer. -/
theorem rrtRec_collect (fuel : Nat) :
    ∀ (node : Option Nat) (d : MtRobdd) (nn : List Nat),
    wfCore d → Ordered d →
    (∀ x ∈ d.store, (getNode d x).is_terminal = false →
      (∀ l, (getNode d x).low = some l → l ∈ d.store) ∧
      (∀ y, (getNode d x).high = some y → y ∈ d.store)) →
    (∀ x ∈ nn, x ∈ d.store) →
    (∀ x ∈ nn, (getNode d x).is_terminal = false →
      (∀ l, (getNode d x).low = some l → l ∈ nn) ∧
      (∀ y, (getNode d x).high = some y → y ∈ nn)) →
    (∀ s, node = some s → s ∈ d.store) →
    (∀ s, node = some s →
      ((getNode d s).is_terminal = true → 1 ≤ fuel) ∧
      ((getNode d s).is_terminal = false →
        (d.num_of_vars : Int) - (getNode d s).var_index < (fuel : Int))) →
    (∃ t, (rrtRec fuel node d nn).2.1.store = d.store ++ t) ∧
    (∀ x ∈ (rrtRec fuel node d nn).2.2,
      x ∈ (rrtRec fuel node d nn).2.1.store) ∧
    (∀ x ∈ (rrtRec fuel node d nn).2.1.store,
      (getNode (rrtRec fuel node d nn).2.1 x).is_terminal = false →
      (∀ l, (getNode (rrtRec fuel node d nn).2.1 x).low = some l →
        l ∈ (rrtRec fuel node d nn).2.1.store) ∧
      (∀ y, (getNode (rrtRec fuel node d nn).2.1 x).high = some y →
        y ∈ (rrtRec fuel node d nn).2.1.store)) ∧
    (∀ x ∈ (rrtRec fuel node d nn).2.2,
      (getNode (rrtRec fuel node d nn).2.1 x).is_terminal = false →
      (∀ l, (getNode (rrtRec fuel node d nn).2.1 x).low = some l →
        l ∈ (rrtRec fuel node d nn).2.2) ∧
      (∀ y, (getNode (rrtRec fuel node d nn).2.1 x).high = some y →
        y ∈ (rrtRec fuel node d nn).2.2)) ∧
    (∀ r, (rrtRec fuel node d nn).1 = some r →
      r ∈ (rrtRec fuel node d nn).2.2) := by
  induction fuel with
  | zero =>
      intro node d nn hwf hord hSC hsub hncl hnode hfb
      cases node with
      | none =>
          rw [show rrtRec 0 none d nn = (none, d, nn) from rfl]
          exact ⟨⟨[], by simp⟩, hsub, hSC, hncl,
            fun r hr => Option.noConfusion hr⟩
      | some i =>
          exfalso
          have hfi := hfb i rfl
          have hi : i < d.heap.length := hwf.1 i (hnode i rfl)
          by_cases hT : (getNode d i).is_terminal = true
          · have := hfi.1 hT
            omega
          · have hTf := is_terminal_false_of_not _ hT
            have h2 := hfi.2 hTf
            rcases hord i hi with hT2 | ⟨h0, hV, _, _⟩
            · exact absurd hT2 hT
            · simp only [Nat.cast_zero] at h2
              omega
  | succ fuel ih =>
      intro node d nn hwf hord hSC hsub hncl hnode hfb
      cases node with
      | none =>
          rw [show rrtRec (fuel + 1) none d nn = (none, d, nn) from rfl]
          exact ⟨⟨[], by simp⟩, hsub, hSC, hncl,
            fun r hr => Option.noConfusion hr⟩
      | some i =>
          have hiS : i ∈ d.store := hnode i rfl
          have hi : i < d.heap.length := hwf.1 i hiS
          rw [rrtRec_succ_some_unfold fuel i d nn]
          by_cases hT : (getNode d i).is_terminal = true
          · rw [if_pos hT]
            refine ⟨⟨[], by simp⟩, ?_, hSC, ?_, ?_⟩
            · intro x hx
              by_cases hm : memEquiv d.heap nn i = true
              · rw [if_pos hm] at hx
                exact hsub x hx
              · rw [if_neg hm] at hx
                rcases List.mem_append.mp hx with hx | hx
                · exact hsub x hx
                · simp only [List.mem_singleton] at hx
                  subst hx
                  exact hiS
            · intro x hx hxF
              by_cases hm : memEquiv d.heap nn i = true
              · rw [if_pos hm] at hx ⊢
                exact hncl x hx hxF
              · rw [if_neg hm] at hx ⊢
                rcases List.mem_append.mp hx with hx | hx
                · obtain ⟨h1, h2⟩ := hncl x hx hxF
                  exact ⟨fun l hl => List.mem_append_left _ (h1 l hl),
                    fun y hy => List.mem_append_left _ (h2 y hy)⟩
                · simp only [List.mem_singleton] at hx
                  subst hx
                  exact absurd hT (by rw [hxF]; exact Bool.false_ne_true)
            · intro r hr
              have hr' : some i = some r := hr
              have h2 : i = r := by injection hr'
              subst h2
              by_cases hm : memEquiv d.heap nn i = true
              · rw [if_pos hm]
                obtain ⟨x, hx, heq⟩ := (memEquiv_iff d.heap nn i).mp hm
                have hxi : x = i := hwf.2.2 x (hsub x hx) i hiS heq
                rw [← hxi]
                exact hx
              · rw [if_neg hm]
                exact List.mem_append_right _ (List.mem_singleton_self i)
          · rw [if_neg hT]
            have hTf : (getNode d i).is_terminal = false :=
              is_terminal_false_of_not _ hT
            rcases hord i hi with hT2 | ⟨h0i, hVi, hloi, hhii⟩
            · exact absurd hT2 hT
            have hVb : (d.num_of_vars : Int) - (getNode d i).var_index <
                ((fuel + 1 : Nat) : Int) := (hfb i rfl).2 hTf
            have hf1 : 1 ≤ fuel := by
              push_cast at hVb
              omega
            have hSCi := hSC i hiS hTf
            -- low run: collection
            have hfbL : ∀ s, (getNode d i).low = some s →
                ((getNode d s).is_terminal = true → 1 ≤ fuel) ∧
                ((getNode d s).is_terminal = false →
                  (d.num_of_vars : Int) - (getNode d s).var_index <
                    (fuel : Int)) := by
              intro s hs
              obtain ⟨hsl, hsc⟩ := hloi s hs
              refine ⟨fun _ => hf1, fun hsF => ?_⟩
              have hvs : (getNode d i).var_index <
                  (getNode d s).var_index := by
                rcases hsc with h | h
                · exact absurd (h.symm.trans hsF) (by decide)
                · exact h
              push_cast at hVb ⊢
              omega
            obtain ⟨⟨s1, hs1⟩, hsubL, hSCL, hnclL, hresInL⟩ :
                (∃ t, (rrtPl fuel i d nn).2.1.store = d.store ++ t) ∧
                (∀ x ∈ (rrtPl fuel i d nn).2.2,
                  x ∈ (rrtPl fuel i d nn).2.1.store) ∧
                (∀ x ∈ (rrtPl fuel i d nn).2.1.store,
                  (getNode (rrtPl fuel i d nn).2.1 x).is_terminal = false →
                  (∀ l, (getNode (rrtPl fuel i d nn).2.1 x).low = some l →
                    l ∈ (rrtPl fuel i d nn).2.1.store) ∧
                  (∀ y, (getNode (rrtPl fuel i d nn).2.1 x).high = some y →
                    y ∈ (rrtPl fuel i d nn).2.1.store)) ∧
                (∀ x ∈ (rrtPl fuel i d nn).2.2,
                  (getNode (rrtPl fuel i d nn).2.1 x).is_terminal = false →
                  (∀ l, (getNode (rrtPl fuel i d nn).2.1 x).low = some l →
                    l ∈ (rrtPl fuel i d nn).2.2) ∧
                  (∀ y, (getNode (rrtPl fuel i d nn).2.1 x).high = some y →
                    y ∈ (rrtPl fuel i d nn).2.2)) ∧
                (∀ r, (rrtPl fuel i d nn).1 = some r →
                  r ∈ (rrtPl fuel i d nn).2.2) :=
              ih (getNode d i).low d nn hwf hord hSC hsub hncl
                (fun s hs => hSCi.1 s hs) hfbL
            -- low run: well-formedness and evaluation side facts
            have hnv : ∀ x ∈ nn, x < d.heap.length :=
              fun x hx => hwf.1 x (hsub x hx)
            have hnu : ∀ a ∈ nn, ∀ b ∈ nn,
                getNode d a = getNode d b → a = b :=
              fun a ha b hb => hwf.2.2 a (hsub a ha) b (hsub b hb)
            have hliveL : ∀ s, (getNode d i).low = some s →
                s < d.heap.length :=
              fun s hs => hwf.1 s (hSCi.1 s hs)
            obtain ⟨hwfL, ⟨t1, he1⟩, ⟨u1, hu1⟩, hnvL, hnuL, hresL⟩ :
                wfCore (rrtPl fuel i d nn).2.1 ∧
                (∃ t, (rrtPl fuel i d nn).2.1.heap = d.heap ++ t) ∧
                (∃ t, (rrtPl fuel i d nn).2.2 = nn ++ t) ∧
                (∀ x ∈ (rrtPl fuel i d nn).2.2,
                  x < (rrtPl fuel i d nn).2.1.heap.length) ∧
                (∀ a ∈ (rrtPl fuel i d nn).2.2, ∀ b ∈ (rrtPl fuel i d nn).2.2,
                  getNode (rrtPl fuel i d nn).2.1 a =
                    getNode (rrtPl fuel i d nn).2.1 b → a = b) ∧
                (∀ r, (rrtPl fuel i d nn).1 = some r →
                  r < (rrtPl fuel i d nn).2.1.heap.length) :=
              rrtRec_wf fuel (getNode d i).low d nn hwf hnv hnu hliveL
            obtain ⟨hordL, hnumL, -, -, -⟩ :
                Ordered (rrtPl fuel i d nn).2.1 ∧
                (rrtPl fuel i d nn).2.1.num_of_vars = d.num_of_vars ∧
                ((rrtPl fuel i d nn).1 = none ↔ (getNode d i).low = none) ∧
                (∀ s r, (getNode d i).low = some s →
                  (rrtPl fuel i d nn).1 = some r →
                  (getNode (rrtPl fuel i d nn).2.1 r).is_terminal = true ∨
                  ((getNode d s).is_terminal = false ∧
                   (getNode (rrtPl fuel i d nn).2.1 r).is_terminal = false ∧
                   (getNode d s).var_index ≤
                     (getNode (rrtPl fuel i d nn).2.1 r).var_index ∧
                   (getNode (rrtPl fuel i d nn).2.1 r).var_index <
                     (d.num_of_vars : Int))) ∧
                (∀ bits s, (getNode d i).low = some s →
                  evalAux (rrtPl fuel i d nn).2.1 bits (d.num_of_vars + 1)
                    (rrtPl fuel i d nn).1 =
                  evalAux d bits (d.num_of_vars + 1) (some s)) :=
              rrtRec_eval fuel (getNode d i).low d nn hwf hord hnv hnu hliveL
            -- high run hypotheses
            have hnodeHs : ∀ s, (getNode d i).high = some s →
                s ∈ (rrtPl fuel i d nn).2.1.store := by
              intro s hs
              rw [hs1]
              exact List.mem_append_left _ (hSCi.2 s hs)
            have hgd : ∀ x, x < d.heap.length →
                getNode (rrtPl fuel i d nn).2.1 x = getNode d x :=
              fun x hx => getNode_ext he1 hx
            have hfbH : ∀ s, (getNode d i).high = some s →
                ((getNode (rrtPl fuel i d nn).2.1 s).is_terminal = true →
                  1 ≤ fuel) ∧
                ((getNode (rrtPl fuel i d nn).2.1 s).is_terminal = false →
                  ((rrtPl fuel i d nn).2.1.num_of_vars : Int) -
                    (getNode (rrtPl fuel i d nn).2.1 s).var_index <
                    (fuel : Int)) := by
              intro s hs
              obtain ⟨hsl, hsc⟩ := hhii s hs
              rw [hgd s hsl, hnumL]
              refine ⟨fun _ => hf1, fun hsF => ?_⟩
              have hvs : (getNode d i).var_index <
                  (getNode d s).var_index := by
                rcases hsc with h | h
                · exact absurd (h.symm.trans hsF) (by decide)
                · exact h
              push_cast at hVb ⊢
              omega
            obtain ⟨⟨s2, hs2⟩, hsubH, hSCH, hnclH, hresInH⟩ :
                (∃ t, (rrtPh fuel i d nn).2.1.store =
                  (rrtPl fuel i d nn).2.1.store ++ t) ∧
                (∀ x ∈ (rrtPh fuel i d nn).2.2,
                  x ∈ (rrtPh fuel i d nn).2.1.store) ∧
                (∀ x ∈ (rrtPh fuel i d nn).2.1.store,
                  (getNode (rrtPh fuel i d nn).2.1 x).is_terminal = false →
                  (∀ l, (getNode (rrtPh fuel i d nn).2.1 x).low = some l →
                    l ∈ (rrtPh fuel i d nn).2.1.store) ∧
                  (∀ y, (getNode (rrtPh fuel i d nn).2.1 x).high = some y →
                    y ∈ (rrtPh fuel i d nn).2.1.store)) ∧
                (∀ x ∈ (rrtPh fuel i d nn).2.2,
                  (getNode (rrtPh fuel i d nn).2.1 x).is_terminal = false →
                  (∀ l, (getNode (rrtPh fuel i d nn).2.1 x).low = some l →
                    l ∈ (rrtPh fuel i d nn).2.2) ∧
                  (∀ y, (getNode (rrtPh fuel i d nn).2.1 x).high = some y →
                    y ∈ (rrtPh fuel i d nn).2.2)) ∧
                (∀ r, (rrtPh fuel i d nn).1 = some r →
                  r ∈ (rrtPh fuel i d nn).2.2) :=
              ih (getNode d i).high (rrtPl fuel i d nn).2.1
                (rrtPl fuel i d nn).2.2 hwfL hordL hSCL hsubL hnclL
                hnodeHs hfbH
            have hnodeHl : ∀ s, (getNode d i).high = some s →
                s < (rrtPl fuel i d nn).2.1.heap.length :=
              fun s hs => hwfL.1 s (hnodeHs s hs)
            obtain ⟨hwfH, ⟨t2, he2⟩, ⟨u2, hu2⟩, hnvH, hnuH, hresH⟩ :
                wfCore (rrtPh fuel i d nn).2.1 ∧
                (∃ t, (rrtPh fuel i d nn).2.1.heap =
                  (rrtPl fuel i d nn).2.1.heap ++ t) ∧
                (∃ t, (rrtPh fuel i d nn).2.2 =
                  (rrtPl fuel i d nn).2.2 ++ t) ∧
                (∀ x ∈ (rrtPh fuel i d nn).2.2,
                  x < (rrtPh fuel i d nn).2.1.heap.length) ∧
                (∀ a ∈ (rrtPh fuel i d nn).2.2, ∀ b ∈ (rrtPh fuel i d nn).2.2,
                  getNode (rrtPh fuel i d nn).2.1 a =
                    getNode (rrtPh fuel i d nn).2.1 b → a = b) ∧
                (∀ r, (rrtPh fuel i d nn).1 = some r →
                  r < (rrtPh fuel i d nn).2.1.heap.length) :=
              rrtRec_wf fuel (getNode d i).high (rrtPl fuel i d nn).2.1
                (rrtPl fuel i d nn).2.2 hwfL hnvL hnuL hnodeHl
            by_cases hcoll : (rrtPl fuel i d nn).1 ≠ none ∧
                (rrtPl fuel i d nn).1 = (rrtPh fuel i d nn).1
            · rw [if_pos hcoll]
              refine ⟨⟨s1 ++ s2, by rw [hs2, hs1, List.append_assoc]⟩,
                hsubH, hSCH, hnclH, ?_⟩
              intro r hr
              have hr' : (rrtPl fuel i d nn).1 = some r := hr
              have hmem := hresInL r hr'
              show r ∈ (rrtPh fuel i d nn).2.2
              rw [hu2]
              exact List.mem_append_left _ hmem
            · rw [if_neg hcoll]
              have hCS := create_node_spec (rrtPh fuel i d nn).2.1
                (getNode d i).var_index (rrtPl fuel i d nn).1
                (rrtPh fuel i d nn).1 (getNode d i).value
              have hgpc : getNode (rrtPc fuel i d nn).2 (rrtPc fuel i d nn).1 =
                  ⟨(getNode d i).var_index, (rrtPl fuel i d nn).1,
                   (rrtPh fuel i d nn).1, (getNode d i).value⟩ := hCS.1
              obtain ⟨t3, he3⟩ : ∃ t, (rrtPc fuel i d nn).2.heap =
                  (rrtPh fuel i d nn).2.1.heap ++ t := hCS.2.2.1
              have hrecF : (⟨(getNode d i).var_index, (rrtPl fuel i d nn).1,
                  (rrtPh fuel i d nn).1,
                  (getNode d i).value⟩ : MtBddNode).is_terminal = false :=
                not_terminal_of_nonneg _ h0i
              -- the children of the re-canonicalized record are collected
              have hchL : ∀ l, (rrtPl fuel i d nn).1 = some l →
                  l ∈ (rrtPh fuel i d nn).2.2 := by
                intro l hl
                rw [hu2]
                exact List.mem_append_left _ (hresInL l hl)
              have hchH : ∀ y, (rrtPh fuel i d nn).1 = some y →
                  y ∈ (rrtPh fuel i d nn).2.2 :=
                fun y hy => hresInH y hy
              -- store membership of the created pointer
              have hpc1mem : (rrtPc fuel i d nn).1 ∈
                  (rrtPc fuel i d nn).2.store := by
                cases hf : findEquiv (rrtPh fuel i d nn).2.1
                    ⟨(getNode d i).var_index, (rrtPl fuel i d nn).1,
                     (rrtPh fuel i d nn).1, (getNode d i).value⟩ with
                | some w =>
                    have hpc : rrtPc fuel i d nn =
                        (w, (rrtPh fuel i d nn).2.1) := by
                      show create_node (rrtPh fuel i d nn).2.1
                        (getNode d i).var_index (rrtPl fuel i d nn).1
                        (rrtPh fuel i d nn).1 (getNode d i).value = _
                      simp [create_node, hf]
                    rw [hpc]
                    exact (findEquiv_some_getNode hf).2
                | none =>
                    have hpc : (rrtPc fuel i d nn).2.store =
                        (rrtPh fuel i d nn).2.1.store ++
                          [(rrtPc fuel i d nn).1] := by
                      show (create_node (rrtPh fuel i d nn).2.1
                        (getNode d i).var_index (rrtPl fuel i d nn).1
                        (rrtPh fuel i d nn).1 (getNode d i).value).2.store = _
                      simp [rrtPc, create_node, hf]
                    rw [hpc]
                    exact List.mem_append_right _ (List.mem_singleton_self _)
              have hst3 : ∃ t, (rrtPc fuel i d nn).2.store =
                  (rrtPh fuel i d nn).2.1.store ++ t := hCS.2.2.2.1
              obtain ⟨t4, hst4⟩ := hst3
              refine ⟨⟨s1 ++ s2 ++ t4, by
                rw [hst4, hs2, hs1]
                simp [List.append_assoc]⟩, ?_, ?_, ?_, ?_⟩
              · -- collected members are store members
                intro x hx
                unfold rrtNn3 at hx
                by_cases hm : memEquiv (rrtPc fuel i d nn).2.heap
                    (rrtPh fuel i d nn).2.2 (rrtPc fuel i d nn).1 = true
                · rw [if_pos hm] at hx
                  rw [hst4]
                  exact List.mem_append_left _ (hsubH x hx)
                · rw [if_neg hm] at hx
                  rcases List.mem_append.mp hx with hx | hx
                  · rw [hst4]
                    exact List.mem_append_left _ (hsubH x hx)
                  · simp only [List.mem_singleton] at hx
                    subst hx
                    exact hpc1mem
              · -- store closure
                intro x hx hxF
                cases hf : findEquiv (rrtPh fuel i d nn).2.1
                    ⟨(getNode d i).var_index, (rrtPl fuel i d nn).1,
                     (rrtPh fuel i d nn).1, (getNode d i).value⟩ with
                | some w =>
                    have hpc : (rrtPc fuel i d nn).2 =
                        (rrtPh fuel i d nn).2.1 := by
                      show (create_node (rrtPh fuel i d nn).2.1
                        (getNode d i).var_index (rrtPl fuel i d nn).1
                        (rrtPh fuel i d nn).1 (getNode d i).value).2 = _
                      simp [create_node, hf]
                    rw [hpc] at hx hxF ⊢
                    exact hSCH x hx hxF
                | none =>
                    have hpcs : (rrtPc fuel i d nn).2.store =
                        (rrtPh fuel i d nn).2.1.store ++
                          [(rrtPc fuel i d nn).1] := by
                      show (create_node (rrtPh fuel i d nn).2.1
                        (getNode d i).var_index (rrtPl fuel i d nn).1
                        (rrtPh fuel i d nn).1 (getNode d i).value).2.store = _
                      simp [rrtPc, create_node, hf]
                    rw [hpcs] at hx
                    rcases List.mem_append.mp hx with hx | hx
                    · have hxl : x < (rrtPh fuel i d nn).2.1.heap.length :=
                        hwfH.1 x hx
                      have hgx : getNode (rrtPc fuel i d nn).2 x =
                          getNode (rrtPh fuel i d nn).2.1 x :=
                        getNode_ext he3 hxl
                      rw [hgx] at hxF ⊢
                      obtain ⟨h1, h2⟩ := hSCH x hx hxF
                      refine ⟨fun l hl => ?_, fun y hy => ?_⟩
                      · rw [hpcs]
                        exact List.mem_append_left _ (h1 l hl)
                      · rw [hpcs]
                        exact List.mem_append_left _ (h2 y hy)
                    · simp only [List.mem_singleton] at hx
                      subst hx
                      rw [hgpc]
                      refine ⟨fun l hl => ?_, fun y hy => ?_⟩
                      · have hl' : (rrtPl fuel i d nn).1 = some l := hl
                        rw [hpcs]
                        exact List.mem_append_left _ (hsubH l (hchL l hl'))
                      · have hy' : (rrtPh fuel i d nn).1 = some y := hy
                        rw [hpcs]
                        exact List.mem_append_left _ (hsubH y (hchH y hy'))
              · -- collected-set closure
                intro x hx hxF
                have hnn3sub : ∀ z, z ∈ (rrtPh fuel i d nn).2.2 →
                    z ∈ rrtNn3 fuel i d nn := by
                  intro z hz
                  unfold rrtNn3
                  by_cases hm : memEquiv (rrtPc fuel i d nn).2.heap
                      (rrtPh fuel i d nn).2.2 (rrtPc fuel i d nn).1 = true
                  · rw [if_pos hm]
                    exact hz
                  · rw [if_neg hm]
                    exact List.mem_append_left _ hz
                have hx2 := hx
                unfold rrtNn3 at hx2
                by_cases hm : memEquiv (rrtPc fuel i d nn).2.heap
                    (rrtPh fuel i d nn).2.2 (rrtPc fuel i d nn).1 = true
                · rw [if_pos hm] at hx2
                  have hxl : x < (rrtPh fuel i d nn).2.1.heap.length :=
                    hnvH x hx2
                  have hgx : getNode (rrtPc fuel i d nn).2 x =
                      getNode (rrtPh fuel i d nn).2.1 x :=
                    getNode_ext he3 hxl
                  rw [hgx] at hxF ⊢
                  obtain ⟨h1, h2⟩ := hnclH x hx2 hxF
                  exact ⟨fun l hl => hnn3sub l (h1 l hl),
                    fun y hy => hnn3sub y (h2 y hy)⟩
                · rw [if_neg hm] at hx2
                  rcases List.mem_append.mp hx2 with hx2 | hx2
                  · have hxl : x < (rrtPh fuel i d nn).2.1.heap.length :=
                      hnvH x hx2
                    have hgx : getNode (rrtPc fuel i d nn).2 x =
                        getNode (rrtPh fuel i d nn).2.1 x :=
                      getNode_ext he3 hxl
                    rw [hgx] at hxF ⊢
                    obtain ⟨h1, h2⟩ := hnclH x hx2 hxF
                    exact ⟨fun l hl => hnn3sub l (h1 l hl),
                      fun y hy => hnn3sub y (h2 y hy)⟩
                  · simp only [List.mem_singleton] at hx2
                    subst hx2
                    rw [hgpc]
                    refine ⟨fun l hl => ?_, fun y hy => ?_⟩
                    · exact hnn3sub l (hchL l hl)
                    · exact hnn3sub y (hchH y hy)
              · -- the representative is collected
                intro r hr
                have hr' : some (rrtRes fuel i d nn) = some r := hr
                have h2 : rrtRes fuel i d nn = r := by injection hr'
                subst h2
                show rrtRes fuel i d nn ∈ rrtNn3 fuel i d nn
                unfold rrtRes
                cases hfind : (rrtNn3 fuel i d nn).find? (fun x =>
                    (rrtPc fuel i d nn).2.heap.getD x default =
                    (rrtPc fuel i d nn).2.heap.getD
                      (rrtPc fuel i d nn).1 default) with
                | some w =>
                    exact List.mem_of_find?_eq_some hfind
                | none =>
                    show (rrtPc fuel i d nn).1 ∈ rrtNn3 fuel i d nn
                    unfold rrtNn3
                    by_cases hm : memEquiv (rrtPc fuel i d nn).2.heap
                        (rrtPh fuel i d nn).2.2 (rrtPc fuel i d nn).1 = true
                    · exfalso
                      obtain ⟨x, hx, heq⟩ :=
                        (memEquiv_iff (rrtPc fuel i d nn).2.heap
                          (rrtPh fuel i d nn).2.2
                          (rrtPc fuel i d nn).1).mp hm
                      have hxin : x ∈ rrtNn3 fuel i d nn := by
                        unfold rrtNn3
                        rw [if_pos hm]
                        exact hx
                      have := List.find?_eq_none.mp hfind x hxin
                      simp only [decide_eq_true_eq] at this
                      exact this heq
                    · rw [if_neg hm]
                      exact List.mem_append_right _ (List.mem_singleton_self _)

/-- `create_node` keeps every cell well-shaped and the store covering the
arena, as long as the requested record is itself well-shaped. -/
theorem create_node_shape (d : MtRobdd) (var : Int) (lo hi : Option Nat)
    (vv : Nat) (hC : CellsOk d) (hS : ∀ j, j < d.heap.length → j ∈ d.store)
    (hv : (var = TERMINAL_INDEX ∧ lo = none ∧ hi = none) ∨
      (0 ≤ var ∧ var < (d.num_of_vars : Int))) :
    CellsOk (create_node d var lo hi vv).2 ∧
    (∀ j, j < (create_node d var lo hi vv).2.heap.length →
      j ∈ (create_node d var lo hi vv).2.store) := by
  cases hf : findEquiv d ⟨var, lo, hi, vv⟩ with
  | some i =>
      have h2 : create_node d var lo hi vv = (i, d) := by
        simp [create_node, hf]
      rw [h2]
      exact ⟨hC, hS⟩
  | none =>
      have hheap : (create_node d var lo hi vv).2.heap =
          d.heap ++ [⟨var, lo, hi, vv⟩] := by
        simp [create_node, hf]
      have hstore : (create_node d var lo hi vv).2.store =
          d.store ++ [d.heap.length] := by
        simp [create_node, hf]
      have hnum : (create_node d var lo hi vv).2.num_of_vars =
          d.num_of_vars := (create_node_spec d var lo hi vv).2.1
      constructor
      · intro j hj
        rw [hheap] at hj
        simp only [List.length_append, List.length_singleton] at hj
        by_cases hold : j < d.heap.length
        · have hg : getNode (create_node d var lo hi vv).2 j = getNode d j := by
            show (create_node d var lo hi vv).2.heap.getD j default = _
            rw [hheap]
            exact getD_append_of_lt _ _ _ hold
          rw [hg, hnum]
          exact hC j hold
        · have hjl : j = d.heap.length := by omega
          subst hjl
          have hg2 : getNode (create_node d var lo hi vv).2 d.heap.length =
              ⟨var, lo, hi, vv⟩ := by
            show (create_node d var lo hi vv).2.heap.getD _ default = _
            rw [hheap]
            exact getNode_heap_append_last _ _
          rw [hg2, hnum]
          rcases hv with ⟨hvT, hlo, hhi⟩ | ⟨h0, hV⟩
          · left
            refine ⟨by simp [MtBddNode.is_terminal, hvT], hlo, hhi⟩
          · exact Or.inr ⟨h0, hV⟩
      · intro j hj
        rw [hheap] at hj
        simp only [List.length_append, List.length_singleton] at hj
        rw [hstore]
        by_cases hold : j < d.heap.length
        · exact List.mem_append_left _ (hS j hold)
        · have hjl : j = d.heap.length := by omega
          subst hjl
          exact List.mem_append_right _ (List.mem_singleton_self _)

/-- The insertion recursion keeps every cell well-shaped and the store
covering the arena. -/
theorem insertAux_shape :
    ∀ (fuel : Nat) (d : MtRobdd) (var : Nat) (src : Option Nat)
      (bits : List Bool) (v : Nat),
    CellsOk d → (∀ j, j < d.heap.length → j ∈ d.store) →
    var + fuel = d.num_of_vars →
    CellsOk (insertAux d fuel var src bits v).2 ∧
    (∀ j, j < (insertAux d fuel var src bits v).2.heap.length →
      j ∈ (insertAux d fuel var src bits v).2.store) := by
  intro fuel
  induction fuel with
  | zero =>
      intro d var src bits v hC hS hfv
      exact create_node_shape d TERMINAL_INDEX none none v hC hS
        (Or.inl ⟨rfl, rfl, rfl⟩)
  | succ fuel ih =>
      intro d var src bits v hC hS hfv
      cases src with
      | none =>
          by_cases hb : bits.getD var false
          · obtain ⟨hCp, hSp⟩ := ih d (var + 1) none bits v hC hS (by omega)
            have hnum := (insertAux_frame d fuel (var + 1) none bits v).2.2.2
            simp only [insertAux, hb, if_true]
            refine create_node_shape _ _ _ _ _ hCp hSp (Or.inr ⟨?_, ?_⟩)
            · exact Int.natCast_nonneg var
            · rw [hnum]
              exact_mod_cast (show var < d.num_of_vars by omega)
          · obtain ⟨hCp, hSp⟩ := ih d (var + 1) none bits v hC hS (by omega)
            have hnum := (insertAux_frame d fuel (var + 1) none bits v).2.2.2
            simp only [insertAux, hb, if_false, Bool.false_eq_true]
            refine create_node_shape _ _ _ _ _ hCp hSp (Or.inr ⟨?_, ?_⟩)
            · exact Int.natCast_nonneg var
            · rw [hnum]
              exact_mod_cast (show var < d.num_of_vars by omega)
      | some s =>
          by_cases hb : bits.getD var false
          · obtain ⟨hCp, hSp⟩ :=
              ih d (var + 1) (getNode d s).high bits v hC hS (by omega)
            have hnum :=
              (insertAux_frame d fuel (var + 1) (getNode d s).high bits v).2.2.2
            by_cases hc : some (insertAux d fuel (var + 1)
                (getNode d s).high bits v).1 = (getNode d s).high
            · simp only [insertAux, hb, if_true, hc, if_pos]
              exact ⟨hCp, hSp⟩
            · simp only [insertAux, hb, if_true, hc, if_neg]
              refine create_node_shape _ _ _ _ _ hCp hSp (Or.inr ⟨?_, ?_⟩)
              · exact Int.natCast_nonneg var
              · rw [hnum]
                exact_mod_cast (show var < d.num_of_vars by omega)
          · obtain ⟨hCp, hSp⟩ :=
              ih d (var + 1) (getNode d s).low bits v hC hS (by omega)
            have hnum :=
              (insertAux_frame d fuel (var + 1) (getNode d s).low bits v).2.2.2
            by_cases hc : some (insertAux d fuel (var + 1)
                (getNode d s).low bits v).1 = (getNode d s).low
            · simp only [insertAux, hb, if_false, Bool.false_eq_true, hc, if_pos]
              exact ⟨hCp, hSp⟩
            · simp only [insertAux, hb, if_false, Bool.false_eq_true, hc, if_neg]
              refine create_node_shape _ _ _ _ _ hCp hSp (Or.inr ⟨?_, ?_⟩)
              · exact Int.natCast_nonneg var
              · rw [hnum]
                exact_mod_cast (show var < d.num_of_vars by omega)

/-- One name-based insertion keeps every cell well-shaped and the store
covering the arena. -/
theorem insert_from_root_shape (d : MtRobdd) (r : Nat) (bits : List Bool)
    (v : Nat) (hC : CellsOk d) (hS : ∀ j, j < d.heap.length → j ∈ d.store) :
    CellsOk (insert_bit_string_from_root d r bits v).2 ∧
    (∀ j, j < (insert_bit_string_from_root d r bits v).2.heap.length →
      j ∈ (insert_bit_string_from_root d r bits v).2.store) :=
  insertAux_shape (d.num_of_vars - 0) d 0 (get_root_node d r) bits v hC hS
    (by omega)

/-- A run of insertions keeps every cell well-shaped and the store covering
the arena. -/
theorem insertList_shape :
    ∀ (ins : List (List Bool × Nat)) (d : MtRobdd) (r : Nat),
    CellsOk d → (∀ j, j < d.heap.length → j ∈ d.store) →
    CellsOk (insertList d r ins) ∧
    (∀ j, j < (insertList d r ins).heap.length →
      j ∈ (insertList d r ins).store) := by
  intro ins
  induction ins with
  | nil => intro d r hC hS; exact ⟨hC, hS⟩
  | cons p rest ih =>
      intro d r hC hS
      obtain ⟨hC1, hS1⟩ := insert_from_root_shape d r p.1 p.2 hC hS
      exact ih (insert_bit_string_from_root d r p.1 p.2).2 r hC1 hS1

/-- On a manager whose store covers the arena (so structurally equal nodes
are pointer-equal), `trim` keeps well-formedness, its rebuilt store is
closed under children, and every root binding survives into the store. -/
theorem trim_shape (d : MtRobdd) (hwf : wfCore d)
    (hroots : ∀ p ∈ d.roots, p.2 < d.heap.length)
    (hS : ∀ j, j < d.heap.length → j ∈ d.store) :
    wfCore (trim d) ∧
    (∀ x ∈ (trim d).store,
      (∀ l, (getNode d x).low = some l → l ∈ (trim d).store) ∧
      (∀ y, (getNode d x).high = some y → y ∈ (trim d).store)) ∧
    (∀ p ∈ d.roots, p.2 ∈ (trim d).store) := by
  have hU : ∀ a b, a < d.heap.length → b < d.heap.length →
      getNode d a = getNode d b → a = b :=
    fun a b ha hb h => hwf.2.2 a (hS a ha) b (hS b hb) h
  have hWF2 := trim_WF d ⟨hwf, hroots⟩
  set work0 := d.roots.map (·.2) with hw0
  set acc0 := work0.foldl
    (fun a i => if memEquiv d.heap a i then a else a ++ [i]) [] with ha0
  have hloop : (trim d).store = trimLoop d (trimFuel d) work0 acc0 := rfl
  have hacc0_sub : ∀ x ∈ acc0, x ∈ work0 := by
    intro x hx
    rcases dedup_foldl_mem d.heap work0 [] x hx with h | h
    · simp at h
    · exact h
  set C : Finset ℕ :=
    (d.heap.flatMap (fun n => n.low.toList ++ n.high.toList)).toFinset with hCdef
  have hC : ∀ i l, childStep d i l → l ∈ C := by
    intro i l hil
    have hi_lt : i < d.heap.length := by
      by_contra hge
      have hdef : getNode d i = default := by
        simp [getNode, List.getD,
          List.getElem?_eq_none (by omega : d.heap.length ≤ i)]
      rcases hil with h | h <;> rw [hdef] at h <;> exact Option.noConfusion h
    have hmem : getNode d i ∈ d.heap := getNode_mem d i hi_lt
    rw [hCdef]
    simp only [List.mem_toFinset, List.mem_flatMap]
    refine ⟨getNode d i, hmem, ?_⟩
    rcases hil with h | h
    · simp [h]
    · simp [h]
  have hfuel0 : 2 * (C \ acc0.toFinset).card + work0.length ≤ trimFuel d := by
    have h1 : (C \ acc0.toFinset).card ≤ C.card :=
      Finset.card_le_card Finset.sdiff_subset
    have h2 : C.card ≤ 2 * d.heap.length := by
      calc C.card
          ≤ (d.heap.flatMap (fun n => n.low.toList ++ n.high.toList)).length :=
            List.toFinset_card_le _
        _ ≤ 2 * d.heap.length := flatMap_children_length d.heap
    have h3 : work0.length = d.roots.length := by simp [hw0]
    unfold trimFuel
    omega
  have hcl0 : ∀ x ∈ acc0, x ∉ work0 → ∀ y, childStep d x y →
      ∃ z ∈ acc0, getNode d z = getNode d y := by
    intro x hx hnx
    exact absurd (hacc0_sub x hx) hnx
  obtain ⟨hsub, hclosed⟩ := trimLoop_complete d C hC (trimFuel d) work0 acc0
    hfuel0 hcl0
  refine ⟨hWF2.1, ?_, ?_⟩
  · intro x hx
    have hxlt : x < d.heap.length := hWF2.1.1 x hx
    have hchx := hwf.2.1 (getNode d x) (getNode_mem d x hxlt)
    have hx2 : x ∈ trimLoop d (trimFuel d) work0 acc0 := by
      rw [← hloop]
      exact hx
    refine ⟨fun l hl => ?_, fun y hy => ?_⟩
    · obtain ⟨z, hz, hzeq⟩ := hclosed x hx2 l (Or.inl hl)
      have hz2 : z ∈ (trim d).store := by rw [hloop]; exact hz
      have hzl : z = l := hU z l (hWF2.1.1 z hz2) (hchx.1 l hl) hzeq
      rw [← hzl]
      exact hz2
    · obtain ⟨z, hz, hzeq⟩ := hclosed x hx2 y (Or.inr hy)
      have hz2 : z ∈ (trim d).store := by rw [hloop]; exact hz
      have hzy : z = y := hU z y (hWF2.1.1 z hz2) (hchx.2 y hy) hzeq
      rw [← hzy]
      exact hz2
  · intro p hp
    obtain ⟨z, hz, hzeq⟩ := dedup_foldl_repr d.heap work0 [] p.2
      (Or.inr (by rw [hw0]; exact List.mem_map.mpr ⟨p, hp, rfl⟩))
    have hz2 : z ∈ (trim d).store := by
      rw [hloop]
      exact hsub z hz
    have hzp : z = p.2 := hU z p.2 (hWF2.1.1 z hz2) (hroots p hp) hzeq
    rw [← hzp]
    exact hz2

/-- One insertion rebinds the root name on top of the untouched root index. -/
theorem insert_from_root_roots (d : MtRobdd) (r : Nat) (bits : List Bool)
    (v : Nat) :
    (insert_bit_string_from_root d r bits v).2.roots =
      mapInsert r (insert_bit_string_from_root d r bits v).1 d.roots := by
  show mapInsert r
      (insertAux d (d.num_of_vars - 0) 0 (get_root_node d r) bits v).1
      (insertAux d (d.num_of_vars - 0) 0 (get_root_node d r) bits v).2.roots = _
  rw [(insertAux_frame d (d.num_of_vars - 0) 0 (get_root_node d r) bits v).2.2.1]
  rfl

/-- A run of insertions from a singly-bound root index keeps it singly
bound to the same name. -/
theorem insertList_roots :
    ∀ (ins : List (List Bool × Nat)) (d : MtRobdd) (r rt : Nat),
    d.roots = [(r, rt)] →
    ∃ rt2, (insertList d r ins).roots = [(r, rt2)] := by
  intro ins
  induction ins with
  | nil => intro d r rt h; exact ⟨rt, h⟩
  | cons p rest ih =>
      intro d r rt h
      refine ih (insert_bit_string_from_root d r p.1 p.2).2 r
        (insert_bit_string_from_root d r p.1 p.2).1 ?_
      rw [insert_from_root_roots, h]
      simp [mapInsert]

/-- `remove_redundant_tests` on a manager with a single root binding whose
store covers the reachable graph: the output is well-formed and ordered,
keeps the variable count, binds the same name to a pointer that evaluates
identically at full fuel, and its store is live, closed under children of
non-terminal members, pairwise non-equivalent, and contains the binding. -/
theorem rrt_single_root (d : MtRobdd) (r rt : Nat)
    (hroots : d.roots = [(r, rt)])
    (hwf : wfCore d) (hord : Ordered d)
    (hSC : ∀ x ∈ d.store, (getNode d x).is_terminal = false →
      (∀ l, (getNode d x).low = some l → l ∈ d.store) ∧
      (∀ y, (getNode d x).high = some y → y ∈ d.store))
    (hrtS : rt ∈ d.store) :
    wfCore (remove_redundant_tests d) ∧
    Ordered (remove_redundant_tests d) ∧
    (remove_redundant_tests d).num_of_vars = d.num_of_vars ∧
    (∃ rt', (remove_redundant_tests d).roots = [(r, rt')] ∧
      rt' ∈ (remove_redundant_tests d).store ∧
      (∀ bits, evalAux (remove_redundant_tests d) bits (d.num_of_vars + 1)
          (some rt') =
        evalAux d bits (d.num_of_vars + 1) (some rt))) ∧
    (∀ x ∈ (remove_redundant_tests d).store,
      (getNode (remove_redundant_tests d) x).is_terminal = false →
      (∀ l, (getNode (remove_redundant_tests d) x).low = some l →
        l ∈ (remove_redundant_tests d).store) ∧
      (∀ y, (getNode (remove_redundant_tests d) x).high = some y →
        y ∈ (remove_redundant_tests d).store)) := by
  have hrt : rt < d.heap.length := hwf.1 rt hrtS
  have hout : remove_redundant_tests d =
      { (rrtRec (d.num_of_vars + 1) (some rt) d []).2.1 with
        store := (rrtRec (d.num_of_vars + 1) (some rt) d []).2.2,
        roots := [(r, (rrtRec (d.num_of_vars + 1) (some rt) d []).1.getD rt)] }
      := by
    show ({ (d.roots.foldl (rrtStep (d.num_of_vars + 1)) (d, [], [])).1 with
      store := (d.roots.foldl (rrtStep (d.num_of_vars + 1)) (d, [], [])).2.1,
      roots := (d.roots.foldl (rrtStep (d.num_of_vars + 1))
        (d, [], [])).2.2 } : MtRobdd) = _
    rw [hroots]
    rfl
  have hnv : ∀ x ∈ ([] : List Nat), x < d.heap.length := by
    intro x hx
    exact absurd hx (List.not_mem_nil x)
  have hnu : ∀ a ∈ ([] : List Nat), ∀ b ∈ ([] : List Nat),
      getNode d a = getNode d b → a = b := by
    intro a ha
    exact absurd ha (List.not_mem_nil a)
  have hnode : ∀ s, (some rt : Option Nat) = some s → s < d.heap.length := by
    intro s hs
    have h1 : rt = s := by injection hs
    rw [← h1]
    exact hrt
  obtain ⟨hordQ, hnumQ, hiffQ, hlevQ, hevQ⟩ :=
    rrtRec_eval (d.num_of_vars + 1) (some rt) d [] hwf hord hnv hnu hnode
  obtain ⟨hwfQ, ⟨tq, heq⟩, -, hnvQ, hnuQ, hresQ⟩ :=
    rrtRec_wf (d.num_of_vars + 1) (some rt) d [] hwf hnv hnu hnode
  have hfb : ∀ s, (some rt : Option Nat) = some s →
      ((getNode d s).is_terminal = true → 1 ≤ d.num_of_vars + 1) ∧
      ((getNode d s).is_terminal = false →
        (d.num_of_vars : Int) - (getNode d s).var_index <
          ((d.num_of_vars + 1 : Nat) : Int)) := by
    intro s hs
    have h1 : rt = s := by injection hs
    subst h1
    refine ⟨fun _ => by omega, fun hF => ?_⟩
    rcases hord rt hrt with hT | ⟨h0, hV, -, -⟩
    · exact absurd (hT.symm.trans hF) (by decide)
    · push_cast
      omega
  obtain ⟨⟨sq, hsq⟩, hsubQ, hSCQ, hnclQ, hresInQ⟩ :=
    rrtRec_collect (d.num_of_vars + 1) (some rt) d [] hwf hord hSC
      (fun x hx => absurd hx (List.not_mem_nil x))
      (fun x hx => absurd hx (List.not_mem_nil x))
      (fun s hs => by
        have h1 : rt = s := by injection hs
        rw [← h1]
        exact hrtS) hfb
  obtain ⟨rt', hres⟩ : ∃ rt',
      (rrtRec (d.num_of_vars + 1) (some rt) d []).1 = some rt' := by
    cases hq : (rrtRec (d.num_of_vars + 1) (some rt) d []).1 with
    | none => exact absurd (hiffQ.mp hq) (by simp)
    | some rt' => exact ⟨rt', rfl⟩
  rw [hout]
  refine ⟨⟨hnvQ, hwfQ.2.1, hnuQ⟩, hordQ, hnumQ, ⟨rt', ?_, ?_, ?_⟩, ?_⟩
  · show [(r, (rrtRec (d.num_of_vars + 1) (some rt) d []).1.getD rt)] =
      [(r, rt')]
    rw [hres]
    rfl
  · exact hresInQ rt' hres
  · intro bits
    have hho : evalAux { (rrtRec (d.num_of_vars + 1) (some rt) d []).2.1 with
        store := (rrtRec (d.num_of_vars + 1) (some rt) d []).2.2,
        roots := [(r, (rrtRec (d.num_of_vars + 1) (some rt) d []).1.getD rt)] }
        bits (d.num_of_vars + 1) (some rt') =
        evalAux (rrtRec (d.num_of_vars + 1) (some rt) d []).2.1
          bits (d.num_of_vars + 1) (some rt') :=
      evalAux_heap_only (rrtRec (d.num_of_vars + 1) (some rt) d []).2.1
        { (rrtRec (d.num_of_vars + 1) (some rt) d []).2.1 with
          store := (rrtRec (d.num_of_vars + 1) (some rt) d []).2.2,
          roots :=
            [(r, (rrtRec (d.num_of_vars + 1) (some rt) d []).1.getD rt)] }
        rfl bits (d.num_of_vars + 1) (some rt')
    rw [hho]
    have h2 := hevQ bits rt rfl
    rw [hres] at h2
    exact h2
  · intro x hx hxF
    exact hnclQ x hx hxF

/-- The working state of `make_complete`'s loop over the store. -/
@[reducible] def mcOut (d : MtRobdd) (sv : Nat) (ct : Bool) :
    List MtBddNode × List (Nat × Nat) × Bool :=
  d.store.foldl (mcStep d.heap.length ct)
    (d.heap ++ [⟨TERMINAL_INDEX, none, none, sv⟩], d.roots, false)

/-- The output of `make_complete` always carries the looped heap and the
untouched variable count; its root index is the looped one, with the sink
binding layered on top exactly when the flag was raised. -/
theorem make_complete_state (d : MtRobdd) (sv : Nat) (ct : Bool) :
    (make_complete d sv ct).heap = (mcOut d sv ct).1 ∧
    (make_complete d sv ct).num_of_vars = d.num_of_vars ∧
    (make_complete d sv ct).roots =
      (if (mcOut d sv ct).2.2 = true
       then mapInsert sv d.heap.length (mcOut d sv ct).2.1
       else (mcOut d sv ct).2.1) := by
  by_cases hfl : (mcOut d sv ct).2.2 = true
  · simp only [make_complete, hfl]
    exact ⟨rfl, rfl, rfl⟩
  · have hf2 : (mcOut d sv ct).2.2 = false := by
      cases hq : (mcOut d sv ct).2.2
      · rfl
      · exact absurd hq hfl
    simp only [make_complete, hf2]
    exact ⟨rfl, rfl, rfl⟩

theorem mcStep_lookup_preserved (sinkId : Nat) (ct : Bool)
    (st : List MtBddNode × List (Nat × Nat) × Bool) (j k : Nat)
    (hb : (mapLookup st.2.1 k).isSome = true) :
    mapLookup (mcStep sinkId ct st j).2.1 k = mapLookup st.2.1 k := by
  simp only [mcStep]
  by_cases h1 : ct = true ∧ (st.1.getD j default).is_terminal = true
  · rw [if_pos h1]
    by_cases h2 : (mapLookup st.2.1 (st.1.getD j default).value).isSome = true
    · rw [if_pos h2]
    · rw [if_neg h2]
      refine mapLookup_mapInsert_ne _ _ _ _ ?_
      intro hq
      rw [← hq] at h2
      exact h2 hb
  · rw [if_neg h1]
    by_cases h3 : (st.1.getD j default).low = none ∨
        (st.1.getD j default).high = none
    · rw [if_pos h3]
    · rw [if_neg h3]

theorem mc_fold_lookup_preserved (sinkId : Nat) (ct : Bool) (l : List Nat) :
    ∀ (st : List MtBddNode × List (Nat × Nat) × Bool) (k : Nat),
    (mapLookup st.2.1 k).isSome = true →
    mapLookup (l.foldl (mcStep sinkId ct) st).2.1 k = mapLookup st.2.1 k := by
  induction l with
  | nil => intro st k _; rfl
  | cons j rest ih =>
      intro st k hb
      rw [List.foldl_cons,
        ih (mcStep sinkId ct st j) k (mcStep_lookup_mono sinkId ct st j k hb),
        mcStep_lookup_preserved sinkId ct st j k hb]

/-- A root name distinct from the sink value keeps its binding across
`make_complete`. -/
theorem make_complete_root_binding (d : MtRobdd) (sv : Nat) (ct : Bool)
    (k : Nat) (hk : k ≠ sv)
    (hb : (mapLookup d.roots k).isSome = true) :
    mapLookup (make_complete d sv ct).roots k = mapLookup d.roots k := by
  rw [(make_complete_state d sv ct).2.2]
  by_cases hfl : (mcOut d sv ct).2.2 = true
  · rw [if_pos hfl, mapLookup_mapInsert_ne _ _ _ _ hk]
    exact mc_fold_lookup_preserved d.heap.length ct d.store _ k hb
  · rw [if_neg hfl]
    exact mc_fold_lookup_preserved d.heap.length ct d.store _ k hb

/-- Terminal cells are never touched by the fill loop with terminal
completion on. -/
theorem mc_fold_getD_terminal (sinkId : Nat) (l : List Nat) :
    ∀ (st : List MtBddNode × List (Nat × Nat) × Bool) (x : Nat),
    (st.1.getD x default).is_terminal = true →
    (l.foldl (mcStep sinkId true) st).1.getD x default =
      st.1.getD x default := by
  induction l with
  | nil => intro st x _; rfl
  | cons j rest ih =>
      intro st x h
      rw [List.foldl_cons]
      have hstep : (mcStep sinkId true st j).1.getD x default =
          st.1.getD x default := by
        by_cases hjx : j = x
        · subst hjx
          simp only [mcStep]
          rw [if_pos (show True ∧
            (st.1.getD j default).is_terminal = true from ⟨trivial, h⟩)]
          by_cases h2 : (mapLookup st.2.1 (st.1.getD j default).value).isSome
              = true
          · rw [if_pos h2]
          · rw [if_neg h2]
        · exact mcStep_heap_getD_ne sinkId true st j x hjx
      rw [ih (mcStep sinkId true st j) x (by rw [hstep]; exact h), hstep]

/-- The looped heap of `make_complete`: the sink cell is the appended sink
record, every original cell keeps its record or gets its null children
filled, terminal cells are untouched, and non-terminal store members end
up with both children non-null. -/
theorem mcOut_cells (d : MtRobdd) (sv : Nat)
    (hsv : ∀ x ∈ d.store, x < d.heap.length) :
    (mcOut d sv true).1.getD d.heap.length default =
      ⟨TERMINAL_INDEX, none, none, sv⟩ ∧
    (∀ x, x < d.heap.length →
      (mcOut d sv true).1.getD x default = getNode d x ∨
      (mcOut d sv true).1.getD x default =
        fFill d.heap.length (getNode d x)) ∧
    (∀ x, x < d.heap.length → (getNode d x).is_terminal = true →
      (mcOut d sv true).1.getD x default = getNode d x) ∧
    (∀ x ∈ d.store, (getNode d x).is_terminal = false →
      ((mcOut d sv true).1.getD x default).low ≠ none ∧
      ((mcOut d sv true).1.getD x default).high ≠ none) := by
  refine ⟨?_, ?_, ?_, ?_⟩
  · rw [mc_loop_heap_getD_ne d.heap.length true d.store _ d.heap.length
      (fun i hi => Nat.ne_of_lt (hsv i hi))]
    exact getNode_heap_append_last _ _
  · intro x hx
    have hg : (d.heap ++ [(⟨TERMINAL_INDEX, none, none, sv⟩ : MtBddNode)]).getD
        x default = getNode d x := getD_append_of_lt _ _ _ hx
    rcases mc_fold_getD_or d.heap.length true d.store
      (d.heap ++ [⟨TERMINAL_INDEX, none, none, sv⟩], d.roots, false) x with
      h | h
    · left
      rw [h]
      exact hg
    · right
      rw [h, hg]
  · intro x hx hT
    have hg : (d.heap ++ [(⟨TERMINAL_INDEX, none, none, sv⟩ : MtBddNode)]).getD
        x default = getNode d x := getD_append_of_lt _ _ _ hx
    rw [mc_fold_getD_terminal d.heap.length d.store _ x (by rw [hg]; exact hT)]
    exact hg
  · intro x hxs hxT
    have hg : (d.heap ++ [(⟨TERMINAL_INDEX, none, none, sv⟩ : MtBddNode)]).getD
        x default = getNode d x := getD_append_of_lt _ _ _ (hsv x hxs)
    exact mc_fold_filled d.heap.length d.store _ x hxs (by rw [hg]; exact hxT)

/-- The key totalization fact: after `make_complete` with terminal
completion, descending from a store node yields `some` of the original
evaluation's value, with the sink value substituted for a null-child
miss. -/
theorem make_complete_eval (d : MtRobdd) (sv : Nat) (bits : List Bool)
    (hwf : wfCore d) (hord : Ordered d)
    (hSC : ∀ x ∈ d.store, (getNode d x).is_terminal = false →
      (∀ l, (getNode d x).low = some l → l ∈ d.store) ∧
      (∀ y, (getNode d x).high = some y → y ∈ d.store)) :
    ∀ (m : Nat) (x : Nat), x ∈ d.store →
    ((getNode d x).is_terminal = true ∨
      ((d.num_of_vars : Int) - (getNode d x).var_index ≤ (m : Int))) →
    ∀ f, m < f →
    evalAux (make_complete d sv true) bits f (some x) =
      some ((evalAux d bits f (some x)).getD sv) := by
  have hgM : ∀ y, getNode (make_complete d sv true) y =
      (mcOut d sv true).1.getD y default := by
    intro y
    show (make_complete d sv true).heap.getD y default = _
    rw [(make_complete_state d sv true).1]
  obtain ⟨hsink, hcells, hterm, hfilled⟩ := mcOut_cells d sv hwf.1
  have hTerm : ∀ x, x < d.heap.length → (getNode d x).is_terminal = true →
      ∀ g, evalAux (make_complete d sv true) bits (g + 1) (some x) =
        some ((evalAux d bits (g + 1) (some x)).getD sv) := by
    intro x hxl hT g
    have hMx : getNode (make_complete d sv true) x = getNode d x := by
      rw [hgM x]
      exact hterm x hxl hT
    rw [evalAux_succ, evalAux_succ, hMx, if_pos hT, if_pos hT]
    rfl
  intro m
  induction m with
  | zero =>
      intro x hxs hcase f hf
      have hxl : x < d.heap.length := hwf.1 x hxs
      have hT : (getNode d x).is_terminal = true := by
        rcases hcase with h | h
        · exact h
        · rcases hord x hxl with h2 | ⟨h0, hV, -, -⟩
          · exact h2
          · exfalso
            simp only [Nat.cast_zero] at h
            omega
      obtain ⟨g, rfl⟩ : ∃ g, f = g + 1 := by
        cases f
        · omega
        · exact ⟨_, rfl⟩
      exact hTerm x hxl hT g
  | succ m ih =>
      intro x hxs hcase f hf
      have hxl : x < d.heap.length := hwf.1 x hxs
      by_cases hT : (getNode d x).is_terminal = true
      · obtain ⟨g, rfl⟩ : ∃ g, f = g + 1 := by
          cases f
          · omega
          · exact ⟨_, rfl⟩
        exact hTerm x hxl hT g
      · have hTf : (getNode d x).is_terminal = false :=
          is_terminal_false_of_not _ hT
        rcases hord x hxl with hT2 | ⟨h0, hV, hlo, hhi⟩
        · exact absurd hT2 hT
        have hbound : (d.num_of_vars : Int) - (getNode d x).var_index ≤
            ((m + 1 : Nat) : Int) := by
          rcases hcase with h | h
          · exact absurd h hT
          · exact h
        obtain ⟨g, rfl⟩ : ∃ g, f = g + 1 := by
          cases f
          · omega
          · exact ⟨_, rfl⟩
        have hg1 : m < g := by omega
        have hMT : (getNode (make_complete d sv true) x).is_terminal = false := by
          rw [hgM x]
          rcases hcells x hxl with h | h
          · rw [h]
            exact hTf
          · rw [h, fFill_is_terminal]
            exact hTf
        have hMvar : (getNode (make_complete d sv true) x).var_index =
            (getNode d x).var_index := by
          rw [hgM x]
          rcases hcells x hxl with h | h
          · rw [h]
          · rw [h, fFill_var]
        rw [evalAux_succ, evalAux_succ,
          if_neg (fun hc => absurd (hMT.symm.trans hc) (by decide)),
          if_neg hT, hMvar]
        by_cases hb : bits.getD (getNode d x).var_index.toNat false = true
        · rw [if_pos hb, if_pos hb]
          cases hbc : (getNode d x).high with
          | some c =>
              have hMc : (getNode (make_complete d sv true) x).high = some c := by
                rw [hgM x]
                rcases hcells x hxl with h | h
                · rw [h]
                  exact hbc
                · rw [h]
                  show (if (getNode d x).high = none then some d.heap.length
                    else (getNode d x).high) = some c
                  rw [hbc]
                  rw [if_neg (fun hq => Option.noConfusion hq)]
              rw [hMc]
              have hcS : c ∈ d.store := (hSC x hxs hTf).2 c hbc
              refine ih c hcS ?_ g hg1
              obtain ⟨-, hcc⟩ := hhi c hbc
              rcases hcc with h | h
              · exact Or.inl h
              · right
                push_cast at hbound ⊢
                omega
          | none =>
              have hMc : (getNode (make_complete d sv true) x).high =
                  some d.heap.length := by
                rw [hgM x]
                rcases hcells x hxl with h | h
                · exfalso
                  have h2 := (hfilled x hxs hTf).2
                  rw [h, hbc] at h2
                  exact h2 rfl
                · rw [h]
                  show (if (getNode d x).high = none then some d.heap.length
                    else (getNode d x).high) = some d.heap.length
                  rw [if_pos hbc]
              rw [hMc, evalAux_none]
              obtain ⟨g2, rfl⟩ : ∃ g2, g = g2 + 1 := by
                cases g
                · omega
                · exact ⟨_, rfl⟩
              have hsinkM : getNode (make_complete d sv true) d.heap.length =
                  ⟨TERMINAL_INDEX, none, none, sv⟩ := by
                rw [hgM]
                exact hsink
              rw [evalAux_succ, hsinkM, if_pos (by rfl)]
              rfl
        · rw [if_neg hb, if_neg hb]
          cases hbc : (getNode d x).low with
          | some c =>
              have hMc : (getNode (make_complete d sv true) x).low = some c := by
                rw [hgM x]
                rcases hcells x hxl with h | h
                · rw [h]
                  exact hbc
                · rw [h]
                  show (if (getNode d x).low = none then some d.heap.length
                    else (getNode d x).low) = some c
                  rw [hbc]
                  rw [if_neg (fun hq => Option.noConfusion hq)]
              rw [hMc]
              have hcS : c ∈ d.store := (hSC x hxs hTf).1 c hbc
              refine ih c hcS ?_ g hg1
              obtain ⟨-, hcc⟩ := hlo c hbc
              rcases hcc with h | h
              · exact Or.inl h
              · right
                push_cast at hbound ⊢
                omega
          | none =>
              have hMc : (getNode (make_complete d sv true) x).low =
                  some d.heap.length := by
                rw [hgM x]
                rcases hcells x hxl with h | h
                · exfalso
                  have h2 := (hfilled x hxs hTf).1
                  rw [h, hbc] at h2
                  exact h2 rfl
                · rw [h]
                  show (if (getNode d x).low = none then some d.heap.length
                    else (getNode d x).low) = some d.heap.length
                  rw [if_pos hbc]
              rw [hMc, evalAux_none]
              obtain ⟨g2, rfl⟩ : ∃ g2, g = g2 + 1 := by
                cases g
                · omega
                · exact ⟨_, rfl⟩
              have hsinkM : getNode (make_complete d sv true) d.heap.length =
                  ⟨TERMINAL_INDEX, none, none, sv⟩ := by
                rw [hgM]
                exact hsink
              rw [evalAux_succ, hsinkM, if_pos (by rfl)]
              rfl

/-- Extending the arena preserves cell well-shapedness when every new cell
is itself well-shaped. -/
theorem CellsOk_ext (d d' : MtRobdd) (t : List MtBddNode)
    (ht : d'.heap = d.heap ++ t) (hv : d'.num_of_vars = d.num_of_vars)
    (hC : CellsOk d)
    (hnew : ∀ j, d.heap.length ≤ j → j < d'.heap.length →
      ((getNode d' j).is_terminal = true ∧ (getNode d' j).low = none ∧
        (getNode d' j).high = none) ∨
      (0 ≤ (getNode d' j).var_index ∧
       (getNode d' j).var_index < (d'.num_of_vars : Int))) : CellsOk d' := by
  intro j hj
  by_cases hold : j < d.heap.length
  · rw [getNode_ext ht hold, hv]
    exact hC j hold
  · exact hnew j (by omega) hj

/-- The recursive rewrite of `remove_redundant_tests` keeps every cell
well-shaped: the only records it creates are inner records testing the
source node's variable. -/
theorem rrtRec_cellsOk (fuel : Nat) :
    ∀ (node : Option Nat) (d : MtRobdd) (nn : List Nat),
    wfCore d → Ordered d → CellsOk d →
    (∀ x ∈ nn, x < d.heap.length) →
    (∀ a ∈ nn, ∀ b ∈ nn, getNode d a = getNode d b → a = b) →
    (∀ s, node = some s → s < d.heap.length) →
    CellsOk (rrtRec fuel node d nn).2.1 := by
  induction fuel with
  | zero =>
      intro node d nn hwf hord hC hnv hnu hnode
      cases node with
      | none =>
          rw [show rrtRec 0 none d nn = (none, d, nn) from rfl]
          exact hC
      | some i =>
          rw [show rrtRec 0 (some i) d nn = (some i, d, nn) from rfl]
          exact hC
  | succ fuel ih =>
      intro node d nn hwf hord hC hnv hnu hnode
      cases node with
      | none =>
          rw [show rrtRec (fuel + 1) none d nn = (none, d, nn) from rfl]
          exact hC
      | some i =>
          have hi : i < d.heap.length := hnode i rfl
          rw [rrtRec_succ_some_unfold fuel i d nn]
          by_cases hT : (getNode d i).is_terminal = true
          · rw [if_pos hT]
            exact hC
          · rw [if_neg hT]
            rcases hord i hi with hT2 | ⟨h0i, hVi, hloi, hhii⟩
            · exact absurd hT2 hT
            have hCL : CellsOk (rrtPl fuel i d nn).2.1 :=
              ih (getNode d i).low d nn hwf hord hC hnv hnu
                (fun s hs => (hloi s hs).1)
            obtain ⟨hordL, hnumL, -, -, -⟩ :
                Ordered (rrtPl fuel i d nn).2.1 ∧
                (rrtPl fuel i d nn).2.1.num_of_vars = d.num_of_vars ∧
                ((rrtPl fuel i d nn).1 = none ↔ (getNode d i).low = none) ∧
                (∀ s r, (getNode d i).low = some s →
                  (rrtPl fuel i d nn).1 = some r →
                  (getNode (rrtPl fuel i d nn).2.1 r).is_terminal = true ∨
                  ((getNode d s).is_terminal = false ∧
                   (getNode (rrtPl fuel i d nn).2.1 r).is_terminal = false ∧
                   (getNode d s).var_index ≤
                     (getNode (rrtPl fuel i d nn).2.1 r).var_index ∧
                   (getNode (rrtPl fuel i d nn).2.1 r).var_index <
                     (d.num_of_vars : Int))) ∧
                (∀ bits s, (getNode d i).low = some s →
                  evalAux (rrtPl fuel i d nn).2.1 bits (d.num_of_vars + 1)
                    (rrtPl fuel i d nn).1 =
                  evalAux d bits (d.num_of_vars + 1) (some s)) :=
              rrtRec_eval fuel (getNode d i).low d nn hwf hord hnv hnu
                (fun s hs => (hloi s hs).1)
            obtain ⟨hwfL, ⟨t1, he1⟩, -, hnvL, hnuL, hresL⟩ :
                wfCore (rrtPl fuel i d nn).2.1 ∧
                (∃ t, (rrtPl fuel i d nn).2.1.heap = d.heap ++ t) ∧
                (∃ t, (rrtPl fuel i d nn).2.2 = nn ++ t) ∧
                (∀ x ∈ (rrtPl fuel i d nn).2.2,
                  x < (rrtPl fuel i d nn).2.1.heap.length) ∧
                (∀ a ∈ (rrtPl fuel i d nn).2.2, ∀ b ∈ (rrtPl fuel i d nn).2.2,
                  getNode (rrtPl fuel i d nn).2.1 a =
                    getNode (rrtPl fuel i d nn).2.1 b → a = b) ∧
                (∀ r, (rrtPl fuel i d nn).1 = some r →
                  r < (rrtPl fuel i d nn).2.1.heap.length) :=
              rrtRec_wf fuel (getNode d i).low d nn hwf hnv hnu
                (fun s hs => (hloi s hs).1)
            have hnodeH : ∀ s, (getNode d i).high = some s →
                s < (rrtPl fuel i d nn).2.1.heap.length := by
              intro s hs
              have := (hhii s hs).1
              rw [he1]
              simp only [List.length_append]
              omega
            have hCH : CellsOk (rrtPh fuel i d nn).2.1 :=
              ih (getNode d i).high (rrtPl fuel i d nn).2.1
                (rrtPl fuel i d nn).2.2 hwfL hordL hCL hnvL hnuL hnodeH
            obtain ⟨-, hnumH2, -, -, -⟩ :
                Ordered (rrtPh fuel i d nn).2.1 ∧
                (rrtPh fuel i d nn).2.1.num_of_vars =
                  (rrtPl fuel i d nn).2.1.num_of_vars ∧
                ((rrtPh fuel i d nn).1 = none ↔ (getNode d i).high = none) ∧
                (∀ s r, (getNode d i).high = some s →
                  (rrtPh fuel i d nn).1 = some r →
                  (getNode (rrtPh fuel i d nn).2.1 r).is_terminal = true ∨
                  ((getNode (rrtPl fuel i d nn).2.1 s).is_terminal = false ∧
                   (getNode (rrtPh fuel i d nn).2.1 r).is_terminal = false ∧
                   (getNode (rrtPl fuel i d nn).2.1 s).var_index ≤
                     (getNode (rrtPh fuel i d nn).2.1 r).var_index ∧
                   (getNode (rrtPh fuel i d nn).2.1 r).var_index <
                     ((rrtPl fuel i d nn).2.1.num_of_vars : Int))) ∧
                (∀ bits s, (getNode d i).high = some s →
                  evalAux (rrtPh fuel i d nn).2.1 bits
                    ((rrtPl fuel i d nn).2.1.num_of_vars + 1)
                    (rrtPh fuel i d nn).1 =
                  evalAux (rrtPl fuel i d nn).2.1 bits
                    ((rrtPl fuel i d nn).2.1.num_of_vars + 1) (some s)) :=
              rrtRec_eval fuel (getNode d i).high (rrtPl fuel i d nn).2.1
                (rrtPl fuel i d nn).2.2 hwfL hordL hnvL hnuL hnodeH
            by_cases hcoll : (rrtPl fuel i d nn).1 ≠ none ∧
                (rrtPl fuel i d nn).1 = (rrtPh fuel i d nn).1
            · rw [if_pos hcoll]
              exact hCH
            · rw [if_neg hcoll]
              have hCS := create_node_spec (rrtPh fuel i d nn).2.1
                (getNode d i).var_index (rrtPl fuel i d nn).1
                (rrtPh fuel i d nn).1 (getNode d i).value
              obtain ⟨t3, he3⟩ : ∃ t, (rrtPc fuel i d nn).2.heap =
                  (rrtPh fuel i d nn).2.1.heap ++ t := hCS.2.2.1
              refine CellsOk_ext (rrtPh fuel i d nn).2.1 (rrtPc fuel i d nn).2
                t3 he3 hCS.2.1 hCH ?_
              intro z hz1 hz2
              cases hf : findEquiv (rrtPh fuel i d nn).2.1
                  ⟨(getNode d i).var_index, (rrtPl fuel i d nn).1,
                   (rrtPh fuel i d nn).1, (getNode d i).value⟩ with
              | some w =>
                  exfalso
                  have hpc2 : (rrtPc fuel i d nn).2 =
                      (rrtPh fuel i d nn).2.1 := by
                    show (create_node (rrtPh fuel i d nn).2.1
                      (getNode d i).var_index (rrtPl fuel i d nn).1
                      (rrtPh fuel i d nn).1 (getNode d i).value).2 = _
                    simp [create_node, hf]
                  rw [hpc2] at hz2
                  omega
              | none =>
                  have hpc2 : (rrtPc fuel i d nn).2.heap =
                      (rrtPh fuel i d nn).2.1.heap ++
                      [⟨(getNode d i).var_index, (rrtPl fuel i d nn).1,
                        (rrtPh fuel i d nn).1, (getNode d i).value⟩] := by
                    show (create_node (rrtPh fuel i d nn).2.1
                      (getNode d i).var_index (rrtPl fuel i d nn).1
                      (rrtPh fuel i d nn).1 (getNode d i).value).2.heap = _
                    simp [create_node, hf]
                  have hz : z = (rrtPh fuel i d nn).2.1.heap.length := by
                    rw [hpc2] at hz2
                    simp only [List.length_append, List.length_singleton] at hz2
                    omega
                  subst hz
                  have hgz : getNode (rrtPc fuel i d nn).2
                      (rrtPh fuel i d nn).2.1.heap.length =
                      ⟨(getNode d i).var_index, (rrtPl fuel i d nn).1,
                       (rrtPh fuel i d nn).1, (getNode d i).value⟩ := by
                    show (rrtPc fuel i d nn).2.heap.getD _ default = _
                    rw [hpc2]
                    exact getNode_heap_append_last _ _
                  right
                  have hnumpc : (rrtPc fuel i d nn).2.num_of_vars =
                      (rrtPh fuel i d nn).2.1.num_of_vars := hCS.2.1
                  rw [hgz, hnumpc, hnumH2, hnumL]
                  exact ⟨h0i, hVi⟩

/-- `remove_redundant_tests` keeps every cell of a singly-rooted manager
well-shaped. -/
theorem rrt_single_root_cellsOk (d : MtRobdd) (r rt : Nat)
    (hroots : d.roots = [(r, rt)]) (hwf : wfCore d) (hord : Ordered d)
    (hC : CellsOk d) (hrt : rt < d.heap.length) :
    CellsOk (remove_redundant_tests d) := by
  have hout : remove_redundant_tests d =
      { (rrtRec (d.num_of_vars + 1) (some rt) d []).2.1 with
        store := (rrtRec (d.num_of_vars + 1) (some rt) d []).2.2,
        roots := [(r, (rrtRec (d.num_of_vars + 1) (some rt) d []).1.getD rt)] }
      := by
    show ({ (d.roots.foldl (rrtStep (d.num_of_vars + 1)) (d, [], [])).1 with
      store := (d.roots.foldl (rrtStep (d.num_of_vars + 1)) (d, [], [])).2.1,
      roots := (d.roots.foldl (rrtStep (d.num_of_vars + 1))
        (d, [], [])).2.2 } : MtRobdd) = _
    rw [hroots]
    rfl
  rw [hout]
  have hCQ : CellsOk (rrtRec (d.num_of_vars + 1) (some rt) d []).2.1 :=
    rrtRec_cellsOk (d.num_of_vars + 1) (some rt) d [] hwf hord hC
      (fun x hx => absurd hx (List.not_mem_nil x))
      (fun a ha => absurd ha (List.not_mem_nil a))
      (fun s hs => by
        have h1 : rt = s := by injection hs
        rw [← h1]
        exact hrt)
  exact hCQ

/-- After `make_complete` (terminal completion on), every node reachable
from a store node is a store node or the freshly allocated sink. -/
theorem make_complete_reach (d : MtRobdd) (sv rt' : Nat)
    (hwf : wfCore d) (hC : CellsOk d)
    (hSC : ∀ x ∈ d.store, (getNode d x).is_terminal = false →
      (∀ l, (getNode d x).low = some l → l ∈ d.store) ∧
      (∀ y, (getNode d x).high = some y → y ∈ d.store))
    (hrtS : rt' ∈ d.store) :
    ∀ j, Reaches (make_complete d sv true) rt' j →
      j ∈ d.store ∨ j = d.heap.length := by
  have hgM : ∀ y, getNode (make_complete d sv true) y =
      (mcOut d sv true).1.getD y default := by
    intro y
    show (make_complete d sv true).heap.getD y default = _
    rw [(make_complete_state d sv true).1]
  obtain ⟨hsink, hcells, hterm, hfilled⟩ := mcOut_cells d sv hwf.1
  intro j hreach
  induction hreach with
  | refl => exact Or.inl hrtS
  | tail hab hbc ihr =>
      rename_i b y
      rcases ihr with hbS | hbL
      · by_cases hT : (getNode d b).is_terminal = true
        · exfalso
          have hbl : b < d.heap.length := hwf.1 b hbS
          have hMb : getNode (make_complete d sv true) b = getNode d b := by
            rw [hgM b]
            exact hterm b hbl hT
          rcases hC b hbl with ⟨-, hln, hhn⟩ | ⟨h0, -⟩
          · rcases hbc with h | h
            · rw [hMb, hln] at h
              exact Option.noConfusion h
            · rw [hMb, hhn] at h
              exact Option.noConfusion h
          · have hvt : (getNode d b).var_index = TERMINAL_INDEX := by
              have h2 := hT
              unfold MtBddNode.is_terminal at h2
              exact of_decide_eq_true h2
            unfold TERMINAL_INDEX at hvt
            omega
        · have hTf : (getNode d b).is_terminal = false :=
            is_terminal_false_of_not _ hT
          have hbl : b < d.heap.length := hwf.1 b hbS
          rcases hbc with h | h
          · rw [hgM b] at h
            rcases hcells b hbl with hcell | hcell
            · rw [hcell] at h
              exact Or.inl ((hSC b hbS hTf).1 y h)
            · rw [hcell] at h
              have h2 : (if (getNode d b).low = none then some d.heap.length
                  else (getNode d b).low) = some y := h
              cases hlo : (getNode d b).low with
              | none =>
                  rw [hlo, if_pos rfl] at h2
                  have h3 : d.heap.length = y := by injection h2
                  exact Or.inr h3.symm
              | some c =>
                  rw [hlo, if_neg (fun hq => Option.noConfusion hq)] at h2
                  have h3 : c = y := by injection h2
                  rw [← h3]
                  exact Or.inl ((hSC b hbS hTf).1 c hlo)
          · rw [hgM b] at h
            rcases hcells b hbl with hcell | hcell
            · rw [hcell] at h
              exact Or.inl ((hSC b hbS hTf).2 y h)
            · rw [hcell] at h
              have h2 : (if (getNode d b).high = none then some d.heap.length
                  else (getNode d b).high) = some y := h
              cases hhio : (getNode d b).high with
              | none =>
                  rw [hhio, if_pos rfl] at h2
                  have h3 : d.heap.length = y := by injection h2
                  exact Or.inr h3.symm
              | some c =>
                  rw [hhio, if_neg (fun hq => Option.noConfusion hq)] at h2
                  have h3 : c = y := by injection h2
                  rw [← h3]
                  exact Or.inl ((hSC b hbS hTf).2 c hhio)
      · exfalso
        subst hbL
        have hMb : getNode (make_complete d sv true) d.heap.length =
            ⟨TERMINAL_INDEX, none, none, sv⟩ := by
          rw [hgM]
          exact hsink
        rcases hbc with h | h <;> rw [hMb] at h <;> exact Option.noConfusion h

/-- After `make_complete` (terminal completion on), every node reachable
from a store node satisfies the enumeration invariant: inner nodes test a
variable in range and both children exist and sit strictly deeper. -/
theorem make_complete_enumOk (d : MtRobdd) (sv rt' : Nat)
    (hwf : wfCore d) (hord : Ordered d) (hC : CellsOk d)
    (hSC : ∀ x ∈ d.store, (getNode d x).is_terminal = false →
      (∀ l, (getNode d x).low = some l → l ∈ d.store) ∧
      (∀ y, (getNode d x).high = some y → y ∈ d.store))
    (hrtS : rt' ∈ d.store) :
    ∀ j, Reaches (make_complete d sv true) rt' j →
      enumOk (make_complete d sv true) j := by
  have hgM : ∀ y, getNode (make_complete d sv true) y =
      (mcOut d sv true).1.getD y default := by
    intro y
    show (make_complete d sv true).heap.getD y default = _
    rw [(make_complete_state d sv true).1]
  obtain ⟨hsink, hcells, hterm, hfilled⟩ := mcOut_cells d sv hwf.1
  have hnum : (make_complete d sv true).num_of_vars = d.num_of_vars :=
    (make_complete_state d sv true).2.1
  intro j hreach
  intro hjT
  rcases make_complete_reach d sv rt' hwf hC hSC hrtS j hreach with hjS | hjL
  · have hjl : j < d.heap.length := hwf.1 j hjS
    by_cases hT : (getNode d j).is_terminal = true
    · exfalso
      have hMj : getNode (make_complete d sv true) j = getNode d j := by
        rw [hgM j]
        exact hterm j hjl hT
      rw [hMj] at hjT
      exact absurd (hT.symm.trans hjT) (by decide)
    · have hTf : (getNode d j).is_terminal = false :=
        is_terminal_false_of_not _ hT
      rcases hord j hjl with hT2 | ⟨h0, hV, hlo, hhi⟩
      · exact absurd hT2 hT
      have hMvar : (getNode (make_complete d sv true) j).var_index =
          (getNode d j).var_index := by
        rw [hgM j]
        rcases hcells j hjl with h | h
        · rw [h]
        · rw [h, fFill_var]
      refine ⟨⟨by rw [hMvar]; exact h0, by rw [hMvar, hnum]; exact hV⟩, ?_, ?_⟩
      · cases hlo2 : (getNode d j).low with
        | some c =>
            have hMc : (getNode (make_complete d sv true) j).low = some c := by
              rw [hgM j]
              rcases hcells j hjl with h | h
              · rw [h]
                exact hlo2
              · rw [h]
                show (if (getNode d j).low = none then some d.heap.length
                  else (getNode d j).low) = some c
                rw [hlo2, if_neg (fun hq => Option.noConfusion hq)]
            obtain ⟨hcl, hcc⟩ := hlo c hlo2
            refine ⟨c, hMc, ?_⟩
            rcases hcc with h | h
            · left
              rw [hgM c]
              rw [hterm c hcl h]
              exact h
            · right
              have hMcv : (getNode (make_complete d sv true) c).var_index =
                  (getNode d c).var_index := by
                rw [hgM c]
                rcases hcells c hcl with h2 | h2
                · rw [h2]
                · rw [h2, fFill_var]
              rw [hMvar, hMcv]
              exact h
        | none =>
            have hMc : (getNode (make_complete d sv true) j).low =
                some d.heap.length := by
              rw [hgM j]
              rcases hcells j hjl with h | h
              · exfalso
                have h2 := (hfilled j hjS hTf).1
                rw [h, hlo2] at h2
                exact h2 rfl
              · rw [h]
                show (if (getNode d j).low = none then some d.heap.length
                  else (getNode d j).low) = some d.heap.length
                rw [if_pos hlo2]
            refine ⟨d.heap.length, hMc, Or.inl ?_⟩
            rw [hgM, hsink]
            rfl
      · cases hhio : (getNode d j).high with
        | some c =>
            have hMc : (getNode (make_complete d sv true) j).high = some c := by
              rw [hgM j]
              rcases hcells j hjl with h | h
              · rw [h]
                exact hhio
              · rw [h]
                show (if (getNode d j).high = none then some d.heap.length
                  else (getNode d j).high) = some c
                rw [hhio, if_neg (fun hq => Option.noConfusion hq)]
            obtain ⟨hcl, hcc⟩ := hhi c hhio
            refine ⟨c, hMc, ?_⟩
            rcases hcc with h | h
            · left
              rw [hgM c]
              rw [hterm c hcl h]
              exact h
            · right
              have hMcv : (getNode (make_complete d sv true) c).var_index =
                  (getNode d c).var_index := by
                rw [hgM c]
                rcases hcells c hcl with h2 | h2
                · rw [h2]
                · rw [h2, fFill_var]
              rw [hMvar, hMcv]
              exact h
        | none =>
            have hMc : (getNode (make_complete d sv true) j).high =
                some d.heap.length := by
              rw [hgM j]
              rcases hcells j hjl with h | h
              · exfalso
                have h2 := (hfilled j hjS hTf).2
                rw [h, hhio] at h2
                exact h2 rfl
              · rw [h]
                show (if (getNode d j).high = none then some d.heap.length
                  else (getNode d j).high) = some d.heap.length
                rw [if_pos hhio]
            refine ⟨d.heap.length, hMc, Or.inl ?_⟩
            rw [hgM, hsink]
            rfl
  · exfalso
    subst hjL
    have hMj : getNode (make_complete d sv true) d.heap.length =
        ⟨TERMINAL_INDEX, none, none, sv⟩ := by
      rw [hgM]
      exact hsink
    rw [hMj] at hjT
    have hst : (⟨TERMINAL_INDEX, none, none, sv⟩ : MtBddNode).is_terminal
        = true := rfl
    exact absurd (hst.symm.trans hjT) (by decide)

/-- Specification of `get_all_bit_strings_from_root_node` on a diagram
whose reachable nodes satisfy the enumeration invariant: emitted strings
have full length, emitted pairs evaluate, and every evaluating full-length
assignment is emitted. -/
theorem get_all_bit_strings_spec (d : MtRobdd) (root : Nat)
    (hok : ∀ j, Reaches d root j → enumOk d j) :
    (∀ q ∈ get_all_bit_strings_from_root_node d root,
      q.1.length = d.num_of_vars) ∧
    (∀ q ∈ get_all_bit_strings_from_root_node d root,
      evalFrom d root q.1 = some q.2) ∧
    (∀ bits v, bits.length = d.num_of_vars →
      evalFrom d root bits = some v →
      (bits, v) ∈ get_all_bit_strings_from_root_node d root) := by
  have hftl : get_transition_length d.num_of_vars 0 (getNode d root).var_index =
      (if (getNode d root).is_terminal = true then d.num_of_vars
        else (getNode d root).var_index.toNat) := by
    unfold get_transition_length
    by_cases hT : (getNode d root).is_terminal = true
    · have hct : (getNode d root).var_index = TERMINAL_INDEX := by
        have h2 := hT
        unfold MtBddNode.is_terminal at h2
        exact of_decide_eq_true h2
      rw [if_pos hct, if_pos hT]
      omega
    · have hT' : (getNode d root).is_terminal = false := by
        cases hq : (getNode d root).is_terminal
        · rfl
        · exact absurd hq hT
      obtain ⟨⟨h0, hV⟩, _, _⟩ := hok root Relation.ReflTransGen.refl hT'
      have hct : ¬ (getNode d root).var_index = TERMINAL_INDEX := by
        intro hq
        rw [hq] at h0
        unfold TERMINAL_INDEX at h0
        omega
      rw [if_neg hct, if_neg hT]
      omega
  have hftlV : get_transition_length d.num_of_vars 0
      (getNode d root).var_index ≤ d.num_of_vars := by
    rw [hftl]
    by_cases hT : (getNode d root).is_terminal = true
    · rw [if_pos hT]
    · rw [if_neg hT]
      have hT' : (getNode d root).is_terminal = false := by
        cases hq : (getNode d root).is_terminal
        · rfl
        · exact absurd hq hT
      obtain ⟨⟨h0, hV⟩, _, _⟩ := hok root Relation.ReflTransGen.refl hT'
      omega
  refine ⟨?_, ?_, ?_⟩
  · intro q hq
    obtain ⟨p, hp, hq2⟩ := List.mem_flatMap.mp hq
    obtain ⟨s, hps, hslen⟩ := expandDontCares_mem_shape _ _ _ hp
    have hpre : p.length = (if (getNode d root).is_terminal = true
        then d.num_of_vars else (getNode d root).var_index.toNat) := by
      rw [hps, ← hftl]
      simp [hslen]
    exact (enumAux_sound d (d.num_of_vars + 1) root p hok hpre q hq2).1
  · intro q hq
    obtain ⟨p, hp, hq2⟩ := List.mem_flatMap.mp hq
    obtain ⟨s, hps, hslen⟩ := expandDontCares_mem_shape _ _ _ hp
    have hpre : p.length = (if (getNode d root).is_terminal = true
        then d.num_of_vars else (getNode d root).var_index.toNat) := by
      rw [hps, ← hftl]
      simp [hslen]
    exact (enumAux_sound d (d.num_of_vars + 1) root p hok hpre q hq2).2.2
  · intro bits v hbits hev
    refine List.mem_flatMap.mpr ⟨bits.take (get_transition_length
      d.num_of_vars 0 (getNode d root).var_index), ?_, ?_⟩
    · have h2 : bits.take (get_transition_length d.num_of_vars 0
          (getNode d root).var_index) = [] ++ bits.take
          (get_transition_length d.num_of_vars 0
            (getNode d root).var_index) := by simp
      rw [h2]
      refine expandDontCares_shape_mem _ _ _ ?_
      rw [List.length_take]
      omega
    · refine enumAux_complete d (d.num_of_vars + 1) root _ bits v hok ?_ hbits
        ⟨bits.drop (get_transition_length d.num_of_vars 0
          (getNode d root).var_index), by simp⟩ hev
      rw [List.length_take, ← hftl]
      omega

theorem option_or_none (o : Option Nat) : o.or none = o := by
  cases o <;> rfl

/-- The canonicalization pipeline of the round-trip law: a fresh manager,
the insertions under root name `r`, then `trim`, `remove_redundant_tests`
and `make_complete` with the default sink value and terminal completion. -/
def canonical_pipeline (V r : Nat) (ins : List (List Bool × Nat)) : MtRobdd :=
  make_complete (remove_redundant_tests (trim (insertList (MtRobdd.mk0 V) r ins)))
    SINK_VALUE true

/-- C1: for a positive variable count, a nonempty insertion run under a
root name other than the sink value, with bit strings of full length,
running the canonicalization pipeline leaves the name bound to a node
whose evaluation on every full-length bit string is the last inserted
value for that string and the sink value for strings never inserted, and
whose path enumeration emits exactly those full-length pairs. -/
theorem pipeline_round_trip (V r : Nat) (ins : List (List Bool × Nat))
    (hV : 0 < V) (hne : ins ≠ [])
    (hlen : ∀ p ∈ ins, p.1.length = V)
    (hvals : ∀ p ∈ ins, p.2 ≠ SINK_VALUE ∧ p.2 ≠ MAX_NODE_VALUE)
    (hr : r ≠ SINK_VALUE) :
    ∃ rt, get_root_node (canonical_pipeline V r ins) r = some rt ∧
      (∀ bits, bits.length = V →
        evalFrom (canonical_pipeline V r ins) rt bits =
          some ((evalSpec ins bits).getD SINK_VALUE)) ∧
      (∀ bits v,
        (bits, v) ∈ get_all_bit_strings_from_root_node
          (canonical_pipeline V r ins) rt →
        bits.length = V ∧
        evalFrom (canonical_pipeline V r ins) rt bits = some v) ∧
      (∀ bits, bits.length = V →
        (bits, (evalSpec ins bits).getD SINK_VALUE) ∈
          get_all_bit_strings_from_root_node (canonical_pipeline V r ins) rt)
    := by
  unfold canonical_pipeline
  obtain ⟨p0, rest, rfl⟩ : ∃ p0 rest, ins = p0 :: rest := by
    cases ins with
    | nil => exact absurd rfl hne
    | cons p0 rest => exact ⟨p0, rest, rfl⟩
  -- the fresh manager
  have hd0wf : wfCore (MtRobdd.mk0 V) :=
    ⟨fun i hi => absurd hi (List.not_mem_nil i),
     fun n hn => absurd hn (List.not_mem_nil n),
     fun i hi => absurd hi (List.not_mem_nil i)⟩
  have hd0L : Leveled (MtRobdd.mk0 V) :=
    fun j k hj _ _ => absurd hj (Nat.not_lt_zero j)
  have hd0C : CellsOk (MtRobdd.mk0 V) :=
    fun j hj => absurd hj (Nat.not_lt_zero j)
  have hd0S : ∀ j, j < (MtRobdd.mk0 V).heap.length →
      j ∈ (MtRobdd.mk0 V).store :=
    fun j hj => absurd hj (Nat.not_lt_zero j)
  have hd0roots : ∀ p ∈ (MtRobdd.mk0 V).roots,
      p.2 < (MtRobdd.mk0 V).heap.length ∧ AtLevel (MtRobdd.mk0 V) p.2 0 :=
    fun p hp => absurd hp (List.not_mem_nil p)
  -- the inserted manager
  obtain ⟨hwfI, hLI, hnumI, hrootsI, hevI⟩ :=
    insertList_eval (p0 :: rest) (MtRobdd.mk0 V) r hd0wf hd0L hd0roots
      (fun p hp => hlen p hp)
  obtain ⟨hCI, hSI⟩ := insertList_shape (p0 :: rest) (MtRobdd.mk0 V) r hd0C hd0S
  have hOrdI : Ordered (insertList (MtRobdd.mk0 V) r (p0 :: rest)) :=
    Leveled_CellsOk_Ordered _ hLI hCI
  -- the root binding after the insertions
  have h1roots : (insert_bit_string_from_root (MtRobdd.mk0 V) r p0.1 p0.2).2.roots
      = [(r, (insert_bit_string_from_root (MtRobdd.mk0 V) r p0.1 p0.2).1)] := by
    rw [insert_from_root_roots]
    rfl
  obtain ⟨rt, hrts⟩ := insertList_roots rest
    (insert_bit_string_from_root (MtRobdd.mk0 V) r p0.1 p0.2).2 r
    (insert_bit_string_from_root (MtRobdd.mk0 V) r p0.1 p0.2).1 h1roots
  have hrtsI : (insertList (MtRobdd.mk0 V) r (p0 :: rest)).roots = [(r, rt)] :=
    hrts
  -- the trimmed manager
  obtain ⟨hwfT, hSCT, hrootsT⟩ := trim_shape
    (insertList (MtRobdd.mk0 V) r (p0 :: rest)) hwfI
    (fun p hp => (hrootsI p hp).1) hSI
  have hrtT : rt ∈ (trim (insertList (MtRobdd.mk0 V) r (p0 :: rest))).store :=
    hrootsT (r, rt) (by rw [hrtsI]; exact List.mem_singleton_self _)
  have hordT : Ordered (trim (insertList (MtRobdd.mk0 V) r (p0 :: rest))) :=
    hOrdI
  have hCT : CellsOk (trim (insertList (MtRobdd.mk0 V) r (p0 :: rest))) := hCI
  have hrootsTeq : (trim (insertList (MtRobdd.mk0 V) r (p0 :: rest))).roots =
      [(r, rt)] := hrtsI
  have hnumT : (trim (insertList (MtRobdd.mk0 V) r (p0 :: rest))).num_of_vars
      = V := hnumI
  -- the reduced manager
  obtain ⟨hwfR, hordR, hnumR, ⟨rt', hrootsR, hrtR, hevR⟩, hSCR⟩ :=
    rrt_single_root (trim (insertList (MtRobdd.mk0 V) r (p0 :: rest))) r rt
      hrootsTeq hwfT hordT (fun x hx _ => hSCT x hx) hrtT
  have hCR : CellsOk (remove_redundant_tests
      (trim (insertList (MtRobdd.mk0 V) r (p0 :: rest)))) :=
    rrt_single_root_cellsOk _ r rt hrootsTeq hwfT hordT hCT (hwfT.1 rt hrtT)
  have hnumR2 : (remove_redundant_tests
      (trim (insertList (MtRobdd.mk0 V) r (p0 :: rest)))).num_of_vars = V :=
    hnumR.trans hnumT
  -- the completed manager
  have hnumM : (make_complete (remove_redundant_tests
      (trim (insertList (MtRobdd.mk0 V) r (p0 :: rest)))) SINK_VALUE
      true).num_of_vars = V :=
    ((make_complete_state _ SINK_VALUE true).2.1).trans hnumR2
  have hbR : mapLookup (remove_redundant_tests
      (trim (insertList (MtRobdd.mk0 V) r (p0 :: rest)))).roots r = some rt' := by
    rw [hrootsR]
    simp [mapLookup]
  have hbM : get_root_node (make_complete (remove_redundant_tests
      (trim (insertList (MtRobdd.mk0 V) r (p0 :: rest)))) SINK_VALUE true) r =
      some rt' := by
    show mapLookup (make_complete (remove_redundant_tests
      (trim (insertList (MtRobdd.mk0 V) r (p0 :: rest)))) SINK_VALUE
      true).roots r = some rt'
    rw [make_complete_root_binding _ SINK_VALUE true r hr
      (by rw [hbR]; rfl)]
    exact hbR
  -- evaluation facts, restated at fuel `V + 1`
  have hevI' : ∀ bits, bits.length = V →
      evalAux (insertList (MtRobdd.mk0 V) r (p0 :: rest)) bits (V + 1)
        (get_root_node (insertList (MtRobdd.mk0 V) r (p0 :: rest)) r) =
      (evalSpec (p0 :: rest) bits).or
        (evalAux (MtRobdd.mk0 V) bits (V + 1)
          (get_root_node (MtRobdd.mk0 V) r)) := hevI
  have hevR' : ∀ bits,
      evalAux (remove_redundant_tests
        (trim (insertList (MtRobdd.mk0 V) r (p0 :: rest)))) bits (V + 1)
        (some rt') =
      evalAux (trim (insertList (MtRobdd.mk0 V) r (p0 :: rest))) bits (V + 1)
        (some rt) := by
    intro bits
    have h2 := hevR bits
    rw [hnumT] at h2
    exact h2
  have hgI : get_root_node (insertList (MtRobdd.mk0 V) r (p0 :: rest)) r =
      some rt := by
    show mapLookup (insertList (MtRobdd.mk0 V) r (p0 :: rest)).roots r = some rt
    rw [hrtsI]
    simp [mapLookup]
  have hchain : ∀ bits, bits.length = V →
      evalAux (remove_redundant_tests
        (trim (insertList (MtRobdd.mk0 V) r (p0 :: rest)))) bits (V + 1)
        (some rt') = evalSpec (p0 :: rest) bits := by
    intro bits hb
    rw [hevR' bits]
    rw [show evalAux (trim (insertList (MtRobdd.mk0 V) r (p0 :: rest))) bits
        (V + 1) (some rt) =
        evalAux (insertList (MtRobdd.mk0 V) r (p0 :: rest)) bits (V + 1)
          (some rt) from
      evalAux_heap_only (insertList (MtRobdd.mk0 V) r (p0 :: rest))
        (trim (insertList (MtRobdd.mk0 V) r (p0 :: rest))) rfl bits _ _]
    rw [← hgI, hevI' bits hb]
    rw [show get_root_node (MtRobdd.mk0 V) r = none from rfl, evalAux_none,
      option_or_none]
  have hinv : (getNode (remove_redundant_tests
        (trim (insertList (MtRobdd.mk0 V) r (p0 :: rest)))) rt').is_terminal
        = true ∨
      ((remove_redundant_tests (trim (insertList (MtRobdd.mk0 V) r
        (p0 :: rest)))).num_of_vars : Int) -
        (getNode (remove_redundant_tests
          (trim (insertList (MtRobdd.mk0 V) r (p0 :: rest)))) rt').var_index ≤
        ((V : Nat) : Int) := by
    rcases hordR rt' (hwfR.1 rt' hrtR) with hT | ⟨h0, -, -, -⟩
    · exact Or.inl hT
    · right
      rw [hnumR2]
      omega
  have hEV : ∀ bits, bits.length = V →
      evalFrom (make_complete (remove_redundant_tests
        (trim (insertList (MtRobdd.mk0 V) r (p0 :: rest)))) SINK_VALUE true)
        rt' bits = some ((evalSpec (p0 :: rest) bits).getD SINK_VALUE) := by
    intro bits hb
    show evalAux (make_complete (remove_redundant_tests
      (trim (insertList (MtRobdd.mk0 V) r (p0 :: rest)))) SINK_VALUE true)
      bits ((make_complete (remove_redundant_tests
        (trim (insertList (MtRobdd.mk0 V) r (p0 :: rest)))) SINK_VALUE
        true).num_of_vars + 1) (some rt') = _
    rw [hnumM]
    rw [make_complete_eval (remove_redundant_tests
      (trim (insertList (MtRobdd.mk0 V) r (p0 :: rest)))) SINK_VALUE bits
      hwfR hordR hSCR V rt' hrtR hinv (V + 1) (by omega)]
    rw [hchain bits hb]
  -- the enumeration facts
  have hok := make_complete_enumOk (remove_redundant_tests
    (trim (insertList (MtRobdd.mk0 V) r (p0 :: rest)))) SINK_VALUE rt'
    hwfR hordR hCR hSCR hrtR
  obtain ⟨hglen, hgsound, hgcomp⟩ := get_all_bit_strings_spec
    (make_complete (remove_redundant_tests
      (trim (insertList (MtRobdd.mk0 V) r (p0 :: rest)))) SINK_VALUE true)
    rt' hok
  refine ⟨rt', hbM, hEV, ?_, ?_⟩
  · intro bits v hmem
    have hl := hglen (bits, v) hmem
    rw [hnumM] at hl
    exact ⟨hl, hgsound (bits, v) hmem⟩
  · intro bits hb
    refine hgcomp bits ((evalSpec (p0 :: rest) bits).getD SINK_VALUE) ?_ ?_
    · rw [hnumM]
      exact hb
    · exact hEV bits hb

/-- C1 counterexample for an unrestricted root name: naming the root by the
sink value itself satisfies every hypothesis of the original claim
(`V = 1 > 0`, one inserted pair of full length, value distinct from the
sink and max sentinels), yet `make_complete` rebinds that name to the
freshly materialized sink, so evaluating the inserted bit string from the
bound node yields the sink value instead of the last inserted value. -/
theorem pipeline_root_named_sink_counterexample :
    0 < 1 ∧ ([([false], 5)] : List (List Bool × Nat)) ≠ [] ∧
    (∀ p ∈ ([([false], 5)] : List (List Bool × Nat)), p.1.length = 1) ∧
    (∀ p ∈ ([([false], 5)] : List (List Bool × Nat)),
      p.2 ≠ SINK_VALUE ∧ p.2 ≠ MAX_NODE_VALUE) ∧
    evalSpec [([false], 5)] [false] = some 5 ∧
    get_root_node (canonical_pipeline 1 SINK_VALUE [([false], 5)]) SINK_VALUE
      = some 2 ∧
    evalFrom (canonical_pipeline 1 SINK_VALUE [([false], 5)]) 2 [false] =
      some SINK_VALUE ∧
    SINK_VALUE ≠ 5 := by
  exact ⟨by decide, by decide, by decide, by decide, by decide, by decide,
    by decide, by decide⟩

/-- Witness for `pipeline_round_trip`: one variable, root name `0`, the
single insertion `([H], 7)`. -/
theorem pipeline_round_trip_witness :
    0 < 1 ∧ ([([true], 7)] : List (List Bool × Nat)) ≠ [] ∧
    (∀ p ∈ ([([true], 7)] : List (List Bool × Nat)), p.1.length = 1) ∧
    (∀ p ∈ ([([true], 7)] : List (List Bool × Nat)),
      p.2 ≠ SINK_VALUE ∧ p.2 ≠ MAX_NODE_VALUE) ∧
    (0 : Nat) ≠ SINK_VALUE ∧
    (∃ rt, get_root_node (canonical_pipeline 1 0 [([true], 7)]) 0 = some rt ∧
      (∀ bits, bits.length = 1 →
        evalFrom (canonical_pipeline 1 0 [([true], 7)]) rt bits =
          some ((evalSpec [([true], 7)] bits).getD SINK_VALUE)) ∧
      (∀ bits v, (bits, v) ∈ get_all_bit_strings_from_root_node
          (canonical_pipeline 1 0 [([true], 7)]) rt →
        bits.length = 1 ∧
        evalFrom (canonical_pipeline 1 0 [([true], 7)]) rt bits = some v) ∧
      (∀ bits, bits.length = 1 →
        (bits, (evalSpec [([true], 7)] bits).getD SINK_VALUE) ∈
          get_all_bit_strings_from_root_node
            (canonical_pipeline 1 0 [([true], 7)]) rt)) :=
  ⟨by decide, by decide, by decide, by decide, by decide,
   pipeline_round_trip 1 0 [([true], 7)] (by decide) (by decide) (by decide)
     (by decide) (by decide)⟩

/-! ### C3: the flat-table (MONA) round trip -/

/-- Depth-bounded reachability is stable under extending the arena, as
long as every cell of the old arena keeps its children inside it. -/
theorem ReachN_ext (heap t : List MtBddNode)
    (hhc : ∀ n ∈ heap, (∀ l, n.low = some l → l < heap.length) ∧
      (∀ x, n.high = some x → x < heap.length)) :
    ∀ k i z, i < heap.length → ReachN heap k i z →
      ReachN (heap ++ t) k i z := by
  intro k
  induction k with
  | zero =>
      intro i z _ hr
      exact hr
  | succ k ih =>
      intro i z hi hr
      rcases hr with hr | ⟨c, ⟨hF, hc⟩, hrest⟩
      · exact Or.inl hr
      · have hgd : (heap ++ t).getD i default = heap.getD i default :=
          getD_append_of_lt heap t i hi
        have hmem : heap.getD i default ∈ heap := by
          have h2 : heap.getD i default = heap[i] := by
            simp [List.getD, List.getElem?_eq_getElem hi]
          rw [h2]
          exact List.getElem_mem hi
        have hcv : c < heap.length := by
          rcases hc with h | h
          · exact (hhc _ hmem).1 c h
          · exact (hhc _ hmem).2 c h
        exact Or.inr ⟨c, ⟨by rw [hgd]; exact hF,
          by rw [hgd]; exact hc⟩, ih c z hcv hrest⟩

/-- The rewrite recursion of `remove_redundant_tests` collects only nodes
with no collapsible test (an inner record whose non-null children are
pointer-identical never enters the fresh set: the collapse branch eats it,
and the re-canonicalized record has distinct children by the branch
guard), and every newly collected node is reachable from the returned
representative within the fuel. -/
theorem rrtRec_reach (fuel : Nat) :
    ∀ (node : Option Nat) (d : MtRobdd) (nn : List Nat),
    wfCore d → Ordered d →
    (∀ x ∈ d.store, (getNode d x).is_terminal = false →
      (∀ l, (getNode d x).low = some l → l ∈ d.store) ∧
      (∀ y, (getNode d x).high = some y → y ∈ d.store)) →
    (∀ x ∈ nn, x ∈ d.store) →
    (∀ x ∈ nn, (getNode d x).is_terminal = false →
      (∀ l, (getNode d x).low = some l → l ∈ nn) ∧
      (∀ y, (getNode d x).high = some y → y ∈ nn)) →
    (∀ x ∈ nn, (getNode d x).is_terminal = false →
      ¬((getNode d x).low ≠ none ∧
        (getNode d x).low = (getNode d x).high)) →
    (∀ s, node = some s → s ∈ d.store) →
    (∀ s, node = some s →
      ((getNode d s).is_terminal = true → 1 ≤ fuel) ∧
      ((getNode d s).is_terminal = false →
        (d.num_of_vars : Int) - (getNode d s).var_index < (fuel : Int))) →
    (∀ x ∈ (rrtRec fuel node d nn).2.2,
      (getNode (rrtRec fuel node d nn).2.1 x).is_terminal = false →
      ¬((getNode (rrtRec fuel node d nn).2.1 x).low ≠ none ∧
        (getNode (rrtRec fuel node d nn).2.1 x).low =
          (getNode (rrtRec fuel node d nn).2.1 x).high)) ∧
    (∀ z ∈ (rrtRec fuel node d nn).2.2, z ∈ nn ∨
      ∃ r, (rrtRec fuel node d nn).1 = some r ∧
        ∃ k, k < fuel ∧ ReachN (rrtRec fuel node d nn).2.1.heap k r z) := by
  induction fuel with
  | zero =>
      intro node d nn hwf hord hSC hsub hncl hnored hnode hfb
      cases node with
      | none =>
          rw [show rrtRec 0 none d nn = (none, d, nn) from rfl]
          exact ⟨hnored, fun z hz => Or.inl hz⟩
      | some i =>
          exfalso
          have hfi := hfb i rfl
          have hi : i < d.heap.length := hwf.1 i (hnode i rfl)
          by_cases hT : (getNode d i).is_terminal = true
          · have := hfi.1 hT
            omega
          · have hTf := is_terminal_false_of_not _ hT
            have h2 := hfi.2 hTf
            rcases hord i hi with hT2 | ⟨h0, hV, _, _⟩
            · exact absurd hT2 hT
            · simp only [Nat.cast_zero] at h2
              omega
  | succ fuel ih =>
      intro node d nn hwf hord hSC hsub hncl hnored hnode hfb
      cases node with
      | none =>
          rw [show rrtRec (fuel + 1) none d nn = (none, d, nn) from rfl]
          exact ⟨hnored, fun z hz => Or.inl hz⟩
      | some i =>
          have hiS : i ∈ d.store := hnode i rfl
          have hi : i < d.heap.length := hwf.1 i hiS
          rw [rrtRec_succ_some_unfold fuel i d nn]
          by_cases hT : (getNode d i).is_terminal = true
          · rw [if_pos hT]
            constructor
            · intro x hx hxF
              by_cases hm : memEquiv d.heap nn i = true
              · rw [if_pos hm] at hx
                exact hnored x hx hxF
              · rw [if_neg hm] at hx
                rcases List.mem_append.mp hx with hx | hx
                · exact hnored x hx hxF
                · simp only [List.mem_singleton] at hx
                  subst hx
                  exact absurd hT (by rw [hxF]; exact Bool.false_ne_true)
            · intro z hz
              by_cases hm : memEquiv d.heap nn i = true
              · rw [if_pos hm] at hz
                exact Or.inl hz
              · rw [if_neg hm] at hz
                rcases List.mem_append.mp hz with hz | hz
                · exact Or.inl hz
                · simp only [List.mem_singleton] at hz
                  subst hz
                  exact Or.inr ⟨z, rfl, 0, by omega, rfl⟩
          · rw [if_neg hT]
            have hTf : (getNode d i).is_terminal = false :=
              is_terminal_false_of_not _ hT
            rcases hord i hi with hT2 | ⟨h0i, hVi, hloi, hhii⟩
            · exact absurd hT2 hT
            have hVb : (d.num_of_vars : Int) - (getNode d i).var_index <
                ((fuel + 1 : Nat) : Int) := (hfb i rfl).2 hTf
            have hf1 : 1 ≤ fuel := by
              push_cast at hVb
              omega
            have hSCi := hSC i hiS hTf
            have hfbL : ∀ s, (getNode d i).low = some s →
                ((getNode d s).is_terminal = true → 1 ≤ fuel) ∧
                ((getNode d s).is_terminal = false →
                  (d.num_of_vars : Int) - (getNode d s).var_index <
                    (fuel : Int)) := by
              intro s hs
              obtain ⟨hsl, hsc⟩ := hloi s hs
              refine ⟨fun _ => hf1, fun hsF => ?_⟩
              have hvs : (getNode d i).var_index <
                  (getNode d s).var_index := by
                rcases hsc with h | h
                · exact absurd (h.symm.trans hsF) (by decide)
                · exact h
              push_cast at hVb ⊢
              omega
            obtain ⟨⟨s1, hs1⟩, hsubL, hSCL, hnclL, hresInL⟩ :
                (∃ t, (rrtPl fuel i d nn).2.1.store = d.store ++ t) ∧
                (∀ x ∈ (rrtPl fuel i d nn).2.2,
                  x ∈ (rrtPl fuel i d nn).2.1.store) ∧
                (∀ x ∈ (rrtPl fuel i d nn).2.1.store,
                  (getNode (rrtPl fuel i d nn).2.1 x).is_terminal = false →
                  (∀ l, (getNode (rrtPl fuel i d nn).2.1 x).low = some l →
                    l ∈ (rrtPl fuel i d nn).2.1.store) ∧
                  (∀ y, (getNode (rrtPl fuel i d nn).2.1 x).high = some y →
                    y ∈ (rrtPl fuel i d nn).2.1.store)) ∧
                (∀ x ∈ (rrtPl fuel i d nn).2.2,
                  (getNode (rrtPl fuel i d nn).2.1 x).is_terminal = false →
                  (∀ l, (getNode (rrtPl fuel i d nn).2.1 x).low = some l →
                    l ∈ (rrtPl fuel i d nn).2.2) ∧
                  (∀ y, (getNode (rrtPl fuel i d nn).2.1 x).high = some y →
                    y ∈ (rrtPl fuel i d nn).2.2)) ∧
                (∀ r, (rrtPl fuel i d nn).1 = some r →
                  r ∈ (rrtPl fuel i d nn).2.2) :=
              rrtRec_collect fuel (getNode d i).low d nn hwf hord hSC hsub
                hncl (fun s hs => hSCi.1 s hs) hfbL
            obtain ⟨hnoredL, hreachL⟩ :
                (∀ x ∈ (rrtPl fuel i d nn).2.2,
                  (getNode (rrtPl fuel i d nn).2.1 x).is_terminal = false →
                  ¬((getNode (rrtPl fuel i d nn).2.1 x).low ≠ none ∧
                    (getNode (rrtPl fuel i d nn).2.1 x).low =
                      (getNode (rrtPl fuel i d nn).2.1 x).high)) ∧
                (∀ z ∈ (rrtPl fuel i d nn).2.2, z ∈ nn ∨
                  ∃ r, (rrtPl fuel i d nn).1 = some r ∧
                    ∃ k, k < fuel ∧
                      ReachN (rrtPl fuel i d nn).2.1.heap k r z) :=
              ih (getNode d i).low d nn hwf hord hSC hsub hncl hnored
                (fun s hs => hSCi.1 s hs) hfbL
            have hnv : ∀ x ∈ nn, x < d.heap.length :=
              fun x hx => hwf.1 x (hsub x hx)
            have hnu : ∀ a ∈ nn, ∀ b ∈ nn,
                getNode d a = getNode d b → a = b :=
              fun a ha b hb => hwf.2.2 a (hsub a ha) b (hsub b hb)
            have hliveL : ∀ s, (getNode d i).low = some s →
                s < d.heap.length :=
              fun s hs => hwf.1 s (hSCi.1 s hs)
            obtain ⟨hwfL, ⟨t1, he1⟩, ⟨u1, hu1⟩, hnvL, hnuL, hresL⟩ :
                wfCore (rrtPl fuel i d nn).2.1 ∧
                (∃ t, (rrtPl fuel i d nn).2.1.heap = d.heap ++ t) ∧
                (∃ t, (rrtPl fuel i d nn).2.2 = nn ++ t) ∧
                (∀ x ∈ (rrtPl fuel i d nn).2.2,
                  x < (rrtPl fuel i d nn).2.1.heap.length) ∧
                (∀ a ∈ (rrtPl fuel i d nn).2.2, ∀ b ∈ (rrtPl fuel i d nn).2.2,
                  getNode (rrtPl fuel i d nn).2.1 a =
                    getNode (rrtPl fuel i d nn).2.1 b → a = b) ∧
                (∀ r, (rrtPl fuel i d nn).1 = some r →
                  r < (rrtPl fuel i d nn).2.1.heap.length) :=
              rrtRec_wf fuel (getNode d i).low d nn hwf hnv hnu hliveL
            obtain ⟨hordL, hnumL, -, -, -⟩ :
                Ordered (rrtPl fuel i d nn).2.1 ∧
                (rrtPl fuel i d nn).2.1.num_of_vars = d.num_of_vars ∧
                ((rrtPl fuel i d nn).1 = none ↔ (getNode d i).low = none) ∧
                (∀ s r, (getNode d i).low = some s →
                  (rrtPl fuel i d nn).1 = some r →
                  (getNode (rrtPl fuel i d nn).2.1 r).is_terminal = true ∨
                  ((getNode d s).is_terminal = false ∧
                   (getNode (rrtPl fuel i d nn).2.1 r).is_terminal = false ∧
                   (getNode d s).var_index ≤
                     (getNode (rrtPl fuel i d nn).2.1 r).var_index ∧
                   (getNode (rrtPl fuel i d nn).2.1 r).var_index <
                     (d.num_of_vars : Int))) ∧
                (∀ bits s, (getNode d i).low = some s →
                  evalAux (rrtPl fuel i d nn).2.1 bits (d.num_of_vars + 1)
                    (rrtPl fuel i d nn).1 =
                  evalAux d bits (d.num_of_vars + 1) (some s)) :=
              rrtRec_eval fuel (getNode d i).low d nn hwf hord hnv hnu hliveL
            have hnodeHs : ∀ s, (getNode d i).high = some s →
                s ∈ (rrtPl fuel i d nn).2.1.store := by
              intro s hs
              rw [hs1]
              exact List.mem_append_left _ (hSCi.2 s hs)
            have hgd : ∀ x, x < d.heap.length →
                getNode (rrtPl fuel i d nn).2.1 x = getNode d x :=
              fun x hx => getNode_ext he1 hx
            have hfbH : ∀ s, (getNode d i).high = some s →
                ((getNode (rrtPl fuel i d nn).2.1 s).is_terminal = true →
                  1 ≤ fuel) ∧
                ((getNode (rrtPl fuel i d nn).2.1 s).is_terminal = false →
                  ((rrtPl fuel i d nn).2.1.num_of_vars : Int) -
                    (getNode (rrtPl fuel i d nn).2.1 s).var_index <
                    (fuel : Int)) := by
              intro s hs
              obtain ⟨hsl, hsc⟩ := hhii s hs
              rw [hgd s hsl, hnumL]
              refine ⟨fun _ => hf1, fun hsF => ?_⟩
              have hvs : (getNode d i).var_index <
                  (getNode d s).var_index := by
                rcases hsc with h | h
                · exact absurd (h.symm.trans hsF) (by decide)
                · exact h
              push_cast at hVb ⊢
              omega
            obtain ⟨⟨s2, hs2⟩, hsubH, hSCH, hnclH, hresInH⟩ :
                (∃ t, (rrtPh fuel i d nn).2.1.store =
                  (rrtPl fuel i d nn).2.1.store ++ t) ∧
                (∀ x ∈ (rrtPh fuel i d nn).2.2,
                  x ∈ (rrtPh fuel i d nn).2.1.store) ∧
                (∀ x ∈ (rrtPh fuel i d nn).2.1.store,
                  (getNode (rrtPh fuel i d nn).2.1 x).is_terminal = false →
                  (∀ l, (getNode (rrtPh fuel i d nn).2.1 x).low = some l →
                    l ∈ (rrtPh fuel i d nn).2.1.store) ∧
                  (∀ y, (getNode (rrtPh fuel i d nn).2.1 x).high = some y →
                    y ∈ (rrtPh fuel i d nn).2.1.store)) ∧
                (∀ x ∈ (rrtPh fuel i d nn).2.2,
                  (getNode (rrtPh fuel i d nn).2.1 x).is_terminal = false →
                  (∀ l, (getNode (rrtPh fuel i d nn).2.1 x).low = some l →
                    l ∈ (rrtPh fuel i d nn).2.2) ∧
                  (∀ y, (getNode (rrtPh fuel i d nn).2.1 x).high = some y →
                    y ∈ (rrtPh fuel i d nn).2.2)) ∧
                (∀ r, (rrtPh fuel i d nn).1 = some r →
                  r ∈ (rrtPh fuel i d nn).2.2) :=
              rrtRec_collect fuel (getNode d i).high (rrtPl fuel i d nn).2.1
                (rrtPl fuel i d nn).2.2 hwfL hordL hSCL hsubL hnclL
                hnodeHs hfbH
            obtain ⟨hnoredH, hreachH⟩ :
                (∀ x ∈ (rrtPh fuel i d nn).2.2,
                  (getNode (rrtPh fuel i d nn).2.1 x).is_terminal = false →
                  ¬((getNode (rrtPh fuel i d nn).2.1 x).low ≠ none ∧
                    (getNode (rrtPh fuel i d nn).2.1 x).low =
                      (getNode (rrtPh fuel i d nn).2.1 x).high)) ∧
                (∀ z ∈ (rrtPh fuel i d nn).2.2,
                  z ∈ (rrtPl fuel i d nn).2.2 ∨
                  ∃ r, (rrtPh fuel i d nn).1 = some r ∧
                    ∃ k, k < fuel ∧
                      ReachN (rrtPh fuel i d nn).2.1.heap k r z) :=
              ih (getNode d i).high (rrtPl fuel i d nn).2.1
                (rrtPl fuel i d nn).2.2 hwfL hordL hSCL hsubL hnclL hnoredL
                hnodeHs hfbH
            have hnodeHl : ∀ s, (getNode d i).high = some s →
                s < (rrtPl fuel i d nn).2.1.heap.length :=
              fun s hs => hwfL.1 s (hnodeHs s hs)
            obtain ⟨hwfH, ⟨t2, he2⟩, ⟨u2, hu2⟩, hnvH, hnuH, hresH⟩ :
                wfCore (rrtPh fuel i d nn).2.1 ∧
                (∃ t, (rrtPh fuel i d nn).2.1.heap =
                  (rrtPl fuel i d nn).2.1.heap ++ t) ∧
                (∃ t, (rrtPh fuel i d nn).2.2 =
                  (rrtPl fuel i d nn).2.2 ++ t) ∧
                (∀ x ∈ (rrtPh fuel i d nn).2.2,
                  x < (rrtPh fuel i d nn).2.1.heap.length) ∧
                (∀ a ∈ (rrtPh fuel i d nn).2.2, ∀ b ∈ (rrtPh fuel i d nn).2.2,
                  getNode (rrtPh fuel i d nn).2.1 a =
                    getNode (rrtPh fuel i d nn).2.1 b → a = b) ∧
                (∀ r, (rrtPh fuel i d nn).1 = some r →
                  r < (rrtPh fuel i d nn).2.1.heap.length) :=
              rrtRec_wf fuel (getNode d i).high (rrtPl fuel i d nn).2.1
                (rrtPl fuel i d nn).2.2 hwfL hnvL hnuL hnodeHl
            by_cases hcoll : (rrtPl fuel i d nn).1 ≠ none ∧
                (rrtPl fuel i d nn).1 = (rrtPh fuel i d nn).1
            · rw [if_pos hcoll]
              refine ⟨hnoredH, ?_⟩
              intro z hz
              have hz2 : z ∈ (rrtPh fuel i d nn).2.2 := hz
              rcases hreachH z hz2 with hz3 | ⟨rh, hrh, k, hk, hre⟩
              · rcases hreachL z hz3 with hz4 | ⟨rl, hrl, k, hk, hre⟩
                · exact Or.inl hz4
                · right
                  refine ⟨rl, hrl, k, by omega, ?_⟩
                  show ReachN (rrtPh fuel i d nn).2.1.heap k rl z
                  rw [he2]
                  exact ReachN_ext (rrtPl fuel i d nn).2.1.heap t2
                    hwfL.2.1 k rl z (hresL rl hrl) hre
              · right
                refine ⟨rh, ?_, k, by omega, hre⟩
                show (rrtPl fuel i d nn).1 = some rh
                rw [hcoll.2]
                exact hrh
            · rw [if_neg hcoll]
              have hCS := create_node_spec (rrtPh fuel i d nn).2.1
                (getNode d i).var_index (rrtPl fuel i d nn).1
                (rrtPh fuel i d nn).1 (getNode d i).value
              have hgpc : getNode (rrtPc fuel i d nn).2 (rrtPc fuel i d nn).1 =
                  ⟨(getNode d i).var_index, (rrtPl fuel i d nn).1,
                   (rrtPh fuel i d nn).1, (getNode d i).value⟩ := hCS.1
              obtain ⟨t3, he3⟩ : ∃ t, (rrtPc fuel i d nn).2.heap =
                  (rrtPh fuel i d nn).2.1.heap ++ t := hCS.2.2.1
              have hrecF : (⟨(getNode d i).var_index, (rrtPl fuel i d nn).1,
                  (rrtPh fuel i d nn).1,
                  (getNode d i).value⟩ : MtBddNode).is_terminal = false :=
                not_terminal_of_nonneg _ h0i
              have hgres : getNode (rrtPc fuel i d nn).2
                  (rrtRes fuel i d nn) =
                  ⟨(getNode d i).var_index, (rrtPl fuel i d nn).1,
                   (rrtPh fuel i d nn).1, (getNode d i).value⟩ := by
                unfold rrtRes
                cases hfind : (rrtNn3 fuel i d nn).find? (fun x =>
                    (rrtPc fuel i d nn).2.heap.getD x default =
                    (rrtPc fuel i d nn).2.heap.getD
                      (rrtPc fuel i d nn).1 default) with
                | some w =>
                    have hweq := List.find?_some hfind
                    simp only [decide_eq_true_eq] at hweq
                    show getNode (rrtPc fuel i d nn).2 w = _
                    show (rrtPc fuel i d nn).2.heap.getD w default = _
                    rw [hweq]
                    exact hgpc
                | none =>
                    show getNode (rrtPc fuel i d nn).2
                      (rrtPc fuel i d nn).1 = _
                    exact hgpc
              constructor
              · intro x hx hxF
                have hx2 := hx
                unfold rrtNn3 at hx2
                by_cases hm : memEquiv (rrtPc fuel i d nn).2.heap
                    (rrtPh fuel i d nn).2.2 (rrtPc fuel i d nn).1 = true
                · rw [if_pos hm] at hx2
                  have hxl : x < (rrtPh fuel i d nn).2.1.heap.length :=
                    hnvH x hx2
                  have hgx : getNode (rrtPc fuel i d nn).2 x =
                      getNode (rrtPh fuel i d nn).2.1 x :=
                    getNode_ext he3 hxl
                  rw [hgx] at hxF ⊢
                  exact hnoredH x hx2 hxF
                · rw [if_neg hm] at hx2
                  rcases List.mem_append.mp hx2 with hx2 | hx2
                  · have hxl : x < (rrtPh fuel i d nn).2.1.heap.length :=
                      hnvH x hx2
                    have hgx : getNode (rrtPc fuel i d nn).2 x =
                        getNode (rrtPh fuel i d nn).2.1 x :=
                      getNode_ext he3 hxl
                    rw [hgx] at hxF ⊢
                    exact hnoredH x hx2 hxF
                  · simp only [List.mem_singleton] at hx2
                    subst hx2
                    rw [hgpc]
                    intro hbad
                    have hbad2 : (rrtPl fuel i d nn).1 ≠ none ∧
                        (rrtPl fuel i d nn).1 = (rrtPh fuel i d nn).1 := hbad
                    exact hcoll hbad2
              · intro z hz
                have hF : ((rrtPc fuel i d nn).2.heap.getD
                    (rrtRes fuel i d nn) default).is_terminal = false := by
                  show (getNode (rrtPc fuel i d nn).2
                    (rrtRes fuel i d nn)).is_terminal = false
                  rw [hgres]
                  exact hrecF
                have hmain : ∀ w, w ∈ (rrtPh fuel i d nn).2.2 → w ∈ nn ∨
                    ∃ k, k < fuel + 1 ∧
                      ReachN (rrtPc fuel i d nn).2.heap k
                        (rrtRes fuel i d nn) w := by
                  intro w hw
                  rcases hreachH w hw with hw2 | ⟨rh, hrh, k, hk, hre⟩
                  · rcases hreachL w hw2 with hw3 | ⟨rl, hrl, k, hk, hre⟩
                    · exact Or.inl hw3
                    · right
                      refine ⟨k + 1, by omega, ?_⟩
                      have hrlt1 : rl < (rrtPl fuel i d nn).2.1.heap.length :=
                        hresL rl hrl
                      have hrlt2 : rl <
                          (rrtPh fuel i d nn).2.1.heap.length := by
                        rw [he2, List.length_append]
                        omega
                      have hre2 : ReachN (rrtPh fuel i d nn).2.1.heap
                          k rl w := by
                        rw [he2]
                        exact ReachN_ext (rrtPl fuel i d nn).2.1.heap t2
                          hwfL.2.1 k rl w hrlt1 hre
                      have hre3 : ReachN (rrtPc fuel i d nn).2.heap
                          k rl w := by
                        rw [he3]
                        exact ReachN_ext (rrtPh fuel i d nn).2.1.heap t3
                          hwfH.2.1 k rl w hrlt2 hre2
                      have hL : ((rrtPc fuel i d nn).2.heap.getD
                          (rrtRes fuel i d nn) default).low = some rl := by
                        show (getNode (rrtPc fuel i d nn).2
                          (rrtRes fuel i d nn)).low = some rl
                        rw [hgres]
                        exact hrl
                      exact Or.inr ⟨rl, ⟨hF, Or.inl hL⟩, hre3⟩
                  · right
                    refine ⟨k + 1, by omega, ?_⟩
                    have hrlt2 : rh < (rrtPh fuel i d nn).2.1.heap.length :=
                      hresH rh hrh
                    have hre3 : ReachN (rrtPc fuel i d nn).2.heap
                        k rh w := by
                      rw [he3]
                      exact ReachN_ext (rrtPh fuel i d nn).2.1.heap t3
                        hwfH.2.1 k rh w hrlt2 hre
                    have hH : ((rrtPc fuel i d nn).2.heap.getD
                        (rrtRes fuel i d nn) default).high = some rh := by
                      show (getNode (rrtPc fuel i d nn).2
                        (rrtRes fuel i d nn)).high = some rh
                      rw [hgres]
                      exact hrh
                    exact Or.inr ⟨rh, ⟨hF, Or.inr hH⟩, hre3⟩
                have hz2 := hz
                unfold rrtNn3 at hz2
                by_cases hm : memEquiv (rrtPc fuel i d nn).2.heap
                    (rrtPh fuel i d nn).2.2 (rrtPc fuel i d nn).1 = true
                · rw [if_pos hm] at hz2
                  rcases hmain z hz2 with hz3 | ⟨k, hk, hre⟩
                  · exact Or.inl hz3
                  · exact Or.inr ⟨rrtRes fuel i d nn, rfl, k, hk, hre⟩
                · rw [if_neg hm] at hz2
                  rcases List.mem_append.mp hz2 with hz2 | hz2
                  · rcases hmain z hz2 with hz3 | ⟨k, hk, hre⟩
                    · exact Or.inl hz3
                    · exact Or.inr ⟨rrtRes fuel i d nn, rfl, k, hk, hre⟩
                  · simp only [List.mem_singleton] at hz2
                    subst hz2
                    have hrespc : rrtRes fuel i d nn =
                        (rrtPc fuel i d nn).1 := by
                      unfold rrtRes
                      cases hfind : (rrtNn3 fuel i d nn).find? (fun x =>
                          (rrtPc fuel i d nn).2.heap.getD x default =
                          (rrtPc fuel i d nn).2.heap.getD
                            (rrtPc fuel i d nn).1 default) with
                      | none => rfl
                      | some w =>
                          have hwmem := List.mem_of_find?_eq_some hfind
                          have hweq := List.find?_some hfind
                          simp only [decide_eq_true_eq] at hweq
                          unfold rrtNn3 at hwmem
                          rw [if_neg hm] at hwmem
                          rcases List.mem_append.mp hwmem with hw2 | hw2
                          · exfalso
                            exact hm ((memEquiv_iff
                              (rrtPc fuel i d nn).2.heap
                              (rrtPh fuel i d nn).2.2
                              (rrtPc fuel i d nn).1).mpr ⟨w, hw2, hweq⟩)
                          · simp only [List.mem_singleton] at hw2
                            subst hw2
                            rfl
                    refine Or.inr ⟨rrtRes fuel i d nn, rfl, 0, by omega, ?_⟩
                    show (rrtPc fuel i d nn).1 = rrtRes fuel i d nn
                    exact hrespc.symm

/-- The root fold of `remove_redundant_tests` on a well-formed ordered
manager: it keeps well-formedness, orderedness and the variable count,
only grows the arena, and the collected store is valid, child-closed,
free of collapsible tests, and covered by reachability (within
`num_of_vars` steps) from the rewritten bindings it appends. -/
theorem rrt_fold_reduced (N : Nat) :
    ∀ (rs : List (Nat × Nat)) (a : MtRobdd) (nn : List Nat)
      (u : List (Nat × Nat)),
    wfCore a → Ordered a → a.num_of_vars = N →
    (∀ x ∈ nn, x ∈ a.store) →
    (∀ x ∈ nn, (getNode a x).is_terminal = false →
      (∀ l, (getNode a x).low = some l → l ∈ nn) ∧
      (∀ y, (getNode a x).high = some y → y ∈ nn)) →
    (∀ x ∈ nn, (getNode a x).is_terminal = false →
      ¬((getNode a x).low ≠ none ∧
        (getNode a x).low = (getNode a x).high)) →
    (∀ x ∈ a.store, (getNode a x).is_terminal = false →
      (∀ l, (getNode a x).low = some l → l ∈ a.store) ∧
      (∀ y, (getNode a x).high = some y → y ∈ a.store)) →
    (∀ p ∈ rs, p.2 ∈ a.store) →
    wfCore (rs.foldl (rrtStep (N + 1)) (a, nn, u)).1 ∧
    Ordered (rs.foldl (rrtStep (N + 1)) (a, nn, u)).1 ∧
    (rs.foldl (rrtStep (N + 1)) (a, nn, u)).1.num_of_vars = N ∧
    (∃ t, (rs.foldl (rrtStep (N + 1)) (a, nn, u)).1.heap = a.heap ++ t) ∧
    (∃ t, (rs.foldl (rrtStep (N + 1)) (a, nn, u)).2.1 = nn ++ t) ∧
    (∀ x ∈ (rs.foldl (rrtStep (N + 1)) (a, nn, u)).2.1,
      x ∈ (rs.foldl (rrtStep (N + 1)) (a, nn, u)).1.store) ∧
    (∀ x ∈ (rs.foldl (rrtStep (N + 1)) (a, nn, u)).2.1,
      (getNode (rs.foldl (rrtStep (N + 1)) (a, nn, u)).1 x).is_terminal =
        false →
      (∀ l, (getNode (rs.foldl (rrtStep (N + 1)) (a, nn, u)).1 x).low =
        some l → l ∈ (rs.foldl (rrtStep (N + 1)) (a, nn, u)).2.1) ∧
      (∀ y, (getNode (rs.foldl (rrtStep (N + 1)) (a, nn, u)).1 x).high =
        some y → y ∈ (rs.foldl (rrtStep (N + 1)) (a, nn, u)).2.1)) ∧
    (∀ x ∈ (rs.foldl (rrtStep (N + 1)) (a, nn, u)).2.1,
      (getNode (rs.foldl (rrtStep (N + 1)) (a, nn, u)).1 x).is_terminal =
        false →
      ¬((getNode (rs.foldl (rrtStep (N + 1)) (a, nn, u)).1 x).low ≠ none ∧
        (getNode (rs.foldl (rrtStep (N + 1)) (a, nn, u)).1 x).low =
          (getNode (rs.foldl (rrtStep (N + 1)) (a, nn, u)).1 x).high)) ∧
    ∃ g, (rs.foldl (rrtStep (N + 1)) (a, nn, u)).2.2 = u ++ g ∧
      (∀ p ∈ g, p.2 ∈ (rs.foldl (rrtStep (N + 1)) (a, nn, u)).2.1) ∧
      (∀ z ∈ (rs.foldl (rrtStep (N + 1)) (a, nn, u)).2.1, z ∈ nn ∨
        ∃ p ∈ g, ∃ k, k ≤ N ∧
          ReachN (rs.foldl (rrtStep (N + 1)) (a, nn, u)).1.heap k p.2 z) := by
  intro rs
  induction rs with
  | nil =>
      intro a nn u hwf hord hnum hsub hncl hnored hSC hrs
      refine ⟨hwf, hord, hnum, ⟨[], (List.append_nil _).symm⟩,
        ⟨[], (List.append_nil _).symm⟩, hsub, hncl, hnored, [],
        (List.append_nil _).symm, fun p hp => absurd hp (List.not_mem_nil _),
        fun z hz => Or.inl hz⟩
  | cons p rest ih =>
      intro a nn u hwf hord hnum hsub hncl hnored hSC hrs
      have hstep : (p :: rest).foldl (rrtStep (N + 1)) (a, nn, u) =
          rest.foldl (rrtStep (N + 1)) (rrtStep (N + 1) (a, nn, u) p) := rfl
      set q := rrtRec (N + 1) (some p.2) a nn with hq
      have hone : rrtStep (N + 1) (a, nn, u) p =
          (q.2.1, q.2.2, u ++ [(p.1, q.1.getD p.2)]) := rfl
      have hpS : p.2 ∈ a.store := hrs p (List.mem_cons_self p rest)
      have hnodeS : ∀ s, (some p.2 : Option Nat) = some s →
          s ∈ a.store := by
        intro s hs
        have h1 : p.2 = s := by injection hs
        rw [← h1]
        exact hpS
      have hpv : ∀ s, (some p.2 : Option Nat) = some s →
          s < a.heap.length :=
        fun s hs => hwf.1 s (hnodeS s hs)
      have hfb : ∀ s, (some p.2 : Option Nat) = some s →
          ((getNode a s).is_terminal = true → 1 ≤ N + 1) ∧
          ((getNode a s).is_terminal = false →
            (a.num_of_vars : Int) - (getNode a s).var_index <
              ((N + 1 : Nat) : Int)) := by
        intro s hs
        have h1 : p.2 = s := by injection hs
        subst h1
        refine ⟨fun _ => by omega, fun hF => ?_⟩
        rcases hord p.2 (hwf.1 p.2 hpS) with hT | ⟨h0, hV, -, -⟩
        · rw [hT] at hF
          exact Bool.noConfusion hF
        · rw [hnum] at hV ⊢
          push_cast
          omega
      have hnv : ∀ x ∈ nn, x < a.heap.length :=
        fun x hx => hwf.1 x (hsub x hx)
      have hnu : ∀ i2 ∈ nn, ∀ j2 ∈ nn,
          getNode a i2 = getNode a j2 → i2 = j2 :=
        fun i2 hi2 j2 hj2 => hwf.2.2 i2 (hsub i2 hi2) j2 (hsub j2 hj2)
      obtain ⟨⟨s1, hstore1⟩, hsubQ, hSCQ, hnclQ, hresInQ⟩ :=
        rrtRec_collect (N + 1) (some p.2) a nn hwf hord hSC hsub hncl
          hnodeS hfb
      obtain ⟨hnoredQ, hreachQ⟩ :=
        rrtRec_reach (N + 1) (some p.2) a nn hwf hord hSC hsub hncl hnored
          hnodeS hfb
      obtain ⟨hwfQ, ⟨t1, ht1⟩, ⟨u1, hu1⟩, hnvQ, hnuQ, hresQ⟩ :=
        rrtRec_wf (N + 1) (some p.2) a nn hwf hnv hnu hpv
      obtain ⟨hordQ, hnumQ, hiffQ, -, -⟩ :=
        rrtRec_eval (N + 1) (some p.2) a nn hwf hord hnv hnu hpv
      obtain ⟨r, hr⟩ : ∃ r, q.1 = some r := by
        cases hqq : q.1 with
        | none => exact absurd (hiffQ.mp hqq) (by simp)
        | some r => exact ⟨r, rfl⟩
      have hnumQ2 : q.2.1.num_of_vars = N := by
        rw [hnumQ, hnum]
      have hrestS : ∀ p2 ∈ rest, p2.2 ∈ q.2.1.store := by
        intro p2 hp2
        rw [hstore1]
        exact List.mem_append_left _ (hrs p2 (List.mem_cons_of_mem p hp2))
      obtain ⟨hwfF, hordF, hnumF, ⟨t2, ht2⟩, ⟨u2, hu2⟩, hsubF, hnclF,
          hnoredF, g2, hg2eq, hg2mem, hg2reach⟩ :=
        ih q.2.1 q.2.2 (u ++ [(p.1, q.1.getD p.2)]) hwfQ hordQ hnumQ2
          hsubQ hnclQ hnoredQ hSCQ hrestS
      rw [hstep, hone]
      refine ⟨hwfF, hordF, hnumF,
        ⟨t1 ++ t2, by rw [ht2, ht1, List.append_assoc]⟩,
        ⟨u1 ++ u2, by rw [hu2, hu1, List.append_assoc]⟩,
        hsubF, hnclF, hnoredF, (p.1, q.1.getD p.2) :: g2, ?_, ?_, ?_⟩
      · rw [hg2eq, List.append_assoc]
        rfl
      · intro pb hpb
        rcases List.mem_cons.mp hpb with hpb | hpb
        · rw [hpb, hu2]
          refine List.mem_append_left _ ?_
          show q.1.getD p.2 ∈ q.2.2
          rw [show q.1.getD p.2 = r from by rw [hr]; rfl]
          exact hresInQ r hr
        · exact hg2mem pb hpb
      · intro z hz
        rcases hg2reach z hz with hz2 | ⟨pb, hpb, k, hk, hre⟩
        · rcases hreachQ z hz2 with hz3 | ⟨r2, hr2, k, hk, hre⟩
          · exact Or.inl hz3
          · right
            refine ⟨(p.1, q.1.getD p.2),
              List.mem_cons_self _ _, k, by omega, ?_⟩
            show ReachN (rest.foldl (rrtStep (N + 1))
              (q.2.1, q.2.2, u ++ [(p.1, q.1.getD p.2)])).1.heap k
              (q.1.getD p.2) z
            have hr2r : r2 = r := by
              rw [hr] at hr2
              injection hr2 with h3
              exact h3.symm
            have hrd2 : q.1.getD p.2 = r2 := by
              rw [hr]
              exact hr2r.symm
            rw [ht2, hrd2]
            exact ReachN_ext q.2.1.heap t2 hwfQ.2.1 k r2 z
              (hresQ r2 hr2) hre
        · exact Or.inr ⟨pb, List.mem_cons_of_mem _ hpb, k, hk, hre⟩

/-- The first `remove_redundant_tests` run from a manager satisfying the
engine's standing invariants produces a reduced manager: well-formed with
live roots, no store node with equal non-null children, store-closed
children, root bindings in the store, and every store member reachable
from a root within `num_of_vars` steps. -/
theorem rrt_output_reduced (D : MtRobdd) (hD : wfCore D) (hordD : Ordered D)
    (hSCD : ∀ x ∈ D.store, (getNode D x).is_terminal = false →
      (∀ l, (getNode D x).low = some l → l ∈ D.store) ∧
      (∀ y, (getNode D x).high = some y → y ∈ D.store))
    (hrootsD : ∀ p ∈ D.roots, p.2 ∈ D.store) :
    WF (remove_redundant_tests D) ∧
    (∀ z ∈ (remove_redundant_tests D).store,
      (getNode (remove_redundant_tests D) z).is_terminal = false →
      ¬((getNode (remove_redundant_tests D) z).low ≠ none ∧
        (getNode (remove_redundant_tests D) z).low =
          (getNode (remove_redundant_tests D) z).high)) ∧
    (∀ z ∈ (remove_redundant_tests D).store,
      (getNode (remove_redundant_tests D) z).is_terminal = false →
      (∀ l, (getNode (remove_redundant_tests D) z).low = some l →
        l ∈ (remove_redundant_tests D).store) ∧
      (∀ y, (getNode (remove_redundant_tests D) z).high = some y →
        y ∈ (remove_redundant_tests D).store)) ∧
    (∀ p ∈ (remove_redundant_tests D).roots,
      p.2 ∈ (remove_redundant_tests D).store) ∧
    (∀ z ∈ (remove_redundant_tests D).store,
      ∃ p ∈ (remove_redundant_tests D).roots, ∃ k,
        k ≤ (remove_redundant_tests D).num_of_vars ∧
        ReachN (remove_redundant_tests D).heap k p.2 z) := by
  have hWFD : WF D := ⟨hD, fun p hp => hD.1 p.2 (hrootsD p hp)⟩
  obtain ⟨hwfF, hordF, hnumF, ⟨tH, htH⟩, ⟨tn, htn⟩, hsubF, hnclF, hnoredF,
      g, hgeq, hgmem, hgreach⟩ :=
    rrt_fold_reduced D.num_of_vars D.roots D [] []
      hD hordD rfl
      (fun x hx => absurd hx (List.not_mem_nil x))
      (fun x hx => absurd hx (List.not_mem_nil x))
      (fun x hx => absurd hx (List.not_mem_nil x))
      hSCD hrootsD
  refine ⟨remove_redundant_tests_WF D hWFD, ?_, ?_, ?_, ?_⟩
  · intro z hz hzF
    exact hnoredF z hz hzF
  · intro z hz hzF
    exact hnclF z hz hzF
  · intro p hp
    have hp2 : p ∈ ([] : List (Nat × Nat)) ++ g := by
      rw [← hgeq]
      exact hp
    rw [List.nil_append] at hp2
    exact hgmem p hp2
  · intro z hz
    have hz2 : z ∈ (D.roots.foldl (rrtStep (D.num_of_vars + 1))
        (D, [], [])).2.1 := hz
    rcases hgreach z hz2 with hz3 | ⟨p, hp, k, hk, hre⟩
    · exact absurd hz3 (List.not_mem_nil z)
    · refine ⟨p, ?_, k, ?_, hre⟩
      · show p ∈ (D.roots.foldl (rrtStep (D.num_of_vars + 1))
          (D, [], [])).2.2
        rw [hgeq, List.nil_append]
        exact hp
      · show k ≤ (D.roots.foldl (rrtStep (D.num_of_vars + 1))
          (D, [], [])).1.num_of_vars
        rw [hnumF]
        exact hk

/-- C9 (amended): `trim` is unconditionally idempotent (the same store is
recomputed from the unchanged heap and root index); `make_complete` with
`complete_terminal_nodes = true` is idempotent on the observable state of
a well-formed manager (store and root index unchanged, only an unused
arena record allocated); and `remove_redundant_tests` re-applied
immediately after a first run from any manager satisfying the engine's
standing invariants — well-formed, ordered, store-closed children, root
bindings in the store — leaves the root index unchanged and the store
equal as a set: the first run's output is already reduced (collapse-free,
child-closed, with every store member reachable from a root within
`num_of_vars` steps), so the second run only revisits it.
(`make_complete` with `complete_terminal_nodes = false` is not
idempotent: see `make_complete_false_not_idempotent`.) -/
theorem canonicalization_passes_idempotent (d D : MtRobdd) (sv : Nat)
    (hd : WF d) (hD : wfCore D) (hordD : Ordered D)
    (hSCD : ∀ x ∈ D.store, (getNode D x).is_terminal = false →
      (∀ l, (getNode D x).low = some l → l ∈ D.store) ∧
      (∀ y, (getNode D x).high = some y → y ∈ D.store))
    (hrootsD : ∀ p ∈ D.roots, p.2 ∈ D.store) :
    trim (trim d) = trim d ∧
    (make_complete (make_complete d sv true) sv true).store =
      (make_complete d sv true).store ∧
    (make_complete (make_complete d sv true) sv true).roots =
      (make_complete d sv true).roots ∧
    (remove_redundant_tests (remove_redundant_tests D)).roots =
      (remove_redundant_tests D).roots ∧
    (∀ x, x ∈ (remove_redundant_tests (remove_redundant_tests D)).store ↔
      x ∈ (remove_redundant_tests D).store) := by
  obtain ⟨hmc1, hmc2, -⟩ := make_complete_true_idem d sv hd
  obtain ⟨hWF1, hred1, hcl1, hroots1, hreach1⟩ :=
    rrt_output_reduced D hD hordD hSCD hrootsD
  obtain ⟨-, hr2, hs2, -⟩ :=
    rrt_reduced_output (remove_redundant_tests D) hWF1 hred1 hcl1
      hroots1 hreach1
  exact ⟨trim_idem d, hmc1, hmc2, hr2, hs2⟩

theorem canonicalization_passes_idempotent_witness :
    trim (trim rrtIdManager) = trim rrtIdManager ∧
    (make_complete (make_complete rrtIdManager 7 true) 7 true).store =
      (make_complete rrtIdManager 7 true).store ∧
    (make_complete (make_complete rrtIdManager 7 true) 7 true).roots =
      (make_complete rrtIdManager 7 true).roots ∧
    (remove_redundant_tests (remove_redundant_tests rrtIdManager)).roots =
      (remove_redundant_tests rrtIdManager).roots ∧
    (∀ x, x ∈ (remove_redundant_tests
        (remove_redundant_tests rrtIdManager)).store ↔
      x ∈ (remove_redundant_tests rrtIdManager).store) := by
  refine canonicalization_passes_idempotent rrtIdManager rrtIdManager 7
    ⟨by unfold wfCore; decide, by decide⟩ (by unfold wfCore; decide)
    ?_ (by decide) (by decide)
  intro j hj
  have hj0 : j = 0 := Nat.lt_one_iff.mp hj
  subst hj0
  exact Or.inl (by decide)

end Mamonata
